import Mathlib

/-! Rendergraph core of the Island renderer.

A shallow embedding of `src/modules/le_renderer/le_rendergraph.cpp`:
resource registration on a renderpass (`renderpass_use_resource`), the
contribution sweep (`node_tag_contributing`) and the graph build
(`rendergraph_build`), followed by theorems about them.

Conventions of the embedding.

* Bitsets and bit masks (`ResourceField`, `RootPassesField`, `AccessFlags2`,
  `RWFlags`) are natural numbers; bit `k` of `x` is `x.testBit k`.
* `std::vector` is `List`; `push_back` appends at the end.
* A C `assert` depends on the build configuration.  Every function that
  contains one takes `ndebug : Bool`: with `ndebug = false` a failing assertion
  stops the function with a `Fault`, with `ndebug = true` (assertions compiled
  out) execution continues.
* An access past the end of a vector, array or bitset and a shift by 64 or
  more are undefined behaviour in the source and stop the embedded function
  with `Fault.out_of_range`.
-/

namespace Island

/-! ## Handles, flags and constants -/

/-- Type tag of a resource handle (`LeResourceType`), restricted to the two
tags the rendergraph distinguishes. -/
inductive LeResourceType where
  | eBuffer
  | eImage
deriving DecidableEq, Repr

/-- A resource handle (`le_resource_handle`).  The source compares handles by
address; `id` stands for that address, `type` and `flags` are the fields of
the handle data read by the rendergraph (`flags` is a `uint8_t`). -/
structure le_resource_handle where
  id : Nat
  type : LeResourceType
  flags : Nat
deriving DecidableEq, Repr

/-- The enumerators of `le::AccessFlagBits2` named in `le_rendergraph.cpp`.
The enumeration is declared in a header outside `src/`; its values are taken
as a parameter of the embedding. -/
structure AccessFlagBits2 where
  eIndirectCommandRead : Nat
  eIndexRead : Nat
  eVertexAttributeRead : Nat
  eUniformRead : Nat
  eInputAttachmentRead : Nat
  eShaderRead : Nat
  eShaderWrite : Nat
  eColorAttachmentRead : Nat
  eColorAttachmentWrite : Nat
  eDepthStencilAttachmentRead : Nat
  eDepthStencilAttachmentWrite : Nat
  eTransferRead : Nat
  eTransferWrite : Nat
  eHostRead : Nat
  eHostWrite : Nat
  eMemoryRead : Nat
  eMemoryWrite : Nat
  eCommandPreprocessReadBitNv : Nat
  eCommandPreprocessWriteBitNv : Nat
  eColorAttachmentReadNoncoherentBitExt : Nat
  eConditionalRenderingReadBitExt : Nat
  eAccelerationStructureReadBitKhr : Nat
  eAccelerationStructureWriteBitKhr : Nat
  eTransformFeedbackWriteBitExt : Nat
  eTransformFeedbackCounterReadBitExt : Nat
  eTransformFeedbackCounterWriteBitExt : Nat
  eFragmentDensityMapReadBitExt : Nat
  eFragmentShadingRateAttachmentReadBitKhr : Nat
  eShaderSampledRead : Nat
  eShaderStorageRead : Nat
  eShaderStorageWrite : Nat
  eVideoDecodeReadBitKhr : Nat
  eVideoDecodeWriteBitKhr : Nat
  eVideoEncodeReadBitKhr : Nat
  eVideoEncodeWriteBitKhr : Nat
  eInvocationMaskReadBitHuawei : Nat
deriving DecidableEq, Repr

/-- One concrete valuation of the access bits, used for the worked examples:
the values of the Vulkan `VkAccessFlagBits2` enumerators of the same names. -/
def vkAccessFlagBits2 : AccessFlagBits2 where
  eIndirectCommandRead := 0x1
  eIndexRead := 0x2
  eVertexAttributeRead := 0x4
  eUniformRead := 0x8
  eInputAttachmentRead := 0x10
  eShaderRead := 0x20
  eShaderWrite := 0x40
  eColorAttachmentRead := 0x80
  eColorAttachmentWrite := 0x100
  eDepthStencilAttachmentRead := 0x200
  eDepthStencilAttachmentWrite := 0x400
  eTransferRead := 0x800
  eTransferWrite := 0x1000
  eHostRead := 0x2000
  eHostWrite := 0x4000
  eMemoryRead := 0x8000
  eMemoryWrite := 0x10000
  eCommandPreprocessReadBitNv := 0x20000
  eCommandPreprocessWriteBitNv := 0x40000
  eColorAttachmentReadNoncoherentBitExt := 0x80000
  eConditionalRenderingReadBitExt := 0x100000
  eAccelerationStructureReadBitKhr := 0x200000
  eAccelerationStructureWriteBitKhr := 0x400000
  eFragmentShadingRateAttachmentReadBitKhr := 0x800000
  eFragmentDensityMapReadBitExt := 0x1000000
  eTransformFeedbackWriteBitExt := 0x2000000
  eTransformFeedbackCounterReadBitExt := 0x4000000
  eTransformFeedbackCounterWriteBitExt := 0x8000000
  eShaderSampledRead := 0x100000000
  eShaderStorageRead := 0x200000000
  eShaderStorageWrite := 0x400000000
  eVideoDecodeReadBitKhr := 0x800000000
  eVideoDecodeWriteBitKhr := 0x1000000000
  eVideoEncodeReadBitKhr := 0x2000000000
  eVideoEncodeWriteBitKhr := 0x4000000000
  eInvocationMaskReadBitHuawei := 0x8000000000

/-- The mask `LE_ALL_READ_ACCESS_FLAGS` (lines 71-94). -/
def LE_ALL_READ_ACCESS_FLAGS (B : AccessFlagBits2) : Nat :=
  B.eIndirectCommandRead |||
  B.eIndexRead |||
  B.eVertexAttributeRead |||
  B.eUniformRead |||
  B.eInputAttachmentRead |||
  B.eShaderRead |||
  B.eColorAttachmentRead |||
  B.eDepthStencilAttachmentRead |||
  B.eTransferRead |||
  B.eHostRead |||
  B.eMemoryRead |||
  B.eCommandPreprocessReadBitNv |||
  B.eColorAttachmentReadNoncoherentBitExt |||
  B.eConditionalRenderingReadBitExt |||
  B.eAccelerationStructureReadBitKhr |||
  B.eTransformFeedbackCounterReadBitExt |||
  B.eFragmentDensityMapReadBitExt |||
  B.eFragmentShadingRateAttachmentReadBitKhr |||
  B.eShaderSampledRead |||
  B.eShaderStorageRead |||
  B.eVideoDecodeReadBitKhr |||
  B.eVideoEncodeReadBitKhr |||
  B.eInvocationMaskReadBitHuawei

/-- The mask `LE_ALL_WRITE_ACCESS_FLAGS` (lines 96-110). -/
def LE_ALL_WRITE_ACCESS_FLAGS (B : AccessFlagBits2) : Nat :=
  B.eShaderWrite |||
  B.eColorAttachmentWrite |||
  B.eDepthStencilAttachmentWrite |||
  B.eTransferWrite |||
  B.eHostWrite |||
  B.eMemoryWrite |||
  B.eCommandPreprocessWriteBitNv |||
  B.eAccelerationStructureWriteBitKhr |||
  B.eTransformFeedbackWriteBitExt |||
  B.eTransformFeedbackCounterWriteBitExt |||
  B.eVideoDecodeWriteBitKhr |||
  B.eVideoEncodeWriteBitKhr |||
  B.eShaderStorageWrite

/-- The mask `LE_ALL_IMAGE_IMPLIED_WRITE_ACCESS_FLAGS` (lines 111-115). -/
def LE_ALL_IMAGE_IMPLIED_WRITE_ACCESS_FLAGS (B : AccessFlagBits2) : Nat :=
  B.eShaderSampledRead |||
  B.eShaderRead |||
  B.eShaderStorageRead

/-- Value of `le::ResourceAccessFlagBits::eUndefined` (line 51). -/
def eUndefined : Nat := 0x0

/-- Value of `le::ResourceAccessFlagBits::eRead` (line 52). -/
def eRead : Nat := 0x1 <<< 0

/-- Value of `le::ResourceAccessFlagBits::eWrite` (line 53). -/
def eWrite : Nat := 0x1 <<< 1

/-- Ways in which an embedded function stops without a result. -/
inductive Fault where
  | assert_duplicate_resource
  | assert_too_many_resources
  | assert_too_many_roots
  | assert_queue_lanes
  | out_of_range
  | null_pointer
deriving DecidableEq, Repr

/-- Equality of results is decidable. -/
instance instDecidableEqExcept {ε α : Type} [DecidableEq ε] [DecidableEq α] :
    DecidableEq (Except ε α)
  | .ok a, .ok b => if h : a = b then isTrue (by rw [h]) else isFalse (by intro e; cases e; exact h rfl)
  | .error a, .error b =>
    if h : a = b then isTrue (by rw [h]) else isFalse (by intro e; cases e; exact h rfl)
  | .ok _, .error _ => isFalse (by intro e; cases e)
  | .error _, .ok _ => isFalse (by intro e; cases e)

/-- The statement `assert( cond )` tagged with the fault it raises: it stops
when assertions are enabled and `cond` is false and does nothing otherwise. -/
def c_assert (ndebug : Bool) (cond : Bool) (f : Fault) : Except Fault Unit :=
  if ndebug || cond then pure () else throw f

/-- Checked element read `v[ i ]`. -/
def vec_at {α : Type} (v : List α) (i : Nat) : Except Fault α :=
  match v[i]? with
  | some x => pure x
  | none => throw Fault.out_of_range

/-- Checked element write `v[ i ] = x`. -/
def vec_set {α : Type} (v : List α) (i : Nat) (x : α) : Except Fault (List α) :=
  if i < v.length then pure (v.set i x) else throw Fault.out_of_range

/-! ## Renderpass -/

/-- The enumeration `le::AttachmentLoadOp`, declared outside `src/`; the
rendergraph only compares a load operation with `eLoad`. -/
inductive AttachmentLoadOp where
  | eLoad
  | eClear
  | eDontCare
deriving DecidableEq, Repr

/-- The enumeration `le::AttachmentStoreOp`, declared outside `src/`; the
rendergraph only compares a store operation with `eStore`. -/
inductive AttachmentStoreOp where
  | eStore
  | eDontCare
deriving DecidableEq, Repr

/-- The struct `le_image_attachment_info_t`, declared outside `src/`: the two
operations the rendergraph reads and, as `other`, the fields it only copies. -/
structure le_image_attachment_info_t where
  loadOp : AttachmentLoadOp := AttachmentLoadOp.eClear
  storeOp : AttachmentStoreOp := AttachmentStoreOp.eStore
  other : Nat := 0
deriving DecidableEq, Repr

/-- The struct `le_image_sampler_info_t`, declared outside `src/`: the image
`imageView.imageId` the rendergraph reads and, as `other`, the fields it only
copies. -/
structure le_image_sampler_info_t where
  imageView_imageId : le_resource_handle
  other : Nat := 0
deriving DecidableEq, Repr

/-- The struct `ExecuteCallbackInfo` (lines 149-152).  A function pointer is
the address of user code; `0` is `nullptr`. -/
structure ExecuteCallbackInfo where
  fn : Nat := 0
  user_data : Nat := 0
deriving DecidableEq, Repr

/-- The struct `le::Rect2D`. -/
structure Rect2D where
  x : Nat
  y : Nat
  width : Nat
  height : Nat
deriving DecidableEq, Repr

/-- A `float` as the rendergraph writes it: the literals `0.f` and `1.f` and
the conversion `float( n )` of a `uint32_t`. -/
inductive FloatValue where
  | zero
  | one
  | of_uint32 (n : Nat)
deriving DecidableEq, Repr

/-- The struct `le::Viewport`. -/
structure Viewport where
  x : FloatValue
  y : FloatValue
  width : FloatValue
  height : FloatValue
  minDepth : FloatValue
  maxDepth : FloatValue
deriving DecidableEq, Repr

/-- A command in the stream of an encoder: the two calls the rendergraph makes
itself and whatever an execute callback records. -/
inductive EncoderCommand where
  | set_scissor (firstScissor scissorCount : Nat) (scissors : List Rect2D)
  | set_viewport (firstViewport viewportCount : Nat) (viewports : List Viewport)
  | recorded (command : Nat)
deriving DecidableEq, Repr

/-- A command buffer encoder (`le_command_buffer_encoder_o`), implemented
outside `src/`: what it was created with and the commands recorded so far. -/
structure le_command_buffer_encoder_o where
  allocators : Nat
  pipelineCache : Nat
  stagingAllocator : Nat
  extent_width : Nat
  extent_height : Nat
  commands : List EncoderCommand := []
deriving DecidableEq, Repr

/-- The struct `le_renderpass_o` (lines 154-184).  `is_root` is a `uint32_t`
that is only ever assigned a `bool`, and is kept as a `Bool`; `callbackSetup`
is a function pointer (`0` is `nullptr`); `encoder` is `none` for `nullptr`;
`debugName` holds the characters of the array of that name. -/
structure le_renderpass_o where
  type : Nat := 0
  ref_count : Nat := 0
  id : Nat := 0
  width : Nat := 0
  height : Nat := 0
  sample_count : Nat := 1
  is_root : Bool := false
  root_passes_affinity : Nat := 0
  resources : List le_resource_handle := []
  resources_read_write_flags : List Nat := []
  resources_access_flags : List Nat := []
  imageAttachments : List le_image_attachment_info_t := []
  attachmentResources : List le_resource_handle := []
  textureIds : List Nat := []
  textureInfos : List le_image_sampler_info_t := []
  callbackSetup : Nat := 0
  setup_callback_user_data : Nat := 0
  executeCallbacks : List ExecuteCallbackInfo := []
  encoder : Option le_command_buffer_encoder_o := none
  debugName : List Nat := []
deriving DecidableEq, Repr

/-- The function `resource_is_a_swapchain_handle` (lines 272-274).  The
constant `le_img_resource_usage_flags_t::eIsRoot` is declared outside `src/`
and is the parameter `eIsRoot`. -/
def resource_is_a_swapchain_handle (eIsRoot : Nat) (handle : le_resource_handle) : Bool :=
  handle.flags == eIsRoot

/-- The search loop of lines 284-292: the index of the first entry equal to
`resource_id`, or the length of the list when there is none. -/
def find_resource_idx (resources : List le_resource_handle) (resource_id : le_resource_handle) : Nat :=
  match resources with
  | [] => 0
  | res :: rest => if res = resource_id then 0 else find_resource_idx rest resource_id + 1

/-- The branch of lines 294-309 of `renderpass_use_resource`: a new resource is
appended to the three vectors; a resource found at `resource_idx` violates the
assertion and, past it, has the new access flags OR-ed into its slot. -/
def register_resource (ndebug : Bool) (self : le_renderpass_o) (resource_id : le_resource_handle)
    (access_flags : Nat) (resource_idx : Nat) : Except Fault le_renderpass_o :=
  if resource_idx = self.resources.length then
    pure { self with
      resources := self.resources ++ [resource_id]
      resources_read_write_flags := self.resources_read_write_flags ++ [eUndefined]
      resources_access_flags := self.resources_access_flags ++ [access_flags] }
  else do
    c_assert ndebug false Fault.assert_duplicate_resource
    let old ← vec_at self.resources_access_flags resource_idx
    let flags ← vec_set self.resources_access_flags resource_idx (old ||| access_flags)
    pure { self with resources_access_flags := flags }

/-- The value of `detectRead` (line 313). -/
def detect_read (B : AccessFlagBits2) (access_flags : Nat) : Bool :=
  (access_flags &&& LE_ALL_READ_ACCESS_FLAGS B) != 0

/-- The value of `detectWrite` after lines 314-322. -/
def detect_write (B : AccessFlagBits2) (resource_id : le_resource_handle) (access_flags : Nat) :
    Bool :=
  if resource_id.type = LeResourceType.eImage then
    ((access_flags &&& LE_ALL_WRITE_ACCESS_FLAGS B) != 0) ||
      ((access_flags &&& LE_ALL_IMAGE_IMPLIED_WRITE_ACCESS_FLAGS B) != 0)
  else (access_flags &&& LE_ALL_WRITE_ACCESS_FLAGS B) != 0

/-- The function `renderpass_use_resource` (lines 280-341). -/
def renderpass_use_resource (B : AccessFlagBits2) (eIsRoot : Nat) (ndebug : Bool)
    (self : le_renderpass_o) (resource_id : le_resource_handle) (access_flags : Nat) :
    Except Fault le_renderpass_o := do
  let resource_idx := find_resource_idx self.resources resource_id
  let self1 ← register_resource ndebug self resource_id access_flags resource_idx
  let detectRead := detect_read B access_flags
  let detectWrite := detect_write B resource_id access_flags
  let rw_flags0 ← vec_at self1.resources_read_write_flags resource_idx
  let rw_flags1 := if detectRead then rw_flags0 ||| eRead else rw_flags0
  let is_root1 :=
    if detectWrite && (decide (resource_id.type = LeResourceType.eImage) &&
        resource_is_a_swapchain_handle eIsRoot resource_id) then true else self1.is_root
  let rw_flags2 := if detectWrite then rw_flags1 ||| eWrite else rw_flags1
  let rw ← vec_set self1.resources_read_write_flags resource_idx rw_flags2
  pure { self1 with is_root := is_root1, resources_read_write_flags := rw }

/-! ## Rendergraph build -/

/-- Modelled from the spec: the macro `LE_MAX_NUM_GRAPH_RESOURCES` is defined
in a header outside `src/`; the spec gives its default, 64, the width of
`ResourceField`. -/
def LE_MAX_NUM_GRAPH_RESOURCES : Nat := 64

/-- Modelled from the spec: the macro `LE_MAX_NUM_GRAPH_ROOTS` is defined in a
header outside `src/`; the spec gives its default, 64, the width of
`le::RootPassesField`. -/
def LE_MAX_NUM_GRAPH_ROOTS : Nat := 64

/-- The call `bits.set( pos, val )` of `std::bitset<LE_MAX_NUM_GRAPH_RESOURCES>`,
which throws for a position outside the bitset. -/
def bitset_set (bits : Nat) (pos : Nat) (val : Bool) : Except Fault Nat :=
  if pos < LE_MAX_NUM_GRAPH_RESOURCES then
    pure (if val then bits ||| (1 <<< pos) else bits ^^^ (bits &&& (1 <<< pos)))
  else throw Fault.out_of_range

/-- The expression `a & ( ~b )` on `ResourceField`: the bits of `a` that are
not bits of `b`. -/
def bitset_and_not (a b : Nat) : Nat :=
  a ^^^ (a &&& b)

/-- The expression `1ULL << n`; a shift by 64 or more is undefined. -/
def shl_one (n : Nat) : Except Fault Nat :=
  if n < 64 then pure (1 <<< n) else throw Fault.out_of_range

/-- The increment `++x` of a `uint32_t`: the value after `2 ^ 32 - 1` is `0`.
For `x < 2 ^ 32` this is `(x + 1) % 2 ^ 32`. -/
def uint32_inc (x : Nat) : Nat :=
  if x = 4294967295 then 0 else x + 1

/-- The decrement `--x` of a `uint32_t`: the value before `0` is `2 ^ 32 - 1`.
For `x < 2 ^ 32` this is `(x + (2 ^ 32 - 1)) % 2 ^ 32`. -/
def uint32_dec (x : Nat) : Nat :=
  if x = 0 then 4294967295 else x - 1

/-- The struct `Node` (lines 138-144). -/
structure Node where
  reads : Nat := 0
  writes : Nat := 0
  root_index_affinity : Nat := 0
  is_root : Bool := false
  is_contributing : Bool := false
deriving DecidableEq, Repr

/-- Modelled from the spec: the struct `le_resource_info_t` is declared outside
`src/`; the spec describes it as the declared descriptor of a resource: format,
extent, usage, sample count, mip levels and array layers for an image, size and
usage for a buffer. -/
inductive le_resource_info_t where
  | image (format width height depth usage samples mipLevels arrayLayers : Nat)
  | buffer (size usage : Nat)
deriving DecidableEq, Repr

/-- The struct `le_rendergraph_o` (lines 188-197). -/
structure le_rendergraph_o where
  passes : List le_renderpass_o := []
  declared_resources_id : List le_resource_handle := []
  declared_resources_info : List le_resource_info_t := []
  root_passes_affinity_masks : List Nat := []
deriving DecidableEq, Repr

/-- Lines 869-874 of `rendergraph_build`: a handle not found among the unique
handles (`res_idx` is their number) is stored at `uniqueHandles[ res_idx ]`,
an array of `LE_MAX_NUM_GRAPH_RESOURCES` entries, after which the number of
unique handles must be below `LE_MAX_NUM_GRAPH_RESOURCES`. -/
def add_unique_handle (ndebug : Bool) (uniqueHandles : List le_resource_handle)
    (resource_handle : le_resource_handle) (res_idx : Nat) :
    Except Fault (List le_resource_handle) :=
  if res_idx = uniqueHandles.length then
    if res_idx < LE_MAX_NUM_GRAPH_RESOURCES then do
      c_assert ndebug (decide (uniqueHandles.length + 1 < LE_MAX_NUM_GRAPH_RESOURCES))
        Fault.assert_too_many_resources
      pure (uniqueHandles ++ [resource_handle])
    else throw Fault.out_of_range
  else pure uniqueHandles

/-- The loop over the resources of one pass (lines 857-880).  `uniqueHandles`
is the used part of the array of that name, so that `numUniqueResources` is its
length; `i` is the loop counter and the first list the remaining resources
`p->resources[ i ], ...`. -/
def build_node (ndebug : Bool) (resources_read_write_flags : List Nat) :
    List le_resource_handle → Nat → List le_resource_handle → Node →
    Except Fault (List le_resource_handle × Node)
  | [], _, uniqueHandles, node => pure (uniqueHandles, node)
  | resource_handle :: rest, i, uniqueHandles, node => do
    let access_flags ← vec_at resources_read_write_flags i
    let res_idx := find_resource_idx uniqueHandles resource_handle
    let uniqueHandles1 ← add_unique_handle ndebug uniqueHandles resource_handle res_idx
    let reads ← bitset_set node.reads res_idx ((access_flags &&& eRead) != 0)
    let writes ← bitset_set node.writes res_idx (((access_flags &&& eWrite) >>> 1) != 0)
    build_node ndebug resources_read_write_flags rest (i + 1) uniqueHandles1
      { node with reads := reads, writes := writes }

/-- The loop that translates all passes into nodes (lines 851-887). -/
def build_nodes (ndebug : Bool) :
    List le_renderpass_o → List le_resource_handle →
    Except Fault (List le_resource_handle × List Node)
  | [], uniqueHandles => pure (uniqueHandles, [])
  | p :: rest, uniqueHandles => do
    let (uniqueHandles1, node) ←
      build_node ndebug p.resources_read_write_flags p.resources 0 uniqueHandles {}
    let node1 := if p.is_root then { node with is_root := true } else node
    let (uniqueHandles2, nodes) ← build_nodes ndebug rest uniqueHandles1
    pure (uniqueHandles2, node1 :: nodes)

/-- The backward loop of `node_tag_contributing` (lines 556-591) as a
recursion that handles the later nodes first.  It returns the updated nodes,
the final `read_accum` and the number of roots counted, a `uint32_t`. -/
def node_tag_sweep : List Node → List Node × Nat × Nat
  | [] => ([], 0, 0)
  | node :: later =>
    let (later1, read_accum, count_roots) := node_tag_sweep later
    let writes_to_any_monitored_read : Bool := (node.writes &&& read_accum) != 0
    if node.is_root || writes_to_any_monitored_read then
      let read_accum1 := bitset_and_not read_accum node.writes ||| node.reads
      let is_root1 := if node.is_root && writes_to_any_monitored_read then false else node.is_root
      let count_roots1 := if is_root1 then uint32_inc count_roots else count_roots
      ({ node with is_contributing := true, is_root := is_root1 } :: later1,
        read_accum1, count_roots1)
    else
      (node :: later1, read_accum, count_roots)

/-- The function `node_tag_contributing` (lines 539-592): the tagged nodes and
the value stored in `*count_roots`. -/
def node_tag_contributing (nodes : List Node) : List Node × Nat :=
  ((node_tag_sweep nodes).1, (node_tag_sweep nodes).2.2)

/-- The inner loop of the root-tree accumulation (lines 925-937) over the
nodes before the root, nearest first. -/
def accumulate_tree (bit : Nat) : List Node → Nat → Nat → List Node × Nat × Nat
  | [], read_accum, write_accum => ([], read_accum, write_accum)
  | n :: earlier, read_accum, write_accum =>
    if n.is_root then
      let (earlier1, ra, wa) := accumulate_tree bit earlier read_accum write_accum
      (n :: earlier1, ra, wa)
    else if (n.writes &&& read_accum) != 0 then
      let (earlier1, ra, wa) :=
        accumulate_tree bit earlier (read_accum ||| n.reads) (write_accum ||| n.writes)
      ({ n with root_index_affinity := n.root_index_affinity ||| bit } :: earlier1, ra, wa)
    else
      let (earlier1, ra, wa) := accumulate_tree bit earlier read_accum write_accum
      (n :: earlier1, ra, wa)

/-- The outer loop of the root-tree accumulation (lines 908-939) over the
nodes in reverse order (`nodes.rbegin()` to `nodes.rend()`).  The first
argument is the distance from `r` to `nodes.rend()`, that is the length of the
node list; the iterators of the source carry it implicitly.  It returns the
nodes, still in reverse order, and the two accumulator vectors. -/
def accumulate_roots :
    Nat → List Node → Nat → List Nat → List Nat → Except Fault (List Node × List Nat × List Nat)
  | 0, nodes, _, root_reads_accum, root_writes_accum =>
    pure (nodes, root_reads_accum, root_writes_accum)
  | _ + 1, [], _, root_reads_accum, root_writes_accum =>
    pure ([], root_reads_accum, root_writes_accum)
  | remaining + 1, r :: earlier, root_index, root_reads_accum, root_writes_accum =>
    if r.is_root then do
      let _ ← vec_at root_reads_accum root_index
      let _ ← vec_at root_writes_accum root_index
      let bit ← shl_one root_index
      let r1 := { r with root_index_affinity := r.root_index_affinity ||| bit }
      let (earlier1, read_accum, write_accum) := accumulate_tree bit earlier r.reads r.writes
      let root_reads_accum1 ← vec_set root_reads_accum root_index read_accum
      let root_writes_accum1 ← vec_set root_writes_accum root_index write_accum
      let (earlier2, rr, rw) ←
        accumulate_roots remaining earlier1 (root_index + 1) root_reads_accum1 root_writes_accum1
      pure (r1 :: earlier2, rr, rw)
    else do
      let (earlier2, rr, rw) ←
        accumulate_roots remaining earlier root_index root_reads_accum root_writes_accum
      pure (r :: earlier2, rr, rw)

/-- What the first part of `rendergraph_build` computes (lines 844-940). -/
structure RootTrees where
  nodes : List Node
  root_count : Nat
  root_reads_accum : List Nat
  root_writes_accum : List Nat
deriving DecidableEq, Repr

/-- Lines 844-940 of `rendergraph_build`: the nodes, tagged and with their
root affinity, and the reads and writes accumulated per root. -/
def rendergraph_build_trees (ndebug : Bool) (passes : List le_renderpass_o) :
    Except Fault RootTrees := do
  let (_, nodes0) ← build_nodes ndebug passes []
  let (nodes1, root_count) := node_tag_contributing nodes0
  c_assert ndebug (decide (root_count ≤ LE_MAX_NUM_GRAPH_ROOTS)) Fault.assert_too_many_roots
  let (rnodes, root_reads_accum, root_writes_accum) ←
    accumulate_roots nodes1.length nodes1.reverse 0 (List.replicate root_count 0) (List.replicate root_count 0)
  pure { nodes := rnodes.reverse, root_count := root_count,
         root_reads_accum := root_reads_accum, root_writes_accum := root_writes_accum }

/-- The initialisation loop of lines 986-989 for the index `i`. -/
def queue_init_step (st : List Nat × List Nat) (i : Nat) : Except Fault (List Nat × List Nat) := do
  let old ← vec_at st.1 i
  let bit ← shl_one i
  let queue_id ← vec_set st.1 i (old ||| bit)
  let queue_id_idx ← vec_set st.2 i i
  pure (queue_id, queue_id_idx)

/-- The overlap test of lines 996-997 for the roots `i` and `j`. -/
def roots_overlap (root_reads_accum root_writes_accum : List Nat) (i j : Nat) :
    Except Fault Bool := do
  let reads_i ← vec_at root_reads_accum i
  let writes_j ← vec_at root_writes_accum j
  if (reads_i &&& writes_j) != 0 then pure true
  else do
    let reads_j ← vec_at root_reads_accum j
    let writes_i ← vec_at root_writes_accum i
    pure ((reads_j &&& writes_i) != 0)

/-- Lines 1009-1013: the root whose queue index is the larger one is pointed
at the queue of the other (`idx_i` and `idx_j` are `queue_id_idx[ i ]` and
`queue_id_idx[ j ]`). -/
def queue_repoint (queue_id_idx : List Nat) (i j idx_i idx_j : Nat) : Except Fault (List Nat) :=
  if idx_i ≤ idx_j then vec_set queue_id_idx j idx_i else vec_set queue_id_idx i idx_j

/-- Lines 1007-1016: the queue ids of the overlapping roots `i` and `j` are
combined in the queue with the lower index. -/
def queue_combine (i j : Nat) (st : List Nat × List Nat) : Except Fault (List Nat × List Nat) := do
  let idx_j ← vec_at st.2 j
  let q_j ← vec_at st.1 idx_j
  let idx_i ← vec_at st.2 i
  let q_i ← vec_at st.1 idx_i
  let combined_queue_id := q_j ||| q_i
  let queue_id_idx ← queue_repoint st.2 i j idx_i idx_j
  let target ← vec_at queue_id_idx i
  let queue_id ← vec_set st.1 target combined_queue_id
  pure (queue_id, queue_id_idx)

/-- The body of the pair loop (lines 996-1017) for the roots `i` and `j`, on
the state `(queue_id, queue_id_idx)`. -/
def queue_combine_step (root_reads_accum root_writes_accum : List Nat) (i : Nat)
    (st : List Nat × List Nat) (j : Nat) : Except Fault (List Nat × List Nat) := do
  let overlap ← roots_overlap root_reads_accum root_writes_accum i j
  if overlap then queue_combine i j st else pure st

/-- Lines 984-1019 of `rendergraph_build`: `queue_id` and `queue_id_idx` after
all pairs of roots have been compared. -/
def rendergraph_build_queues (root_reads_accum root_writes_accum : List Nat) (root_count : Nat) :
    Except Fault (List Nat × List Nat) := do
  let st0 ← (List.range root_count).foldlM queue_init_step
    (List.replicate root_count 0, List.replicate root_count 0)
  (List.range root_count).foldlM
    (fun st i => (List.range' (i + 1) (root_count - (i + 1))).foldlM
      (queue_combine_step root_reads_accum root_writes_accum i) st) st0

/-- The call `std::unique` followed by `erase` (lines 1023-1024): of every run
of equal neighbours only one element is kept. -/
def std_unique : List Nat → List Nat
  | [] => []
  | [x] => [x]
  | x :: y :: rest => if x = y then std_unique (y :: rest) else x :: std_unique (y :: rest)

/-- The loop that emits the affinity masks (lines 1030-1046), on the state
`(root_passes_affinity_masks, check_queue_accum)`. -/
def emit_masks (ndebug : Bool) (queue_id : List Nat) :
    List Nat → List Nat × Nat → Except Fault (List Nat × Nat)
  | [], st => pure st
  | idx :: rest, (masks, check_queue_accum) => do
    let q ← vec_at queue_id idx
    c_assert ndebug ((q &&& check_queue_accum) == 0) Fault.assert_queue_lanes
    emit_masks ndebug queue_id rest (masks ++ [q], check_queue_accum ||| q)

/-- The consolidation loop (lines 1090-1103): `i` is the loop counter, the
first list the passes `self->passes[ i ], ...` still to visit. -/
def consolidate_passes (nodes : List Node) :
    List le_renderpass_o → Nat → List le_renderpass_o → Except Fault (List le_renderpass_o)
  | [], _, consolidated_passes => pure consolidated_passes
  | p :: rest, i, consolidated_passes => do
    let node ← vec_at nodes i
    if node.is_contributing then
      consolidate_passes nodes rest (i + 1)
        (consolidated_passes ++
          [{ p with is_root := node.is_root, root_passes_affinity := node.root_index_affinity }])
    else
      consolidate_passes nodes rest (i + 1) consolidated_passes

/-- The function `rendergraph_build` (lines 834-1118); writing the `.dot` file
is left out. -/
def rendergraph_build (ndebug : Bool) (self : le_rendergraph_o) : Except Fault le_rendergraph_o := do
  let t ← rendergraph_build_trees ndebug self.passes
  let (queue_id, queue_id_idx) ←
    rendergraph_build_queues t.root_reads_accum t.root_writes_accum t.root_count
  let (masks, _) ← emit_masks ndebug queue_id (std_unique queue_id_idx)
    (self.root_passes_affinity_masks, 0)
  let passes ← consolidate_passes t.nodes self.passes 0 []
  pure { self with passes := passes, root_passes_affinity_masks := masks }

/-! ## Relations used in the proofs -/

open List (Forall₂)

/-- Relation between a pass and the node built for it. -/
def PassNode (p : le_renderpass_o) (n : Node) : Prop :=
  n.is_root = p.is_root ∧ n.is_contributing = false ∧ n.root_index_affinity = 0

/-- What the contribution sweep does to one node. -/
def Tagged (n n1 : Node) : Prop :=
  n1.reads = n.reads ∧ n1.writes = n.writes ∧ n1.root_index_affinity = n.root_index_affinity ∧
  (n.is_root = true → n1.is_contributing = true) ∧
  (n1.is_root = true → n.is_root = true) ∧
  (n1.is_root = true → n1.is_contributing = true) ∧
  (n.is_contributing = true → n1.is_contributing = true)

/-- What the root-tree accumulation leaves unchanged in a node. -/
def SameNode (n n1 : Node) : Prop :=
  n1.reads = n.reads ∧ n1.writes = n.writes ∧ n1.is_root = n.is_root ∧
  n1.is_contributing = n.is_contributing

/-- The write-back of the consolidation loop for one pass and its node. -/
def write_back (pn : le_renderpass_o × Node) : Option le_renderpass_o :=
  if pn.2.is_contributing then
    some { pn.1 with is_root := pn.2.is_root, root_passes_affinity := pn.2.root_index_affinity }
  else none

/-- Graph of the dead-branch scenario: `A` writes `R` (bit 0), `B` reads `R` and
writes `S`, the root `C` reads `Q`, which no pass writes, and writes the
swapchain image. -/
def dead_branch_graph : le_rendergraph_o :=
  let R : le_resource_handle := { id := 1, type := LeResourceType.eBuffer, flags := 0 }
  let S : le_resource_handle := { id := 2, type := LeResourceType.eBuffer, flags := 0 }
  let Q : le_resource_handle := { id := 3, type := LeResourceType.eBuffer, flags := 0 }
  let SWAP : le_resource_handle := { id := 0, type := LeResourceType.eImage, flags := 4 }
  { passes := [
      { id := 10, resources := [R], resources_read_write_flags := [eWrite],
        resources_access_flags := [0x1000] },
      { id := 11, resources := [R, S], resources_read_write_flags := [eRead, eWrite],
        resources_access_flags := [0x800, 0x1000] },
      { id := 12, is_root := true, resources := [Q, SWAP],
        resources_read_write_flags := [eRead, eWrite],
        resources_access_flags := [0x800, 0x100] }] }

/-- A swapchain image handle: an image whose flags are exactly `eIsRoot`, here
with the value 4 for that constant. -/
def swapchain_image : le_resource_handle :=
  { id := 0, type := LeResourceType.eImage, flags := 4 }

/-- Graph of the pure-chain scenario: `A` writes `R`, `B` reads `R` and writes
`S`, the root `C` reads `S` and writes the swapchain image. -/
def pure_chain_graph : le_rendergraph_o :=
  let R : le_resource_handle := { id := 1, type := LeResourceType.eBuffer, flags := 0 }
  let S : le_resource_handle := { id := 2, type := LeResourceType.eBuffer, flags := 0 }
  { passes := [
      { id := 10, resources := [R], resources_read_write_flags := [eWrite],
        resources_access_flags := [0x1000] },
      { id := 11, resources := [R, S], resources_read_write_flags := [eRead, eWrite],
        resources_access_flags := [0x800, 0x1000] },
      { id := 12, is_root := true, resources := [S, swapchain_image],
        resources_read_write_flags := [eRead, eWrite],
        resources_access_flags := [0x800, 0x100] }] }

/-- The root pass `C` of the pure-chain scenario. -/
def pure_chain_root : le_renderpass_o :=
  { id := 12, is_root := true,
    resources := [{ id := 2, type := LeResourceType.eBuffer, flags := 0 }, swapchain_image],
    resources_read_write_flags := [eRead, eWrite],
    resources_access_flags := [0x800, 0x100] }

/-- The pure-chain graph after build: all three passes, each with root
affinity `0b1`, and the single mask `0b1`. -/
def pure_chain_built : le_rendergraph_o :=
  { passes := [
      { id := 10, root_passes_affinity := 1,
        resources := [{ id := 1, type := LeResourceType.eBuffer, flags := 0 }],
        resources_read_write_flags := [eWrite], resources_access_flags := [0x1000] },
      { id := 11, root_passes_affinity := 1,
        resources := [{ id := 1, type := LeResourceType.eBuffer, flags := 0 },
          { id := 2, type := LeResourceType.eBuffer, flags := 0 }],
        resources_read_write_flags := [eRead, eWrite],
        resources_access_flags := [0x800, 0x1000] },
      { pure_chain_root with root_passes_affinity := 1 }],
    root_passes_affinity_masks := [1] }

/-- The pass `P` after a colour-attachment write (`0x100`) to the swapchain
image was registered on a fresh pass. -/
def swapchain_writer : le_renderpass_o :=
  { is_root := true, resources := [swapchain_image], resources_read_write_flags := [eWrite],
    resources_access_flags := [0x100] }

/-- The dead-branch graph after build: only the root `C`, with root affinity
`0b1`, and the single mask `0b1`. -/
def dead_branch_built : le_rendergraph_o :=
  { passes := [
      { id := 12, is_root := true, root_passes_affinity := 1,
        resources := [{ id := 3, type := LeResourceType.eBuffer, flags := 0 },
          { id := 0, type := LeResourceType.eImage, flags := 4 }],
        resources_read_write_flags := [eRead, eWrite],
        resources_access_flags := [0x800, 0x100] }],
    root_passes_affinity_masks := [1] }

/-- A pass that reads the swapchain image of the scenarios and is not a root. -/
def dead_tail_pass : le_renderpass_o :=
  { id := 13, resources := [{ id := 0, type := LeResourceType.eImage, flags := 4 }],
    resources_read_write_flags := [eRead], resources_access_flags := [0x80] }

/-- The dead-branch graph with `dead_tail_pass` added behind the root. -/
def dead_tail_graph : le_rendergraph_o :=
  { passes := dead_branch_graph.passes ++ [dead_tail_pass] }

/-- Every bit of `a` is a bit of `b`. -/
def BitsSub (a b : Nat) : Prop :=
  ∀ c, a.testBit c = true → b.testBit c = true

/-- Well-formed state `(queue_id, queue_id_idx)` of the pair loop for `n`
roots: every root points at a queue with an index not above its own, and the
mask of that queue holds the root's bit. -/
def QueueWF (n : Nat) (st : List Nat × List Nat) : Prop :=
  st.1.length = n ∧ st.2.length = n ∧
  ∀ k : Nat, k < n →
    ∃ s q : Nat, st.2[k]? = some s ∧ s ≤ k ∧ st.1[s]? = some q ∧ q.testBit k = true

/-- From `st` to `st1` the mask of the queue a root points at only grows. -/
def QueueMono (st st1 : List Nat × List Nat) : Prop :=
  ∀ k s q : Nat, st.2[k]? = some s → st.1[s]? = some q →
    ∃ s1 q1 : Nat, st1.2[k]? = some s1 ∧ s1 ≤ s ∧ st1.1[s1]? = some q1 ∧ BitsSub q q1

/-- The mask of the queue root `i` points at holds the bits of `i` and `j`. -/
def QueueJoined (i j : Nat) (st : List Nat × List Nat) : Prop :=
  ∃ s q : Nat, st.2[i]? = some s ∧ st.1[s]? = some q ∧ q.testBit i = true ∧ q.testBit j = true

/-- State `(queue_id, queue_id_idx)` of the initialisation loop for `n` roots
after the indices below `k`. -/
def QueueInit (n k : Nat) (st : List Nat × List Nat) : Prop :=
  st.1.length = n ∧ st.2.length = n ∧
  ∀ m : Nat, m < n →
    st.2[m]? = some (if m < k then m else 0) ∧ st.1[m]? = some (if m < k then 1 <<< m else 0)

/-- Affinity invariant of a node while the roots below `K` have been handled:
every affinity bit `b` of a node that is not a root is below `K`, the node
writes something root `b` reads, and root `b` accumulates all its writes. -/
def AffInv (K : Nat) (rr rw : List Nat) (n : Node) : Prop :=
  n.is_root = false → ∀ b : Nat, n.root_index_affinity.testBit b = true →
    b < K ∧ ∃ r w : Nat, rr[b]? = some r ∧ rw[b]? = some w ∧
      n.writes &&& r ≠ 0 ∧ BitsSub n.writes w

/-- Affinity invariant of a node after the accumulation. -/
def AffFinal (rr rw : List Nat) (n : Node) : Prop :=
  n.is_root = false → ∀ b : Nat, n.root_index_affinity.testBit b = true →
    ∃ r w : Nat, rr[b]? = some r ∧ rw[b]? = some w ∧ n.writes &&& r ≠ 0 ∧ BitsSub n.writes w

/-- Graph of the overlapping-roots scenario: `A` writes `R`, the roots `B` and
`C` both read `R` and write one swapchain image each. -/
def overlapping_roots_graph : le_rendergraph_o :=
  let R : le_resource_handle := { id := 1, type := LeResourceType.eBuffer, flags := 0 }
  let SWAP_1 : le_resource_handle := { id := 0, type := LeResourceType.eImage, flags := 4 }
  let SWAP_2 : le_resource_handle := { id := 5, type := LeResourceType.eImage, flags := 4 }
  { passes := [
      { id := 10, resources := [R], resources_read_write_flags := [eWrite],
        resources_access_flags := [0x1000] },
      { id := 11, is_root := true, resources := [R, SWAP_1],
        resources_read_write_flags := [eRead, eWrite],
        resources_access_flags := [0x800, 0x100] },
      { id := 12, is_root := true, resources := [R, SWAP_2],
        resources_read_write_flags := [eRead, eWrite],
        resources_access_flags := [0x800, 0x100] }] }

/-- The pass `A` of the overlapping-roots scenario after build: not a root, with
the affinity bits of both roots. -/
def overlapping_roots_shared : le_renderpass_o :=
  { id := 10, root_passes_affinity := 3,
    resources := [{ id := 1, type := LeResourceType.eBuffer, flags := 0 }],
    resources_read_write_flags := [eWrite], resources_access_flags := [0x1000] }

/-- The overlapping-roots graph after build: all passes kept, one mask `0b11`. -/
def overlapping_roots_built : le_rendergraph_o :=
  { passes := [
      overlapping_roots_shared,
      { id := 11, is_root := true, root_passes_affinity := 2,
        resources := [{ id := 1, type := LeResourceType.eBuffer, flags := 0 },
          { id := 0, type := LeResourceType.eImage, flags := 4 }],
        resources_read_write_flags := [eRead, eWrite],
        resources_access_flags := [0x800, 0x100] },
      { id := 12, is_root := true, root_passes_affinity := 1,
        resources := [{ id := 1, type := LeResourceType.eBuffer, flags := 0 },
          { id := 5, type := LeResourceType.eImage, flags := 4 }],
        resources_read_write_flags := [eRead, eWrite],
        resources_access_flags := [0x800, 0x100] }],
    root_passes_affinity_masks := [3] }

/-- Two roots that read the same buffer `X` and write one swapchain image each;
no pass writes `X`. -/
def shared_read_graph : le_rendergraph_o :=
  let X : le_resource_handle := { id := 1, type := LeResourceType.eBuffer, flags := 0 }
  let SWAP_1 : le_resource_handle := { id := 0, type := LeResourceType.eImage, flags := 4 }
  let SWAP_2 : le_resource_handle := { id := 5, type := LeResourceType.eImage, flags := 4 }
  { passes := [
      { id := 11, is_root := true, resources := [X, SWAP_1],
        resources_read_write_flags := [eRead, eWrite],
        resources_access_flags := [0x800, 0x100] },
      { id := 12, is_root := true, resources := [X, SWAP_2],
        resources_read_write_flags := [eRead, eWrite],
        resources_access_flags := [0x800, 0x100] }] }

/-- The root trees of `shared_read_graph`: `X` is bit 0, the swapchain images
are bits 1 and 2; root 0 is the last pass. -/
def shared_read_trees : RootTrees :=
  { nodes := [
      { reads := 1, writes := 2, root_index_affinity := 2, is_root := true,
        is_contributing := true },
      { reads := 1, writes := 4, root_index_affinity := 1, is_root := true,
        is_contributing := true }],
    root_count := 2,
    root_reads_accum := [1, 1],
    root_writes_accum := [4, 2] }

/-- Three explicit roots on two buffers `a` and `b`: the first pass reads `a`,
the second reads `b`, the third writes `a`.  Roots are numbered from the back,
so roots 0 and 2 overlap on `a` and root 1 is isolated. -/
def three_roots_graph : le_rendergraph_o :=
  let a : le_resource_handle := { id := 1, type := LeResourceType.eBuffer, flags := 0 }
  let b : le_resource_handle := { id := 2, type := LeResourceType.eBuffer, flags := 0 }
  { passes := [
      { id := 10, is_root := true, resources := [a],
        resources_read_write_flags := [eRead], resources_access_flags := [0x800] },
      { id := 11, is_root := true, resources := [b],
        resources_read_write_flags := [eRead], resources_access_flags := [0x800] },
      { id := 12, is_root := true, resources := [a],
        resources_read_write_flags := [eWrite], resources_access_flags := [0x1000] }] }

/-- Four explicit roots on three buffers: the first pass reads `b` and `c`, the
second reads `a` and writes `c`, the third writes `b`, the fourth writes `a`.
Numbered from the back, the overlapping pairs of roots are (0,2), (1,3) and
(2,3). -/
def four_roots_graph : le_rendergraph_o :=
  let a : le_resource_handle := { id := 1, type := LeResourceType.eBuffer, flags := 0 }
  let b : le_resource_handle := { id := 2, type := LeResourceType.eBuffer, flags := 0 }
  let c : le_resource_handle := { id := 3, type := LeResourceType.eBuffer, flags := 0 }
  { passes := [
      { id := 10, is_root := true, resources := [b, c],
        resources_read_write_flags := [eRead, eRead],
        resources_access_flags := [0x800, 0x800] },
      { id := 11, is_root := true, resources := [a, c],
        resources_read_write_flags := [eRead, eWrite],
        resources_access_flags := [0x800, 0x1000] },
      { id := 12, is_root := true, resources := [b],
        resources_read_write_flags := [eWrite], resources_access_flags := [0x1000] },
      { id := 13, is_root := true, resources := [a],
        resources_read_write_flags := [eWrite], resources_access_flags := [0x1000] }] }

/-- The root trees of `four_roots_graph`: `b`, `c`, `a` are the bits 0, 1, 2. -/
def four_roots_trees : RootTrees :=
  { nodes := [
      { reads := 3, writes := 0, root_index_affinity := 8, is_root := true,
        is_contributing := true },
      { reads := 4, writes := 2, root_index_affinity := 4, is_root := true,
        is_contributing := true },
      { reads := 0, writes := 1, root_index_affinity := 2, is_root := true,
        is_contributing := true },
      { reads := 0, writes := 4, root_index_affinity := 1, is_root := true,
        is_contributing := true }],
    root_count := 4,
    root_reads_accum := [0, 0, 4, 3],
    root_writes_accum := [4, 1, 2, 0] }

/-! ## Attachments, textures, callbacks and execution -/

/-- The function `vector_contains` (lines 267-270). -/
def vector_contains {α : Type} [DecidableEq α] (haystack : List α) (needle : α) : Bool :=
  decide (needle ∈ haystack)

/-- The function `renderpass_sample_texture` (lines 344-362).  A texture
handle is an address. -/
def renderpass_sample_texture (B : AccessFlagBits2) (eIsRoot : Nat) (ndebug : Bool)
    (self : le_renderpass_o) (texture : Nat) (textureInfo : le_image_sampler_info_t) :
    Except Fault le_renderpass_o :=
  if vector_contains self.textureIds texture then pure self
  else
    let self1 := { self with
      textureIds := self.textureIds ++ [texture]
      textureInfos := self.textureInfos ++ [textureInfo] }
    let access_flags := B.eShaderSampledRead
    renderpass_use_resource B eIsRoot ndebug self1 textureInfo.imageView_imageId access_flags

/-- The access flags computed in lines 371-378 (with the colour attachment
bits) and lines 390-397 (with the depth stencil attachment bits). -/
def attachment_access_flags (readBit writeBit : Nat) (attachmentInfo : le_image_attachment_info_t) :
    Nat :=
  let access_flags0 := 0
  let access_flags1 :=
    if attachmentInfo.loadOp = AttachmentLoadOp.eLoad then access_flags0 ||| readBit
    else access_flags0
  if attachmentInfo.storeOp = AttachmentStoreOp.eStore then access_flags1 ||| writeBit
  else access_flags1

/-- The function `renderpass_add_color_attachment` (lines 366-381). -/
def renderpass_add_color_attachment (B : AccessFlagBits2) (eIsRoot : Nat) (ndebug : Bool)
    (self : le_renderpass_o) (image_id : le_resource_handle)
    (attachmentInfo : le_image_attachment_info_t) : Except Fault le_renderpass_o :=
  let self1 := { self with
    imageAttachments := self.imageAttachments ++ [attachmentInfo]
    attachmentResources := self.attachmentResources ++ [image_id] }
  let access_flags :=
    attachment_access_flags B.eColorAttachmentRead B.eColorAttachmentWrite attachmentInfo
  renderpass_use_resource B eIsRoot ndebug self1 image_id access_flags

/-- The function `renderpass_add_depth_stencil_attachment` (lines 385-399). -/
def renderpass_add_depth_stencil_attachment (B : AccessFlagBits2) (eIsRoot : Nat)
    (ndebug : Bool) (self : le_renderpass_o) (image_id : le_resource_handle)
    (attachmentInfo : le_image_attachment_info_t) : Except Fault le_renderpass_o :=
  let self1 := { self with
    imageAttachments := self.imageAttachments ++ [attachmentInfo]
    attachmentResources := self.attachmentResources ++ [image_id] }
  let access_flags := attachment_access_flags B.eDepthStencilAttachmentRead
    B.eDepthStencilAttachmentWrite attachmentInfo
  renderpass_use_resource B eIsRoot ndebug self1 image_id access_flags

/-- The function `renderpass_has_execute_callback` (lines 485-487). -/
def renderpass_has_execute_callback (self : le_renderpass_o) : Bool :=
  !self.executeCallbacks.isEmpty

/-- The function `renderpass_has_setup_callback` (lines 489-491). -/
def renderpass_has_setup_callback (self : le_renderpass_o) : Bool :=
  self.callbackSetup != 0

/-- The function `renderpass_steal_encoder` (lines 495-499): the returned
encoder and the pass afterwards. -/
def renderpass_steal_encoder (self : le_renderpass_o) :
    Option le_command_buffer_encoder_o × le_renderpass_o :=
  let result := self.encoder
  (result, { self with encoder := none })

/-- The user code behind the function pointers stored in a pass.  `W` is the
state the callbacks reach through their user data.  A setup callback gets the
pass and its user data and answers whether the pass is to be kept; an execute
callback gets the encoder and its user data. -/
structure CallbackTable (W : Type) where
  setup : Nat → le_renderpass_o → Nat → W → Bool × le_renderpass_o × W
  execute : Nat → le_command_buffer_encoder_o → Nat → W → le_command_buffer_encoder_o × W

/-- The function `renderpass_run_setup_callback` (lines 262-264); calling
through a null pointer is undefined. -/
def renderpass_run_setup_callback {W : Type} (cb : CallbackTable W) (self : le_renderpass_o)
    (w : W) : Except Fault (Bool × le_renderpass_o × W) :=
  if self.callbackSetup = 0 then throw Fault.null_pointer
  else pure (cb.setup self.callbackSetup self self.setup_callback_user_data w)

/-- The loop of `renderpass_run_execute_callbacks` (lines 256-258) over the
remaining callbacks, on the encoder of the pass. -/
def run_execute_callbacks {W : Type} (cb : CallbackTable W) :
    List ExecuteCallbackInfo → le_command_buffer_encoder_o → W →
    Except Fault (le_command_buffer_encoder_o × W)
  | [], encoder, w => pure (encoder, w)
  | c :: rest, encoder, w =>
    if c.fn = 0 then throw Fault.null_pointer
    else
      let r := cb.execute c.fn encoder c.user_data w
      run_execute_callbacks cb rest r.1 r.2

/-- The function `renderpass_run_execute_callbacks` (lines 255-259).  The
callbacks record into the encoder of the pass, which has to exist. -/
def renderpass_run_execute_callbacks {W : Type} (cb : CallbackTable W) (self : le_renderpass_o)
    (w : W) : Except Fault (le_renderpass_o × W) :=
  match self.executeCallbacks, self.encoder with
  | [], _ => pure (self, w)
  | _ :: _, none => throw Fault.null_pointer
  | c :: rest, some encoder => do
    let r ← run_execute_callbacks cb (c :: rest) encoder w
    pure ({ self with encoder := some r.1 }, r.2)

/-- What `rendergraph_setup_passes` leaves behind: the two graphs, the passes
handed to `renderpass_destroy`, in that order, and the state of the user code. -/
structure SetupResult (W : Type) where
  src_rendergraph : le_rendergraph_o
  dst_rendergraph : le_rendergraph_o
  destroyed : List le_renderpass_o
  world : W

/-- The loop of `rendergraph_setup_passes` (lines 1286-1308) over the remaining
source passes, on the destination pass list, the destroyed passes and the
state of the user code. -/
def setup_passes_loop {W : Type} (cb : CallbackTable W) :
    List le_renderpass_o → List le_renderpass_o → List le_renderpass_o → W →
    Except Fault (List le_renderpass_o × List le_renderpass_o × W)
  | [], dst_passes, destroyed, w => pure (dst_passes, destroyed, w)
  | pass :: rest, dst_passes, destroyed, w =>
    if renderpass_has_setup_callback pass then do
      let r ← renderpass_run_setup_callback cb pass w
      if r.1 then setup_passes_loop cb rest (dst_passes ++ [r.2.1]) destroyed r.2.2
      else setup_passes_loop cb rest dst_passes (destroyed ++ [r.2.1]) r.2.2
    else setup_passes_loop cb rest (dst_passes ++ [pass]) destroyed w

/-- The function `rendergraph_setup_passes` (lines 1284-1315).  The vectors
moved out of the source graph are left empty. -/
def rendergraph_setup_passes {W : Type} (cb : CallbackTable W) (src_rendergraph : le_rendergraph_o)
    (dst_rendergraph : le_rendergraph_o) (w : W) : Except Fault (SetupResult W) := do
  let r ← setup_passes_loop cb src_rendergraph.passes dst_rendergraph.passes [] w
  pure {
    src_rendergraph := { src_rendergraph with
      passes := []
      declared_resources_id := []
      declared_resources_info := [] }
    dst_rendergraph := { dst_rendergraph with
      passes := r.1
      declared_resources_id := src_rendergraph.declared_resources_id
      declared_resources_info := src_rendergraph.declared_resources_info }
    destroyed := r.2.1
    world := r.2.2 }

/-- The function `rendergraph_declare_resource` (lines 1319-1322). -/
def rendergraph_declare_resource (self : le_rendergraph_o) (resource_id : le_resource_handle)
    (info : le_resource_info_t) : le_rendergraph_o :=
  { self with
    declared_resources_id := self.declared_resources_id ++ [resource_id]
    declared_resources_info := self.declared_resources_info ++ [info] }

/-- What the backend hands to `rendergraph_execute` (lines 1160-1188): the
allocators, the staging allocator and the pipeline cache, and the swapchain
info of the call of `get_swapchain_info` that returned true. -/
structure BackendFrame where
  allocators : Nat
  stagingAllocator : Nat
  pipelineCache : Nat
  num_swapchain_images : Nat
  swapchain_images : List le_resource_handle
  swapchain_image_width : List Nat
  swapchain_image_height : List Nat
deriving DecidableEq, Repr

/-- The inner loop of `find_matching_resource` (lines 1198-1203) from the
index `j` on, with `count` indices left: the index of the first resource equal
to `attachment`, if any. -/
def find_matching_index (resources : List le_resource_handle) (attachment : le_resource_handle) :
    Nat → Nat → Except Fault (Option Nat)
  | 0, _ => pure none
  | count + 1, j => do
    let r ← vec_at resources j
    if r = attachment then pure (some j)
    else find_matching_index resources attachment count (j + 1)

/-- The lambda `find_matching_resource` (lines 1193-1206). -/
def find_matching_resource (attachments : List le_resource_handle)
    (resources : List le_resource_handle) (num_resources : Nat) : Except Fault Nat :=
  match attachments with
  | [] => pure 0
  | attachment :: rest => do
    let found ← find_matching_index resources attachment num_resources 0
    match found with
    | some j => pure j
    | none => find_matching_resource rest resources num_resources

/-- Modelled from the spec: `encoder_i.create` is implemented outside `src/`;
the spec gives `encoder.create(allocators, cache, staging, extents) → Encoder`,
an encoder bound to these with nothing recorded yet. -/
def encoder_create (allocators pipelineCache stagingAllocator : Nat) (extent_width : Nat)
    (extent_height : Nat) : le_command_buffer_encoder_o :=
  { allocators := allocators, pipelineCache := pipelineCache,
    stagingAllocator := stagingAllocator, extent_width := extent_width,
    extent_height := extent_height, commands := [] }

/-- Modelled from the spec: `encoder_i.set_scissor` is implemented outside
`src/`; it records the scissor rectangles into the encoder. -/
def encoder_set_scissor (self : le_command_buffer_encoder_o) (firstScissor scissorCount : Nat)
    (scissors : List Rect2D) : le_command_buffer_encoder_o :=
  { self with
    commands := self.commands ++ [EncoderCommand.set_scissor firstScissor scissorCount scissors] }

/-- Modelled from the spec: `encoder_i.set_viewport` is implemented outside
`src/`; it records the viewports into the encoder. -/
def encoder_set_viewport (self : le_command_buffer_encoder_o) (firstViewport : Nat)
    (viewportCount : Nat) (viewports : List Viewport) : le_command_buffer_encoder_o :=
  { self with
    commands := self.commands ++
      [EncoderCommand.set_viewport firstViewport viewportCount viewports] }

/-- Lines 1217-1230 of `rendergraph_execute`: the pass with the extents the
encoder is created with, inferred from the swapchain when the width or the
height is zero. -/
def infer_extents (backend : BackendFrame) (pass : le_renderpass_o) :
    Except Fault le_renderpass_o :=
  if pass.width = 0 ∨ pass.height = 0 then do
    let matching_swapchain_idx ← find_matching_resource pass.attachmentResources
      backend.swapchain_images backend.num_swapchain_images
    let width ← vec_at backend.swapchain_image_width matching_swapchain_idx
    let height ← vec_at backend.swapchain_image_height matching_swapchain_idx
    pure { pass with width := width, height := height }
  else pure pass

/-- Lines 1232-1249 of `rendergraph_execute`: the encoder created for a pass,
with the default scissor and viewport recorded when the pass is a graphics
pass.  The constant `le::QueueFlagBits::eGraphics` is declared outside `src/`
and is the parameter `eGraphics`. -/
def create_pass_encoder (eGraphics : Nat) (backend : BackendFrame) (pass : le_renderpass_o) :
    le_command_buffer_encoder_o :=
  let encoder := encoder_create backend.allocators backend.pipelineCache
    backend.stagingAllocator pass.width pass.height
  if pass.type = eGraphics then
    let default_scissor : List Rect2D :=
      [{ x := 0, y := 0, width := pass.width, height := pass.height }]
    let default_viewport : List Viewport :=
      [{ x := FloatValue.zero, y := FloatValue.zero,
         width := FloatValue.of_uint32 pass.width, height := FloatValue.of_uint32 pass.height,
         minDepth := FloatValue.zero, maxDepth := FloatValue.one }]
    encoder_set_viewport (encoder_set_scissor encoder 0 1 default_scissor) 0 1 default_viewport
  else encoder

/-- The body of the loop over the passes in `rendergraph_execute`
(lines 1213-1252). -/
def execute_pass {W : Type} (cb : CallbackTable W) (eGraphics : Nat) (backend : BackendFrame)
    (pass : le_renderpass_o) (w : W) : Except Fault (le_renderpass_o × W) :=
  if pass.executeCallbacks.isEmpty then pure (pass, w)
  else do
    let pass1 ← infer_extents backend pass
    let pass2 := { pass1 with encoder := some (create_pass_encoder eGraphics backend pass1) }
    renderpass_run_execute_callbacks cb pass2 w

/-- The loop over the passes in `rendergraph_execute` (lines 1212-1253). -/
def execute_passes {W : Type} (cb : CallbackTable W) (eGraphics : Nat) (backend : BackendFrame) :
    List le_renderpass_o → W → Except Fault (List le_renderpass_o × W)
  | [], w => pure ([], w)
  | pass :: rest, w => do
    let r ← execute_pass cb eGraphics backend pass w
    let rs ← execute_passes cb eGraphics backend rest r.2
    pure (r.1 :: rs.1, rs.2)

/-- The function `rendergraph_execute` (lines 1130-1256), given what the
backend answered. -/
def rendergraph_execute {W : Type} (cb : CallbackTable W) (eGraphics : Nat)
    (backend : BackendFrame) (self : le_rendergraph_o) (w : W) :
    Except Fault (le_rendergraph_o × W) := do
  let r ← execute_passes cb eGraphics backend self.passes w
  pure ({ self with passes := r.1 }, r.2)

/-- The read bit and the write bit of an attachment kind are what their names
say: neither is empty, the read bit is no write flag and no implied image
write, and the write bit is no read flag. -/
def AttachmentBitsSeparate (B : AccessFlagBits2) (readBit writeBit : Nat) : Prop :=
  readBit ≠ 0 ∧ writeBit ≠ 0 ∧ readBit &&& LE_ALL_WRITE_ACCESS_FLAGS B = 0 ∧
  readBit &&& LE_ALL_IMAGE_IMPLIED_WRITE_ACCESS_FLAGS B = 0 ∧
  writeBit &&& LE_ALL_READ_ACCESS_FLAGS B = 0

/-- An attachment that is loaded and stored. -/
def load_store_info : le_image_attachment_info_t :=
  { loadOp := AttachmentLoadOp.eLoad, storeOp := AttachmentStoreOp.eStore }

/-- A sampler info for the swapchain image of the scenarios. -/
def swapchain_sampler_info : le_image_sampler_info_t :=
  { imageView_imageId := swapchain_image }

/-- Outcome `(kept, pass)` of the setup of the source pass `p`: a pass without
setup callback is kept as it is; otherwise the outcome is what the setup
callback of the pass answered and left of the pass, in some state of the user
code. -/
def SetupOutcome {W : Type} (cb : CallbackTable W) (p : le_renderpass_o)
    (o : Bool × le_renderpass_o) : Prop :=
  (p.callbackSetup = 0 ∧ o = (true, p)) ∨
  (p.callbackSetup ≠ 0 ∧ ∃ w0 : W,
    (cb.setup p.callbackSetup p p.setup_callback_user_data w0).1 = o.1 ∧
    (cb.setup p.callbackSetup p p.setup_callback_user_data w0).2.1 = o.2)

/-- A setup callback table for the examples: the callback at address 1 keeps
the pass and makes it a root, every other callback drops the pass; the state
of the user code counts the calls. -/
def example_callbacks : CallbackTable Nat where
  setup := fun f p _ w => (decide (f = 1), { p with is_root := decide (f = 1) }, w + 1)
  execute := fun f e d w =>
    ({ e with commands := e.commands ++ [EncoderCommand.recorded (f + d)] }, w + 1)

/-- The swapchain index the extent inference is specified to use: the index of
the swapchain image equal to the first attachment resource, in attachment
order, that equals any swapchain image, and 0 when there is none. -/
def expected_swapchain_index (attachments swapchain_images : List le_resource_handle) : Nat :=
  match attachments.find? (fun a => decide (a ∈ swapchain_images)) with
  | some a => find_resource_idx swapchain_images a
  | none => 0

/-- The encoder `rendergraph_execute` is specified to hand to the first execute
callback of a pass with the extents `width` and `height`: bound to the
allocators, the pipeline cache and the staging allocator of the backend, and,
for a graphics pass, with the default scissor and then the default viewport
recorded. -/
def expected_initial_encoder (eGraphics : Nat) (backend : BackendFrame) (type width : Nat)
    (height : Nat) : le_command_buffer_encoder_o :=
  { allocators := backend.allocators, pipelineCache := backend.pipelineCache,
    stagingAllocator := backend.stagingAllocator, extent_width := width,
    extent_height := height,
    commands :=
      if type = eGraphics then
        [EncoderCommand.set_scissor 0 1 [{ x := 0, y := 0, width := width, height := height }],
         EncoderCommand.set_viewport 0 1
          [{ x := FloatValue.zero, y := FloatValue.zero, width := FloatValue.of_uint32 width,
             height := FloatValue.of_uint32 height, minDepth := FloatValue.zero,
             maxDepth := FloatValue.one }]]
      else [] }

/-- The execute callbacks run one after the other, in list order, each with its
own user data, on the encoder and the state of the user code. -/
def callbacks_in_order {W : Type} (cb : CallbackTable W) (callbacks : List ExecuteCallbackInfo)
    (encoder : le_command_buffer_encoder_o) (w : W) : le_command_buffer_encoder_o × W :=
  callbacks.foldl (fun s c => cb.execute c.fn s.1 c.user_data s.2) (encoder, w)

/-- The swapchain info is usable for extent inference: it reports at least one
image, and each of the three vectors holds at least the reported number of
entries. -/
def SwapchainInfoValid (backend : BackendFrame) : Prop :=
  0 < backend.num_swapchain_images ∧
  backend.num_swapchain_images ≤ backend.swapchain_images.length ∧
  backend.num_swapchain_images ≤ backend.swapchain_image_width.length ∧
  backend.num_swapchain_images ≤ backend.swapchain_image_height.length

instance (backend : BackendFrame) : Decidable (SwapchainInfoValid backend) := by
  unfold SwapchainInfoValid; infer_instance

/-- The swapchain image handles the backend reported. -/
def reported_swapchain_images (backend : BackendFrame) : List le_resource_handle :=
  backend.swapchain_images.take backend.num_swapchain_images

/-- The swapchain index the extents of `pass` are specified to come from. -/
def expected_extent_index (backend : BackendFrame) (pass : le_renderpass_o) : Nat :=
  expected_swapchain_index pass.attachmentResources (reported_swapchain_images backend)

/-- The pass `execute_pass` is specified to leave behind for a pass with at
least one execute callback, together with the state of the user code. -/
def expected_executed_pass {W : Type} (cb : CallbackTable W) (eGraphics : Nat)
    (backend : BackendFrame) (pass : le_renderpass_o) (w : W) : le_renderpass_o × W :=
  let k := expected_extent_index backend pass
  let pass1 : le_renderpass_o :=
    if pass.width = 0 ∨ pass.height = 0 then
      { pass with
        width := backend.swapchain_image_width.getD k 0
        height := backend.swapchain_image_height.getD k 0 }
    else pass
  let r := callbacks_in_order cb pass.executeCallbacks
    (expected_initial_encoder eGraphics backend pass1.type pass1.width pass1.height) w
  ({ pass1 with encoder := some r.1 }, r.2)

/-- The pass `p` executed in the state `w` of the user code gives `p'` and the
state `w1`: without execute callback nothing happens; otherwise the encoder of
the pass holds the default scissor and viewport of a graphics pass for the
extents of the pass, and nothing for another pass, followed by what the
execute callbacks recorded, called once each in insertion order. -/
def PassExecuted {W : Type} (cb : CallbackTable W) (eGraphics : Nat) (backend : BackendFrame)
    (w : W) (p p' : le_renderpass_o) (w1 : W) : Prop :=
  (p.executeCallbacks = [] → p' = p ∧ w1 = w) ∧
  (p.executeCallbacks ≠ [] →
    p'.type = p.type ∧ p'.executeCallbacks = p.executeCallbacks ∧
    p'.encoder = some (callbacks_in_order cb p.executeCallbacks
      (expected_initial_encoder eGraphics backend p.type p'.width p'.height) w).1 ∧
    w1 = (callbacks_in_order cb p.executeCallbacks
      (expected_initial_encoder eGraphics backend p.type p'.width p'.height) w).2)

/-- The passes executed one after the other, each in the state of the user
code the one before left. -/
def PassesExecuted {W : Type} (cb : CallbackTable W) (eGraphics : Nat) (backend : BackendFrame) :
    W → List le_renderpass_o → List le_renderpass_o → W → Prop
  | w, [], [], w' => w' = w
  | w, p :: ps, p' :: ps', w' =>
    ∃ w1 : W, PassExecuted cb eGraphics backend w p p' w1 ∧
      PassesExecuted cb eGraphics backend w1 ps ps' w'
  | _, _, _, _ => False

/-- The extents of `p'` are the ones execution is specified to leave for `p`. -/
def ExtentsInferred (backend : BackendFrame) (p p' : le_renderpass_o) : Prop :=
  p.executeCallbacks ≠ [] →
    (p.width = 0 ∨ p.height = 0 →
      backend.swapchain_image_width[expected_extent_index backend p]? = some p'.width ∧
      backend.swapchain_image_height[expected_extent_index backend p]? = some p'.height) ∧
    (p.width ≠ 0 ∧ p.height ≠ 0 → p'.width = p.width ∧ p'.height = p.height)

/-- The relation `R` between the inputs and the outputs of a loop that threads
a state through: `R w a b w1` relates the state before, the input, the output
and the state after one round. -/
def Threaded {W α β : Type} (R : W → α → β → W → Prop) : W → List α → List β → W → Prop
  | w, [], [], w' => w' = w
  | w, a :: as, b :: bs, w' => ∃ w1 : W, R w a b w1 ∧ Threaded R w1 as bs w'
  | _, _, _, _ => False

/-- Swapchain info of the execute scenarios: two images are reported, 640x480
and 800x600, in vectors of three entries. -/
def example_backend : BackendFrame :=
  { allocators := 1, stagingAllocator := 2, pipelineCache := 3,
    num_swapchain_images := 2,
    swapchain_images :=
      [{ id := 9, type := LeResourceType.eImage, flags := 4 }, swapchain_image,
       { id := 0, type := LeResourceType.eImage, flags := 0 }],
    swapchain_image_width := [640, 800, 0],
    swapchain_image_height := [480, 600, 0] }

/-- Graph of the execute scenarios, with 1 for `eGraphics`: a graphics pass
without extents that attaches an image that is no swapchain image and then the
second swapchain image, with two execute callbacks; a compute pass without
extents and attachments, with one execute callback; a graphics pass of
320x200 with one execute callback; and a pass without execute callback. -/
def example_execute_graph : le_rendergraph_o :=
  { passes :=
      [{ type := 1, id := 1,
         attachmentResources :=
           [{ id := 5, type := LeResourceType.eImage, flags := 0 }, swapchain_image],
         executeCallbacks := [{ fn := 11, user_data := 100 }, { fn := 12, user_data := 200 }] },
       { type := 2, id := 2, executeCallbacks := [{ fn := 13, user_data := 300 }] },
       { type := 1, id := 3, width := 320, height := 200,
         attachmentResources := [swapchain_image],
         executeCallbacks := [{ fn := 14, user_data := 400 }] },
       { type := 1, id := 4, attachmentResources := [swapchain_image] }] }

/-- A graph of one pass, made a root by `set_is_root`, that reads `n` distinct
buffers (transfer read, `0x800`). -/
def many_handles_graph (n : Nat) : le_rendergraph_o :=
  { passes :=
      [{ is_root := true,
         resources := (List.range n).map
           (fun i => { id := i + 1, type := LeResourceType.eBuffer, flags := 0 }),
         resources_read_write_flags := List.replicate n eRead,
         resources_access_flags := List.replicate n 0x800 }] }

/-- Graph of the culled-link scenario over the buffers `P`, `Q`, `R`, `S`, in
pass order: pass 1 writes `Q` and `P`; pass 2 reads `Q` and writes `R`; pass 3
writes `R`; the root pass 4 reads `R` and writes `S`; the root pass 5 reads
`P` (reads are transfer reads `0x800`, writes transfer writes `0x1000`).
Pass 2 contributes to no root, because pass 3 overwrites `R` after it. -/
def culled_link_graph : le_rendergraph_o :=
  let P : le_resource_handle := { id := 1, type := LeResourceType.eBuffer, flags := 0 }
  let Q : le_resource_handle := { id := 2, type := LeResourceType.eBuffer, flags := 0 }
  let R : le_resource_handle := { id := 3, type := LeResourceType.eBuffer, flags := 0 }
  let S : le_resource_handle := { id := 4, type := LeResourceType.eBuffer, flags := 0 }
  { passes :=
      [{ id := 1, resources := [Q, P], resources_read_write_flags := [eWrite, eWrite],
         resources_access_flags := [0x1000, 0x1000] },
       { id := 2, resources := [Q, R], resources_read_write_flags := [eRead, eWrite],
         resources_access_flags := [0x800, 0x1000] },
       { id := 3, resources := [R], resources_read_write_flags := [eWrite],
         resources_access_flags := [0x1000] },
       { id := 4, is_root := true, resources := [R, S],
         resources_read_write_flags := [eRead, eWrite],
         resources_access_flags := [0x800, 0x1000] },
       { id := 5, is_root := true, resources := [P], resources_read_write_flags := [eRead],
         resources_access_flags := [0x800] }] }

/-- What the scenarios compare of a built graph: the id, the root flag and the
root affinity of every pass, and the affinity masks. -/
def build_outcome (g : le_rendergraph_o) : List (Nat × Bool × Nat) × List Nat :=
  (g.passes.map (fun p => (p.id, p.is_root, p.root_passes_affinity)),
   g.root_passes_affinity_masks)

/-- The C library call `strncpy( dest, src, count )` on a zeroed destination of
`count` characters: the characters of the string `src`, at most `count` of
them, padded with zeros. -/
def strncpy (src : List Nat) (count : Nat) : List Nat :=
  src.take count ++ List.replicate (count - src.length) 0

/-- The function `renderpass_create` (lines 201-208).  The hash function
`hash_64_fnv1a` is declared outside `src/` and is a parameter; the name is the
list of its characters. -/
def renderpass_create (hash_64_fnv1a : List Nat → Nat) (renderpass_name : List Nat)
    (type_ : Nat) : le_renderpass_o :=
  let self : le_renderpass_o := { debugName := List.replicate 256 0 }
  { self with
    id := hash_64_fnv1a renderpass_name
    type := type_
    debugName := strncpy renderpass_name 256
    ref_count := 1 }

/-- The function `renderpass_clone` (lines 212-217). -/
def renderpass_clone (rhs : le_renderpass_o) : le_renderpass_o :=
  { rhs with ref_count := 1 }

/-- The function `renderpass_ref_inc` (lines 231-233); `ref_count` is a
`uint32_t`. -/
def renderpass_ref_inc (self : le_renderpass_o) : le_renderpass_o :=
  { self with ref_count := uint32_inc self.ref_count }

/-- The function `renderpass_ref_dec` (lines 235-239): the pass afterwards, or
`none` when it was handed to `renderpass_destroy`. -/
def renderpass_ref_dec (self : le_renderpass_o) : Option le_renderpass_o :=
  let ref_count := uint32_dec self.ref_count
  if ref_count = 0 then none else some { self with ref_count := ref_count }

/-- A call of `renderpass_ref_inc` or of `renderpass_ref_dec` on a pass. -/
inductive RefCall where
  | ref_inc
  | ref_dec
deriving DecidableEq, Repr

/-- The calls `calls` made on the pass `self` one after the other, the first
of them being call number `i`: the number of the call that destroyed the pass,
if one did.  The calls behind it no longer have a pass to act on. -/
def ref_calls_destroy (self : le_renderpass_o) : List RefCall → Nat → Option Nat
  | [], _ => none
  | RefCall.ref_inc :: rest, i => ref_calls_destroy (renderpass_ref_inc self) rest (i + 1)
  | RefCall.ref_dec :: rest, i =>
    match renderpass_ref_dec self with
    | none => some i
    | some self1 => ref_calls_destroy self1 rest (i + 1)

/-- The function `renderpass_set_setup_callback` (lines 243-246). -/
def renderpass_set_setup_callback (self : le_renderpass_o) (user_data callback : Nat) :
    le_renderpass_o :=
  { self with setup_callback_user_data := user_data, callbackSetup := callback }

/-- The function `renderpass_set_execute_callback` (lines 250-252). -/
def renderpass_set_execute_callback (self : le_renderpass_o) (user_data callback : Nat) :
    le_renderpass_o :=
  { self with
    executeCallbacks := self.executeCallbacks ++ [{ fn := callback, user_data := user_data }] }

/-- The function `rendergraph_create` (lines 503-506). -/
def rendergraph_create : le_rendergraph_o := {}

/-- The function `rendergraph_reset` (lines 510-521): the graph afterwards and
the passes handed to `renderpass_destroy`, in that order. -/
def rendergraph_reset (self : le_rendergraph_o) : le_rendergraph_o × List le_renderpass_o :=
  let destroyed := self.passes
  ({ self with
      passes := []
      root_passes_affinity_masks := []
      declared_resources_id := []
      declared_resources_info := [] },
   destroyed)

/-- The function `rendergraph_add_renderpass` (lines 532-534).  The given pass
is read through a pointer to `const` and stays as it is. -/
def rendergraph_add_renderpass (self : le_rendergraph_o) (renderpass : le_renderpass_o) :
    le_rendergraph_o :=
  { self with passes := self.passes ++ [renderpass_clone renderpass] }

/-- The number of calls of `renderpass_ref_inc` among `calls`. -/
def count_inc (calls : List RefCall) : Nat :=
  calls.count RefCall.ref_inc

/-- The number of calls of `renderpass_ref_dec` among `calls`. -/
def count_dec (calls : List RefCall) : Nat :=
  calls.count RefCall.ref_dec

/-- Call number `k` of `calls` is the last decrement: it is a decrement, with
it there is one decrement more than there are increments, and before it there
never was. -/
def LastDecrement (calls : List RefCall) (k : Nat) : Prop :=
  calls[k]? = some RefCall.ref_dec ∧
  count_dec (calls.take (k + 1)) = count_inc (calls.take (k + 1)) + 1 ∧
  ∀ j : Nat, j ≤ k → count_dec (calls.take j) ≤ count_inc (calls.take j)

/-- A call that sets a callback of a pass, with the user data and the function
pointer. -/
inductive CallbackCall where
  | set_setup_callback (user_data callback : Nat)
  | set_execute_callback (user_data callback : Nat)
deriving DecidableEq, Repr

/-- One callback-setting call made on a pass. -/
def apply_callback_call (self : le_renderpass_o) : CallbackCall → le_renderpass_o
  | CallbackCall.set_setup_callback user_data callback =>
    renderpass_set_setup_callback self user_data callback
  | CallbackCall.set_execute_callback user_data callback =>
    renderpass_set_execute_callback self user_data callback

/-- The function pointers handed to `set_setup_callback` by `calls`, in call
order. -/
def setup_callbacks_set : List CallbackCall → List Nat
  | [] => []
  | CallbackCall.set_setup_callback _ callback :: rest => callback :: setup_callbacks_set rest
  | CallbackCall.set_execute_callback _ _ :: rest => setup_callbacks_set rest

/-- The function pointer of the last call of `set_setup_callback` among
`calls`, and `0` (`nullptr`) when there is none. -/
def last_setup_callback (calls : List CallbackCall) : Nat :=
  (setup_callbacks_set calls).getLast?.getD 0

/-- Whether `calls` holds a call of `set_execute_callback`. -/
def any_execute_callback (calls : List CallbackCall) : Bool :=
  calls.any (fun c => match c with
    | CallbackCall.set_setup_callback _ _ => false
    | CallbackCall.set_execute_callback _ _ => true)

/-- The calls of the wrap-around scenario: `n` increments and then one
decrement. -/
def wrapping_calls (n : Nat) : List RefCall :=
  List.replicate n RefCall.ref_inc ++ [RefCall.ref_dec]

/-- Calls of the reference-count scenario: the seventh call, a decrement, is the
last decrement. -/
def balanced_calls : List RefCall :=
  [RefCall.ref_inc, RefCall.ref_dec, RefCall.ref_inc, RefCall.ref_inc, RefCall.ref_dec,
   RefCall.ref_dec, RefCall.ref_dec, RefCall.ref_inc]

/-- Well-formedness of a pass: the three resource vectors have the same
length, so have the two attachment vectors and the two texture vectors, and no
handle occurs twice among the resources. -/
def PassWellFormed (p : le_renderpass_o) : Prop :=
  p.resources_read_write_flags.length = p.resources.length ∧
  p.resources_access_flags.length = p.resources.length ∧
  p.imageAttachments.length = p.attachmentResources.length ∧
  p.textureIds.length = p.textureInfos.length ∧
  p.resources.Nodup

instance (p : le_renderpass_o) : Decidable (PassWellFormed p) := by
  unfold PassWellFormed; infer_instance

/-- A call of one of the operations that register a resource with a pass. -/
inductive PassCall where
  | use_resource (resource_id : le_resource_handle) (access_flags : Nat)
  | add_color_attachment (image_id : le_resource_handle)
      (attachmentInfo : le_image_attachment_info_t)
  | add_depth_stencil_attachment (image_id : le_resource_handle)
      (attachmentInfo : le_image_attachment_info_t)
  | sample_texture (texture : Nat) (textureInfo : le_image_sampler_info_t)
deriving DecidableEq, Repr

/-- One call made on a pass. -/
def apply_pass_call (B : AccessFlagBits2) (eIsRoot : Nat) (ndebug : Bool)
    (self : le_renderpass_o) : PassCall → Except Fault le_renderpass_o
  | PassCall.use_resource resource_id access_flags =>
    renderpass_use_resource B eIsRoot ndebug self resource_id access_flags
  | PassCall.add_color_attachment image_id attachmentInfo =>
    renderpass_add_color_attachment B eIsRoot ndebug self image_id attachmentInfo
  | PassCall.add_depth_stencil_attachment image_id attachmentInfo =>
    renderpass_add_depth_stencil_attachment B eIsRoot ndebug self image_id attachmentInfo
  | PassCall.sample_texture texture textureInfo =>
    renderpass_sample_texture B eIsRoot ndebug self texture textureInfo

/-- The calls made on a pass one after the other. -/
def apply_pass_calls (B : AccessFlagBits2) (eIsRoot : Nat) (ndebug : Bool)
    (self : le_renderpass_o) (calls : List PassCall) : Except Fault le_renderpass_o :=
  calls.foldlM (apply_pass_call B eIsRoot ndebug) self

/-- Calls of the well-formedness scenario: a colour attachment on the swapchain
image, a texture that samples a second image, the same texture again, a buffer
used for a transfer write, and the swapchain image once more, as a depth
attachment. -/
def example_pass_calls : List PassCall :=
  [PassCall.add_color_attachment swapchain_image load_store_info,
   PassCall.sample_texture 7 { imageView_imageId := { id := 5, type := LeResourceType.eImage, flags := 0 } },
   PassCall.sample_texture 7 { imageView_imageId := { id := 6, type := LeResourceType.eImage, flags := 0 } },
   PassCall.use_resource { id := 1, type := LeResourceType.eBuffer, flags := 0 } 0x1000,
   PassCall.add_depth_stencil_attachment swapchain_image load_store_info]

/-- The pass the calls of the well-formedness scenario leave of a fresh pass
named "pass" when assertions are compiled out. -/
def example_pass_after_calls : le_renderpass_o :=
  { renderpass_create (fun _ => 3) [112, 97, 115, 115] 1 with
    is_root := true
    resources := [swapchain_image, { id := 5, type := LeResourceType.eImage, flags := 0 },
      { id := 1, type := LeResourceType.eBuffer, flags := 0 }]
    resources_read_write_flags := [3, 3, 2]
    resources_access_flags := [0x780, 0x100000000, 0x1000]
    imageAttachments := [load_store_info, load_store_info]
    attachmentResources := [swapchain_image, swapchain_image]
    textureIds := [7]
    textureInfos :=
      [{ imageView_imageId := { id := 5, type := LeResourceType.eImage, flags := 0 } }] }

/-- The value of `read_accum` in `node_tag_contributing` at the moment the
node at index `k` is visited: the nodes behind it have been visited, last to
first. -/
def read_accum_at (nodes : List Node) (k : Nat) : Nat :=
  (node_tag_sweep (nodes.drop (k + 1))).2.1

/-- The value of `read_accum` in `node_tag_contributing` when the node at index
`k` has been visited. -/
def read_accum_after (nodes : List Node) (k : Nat) : Nat :=
  (node_tag_sweep (nodes.drop k)).2.1

/-- Nodes of the sweep scenario, over the resource bits `a` (1), `b` (2) and
`c` (4): a node that writes `a`; a root that reads `a` and writes `b`; a node
that writes `c`; a root that reads `b`. -/
def example_sweep_nodes : List Node :=
  [{ writes := 1 }, { reads := 1, writes := 2, is_root := true }, { writes := 4 },
   { reads := 2, is_root := true }]

/-- The node array of the root-count scenario: `n` roots that use no resource. -/
def many_roots (n : Nat) : List Node :=
  List.replicate n { is_root := true }

/-- The rule of the root-tree accumulation for one earlier node: a node that is
not a root joins the tree when its writes intersect the read accumulator of
the tree. -/
def tree_joins (n : Node) (read_accum : Nat) : Bool :=
  !n.is_root && (n.writes &&& read_accum) != 0

/-- The read and the write accumulator of a tree after the earlier nodes
`earlier`, nearest first, starting from `read_accum` and `write_accum`: the
reads and the writes of every node that joins are OR-ed in. -/
def tree_accum : List Node → Nat → Nat → Nat × Nat
  | [], read_accum, write_accum => (read_accum, write_accum)
  | n :: earlier, read_accum, write_accum =>
    if tree_joins n read_accum then
      tree_accum earlier (read_accum ||| n.reads) (write_accum ||| n.writes)
    else tree_accum earlier read_accum write_accum

/-- From `n` to `n1` the node is the same but for its affinity, and bit `i` of
the affinity is the same. -/
def AffinityKept (i : Nat) (n n1 : Node) : Prop :=
  SameNode n n1 ∧ n1.root_index_affinity.testBit i = n.root_index_affinity.testBit i

/-- What the accumulation of the tree with the affinity bit `bit` does to a
node: it leaves a root alone, and may set `bit` in the affinity of another
node. -/
def TreeKept (bit : Nat) (n n1 : Node) : Prop :=
  SameNode n n1 ∧ (n.is_root = true → n1 = n) ∧
  (n1.root_index_affinity = n.root_index_affinity ∨
    n1.root_index_affinity = n.root_index_affinity ||| bit)

/-- Graph of the earlier-root scenario over the buffers `Q` (bit 0) and `R`
(bit 1): pass 1, made a root by `set_is_root`, reads `Q` and writes `R`; pass 2
writes `R`; pass 3, a root, reads `R`.  Pass 1 stays a root, because pass 2
overwrites `R` before pass 3 reads it. -/
def earlier_root_graph : le_rendergraph_o :=
  let Q : le_resource_handle := { id := 1, type := LeResourceType.eBuffer, flags := 0 }
  let R : le_resource_handle := { id := 2, type := LeResourceType.eBuffer, flags := 0 }
  { passes :=
      [{ id := 1, is_root := true, resources := [Q, R],
         resources_read_write_flags := [eRead, eWrite],
         resources_access_flags := [0x800, 0x1000] },
       { id := 2, resources := [R], resources_read_write_flags := [eWrite],
         resources_access_flags := [0x1000] },
       { id := 3, is_root := true, resources := [R], resources_read_write_flags := [eRead],
         resources_access_flags := [0x800] }] }

/-- The root trees of `earlier_root_graph`: root 0 is pass 3, root 1 is pass 1. -/
def earlier_root_trees : RootTrees :=
  { nodes := [
      { reads := 1, writes := 2, root_index_affinity := 2, is_root := true,
        is_contributing := true },
      { reads := 0, writes := 2, root_index_affinity := 1, is_root := false,
        is_contributing := true },
      { reads := 2, writes := 0, root_index_affinity := 1, is_root := true,
        is_contributing := true }],
    root_count := 2,
    root_reads_accum := [2, 1],
    root_writes_accum := [2, 2] }

/-- Pass `p` reads the resource `x`: `x` is one of its resources, and the
read/write summary stored with it has the bit `eRead`. -/
def pass_reads (p : le_renderpass_o) (x : le_resource_handle) : Bool :=
  (p.resources.zip p.resources_read_write_flags).any
    (fun hf => decide (hf.1 = x) && (hf.2 &&& eRead) != 0)

/-- Pass `p` writes the resource `x`: `x` is one of its resources, and the
read/write summary stored with it has the bit `eWrite`. -/
def pass_writes (p : le_renderpass_o) (x : le_resource_handle) : Bool :=
  (p.resources.zip p.resources_read_write_flags).any
    (fun hf => decide (hf.1 = x) && (hf.2 &&& eWrite) != 0)

/-- Whether build retains the pass at position `k`: the test of the
consolidation loop (line 1091) on the node of that pass. -/
def pass_retained (ndebug : Bool) (passes : List le_renderpass_o) (k : Nat) : Bool :=
  match rendergraph_build_trees ndebug passes with
  | .ok t =>
    match t.nodes[k]? with
    | some node => node.is_contributing
    | none => false
  | .error _ => false

/-- The earlier-root graph after build: all three passes are retained, pass 1
and pass 3 as roots, and the trees of the two roots share one mask. -/
def earlier_root_built : le_rendergraph_o :=
  { passes := [
      { id := 1, is_root := true, root_passes_affinity := 2,
        resources := [{ id := 1, type := LeResourceType.eBuffer, flags := 0 },
          { id := 2, type := LeResourceType.eBuffer, flags := 0 }],
        resources_read_write_flags := [eRead, eWrite],
        resources_access_flags := [0x800, 0x1000] },
      { id := 2, root_passes_affinity := 1,
        resources := [{ id := 2, type := LeResourceType.eBuffer, flags := 0 }],
        resources_read_write_flags := [eWrite], resources_access_flags := [0x1000] },
      { id := 3, is_root := true, root_passes_affinity := 1,
        resources := [{ id := 2, type := LeResourceType.eBuffer, flags := 0 }],
        resources_read_write_flags := [eRead], resources_access_flags := [0x800] }],
    root_passes_affinity_masks := [3] }

/-- Every bit of every queue id is the bit of one of the `n` roots. -/
def QueueBounded (n : Nat) (st : List Nat × List Nat) : Prop :=
  ∀ s q : Nat, st.1[s]? = some q → ∀ b : Nat, q.testBit b = true → b < n

/-- The read/write summary derived from the access flags `a` stored for the
handle `h`: `eRead` when `a` holds a read flag, `eWrite` when it holds a write
flag or, for an image, a flag that implies a write. -/
def derived_rw_flags (B : AccessFlagBits2) (h : le_resource_handle) (a : Nat) : Nat :=
  (if detect_read B a then eRead else eUndefined) |||
    (if detect_write B h a then eWrite else eUndefined)

/-- Every entry of the pass has the summary derived from its access flags. -/
def SummaryDerived (B : AccessFlagBits2) (p : le_renderpass_o) : Prop :=
  ∀ (i : Nat) (h : le_resource_handle) (a : Nat), p.resources[i]? = some h →
    p.resources_access_flags[i]? = some a →
    p.resources_read_write_flags[i]? = some (derived_rw_flags B h a)

/-- The handle `h` is numbered, behind the handles numbered so far, unless it
already has a number. -/
def add_first_occurrence (U : List le_resource_handle) (h : le_resource_handle) :
    List le_resource_handle :=
  if h ∈ U then U else U ++ [h]

/-- The handles of a list in the order of their first occurrence, each once. -/
def first_occurrences (hs : List le_resource_handle) : List le_resource_handle :=
  hs.foldl add_first_occurrence []

/-- The resources of all passes, pass after pass. -/
def all_resources (passes : List le_renderpass_o) : List le_resource_handle :=
  passes.flatMap (fun p => p.resources)

/-- The node `n` is an image of the pass `p` under the numbering `U` of the
handles: it is a root iff the pass is, and bit `k` of its reads (writes) is
set iff the pass reads (writes) the handle numbered `k`. -/
def NodeMirrorsPass (U : List le_resource_handle) (p : le_renderpass_o) (n : Node) : Prop :=
  n.is_root = p.is_root ∧
  (∀ k : Nat, n.reads.testBit k = true ↔ ∃ h, U[k]? = some h ∧ pass_reads p h = true) ∧
  (∀ k : Nat, n.writes.testBit k = true ↔ ∃ h, U[k]? = some h ∧ pass_writes p h = true)

/-- The backward sweep of `node_tag_contributing`, told on the passes: the
flags `(is_contributing, is_root)` it leaves for every pass, and the handles
that are monitored reads when the first pass has been visited. -/
def pass_sweep : List le_renderpass_o → List (Bool × Bool) × (le_resource_handle → Bool)
  | [] => ([], fun _ => false)
  | p :: later =>
    let w := p.resources.any (fun h => pass_writes p h && (pass_sweep later).2 h)
    if p.is_root || w then
      ((true, if p.is_root && w then false else p.is_root) :: (pass_sweep later).1,
       fun h => ((pass_sweep later).2 h && !pass_writes p h) || pass_reads p h)
    else ((false, p.is_root) :: (pass_sweep later).1, (pass_sweep later).2)

/-- The passes whose flag `is_contributing` is set, with the flag `is_root`
written back, as the consolidation loop keeps them. -/
def pass_retain : List le_renderpass_o → List (Bool × Bool) → List le_renderpass_o
  | p :: ps, (c, r) :: tags =>
    if c then { p with is_root := r } :: pass_retain ps tags else pass_retain ps tags
  | _, _ => []

/-- The pass `q` is the pass `p` but for its root affinity. -/
def PassAlike (p q : le_renderpass_o) : Prop :=
  q = { p with root_passes_affinity := q.root_passes_affinity }

/-- The culled-link graph after build: pass 2 is dropped, pass 1 has the
affinity of both roots, and the trees of the two roots share one mask. -/
def culled_link_built : le_rendergraph_o :=
  let P : le_resource_handle := { id := 1, type := LeResourceType.eBuffer, flags := 0 }
  let Q : le_resource_handle := { id := 2, type := LeResourceType.eBuffer, flags := 0 }
  let R : le_resource_handle := { id := 3, type := LeResourceType.eBuffer, flags := 0 }
  let S : le_resource_handle := { id := 4, type := LeResourceType.eBuffer, flags := 0 }
  { passes :=
      [{ id := 1, root_passes_affinity := 3, resources := [Q, P],
         resources_read_write_flags := [eWrite, eWrite],
         resources_access_flags := [0x1000, 0x1000] },
       { id := 3, root_passes_affinity := 2, resources := [R],
         resources_read_write_flags := [eWrite], resources_access_flags := [0x1000] },
       { id := 4, is_root := true, root_passes_affinity := 2, resources := [R, S],
         resources_read_write_flags := [eRead, eWrite],
         resources_access_flags := [0x800, 0x1000] },
       { id := 5, is_root := true, root_passes_affinity := 1, resources := [P],
         resources_read_write_flags := [eRead], resources_access_flags := [0x800] }],
    root_passes_affinity_masks := [3] }

/-! ## The earlier implementation (`src/le_renderer/le_rendergraph.cpp`) -/

namespace Earlier

/-- The struct `le_renderpass_o` of the earlier implementation (lines 28-48).
Function pointers, user data and the encoder are addresses, 0 for `nullptr`;
a resource is its 64-bit id; the resource infos and the image attachments,
declared outside `src/`, are kept as addresses. -/
structure le_renderpass_o where
  type : Nat := 0
  isRoot : Nat := 0
  id : Nat := 0
  sort_key : Nat := 0
  readResources : List Nat := []
  writeResources : List Nat := []
  createResources : List Nat := []
  createResourceInfos : List Nat := []
  imageAttachments : List Nat := []
  callbackSetup : Nat := 0
  callbackExecute : Nat := 0
  execute_callback_user_data : Nat := 0
  encoder : Nat := 0
  debugName : List Nat := []
deriving DecidableEq, Repr

/-- The function `renderpass_create` (lines 64-70); `const_char_hash64` is
declared outside `src/` and is a parameter. -/
def renderpass_create (const_char_hash64 : List Nat → Nat) (renderpass_name : List Nat)
    (type_ : Nat) : le_renderpass_o :=
  { id := const_char_hash64 renderpass_name, type := type_, debugName := renderpass_name }

/-- The function `renderpass_set_setup_fun` (lines 91-93). -/
def renderpass_set_setup_fun (self : le_renderpass_o) (f : Nat) : le_renderpass_o :=
  { self with callbackSetup := f }

/-- The function `renderpass_set_execute_callback` (lines 97-100). -/
def renderpass_set_execute_callback (self : le_renderpass_o) (callback_ user_data_ : Nat) :
    le_renderpass_o :=
  { self with execute_callback_user_data := user_data_, callbackExecute := callback_ }

/-- The function `renderpass_has_execute_callback` (lines 225-227). -/
def renderpass_has_execute_callback (self : le_renderpass_o) : Bool :=
  self.callbackExecute != 0

/-- The function `renderpass_has_setup_callback` (lines 229-231): it tests
`callbackExecute`. -/
def renderpass_has_setup_callback (self : le_renderpass_o) : Bool :=
  self.callbackExecute != 0

end Earlier

/-! ## The frame loop (`src/modules/le_renderer/le_renderer.cpp`) -/

/-- The enumeration `FrameData::State` (lines 24-34). -/
inductive FrameData.State where
  | eFailedClear
  | eFailedDispatch
  | eFailedAcquire
  | eInitial
  | eCleared
  | eAcquired
  | eRecorded
  | eProcessed
  | eDispatched
deriving DecidableEq, Repr

/-- The struct `FrameData` (lines 22-56); the time stamps of `Meta` are left
out. -/
structure FrameData where
  state : FrameData.State := FrameData.State.eInitial
  rendergraph : le_rendergraph_o := {}
  frameNumber : Nat := 0
deriving DecidableEq, Repr

/-- The struct `le_renderer_o` (lines 60-71), without the backend and the task
scheduler, which are declared outside `src/`. -/
structure le_renderer_o where
  swapchainDirty : Bool := false
  frames : List FrameData := []
  numSwapchainImages : Nat := 0
  currentFrameNumber : Nat := 0
deriving DecidableEq, Repr

/-- The function `renderer_clear_frame` (lines 187-223).  The loop that polls
`poll_frame_fence` ends when the backend reports the fence reached and
changes nothing in the renderer; `clear_result` is the answer of the
backend's `clear_frame`. -/
def renderer_clear_frame (self : le_renderer_o) (frameIndex : Nat) (clear_result : Bool) :
    Except Fault le_renderer_o := do
  let frame ← vec_at self.frames frameIndex
  if frame.state = FrameData.State.eCleared then pure self
  else if (frame.state = FrameData.State.eDispatched ∨
      frame.state = FrameData.State.eFailedDispatch ∨
      frame.state = FrameData.State.eFailedClear) ∧ clear_result ≠ true then
    pure { self with
      frames := self.frames.set frameIndex { frame with state := FrameData.State.eFailedClear } }
  else
    pure { self with
      frames := self.frames.set frameIndex
        { frame with
          rendergraph := (rendergraph_reset frame.rendergraph).1
          state := FrameData.State.eCleared } }

/-- The function `renderer_acquire_backend_resources` (lines 273-320);
`acquireSuccess` is the answer of the backend's `acquire_physical_resources`.
The state it returns is the state of the frame afterwards. -/
def renderer_acquire_backend_resources (self : le_renderer_o) (frameIndex : Nat)
    (acquireSuccess : Bool) : Except Fault le_renderer_o := do
  let frame ← vec_at self.frames frameIndex
  if frame.state ≠ FrameData.State.eRecorded then pure self
  else if acquireSuccess then
    pure { self with
      frames := self.frames.set frameIndex { frame with state := FrameData.State.eAcquired } }
  else
    pure { self with
      frames := self.frames.set frameIndex
        { frame with state := FrameData.State.eFailedAcquire }
      swapchainDirty := true }

/-- The function `renderer_process_frame` (lines 324-349). -/
def renderer_process_frame (self : le_renderer_o) (frameIndex : Nat) :
    Except Fault le_renderer_o := do
  let frame ← vec_at self.frames frameIndex
  if frame.state ≠ FrameData.State.eAcquired then pure self
  else
    pure { self with
      frames := self.frames.set frameIndex { frame with state := FrameData.State.eProcessed } }

/-- The function `renderer_dispatch_frame` (lines 353-389);
`dispatchSuccessful` is the answer of the backend's `dispatch_frame`. -/
def renderer_dispatch_frame (self : le_renderer_o) (frameIndex : Nat)
    (dispatchSuccessful : Bool) : Except Fault le_renderer_o := do
  let frame ← vec_at self.frames frameIndex
  if frame.state ≠ FrameData.State.eProcessed then pure self
  else if dispatchSuccessful then
    pure { self with
      frames := self.frames.set frameIndex { frame with state := FrameData.State.eDispatched } }
  else
    pure { self with
      frames := self.frames.set frameIndex
        { frame with state := FrameData.State.eFailedDispatch }
      swapchainDirty := true }

/-- The function `render_tasks` (lines 391-404). -/
def render_tasks (renderer : le_renderer_o) (frameIndex : Nat)
    (acquireSuccess dispatchSuccessful : Bool) : Except Fault le_renderer_o := do
  let r1 ← renderer_acquire_backend_resources renderer frameIndex acquireSuccess
  let r2 ← renderer_process_frame r1 frameIndex
  renderer_dispatch_frame r2 frameIndex dispatchSuccessful

/-- The function `clear_task` (lines 406-408). -/
def clear_task (renderer : le_renderer_o) (frameIndex : Nat) (clear_result : Bool) :
    Except Fault le_renderer_o :=
  renderer_clear_frame renderer frameIndex clear_result

/-- A renderer with three frames, of which the second is recorded and holds a
graph with passes and masks. -/
def example_renderer : le_renderer_o :=
  { frames := [{ state := FrameData.State.eCleared },
      { state := FrameData.State.eRecorded, rendergraph := pure_chain_built, frameNumber := 7 },
      { state := FrameData.State.eDispatched }],
    currentFrameNumber := 8 }

namespace Earlier

/-- The struct `le_graph_builder_o` (lines 58-61); encoders are addresses. -/
structure le_graph_builder_o where
  passes : List le_renderpass_o := []
  encoders : List Nat := []
deriving DecidableEq, Repr

/-- The macro `LE_GRAPH_BUILDER_RECURSION_DEPTH` (line 21). -/
def LE_GRAPH_BUILDER_RECURSION_DEPTH : Nat := 20

/-- The loop of `graph_builder_resolve_resource_ids` (lines 298-331) over the
passes from `passIndex` on.  The map `writeAttachmentTable` is a list of pairs
of a resource id and a pass index, the latest entry of an id in front.  The
index is a `uint64_t`, as wide as the size of the vector it counts. -/
def resolve_resource_ids_loop :
    List le_renderpass_o → Nat → List (Nat × Nat) → List (List Nat)
  | [], _, _ => []
  | pass :: rest, passIndex, writeAttachmentTable =>
    let passesThisPassDependsOn :=
      pass.readResources.filterMap (fun resource => writeAttachmentTable.lookup resource)
    let writeAttachmentTable1 :=
      pass.writeResources.foldl (fun table it => (it, passIndex) :: table) writeAttachmentTable
    passesThisPassDependsOn :: resolve_resource_ids_loop rest (passIndex + 1) writeAttachmentTable1

/-- The function `graph_builder_resolve_resource_ids` (lines 276-334). -/
def graph_builder_resolve_resource_ids (passes : List le_renderpass_o) : List (List Nat) :=
  resolve_resource_ids_loop passes 0 []

/-- The recursion of `graph_builder_traverse_passes` (lines 338-372) with at
most `fuel` nested calls.  The function returns at once when
`recursion_depth` is above 20, so that `21 - recursion_depth` nested calls are
all it can make. -/
def traverse_passes_fuel :
    Nat → List (List Nat) → Nat → Nat → List Nat → Except Fault (List Nat)
  | 0, _, _, _, sort_order_per_pass => pure sort_order_per_pass
  | fuel + 1, passes, currentRenderpassId, recursion_depth, sort_order_per_pass =>
    if recursion_depth > LE_GRAPH_BUILDER_RECURSION_DEPTH then pure sort_order_per_pass
    else do
      let currentSortOrder ← vec_at sort_order_per_pass currentRenderpassId
      let sort_order_per_pass1 ←
        if currentSortOrder < recursion_depth then
          vec_set sort_order_per_pass currentRenderpassId recursion_depth
        else pure sort_order_per_pass
      let sourcePasses ← vec_at passes currentRenderpassId
      sourcePasses.foldlM
        (fun so sourcePass => traverse_passes_fuel fuel passes sourcePass (recursion_depth + 1) so)
        sort_order_per_pass1

/-- The function `graph_builder_traverse_passes` (lines 338-372). -/
def graph_builder_traverse_passes (passes : List (List Nat)) (currentRenderpassId : Nat)
    (recursion_depth : Nat) (sort_order_per_pass : List Nat) : Except Fault (List Nat) :=
  traverse_passes_fuel (LE_GRAPH_BUILDER_RECURSION_DEPTH + 1 - recursion_depth) passes
    currentRenderpassId recursion_depth sort_order_per_pass

/-- The loop of `graph_builder_find_root_passes` (lines 381-386). -/
def find_root_passes_loop : List le_renderpass_o → Nat → List Nat
  | [], _ => []
  | pass :: rest, i =>
    if pass.isRoot ≠ 0 then i :: find_root_passes_loop rest (i + 1)
    else find_root_passes_loop rest (i + 1)

/-- The function `graph_builder_find_root_passes` (lines 376-390). -/
def graph_builder_find_root_passes (passes : List le_renderpass_o) : List Nat :=
  find_root_passes_loop passes 0

/-- The loop that stores the sort key with every pass (lines 420-422). -/
def store_sort_keys (pass_sort_orders : List Nat) :
    List le_renderpass_o → Nat → Except Fault (List le_renderpass_o)
  | [], _ => pure []
  | pass :: rest, i => do
    let key ← vec_at pass_sort_orders i
    let rest1 ← store_sort_keys pass_sort_orders rest (i + 1)
    pure ({ pass with sort_key := key } :: rest1)

/-- Insertion of a pass in front of the first pass of a list whose sort key is
not above its own. -/
def insert_by_sort_key (p : le_renderpass_o) : List le_renderpass_o → List le_renderpass_o
  | [] => [p]
  | q :: rest =>
    if q.sort_key > p.sort_key then q :: insert_by_sort_key p rest else p :: q :: rest

/-- The call `std::stable_sort` of lines 440-442: the passes in descending
order of their sort key, passes of one key in the order they had.  The library
function is not part of `src/`; its result is computed here by insertion. -/
def std_stable_sort : List le_renderpass_o → List le_renderpass_o
  | [] => []
  | p :: rest => insert_by_sort_key p (std_stable_sort rest)

/-- The function `graph_builder_build_graph` (lines 394-446); the passes that
`std::remove_if` drops are destroyed. -/
def graph_builder_build_graph (self : le_graph_builder_o) : Except Fault le_graph_builder_o := do
  let pass_dependencies := graph_builder_resolve_resource_ids self.passes
  let root_passes := graph_builder_find_root_passes self.passes
  let pass_sort_orders0 := List.replicate self.passes.length 0
  let pass_sort_orders ← root_passes.foldlM
    (fun so root => graph_builder_traverse_passes pass_dependencies root 1 so) pass_sort_orders0
  let passes1 ← store_sort_keys pass_sort_orders self.passes 0
  let passes2 := passes1.filter (fun lhs => lhs.sort_key != 0)
  pure { self with passes := std_stable_sort passes2 }

/-- A chain of `n` passes: pass `i` writes the resource `i` and, but for the
first, reads the resource `i - 1`; the last pass is the root. -/
def chain_passes (n : Nat) : List le_renderpass_o :=
  (List.range n).map (fun i =>
    { id := i, isRoot := if i + 1 = n then 1 else 0,
      readResources := if i = 0 then [] else [i - 1], writeResources := [i] })

/-- The pass at `Q` is the most recent pass before the pass at `P` that writes
the resource `r`. -/
def IsLastWriter (passes : List le_renderpass_o) (r P Q : Nat) : Prop :=
  Q < P ∧ (∃ pQ, passes[Q]? = some pQ ∧ r ∈ pQ.writeResources) ∧
  ∀ (j : Nat) (pj : le_renderpass_o), Q < j → j < P → passes[j]? = some pj →
    r ∉ pj.writeResources

/-- The pass at `P` depends on the pass at `Q`: `Q` is the most recent pass
before `P` that writes a resource `P` reads. -/
def DependsOn (passes : List le_renderpass_o) (P Q : Nat) : Prop :=
  ∃ (pP : le_renderpass_o) (r : Nat), passes[P]? = some pP ∧ r ∈ pP.readResources ∧
    IsLastWriter passes r P Q

/-- A chain of `k` dependencies from the pass at `a` to the pass at `b`. -/
def DependsPath (passes : List le_renderpass_o) : Nat → Nat → Nat → Prop
  | 0, a, b => a = b
  | k + 1, a, b => ∃ c : Nat, DependsOn passes a c ∧ DependsPath passes k c b

/-- A path of `k` edges from `a` to `b` along the dependencies. -/
def Reach (deps : List (List Nat)) : Nat → Nat → Nat → Prop
  | 0, a, b => a = b
  | k + 1, a, b => ∃ (c : Nat) (ds : List Nat), deps[a]? = some ds ∧ c ∈ ds ∧ Reach deps k c b

/-- Every dependency is the index of a pass. -/
def DepsValid (deps : List (List Nat)) : Prop :=
  ∀ (a : Nat) (ds : List Nat) (c : Nat), deps[a]? = some ds → c ∈ ds → c < deps.length

/-- What traversals from the passes `starts` at the depth `D` make of the sort
orders `so`: every sort order is the old one or `D + k` for a path of `k`
edges from a start, with `D + k ≤ 20`, and it is at least each of these. -/
def TraverseSpec (deps : List (List Nat)) (starts : List Nat) (D : Nat) (so so1 : List Nat) :
    Prop :=
  so1.length = so.length ∧
  (∀ (x v : Nat), so[x]? = some v → ∃ v1, so1[x]? = some v1 ∧ v ≤ v1) ∧
  (∀ c ∈ starts, ∀ (k x : Nat), Reach deps k c x → D + k ≤ 20 →
    ∃ v1, so1[x]? = some v1 ∧ D + k ≤ v1) ∧
  (∀ (x v1 : Nat), so1[x]? = some v1 → so[x]? = some v1 ∨
    ∃ c ∈ starts, ∃ k, Reach deps k c x ∧ D + k ≤ 20 ∧ v1 = D + k)

end Earlier

/-- What "the pass at `k` contributes to a root" says, in the words of the
specification: the pass is a root, or it writes a resource that a later
contributing pass reads, with no pass in between that writes the resource
again (so that what it wrote is what the later pass reads). -/
inductive ContributesToRoot (passes : List le_renderpass_o) : Nat → Prop where
  | root (k : Nat) (p : le_renderpass_o) :
      passes[k]? = some p → p.is_root = true → ContributesToRoot passes k
  | feeds (k m : Nat) (pk pm : le_renderpass_o) (x : le_resource_handle) :
      k < m → passes[k]? = some pk → passes[m]? = some pm → ContributesToRoot passes m →
      pass_writes pk x = true → pass_reads pm x = true →
      (∀ (j : Nat) (pj : le_renderpass_o), k < j → j < m → passes[j]? = some pj →
        pass_writes pj x = false) →
      ContributesToRoot passes k

/-! ## Lemmas -/

theorem bind_ok {α β : Type} (x : Except Fault α) (f : α → Except Fault β) (b : β) :
    (x >>= f) = .ok b ↔ ∃ a, x = .ok a ∧ f a = .ok b := by
  cases x <;> simp [bind, Except.bind]

theorem pure_ok {α : Type} (a b : α) : (pure a : Except Fault α) = .ok b ↔ a = b := by
  simp [pure, Except.pure]

theorem throw_ok {α : Type} (f : Fault) (b : α) : (throw f : Except Fault α) = .ok b ↔ False := by
  simp [throw, throwThe, MonadExceptOf.throw]

theorem vec_at_ok {α : Type} (v : List α) (i : Nat) (x : α) :
    vec_at v i = .ok x ↔ v[i]? = some x := by
  unfold vec_at
  cases h : v[i]? <;> simp [pure_ok, throw_ok]

theorem vec_set_ok {α : Type} (v : List α) (i : Nat) (x : α) (w : List α) :
    vec_set v i x = .ok w ↔ i < v.length ∧ v.set i x = w := by
  unfold vec_set
  by_cases h : i < v.length <;> simp [h, pure_ok, throw_ok]

theorem bitset_set_ok (bits pos : Nat) (val : Bool) (r : Nat) :
    bitset_set bits pos val = .ok r ↔ pos < LE_MAX_NUM_GRAPH_RESOURCES ∧
      (if val then bits ||| (1 <<< pos) else bits ^^^ (bits &&& (1 <<< pos))) = r := by
  unfold bitset_set
  by_cases h : pos < LE_MAX_NUM_GRAPH_RESOURCES <;> simp [h, pure_ok, throw_ok]

theorem shl_one_ok (n r : Nat) : shl_one n = .ok r ↔ n < 64 ∧ 1 <<< n = r := by
  unfold shl_one
  by_cases h : n < 64 <;> simp [h, pure_ok, throw_ok]

theorem c_assert_ok (ndebug cond : Bool) (f : Fault) (u : Unit) :
    c_assert ndebug cond f = .ok u ↔ (ndebug = true ∨ cond = true) := by
  unfold c_assert
  by_cases h : (ndebug || cond) = true
  · simp only [h, if_true, pure_ok]; simpa using h
  · simp only [h, throw_ok]; simpa using h

/-- The flags of a node that the resource loop leaves alone. -/
theorem build_node_flags (ndebug : Bool) (rwf : List Nat) (rs : List le_resource_handle) :
    ∀ (i : Nat) (u : List le_resource_handle) (node : Node) (u1 : List le_resource_handle)
      (node1 : Node), build_node ndebug rwf rs i u node = .ok (u1, node1) →
      node1.is_root = node.is_root ∧ node1.is_contributing = node.is_contributing ∧
      node1.root_index_affinity = node.root_index_affinity := by
  induction rs with
  | nil =>
    intro i u node u1 node1 h
    simp only [build_node, pure_ok, Prod.mk.injEq] at h
    rw [← h.2]; simp
  | cons r rest ih =>
    intro i u node u1 node1 h
    unfold build_node at h
    simp only [bind_ok] at h
    obtain ⟨_, _, _, _, _, _, _, _, h⟩ := h
    have := ih _ _ _ _ _ h
    simpa using this

theorem build_nodes_rel (ndebug : Bool) (ps : List le_renderpass_o) :
    ∀ (u u1 : List le_resource_handle) (nodes : List Node),
      build_nodes ndebug ps u = .ok (u1, nodes) → Forall₂ PassNode ps nodes := by
  induction ps with
  | nil =>
    intro u u1 nodes h
    simp only [build_nodes, pure_ok, Prod.mk.injEq] at h
    rw [← h.2]; exact Forall₂.nil
  | cons p rest ih =>
    intro u u1 nodes h
    unfold build_nodes at h
    simp only [bind_ok] at h
    obtain ⟨⟨ua, na⟩, h1, ⟨ub, nb⟩, h2, h3⟩ := h
    simp only [pure_ok, Prod.mk.injEq] at h3
    obtain ⟨_, rfl⟩ := h3
    refine Forall₂.cons ?_ (ih _ _ _ h2)
    have hf := build_node_flags _ _ _ _ _ _ _ _ h1
    unfold PassNode
    cases hp : p.is_root <;> simp [hp, hf]

theorem node_tag_sweep_rel (nodes : List Node) :
    Forall₂ Tagged nodes (node_tag_sweep nodes).1 := by
  induction nodes with
  | nil => exact Forall₂.nil
  | cons n later ih =>
    unfold node_tag_sweep
    by_cases hc : (n.is_root || (n.writes &&& (node_tag_sweep later).2.1) != 0) = true
    · simp only [hc, if_true]
      refine Forall₂.cons ?_ ih
      unfold Tagged
      cases hr : n.is_root <;> cases hw : ((n.writes &&& (node_tag_sweep later).2.1) != 0) <;>
        simp
    · simp only [hc]
      refine Forall₂.cons ?_ ih
      simp only [Bool.or_eq_true, not_or, Bool.not_eq_true] at hc
      unfold Tagged
      simp [hc.1]

theorem find_resource_idx_eq_length (rs : List le_resource_handle) (h : le_resource_handle) :
    find_resource_idx rs h = rs.length ↔ h ∉ rs := by
  induction rs with
  | nil => simp [find_resource_idx]
  | cons r rest ih =>
    unfold find_resource_idx
    by_cases hr : r = h
    · simp [hr]
    · simp [hr, ih, Ne.symm hr]

theorem rw_bits :
    (eUndefined &&& eRead = 0) ∧ (eUndefined &&& eWrite = 0) ∧
    ((eUndefined ||| eRead) &&& eRead ≠ 0) ∧ ((eUndefined ||| eRead) &&& eWrite = 0) ∧
    ((eUndefined ||| eWrite) &&& eRead = 0) ∧ ((eUndefined ||| eWrite) &&& eWrite ≠ 0) ∧
    ((eUndefined ||| eRead ||| eWrite) &&& eRead ≠ 0) ∧
    ((eUndefined ||| eRead ||| eWrite) &&& eWrite ≠ 0) := by decide

/-- Registration of a handle the pass does not use yet. -/
theorem use_resource_new (B : AccessFlagBits2) (eIsRoot : Nat) (ndebug : Bool)
    (self : le_renderpass_o) (h : le_resource_handle) (a : Nat)
    (hnew : h ∉ self.resources)
    (hlen : self.resources_read_write_flags.length = self.resources.length) :
    renderpass_use_resource B eIsRoot ndebug self h a = .ok
      { self with
        resources := self.resources ++ [h]
        resources_access_flags := self.resources_access_flags ++ [a]
        resources_read_write_flags := self.resources_read_write_flags ++
          [if detect_write B h a then
            (if detect_read B a then eUndefined ||| eRead else eUndefined) ||| eWrite
           else (if detect_read B a then eUndefined ||| eRead else eUndefined)]
        is_root := if detect_write B h a && (decide (h.type = LeResourceType.eImage) &&
          resource_is_a_swapchain_handle eIsRoot h) then true else self.is_root } := by
  have hidx := (find_resource_idx_eq_length self.resources h).mpr hnew
  unfold renderpass_use_resource register_resource
  simp only [hidx, if_true]
  simp only [bind, Except.bind, pure, Except.pure]
  simp only [vec_at, vec_set, ← hlen]
  simp [pure, Except.pure]

theorem sameNode_refl (n : Node) : SameNode n n := ⟨rfl, rfl, rfl, rfl⟩

theorem accumulate_tree_same (bit : Nat) (nodes : List Node) :
    ∀ (ra wa : Nat), Forall₂ SameNode nodes (accumulate_tree bit nodes ra wa).1 := by
  induction nodes with
  | nil => intro ra wa; exact Forall₂.nil
  | cons n earlier ih =>
    intro ra wa
    unfold accumulate_tree
    split
    · exact Forall₂.cons (sameNode_refl n) (ih _ _)
    · split
      · exact Forall₂.cons ⟨rfl, rfl, rfl, rfl⟩ (ih _ _)
      · exact Forall₂.cons (sameNode_refl n) (ih _ _)

theorem forall₂_sameNode_trans {l1 l2 l3 : List Node} (h1 : Forall₂ SameNode l1 l2)
    (h2 : Forall₂ SameNode l2 l3) : Forall₂ SameNode l1 l3 := by
  induction h1 generalizing l3 with
  | nil => cases h2; exact Forall₂.nil
  | cons hab _ ih =>
    cases h2 with
    | cons hbc hrest =>
      refine Forall₂.cons ?_ (ih hrest)
      obtain ⟨a1, a2, a3, a4⟩ := hab
      obtain ⟨b1, b2, b3, b4⟩ := hbc
      exact ⟨b1.trans a1, b2.trans a2, b3.trans a3, b4.trans a4⟩

theorem accumulate_roots_same (remaining : Nat) :
    ∀ (nodes : List Node) (k : Nat) (rr rw : List Nat) (out : List Node) (rr1 rw1 : List Nat),
      accumulate_roots remaining nodes k rr rw = .ok (out, rr1, rw1) →
      Forall₂ SameNode nodes out := by
  induction remaining with
  | zero =>
    intro nodes k rr rw out rr1 rw1 h
    simp only [accumulate_roots, pure_ok, Prod.mk.injEq] at h
    rw [← h.1]
    exact List.forall₂_same.mpr (fun x _ => sameNode_refl x)
  | succ m ih =>
    intro nodes k rr rw out rr1 rw1 h
    cases nodes with
    | nil =>
      simp only [accumulate_roots, pure_ok, Prod.mk.injEq] at h
      rw [← h.1]; exact Forall₂.nil
    | cons r earlier =>
      unfold accumulate_roots at h
      by_cases hr : r.is_root = true
      · rw [if_pos hr] at h
        simp only [bind_ok] at h
        obtain ⟨_, _, _, _, bit, _, rr2, _, rw2, _, ⟨e2, rr3, rw3⟩, hrec, hfin⟩ := h
        simp only [pure_ok, Prod.mk.injEq] at hfin
        obtain ⟨rfl, _, _⟩ := hfin
        exact Forall₂.cons ⟨rfl, rfl, rfl, rfl⟩
          (forall₂_sameNode_trans (accumulate_tree_same bit earlier r.reads r.writes)
            (ih _ _ _ _ _ _ _ hrec))
      · rw [if_neg hr] at h
        simp only [bind_ok] at h
        obtain ⟨⟨e2, rr3, rw3⟩, hrec, hfin⟩ := h
        simp only [pure_ok, Prod.mk.injEq] at hfin
        obtain ⟨rfl, _, _⟩ := hfin
        exact Forall₂.cons (sameNode_refl r) (ih _ _ _ _ _ _ _ hrec)

theorem consolidate_passes_eq (nodes : List Node) (ps : List le_renderpass_o) :
    ∀ (i : Nat) (acc out : List le_renderpass_o),
      consolidate_passes nodes ps i acc = .ok out →
      out = acc ++ (ps.zip (nodes.drop i)).filterMap write_back := by
  induction ps with
  | nil =>
    intro i acc out h
    simp only [consolidate_passes, pure_ok] at h
    simp [h]
  | cons p rest ih =>
    intro i acc out h
    unfold consolidate_passes at h
    simp only [bind_ok, vec_at_ok] at h
    obtain ⟨node, hn, h⟩ := h
    have hlt : i < nodes.length := by
      by_contra hc
      rw [List.getElem?_eq_none (by omega)] at hn
      cases hn
    have hd : nodes.drop i = node :: nodes.drop (i + 1) := by
      rw [List.drop_eq_getElem_cons hlt]
      congr 1
      rw [List.getElem?_eq_getElem hlt] at hn
      exact Option.some.inj hn
    rw [hd]
    by_cases hc : node.is_contributing = true
    · simp only [hc, if_true] at h
      rw [ih _ _ _ h]
      simp [write_back, hc]
    · simp only [hc] at h
      rw [ih _ _ _ h]
      simp [write_back, hc]

theorem build_trees_ok (ndebug : Bool) (passes : List le_renderpass_o) (t : RootTrees)
    (h : rendergraph_build_trees ndebug passes = .ok t) :
    ∃ nodes0 : List Node, Forall₂ PassNode passes nodes0 ∧
      Forall₂ SameNode (node_tag_sweep nodes0).1 t.nodes ∧
      t.root_count = (node_tag_sweep nodes0).2.2 := by
  unfold rendergraph_build_trees at h
  simp only [bind_ok] at h
  obtain ⟨⟨u, nodes0⟩, h0, _, _, ⟨rn, rr, rw⟩, hacc, hfin⟩ := h
  simp only [pure_ok] at hfin
  refine ⟨nodes0, build_nodes_rel _ _ _ _ _ h0, ?_, ?_⟩
  · have := accumulate_roots_same _ _ _ _ _ _ _ _ hacc
    rw [← hfin]
    simp only [node_tag_contributing] at this ⊢
    have h2 := List.rel_reverse this
    simpa using h2
  · rw [← hfin]; rfl

theorem build_passes_eq (ndebug : Bool) (g g1 : le_rendergraph_o)
    (h : rendergraph_build ndebug g = .ok g1) :
    ∃ t, rendergraph_build_trees ndebug g.passes = .ok t ∧
      g1.passes = (g.passes.zip t.nodes).filterMap write_back := by
  unfold rendergraph_build at h
  simp only [bind_ok] at h
  obtain ⟨t, ht, ⟨q, qi⟩, _, ⟨m, c⟩, _, ps, hps, hfin⟩ := h
  simp only [pure_ok] at hfin
  refine ⟨t, ht, ?_⟩
  have := consolidate_passes_eq _ _ _ _ _ hps
  rw [← hfin]
  simpa using this

theorem forall₂_getElem? {α β : Type} {R : α → β → Prop} {l1 : List α} {l2 : List β}
    (h : Forall₂ R l1 l2) : ∀ (i : Nat) (a : α), l1[i]? = some a → ∃ b, l2[i]? = some b ∧ R a b := by
  induction h with
  | nil => intro i a ha; simp at ha
  | cons hab _ ih =>
    intro i a ha
    cases i with
    | zero =>
      simp only [List.getElem?_cons_zero, Option.some.injEq] at ha
      subst ha
      exact ⟨_, by simp, hab⟩
    | succ k =>
      simp only [List.getElem?_cons_succ] at ha ⊢
      exact ih k a ha

theorem forall₂_getElem?_right {α β : Type} {R : α → β → Prop} {l1 : List α} {l2 : List β}
    (h : Forall₂ R l1 l2) : ∀ (i : Nat) (b : β), l2[i]? = some b → ∃ a, l1[i]? = some a ∧ R a b := by
  induction h with
  | nil => intro i b hb; simp at hb
  | cons hab _ ih =>
    intro i b hb
    cases i with
    | zero =>
      simp only [List.getElem?_cons_zero, Option.some.injEq] at hb
      subst hb
      exact ⟨_, by simp, hab⟩
    | succ k =>
      simp only [List.getElem?_cons_succ] at hb ⊢
      exact ih k b hb

theorem forall₂_comp {α β γ : Type} {R : α → β → Prop} {S : β → γ → Prop} {T : α → γ → Prop}
    (hRS : ∀ a b c, R a b → S b c → T a c) {l1 : List α} {l2 : List β} {l3 : List γ}
    (h1 : Forall₂ R l1 l2) (h2 : Forall₂ S l2 l3) : Forall₂ T l1 l3 := by
  induction h1 generalizing l3 with
  | nil => cases h2; exact Forall₂.nil
  | cons hab _ ih =>
    cases h2 with
    | cons hbc hrest => exact Forall₂.cons (hRS _ _ _ hab hbc) (ih hrest)

theorem filterMap_getElem?_countP {α β : Type} (f : α → Option β) (l : List α) :
    ∀ (i : Nat) (a : α) (b : β), l[i]? = some a → f a = some b →
      (l.filterMap f)[(l.take i).countP (fun x => (f x).isSome)]? = some b := by
  induction l with
  | nil => intro i a b ha; simp at ha
  | cons x rest ih =>
    intro i a b ha hb
    cases i with
    | zero =>
      simp only [List.getElem?_cons_zero, Option.some.injEq] at ha
      subst ha
      simp [List.filterMap_cons, hb]
    | succ k =>
      simp only [List.getElem?_cons_succ] at ha
      have := ih k a b ha hb
      cases hx : f x with
      | none => simpa [List.filterMap_cons, hx, List.countP_cons] using this
      | some y => simpa [List.filterMap_cons, hx, List.countP_cons] using this

/-- Relation between a pass and its node at the time of consolidation. -/
theorem build_trees_pass_node (ndebug : Bool) (passes : List le_renderpass_o) (t : RootTrees)
    (h : rendergraph_build_trees ndebug passes = .ok t) :
    Forall₂ (fun p n => p.is_root = true → n.is_contributing = true) passes t.nodes := by
  obtain ⟨nodes0, h0, h1, _⟩ := build_trees_ok ndebug passes t h
  have h2 := forall₂_comp (T := fun p n => p.is_root = true → n.is_contributing = true)
    (fun a b c (hab : PassNode a b) (hbc : Tagged b c) hr =>
      hbc.2.2.2.1 (hab.1.trans hr)) h0 (node_tag_sweep_rel nodes0)
  exact forall₂_comp (T := fun p n => p.is_root = true → n.is_contributing = true)
    (fun a b c hab (hbc : SameNode b c) hr => hbc.2.2.2.trans (hab hr)) h2 h1

theorem node_tag_sweep_no_roots (nodes : List Node) (h : ∀ n ∈ nodes, n.is_root = false) :
    node_tag_sweep nodes = (nodes, 0, 0) := by
  induction nodes with
  | nil => rfl
  | cons n later ih =>
    have hl := ih (fun m hm => h m (List.mem_cons_of_mem _ hm))
    have hn := h n (List.mem_cons_self _ _)
    unfold node_tag_sweep
    simp [hl, hn]

theorem node_tag_sweep_append (a b : List Node) (h : ∀ n ∈ b, n.is_root = false) :
    node_tag_sweep (a ++ b) = ((node_tag_sweep a).1 ++ b, (node_tag_sweep a).2) := by
  induction a with
  | nil => simp [node_tag_sweep_no_roots b h, node_tag_sweep]
  | cons n later ih =>
    simp only [List.cons_append]
    unfold node_tag_sweep
    rw [ih]
    simp only
    split <;> rfl

theorem zip_append_left {α β : Type} (l : List α) (m1 m2 : List β) (h : l.length = m1.length) :
    l.zip (m1 ++ m2) = l.zip m1 := by
  have := @List.zip_append _ _ l [] m1 m2 h
  simpa using this

/-- Passes behind the last root get nodes that do not contribute. -/
theorem build_passes_after_last_root (ndebug : Bool) (g g1 : le_rendergraph_o)
    (pre suf : List le_renderpass_o) (hsplit : g.passes = pre ++ suf)
    (hsuf : ∀ p ∈ suf, p.is_root = false) (h : rendergraph_build ndebug g = .ok g1) :
    ∃ t, rendergraph_build_trees ndebug g.passes = .ok t ∧
      g1.passes = (pre.zip t.nodes).filterMap write_back := by
  obtain ⟨t, ht, hp⟩ := build_passes_eq ndebug g g1 h
  refine ⟨t, ht, ?_⟩
  obtain ⟨nodes0, h0, h1, _⟩ := build_trees_ok ndebug g.passes t ht
  rw [hsplit] at h0
  -- split the nodes at the length of `pre`
  have hlen0 : nodes0.length = pre.length + suf.length := by
    rw [← h0.length_eq, List.length_append]
  have hsuf0 : Forall₂ PassNode suf (nodes0.drop pre.length) := by
    have := List.forall₂_drop pre.length h0
    rwa [List.drop_left] at this
  have hroot0 : ∀ n ∈ nodes0.drop pre.length, n.is_root = false := by
    intro n hn
    obtain ⟨k, hk⟩ := List.getElem?_of_mem hn
    obtain ⟨p, hp1, hp2⟩ := forall₂_getElem?_right hsuf0 k n hk
    have hp3 : n.is_root = p.is_root := hp2.1
    rw [hp3]
    exact hsuf p (List.getElem?_mem hp1)
  have hcon0 : ∀ n ∈ nodes0.drop pre.length, n.is_contributing = false := by
    intro n hn
    obtain ⟨k, hk⟩ := List.getElem?_of_mem hn
    obtain ⟨p, _, hp2⟩ := forall₂_getElem?_right hsuf0 k n hk
    exact hp2.2.1
  have hsw : (node_tag_sweep nodes0).1 =
      (node_tag_sweep (nodes0.take pre.length)).1 ++ nodes0.drop pre.length := by
    conv_lhs => rw [← List.take_append_drop pre.length nodes0]
    rw [node_tag_sweep_append _ _ hroot0]
  rw [hsw] at h1
  have hlen1 : (node_tag_sweep (nodes0.take pre.length)).1.length = pre.length := by
    rw [← (node_tag_sweep_rel _).length_eq, List.length_take]
    omega
  have htail : Forall₂ SameNode (nodes0.drop pre.length) (t.nodes.drop pre.length) := by
    have := List.forall₂_drop pre.length h1
    rwa [List.drop_left' hlen1] at this
  have hcon1 : ∀ pn ∈ suf.zip (t.nodes.drop pre.length), write_back pn = none := by
    intro pn hpn
    have hn : pn.2 ∈ t.nodes.drop pre.length := (List.of_mem_zip hpn).2
    obtain ⟨k, hk⟩ := List.getElem?_of_mem hn
    obtain ⟨n0, hn1, hn2⟩ := forall₂_getElem?_right htail k pn.2 hk
    have hc : pn.2.is_contributing = n0.is_contributing := hn2.2.2.2
    have := hcon0 n0 (List.getElem?_mem hn1)
    simp [write_back, hc, this]
  have hlen2 : pre.length = (t.nodes.take pre.length).length := by
    have := h1.length_eq
    rw [List.length_append, List.length_drop, hlen1] at this
    rw [List.length_take]
    omega
  rw [hp, hsplit]
  conv_lhs => rw [← List.take_append_drop pre.length t.nodes]
  rw [List.zip_append hlen2, List.filterMap_append]
  conv_rhs => rw [← List.take_append_drop pre.length t.nodes]
  rw [zip_append_left _ _ _ hlen2]
  rw [List.filterMap_eq_nil_iff.mpr hcon1, List.append_nil]

theorem bitsSub_refl (a : Nat) : BitsSub a a := fun _ h => h

theorem bitsSub_trans {a b c : Nat} (h1 : BitsSub a b) (h2 : BitsSub b c) : BitsSub a c :=
  fun x h => h2 x (h1 x h)

theorem bitsSub_or_left (a b : Nat) : BitsSub a (a ||| b) := by
  intro c h; simp [h]

theorem bitsSub_or_right (a b : Nat) : BitsSub b (a ||| b) := by
  intro c h; simp [h]

theorem queueMono_refl (st : List Nat × List Nat) : QueueMono st st :=
  fun _ s q h1 h2 => ⟨s, q, h1, Nat.le_refl s, h2, bitsSub_refl q⟩

theorem queueMono_trans {a b c : List Nat × List Nat} (h1 : QueueMono a b)
    (h2 : QueueMono b c) : QueueMono a c := by
  intro k s q hs hq
  obtain ⟨s1, q1, hs1, hle1, hq1, hb1⟩ := h1 k s q hs hq
  obtain ⟨s2, q2, hs2, hle2, hq2, hb2⟩ := h2 k s1 q1 hs1 hq1
  exact ⟨s2, q2, hs2, Nat.le_trans hle2 hle1, hq2, bitsSub_trans hb1 hb2⟩

theorem queueJoined_mono {i j : Nat} {a b : List Nat × List Nat} (h : QueueJoined i j a)
    (hm : QueueMono a b) : QueueJoined i j b := by
  obtain ⟨s, q, hs, hq, hi, hj⟩ := h
  obtain ⟨s1, q1, hs1, _, hq1, hb⟩ := hm i s q hs hq
  exact ⟨s1, q1, hs1, hq1, hb i hi, hb j hj⟩

/-- Normal form of one combination of the queues of `i` and `j`. -/
theorem queue_combine_eq (i j : Nat) (st st1 : List Nat × List Nat)
    (h : queue_combine i j st = .ok st1) :
    ∃ idx_i idx_j q_i q_j, st.2[i]? = some idx_i ∧ st.2[j]? = some idx_j ∧
      st.1[idx_i]? = some q_i ∧ st.1[idx_j]? = some q_j ∧
      st1 = (st.1.set (min idx_i idx_j) (q_j ||| q_i),
             st.2.set (if idx_i ≤ idx_j then j else i) (min idx_i idx_j)) := by
  unfold queue_combine queue_repoint at h
  simp only [bind_ok, vec_at_ok, pure_ok] at h
  obtain ⟨idx_j, hj, q_j, hqj, idx_i, hi, q_i, hqi, idx1, hidx1, target, htarget, q1, hq1, hst⟩ := h
  refine ⟨idx_i, idx_j, q_i, q_j, hi, hj, hqi, hqj, ?_⟩
  rw [vec_set_ok] at hq1
  by_cases hle : idx_i ≤ idx_j
  · simp only [hle, if_true, vec_set_ok] at hidx1 ⊢
    obtain ⟨hlt, rfl⟩ := hidx1
    have ht : target = idx_i := by
      rw [List.getElem?_set] at htarget
      by_cases hji : j = i
      · simp only [hji, if_true] at htarget
        have : i < st.2.length := by rw [← hji]; exact hlt
        simp only [this, if_true] at htarget
        exact (Option.some.inj htarget).symm
      · simp only [hji, if_false] at htarget
        rw [hi] at htarget
        exact (Option.some.inj htarget).symm
    rw [← hst, ← hq1.2, ht, Nat.min_eq_left hle]
  · simp only [hle, if_false, vec_set_ok] at hidx1 ⊢
    obtain ⟨hlt, rfl⟩ := hidx1
    have ht : target = idx_j := by
      rw [List.getElem?_set] at htarget
      simp only [if_true, hlt] at htarget
      exact (Option.some.inj htarget).symm
    rw [← hst, ← hq1.2, ht, Nat.min_eq_right (by omega)]

theorem queueWF_of_mono {n : Nat} {a b : List Nat × List Nat} (hwf : QueueWF n a)
    (hm : QueueMono a b) (h1 : b.1.length = n) (h2 : b.2.length = n) : QueueWF n b := by
  refine ⟨h1, h2, ?_⟩
  intro k hk
  obtain ⟨s, q, hs, hle, hq, hbit⟩ := hwf.2.2 k hk
  obtain ⟨s1, q1, hs1, hle1, hq1, hb⟩ := hm k s q hs hq
  exact ⟨s1, q1, hs1, Nat.le_trans hle1 hle, hq1, hb k hbit⟩

/-- One combination keeps the state well formed, lets the masks only grow and
joins the two roots. -/
theorem queue_combine_spec (n i j : Nat) (st st1 : List Nat × List Nat) (hwf : QueueWF n st)
    (hi : i < n) (hj : j < n) (h : queue_combine i j st = .ok st1) :
    QueueWF n st1 ∧ QueueMono st st1 ∧ QueueJoined i j st1 := by
  obtain ⟨idx_i, idx_j, q_i, q_j, hii, hij, hqi, hqj, rfl⟩ := queue_combine_eq i j st st1 h
  obtain ⟨hl1, hl2, hall⟩ := hwf
  obtain ⟨si, qi, hsi, hsi_le, hqi', hbi⟩ := hall i hi
  obtain ⟨sj, qj, hsj, hsj_le, hqj', hbj⟩ := hall j hj
  rw [hii] at hsi; cases hsi
  rw [hij] at hsj; cases hsj
  rw [hqi] at hqi'; cases hqi'
  rw [hqj] at hqj'; cases hqj'
  have hm_lt : min idx_i idx_j < st.1.length := by
    rw [hl1]; exact Nat.lt_of_le_of_lt (Nat.min_le_left _ _) (Nat.lt_of_le_of_lt hsi_le hi)
  have hr_lt : (if idx_i ≤ idx_j then j else i) < st.2.length := by
    rw [hl2]; split <;> assumption
  have hF1 : (st.1.set (min idx_i idx_j) (q_j ||| q_i))[min idx_i idx_j]? = some (q_j ||| q_i) := by
    rw [List.getElem?_set]; simp [hm_lt]
  have hF3 : (st.2.set (if idx_i ≤ idx_j then j else i) (min idx_i idx_j))[
      if idx_i ≤ idx_j then j else i]? = some (min idx_i idx_j) := by
    rw [List.getElem?_set]; simp [hr_lt]
  have hqm : ∃ qm, st.1[min idx_i idx_j]? = some qm ∧ BitsSub qm (q_j ||| q_i) := by
    by_cases hle : idx_i ≤ idx_j
    · rw [Nat.min_eq_left hle]; exact ⟨q_i, hqi, bitsSub_or_right _ _⟩
    · rw [Nat.min_eq_right (by omega)]; exact ⟨q_j, hqj, bitsSub_or_left _ _⟩
  have hmono : QueueMono st (st.1.set (min idx_i idx_j) (q_j ||| q_i),
      st.2.set (if idx_i ≤ idx_j then j else i) (min idx_i idx_j)) := by
    intro k s q hs hq
    by_cases hk : k = (if idx_i ≤ idx_j then j else i)
    · refine ⟨min idx_i idx_j, q_j ||| q_i, by rw [hk]; exact hF3, ?_, hF1, ?_⟩
      · by_cases hle : idx_i ≤ idx_j
        · simp only [hle, if_true] at hk
          rw [hk, hij] at hs; cases hs
          exact Nat.min_le_right _ _
        · simp only [hle, if_false] at hk
          rw [hk, hii] at hs; cases hs
          exact Nat.min_le_left _ _
      · by_cases hle : idx_i ≤ idx_j
        · simp only [hle, if_true] at hk
          rw [hk, hij] at hs; cases hs
          rw [hqj] at hq; cases hq
          exact bitsSub_or_left _ _
        · simp only [hle, if_false] at hk
          rw [hk, hii] at hs; cases hs
          rw [hqi] at hq; cases hq
          exact bitsSub_or_right _ _
    · have hs1 : (st.2.set (if idx_i ≤ idx_j then j else i) (min idx_i idx_j))[k]? = some s := by
        rw [List.getElem?_set_ne (Ne.symm hk)]; exact hs
      by_cases hsm : s = min idx_i idx_j
      · obtain ⟨qm, hqm1, hqm2⟩ := hqm
        rw [← hsm, hq] at hqm1; cases hqm1
        exact ⟨s, q_j ||| q_i, hs1, Nat.le_refl _, by rw [hsm]; exact hF1, hqm2⟩
      · refine ⟨s, q, hs1, Nat.le_refl _, ?_, bitsSub_refl q⟩
        show (st.1.set (min idx_i idx_j) (q_j ||| q_i))[s]? = some q
        rw [List.getElem?_set_ne (Ne.symm hsm)]; exact hq
  refine ⟨queueWF_of_mono ⟨hl1, hl2, hall⟩ hmono (by simp [hl1]) (by simp [hl2]), hmono, ?_⟩
  refine ⟨min idx_i idx_j, q_j ||| q_i, ?_, hF1, by simp [hbi], by simp [hbj]⟩
  show (st.2.set (if idx_i ≤ idx_j then j else i) (min idx_i idx_j))[i]? = some (min idx_i idx_j)
  by_cases hle : idx_i ≤ idx_j
  · simp only [hle, if_true]
    by_cases hji : j = i
    · rw [hji, List.getElem?_set]; simp [hl2, hi]
    · rw [List.getElem?_set_ne hji, hii, Nat.min_eq_left hle]
  · simp only [hle, if_false]
    rw [List.getElem?_set]; simp [hl2, hi]

theorem foldlM_inv {σ α : Type} (f : σ → α → Except Fault σ) (P : σ → Prop) (R : σ → σ → Prop)
    (hrefl : ∀ s, R s s) (htrans : ∀ a b c, R a b → R b c → R a c) :
    ∀ (l : List α) (s s1 : σ),
      (∀ x ∈ l, ∀ a b, P a → f a x = .ok b → P b ∧ R a b) → P s →
      l.foldlM f s = .ok s1 → P s1 ∧ R s s1 := by
  intro l
  induction l with
  | nil =>
    intro s s1 _ hs h
    simp only [List.foldlM_nil, pure_ok] at h
    subst h
    exact ⟨hs, hrefl s⟩
  | cons x rest ih =>
    intro s s1 hstep hs h
    simp only [List.foldlM_cons, bind_ok] at h
    obtain ⟨s2, h1, h2⟩ := h
    obtain ⟨hp2, hr2⟩ := hstep x (List.mem_cons_self _ _) s s2 hs h1
    obtain ⟨hp3, hr3⟩ := ih s2 s1 (fun y hy => hstep y (List.mem_cons_of_mem _ hy)) hp2 h2
    exact ⟨hp3, htrans _ _ _ hr2 hr3⟩

theorem foldlM_hit {σ α : Type} (f : σ → α → Except Fault σ) (P : σ → Prop) (R : σ → σ → Prop)
    (Q : σ → Prop) (hrefl : ∀ s, R s s) (htrans : ∀ a b c, R a b → R b c → R a c)
    (hQ : ∀ a b, Q a → R a b → Q b) (x : α) :
    ∀ (l : List α) (s s1 : σ), x ∈ l →
      (∀ y ∈ l, ∀ a b, P a → f a y = .ok b → P b ∧ R a b) →
      (∀ a b, P a → f a x = .ok b → Q b) → P s →
      l.foldlM f s = .ok s1 → Q s1 := by
  intro l
  induction l with
  | nil => intro s s1 hx; simp at hx
  | cons y rest ih =>
    intro s s1 hx hstep hhit hs h
    simp only [List.foldlM_cons, bind_ok] at h
    obtain ⟨s2, h1, h2⟩ := h
    obtain ⟨hp2, _⟩ := hstep y (List.mem_cons_self _ _) s s2 hs h1
    have hrest := fun z hz => hstep z (List.mem_cons_of_mem _ hz)
    by_cases hxy : x = y
    · subst hxy
      have hq2 := hhit s s2 hs h1
      obtain ⟨_, hr3⟩ := foldlM_inv f P R hrefl htrans rest s2 s1 hrest hp2 h2
      exact hQ _ _ hq2 hr3
    · have hx1 : x ∈ rest := by
        rcases List.mem_cons.mp hx with hx | hx
        · exact absurd hx hxy
        · exact hx
      exact ih s2 s1 hx1 hrest hhit hp2 h2

theorem queue_combine_step_spec (rr rw : List Nat) (n i j : Nat) (a b : List Nat × List Nat)
    (hi : i < n) (hj : j < n) (ha : QueueWF n a)
    (h : queue_combine_step rr rw i a j = .ok b) :
    (QueueWF n b ∧ QueueMono a b) ∧ (roots_overlap rr rw i j = .ok true → QueueJoined i j b) := by
  unfold queue_combine_step at h
  simp only [bind_ok] at h
  obtain ⟨ov, hov, h⟩ := h
  cases ov with
  | true =>
    simp only [if_true] at h
    obtain ⟨h1, h2, h3⟩ := queue_combine_spec n i j a b ha hi hj h
    exact ⟨⟨h1, h2⟩, fun _ => h3⟩
  | false =>
    simp only [Bool.false_eq_true, if_false, pure_ok] at h
    subst h
    refine ⟨⟨ha, queueMono_refl a⟩, ?_⟩
    intro h2
    rw [hov] at h2
    cases h2

theorem mem_pair_range {n i j : Nat} (h : j ∈ List.range' (i + 1) (n - (i + 1))) :
    i < j ∧ j < n := by
  rw [List.mem_range'_1] at h
  omega

/-- The inner loop for the root `i`. -/
theorem queue_inner_spec (rr rw : List Nat) (n i : Nat) (a b : List Nat × List Nat) (hi : i < n)
    (ha : QueueWF n a)
    (h : (List.range' (i + 1) (n - (i + 1))).foldlM (queue_combine_step rr rw i) a = .ok b) :
    (QueueWF n b ∧ QueueMono a b) ∧
    (∀ j, i < j → j < n → roots_overlap rr rw i j = .ok true → QueueJoined i j b) := by
  have hstep : ∀ y ∈ List.range' (i + 1) (n - (i + 1)), ∀ a b, QueueWF n a →
      queue_combine_step rr rw i a y = .ok b → QueueWF n b ∧ QueueMono a b := by
    intro y hy a b hwa hab
    exact (queue_combine_step_spec rr rw n i y a b hi (mem_pair_range hy).2 hwa hab).1
  refine ⟨foldlM_inv _ _ _ queueMono_refl (fun _ _ _ => queueMono_trans) _ a b hstep ha h, ?_⟩
  intro j hij hj hov
  have hmem : j ∈ List.range' (i + 1) (n - (i + 1)) := by
    rw [List.mem_range'_1]; omega
  exact foldlM_hit _ (QueueWF n) QueueMono (QueueJoined i j) queueMono_refl
    (fun _ _ _ => queueMono_trans) (fun _ _ => queueJoined_mono) j _ a b hmem hstep
    (fun a b hwa hab => (queue_combine_step_spec rr rw n i j a b hi hj hwa hab).2 hov) ha h

/-- The pair loop: every overlapping pair of roots ends up joined. -/
theorem queue_outer_spec (rr rw : List Nat) (n : Nat) (a b : List Nat × List Nat)
    (ha : QueueWF n a)
    (h : (List.range n).foldlM
      (fun st i => (List.range' (i + 1) (n - (i + 1))).foldlM (queue_combine_step rr rw i) st)
      a = .ok b) :
    (QueueWF n b ∧ QueueMono a b) ∧
    (∀ i j, i < j → j < n → roots_overlap rr rw i j = .ok true → QueueJoined i j b) := by
  have hstep : ∀ y ∈ List.range n, ∀ a b, QueueWF n a →
      (List.range' (y + 1) (n - (y + 1))).foldlM (queue_combine_step rr rw y) a = .ok b →
      QueueWF n b ∧ QueueMono a b := by
    intro y hy a b hwa hab
    exact (queue_inner_spec rr rw n y a b (List.mem_range.mp hy) hwa hab).1
  refine ⟨foldlM_inv _ _ _ queueMono_refl (fun _ _ _ => queueMono_trans) _ a b hstep ha h, ?_⟩
  intro i j hij hj hov
  have hi : i < n := by omega
  exact foldlM_hit _ (QueueWF n) QueueMono (QueueJoined i j) queueMono_refl
    (fun _ _ _ => queueMono_trans) (fun _ _ => queueJoined_mono) i _ a b
    (List.mem_range.mpr hi) hstep
    (fun a b hwa hab => (queue_inner_spec rr rw n i a b hi hwa hab).2 j hij hj hov) ha h

theorem queueInit_zero (n : Nat) : QueueInit n 0 (List.replicate n 0, List.replicate n 0) := by
  refine ⟨by simp, by simp, ?_⟩
  intro m hm
  simp [List.getElem?_replicate, hm]

theorem queue_init_step_ok (n k : Nat) (st st1 : List Nat × List Nat) (hk : k < n)
    (hinv : QueueInit n k st) (h : queue_init_step st k = .ok st1) :
    QueueInit n (k + 1) st1 ∧ k < 64 := by
  obtain ⟨hl1, hl2, hall⟩ := hinv
  unfold queue_init_step at h
  simp only [bind_ok, vec_at_ok, shl_one_ok, vec_set_ok, pure_ok] at h
  obtain ⟨old, hold, bit, ⟨hk64, hbit⟩, q1, ⟨_, hq1⟩, i1, ⟨_, hi1⟩, hst⟩ := h
  have hold0 : old = 0 := by
    have := (hall k hk).2
    simp only [Nat.lt_irrefl, if_false] at this
    rw [this] at hold
    exact (Option.some.inj hold).symm
  subst hst hq1 hi1 hbit hold0
  refine ⟨⟨by simp [hl1], by simp [hl2], ?_⟩, hk64⟩
  intro m hm
  obtain ⟨h2, h1⟩ := hall m hm
  by_cases hmk : m = k
  · subst hmk
    simp [List.getElem?_set, hl1, hl2, hm]
  · have hne : k ≠ m := Ne.symm hmk
    simp only [List.getElem?_set_ne hne, h1, h2]
    by_cases hlt : m < k
    · have : m < k + 1 := by omega
      simp [hlt, this]
    · have : ¬ m < k + 1 := by omega
      simp [hlt, this]

theorem queue_init_step_ex (n k : Nat) (st : List Nat × List Nat) (hk : k < n) (hk64 : k < 64)
    (hinv : QueueInit n k st) : ∃ st1, queue_init_step st k = .ok st1 := by
  obtain ⟨hl1, hl2, hall⟩ := hinv
  obtain ⟨_, h1⟩ := hall k hk
  unfold queue_init_step
  simp only [bind_ok, vec_at_ok, shl_one_ok, vec_set_ok, pure_ok]
  exact ⟨_, _, h1, _, ⟨hk64, rfl⟩, _, ⟨by omega, rfl⟩, _, ⟨by omega, rfl⟩, rfl⟩

theorem queue_init_fold_ok (n : Nat) :
    ∀ k, k ≤ n → ∀ st, (List.range k).foldlM queue_init_step
      (List.replicate n 0, List.replicate n 0) = .ok st → QueueInit n k st ∧ k ≤ 64 := by
  intro k
  induction k with
  | zero =>
    intro _ st h
    simp only [List.range_zero, List.foldlM_nil, pure_ok] at h
    subst h
    exact ⟨queueInit_zero n, by omega⟩
  | succ k ih =>
    intro hk st h
    rw [List.range_succ, List.foldlM_append] at h
    simp only [bind_ok, List.foldlM_cons, List.foldlM_nil, pure_ok] at h
    obtain ⟨st0, h0, st1, h1, rfl⟩ := h
    obtain ⟨hinv, _⟩ := ih (by omega) st0 h0
    obtain ⟨hinv1, hlt⟩ := queue_init_step_ok n k st0 st1 (by omega) hinv h1
    exact ⟨hinv1, by omega⟩

theorem queue_init_fold_ex (n : Nat) :
    ∀ k, k ≤ n → k ≤ 64 → ∃ st, (List.range k).foldlM queue_init_step
      (List.replicate n 0, List.replicate n 0) = .ok st := by
  intro k
  induction k with
  | zero => intro _ _; exact ⟨_, rfl⟩
  | succ k ih =>
    intro hk hk64
    obtain ⟨st0, h0⟩ := ih (by omega) (by omega)
    obtain ⟨hinv, _⟩ := queue_init_fold_ok n k (by omega) st0 h0
    obtain ⟨st1, h1⟩ := queue_init_step_ex n k st0 (by omega) (by omega) hinv
    refine ⟨st1, ?_⟩
    rw [List.range_succ, List.foldlM_append]
    simp only [bind_ok, List.foldlM_cons, List.foldlM_nil, pure_ok]
    exact ⟨st0, h0, st1, h1, rfl⟩

theorem testBit_one_shiftLeft_self (k : Nat) : (1 <<< k).testBit k = true := by
  rw [Nat.one_shiftLeft]; exact Nat.testBit_two_pow_self

theorem queueInit_wf (n : Nat) (st : List Nat × List Nat) (h : QueueInit n n st) :
    QueueWF n st := by
  obtain ⟨hl1, hl2, hall⟩ := h
  refine ⟨hl1, hl2, ?_⟩
  intro k hk
  obtain ⟨h2, h1⟩ := hall k hk
  simp only [hk, if_true] at h1 h2
  exact ⟨k, 1 <<< k, h2, Nat.le_refl k, h1, testBit_one_shiftLeft_self k⟩

theorem queueInit_eq (n : Nat) (st : List Nat × List Nat) (h : QueueInit n n st) :
    st = ((List.range n).map (fun k => 1 <<< k), List.range n) := by
  obtain ⟨hl1, hl2, hall⟩ := h
  have e1 : st.1 = (List.range n).map (fun k => 1 <<< k) := by
    apply List.ext_getElem?
    intro m
    by_cases hm : m < n
    · rw [(hall m hm).2]
      simp [hm, List.getElem?_range]
    · rw [List.getElem?_eq_none (by omega), List.getElem?_eq_none (by simp; omega)]
  have e2 : st.2 = List.range n := by
    apply List.ext_getElem?
    intro m
    by_cases hm : m < n
    · rw [(hall m hm).1]
      simp [hm, List.getElem?_range]
    · rw [List.getElem?_eq_none (by omega), List.getElem?_eq_none (by simp; omega)]
  exact Prod.ext e1 e2

theorem mem_std_unique (x : Nat) : ∀ l : List Nat, x ∈ l → x ∈ std_unique l
  | [], h => h
  | [y], h => by simpa [std_unique] using h
  | y :: z :: rest, h => by
    have ih := mem_std_unique x (z :: rest)
    by_cases hyz : y = z
    · rw [std_unique, if_pos hyz]
      rcases List.mem_cons.mp h with h | h
      · apply ih; rw [h, hyz]; exact List.mem_cons_self _ _
      · exact ih h
    · rw [std_unique, if_neg hyz]
      rcases List.mem_cons.mp h with h | h
      · rw [h]; exact List.mem_cons_self _ _
      · exact List.mem_cons_of_mem _ (ih h)

/-- The emitted masks are the old masks followed by the queue ids the deduplicated
indirection table points at. -/
theorem emit_masks_eq (ndebug : Bool) (queue_id : List Nat) :
    ∀ (l masks : List Nat) (c : Nat) (out : List Nat) (c1 : Nat),
      emit_masks ndebug queue_id l (masks, c) = .ok (out, c1) →
      ∃ ms, out = masks ++ ms ∧ Forall₂ (fun idx m => queue_id[idx]? = some m) l ms := by
  intro l
  induction l with
  | nil =>
    intro masks c out c1 h
    simp only [emit_masks, pure_ok, Prod.mk.injEq] at h
    exact ⟨[], by simp [h.1], Forall₂.nil⟩
  | cons idx rest ih =>
    intro masks c out c1 h
    unfold emit_masks at h
    simp only [bind_ok, vec_at_ok] at h
    obtain ⟨q, hq, _, _, h⟩ := h
    obtain ⟨ms, hms, hf⟩ := ih _ _ _ _ h
    exact ⟨q :: ms, by simp [hms], Forall₂.cons hq hf⟩

theorem and_ne_zero_of_bitsSub {x a b : Nat} (h : x &&& a ≠ 0) (hs : BitsSub a b) :
    x &&& b ≠ 0 := by
  obtain ⟨c, hc⟩ := Nat.ne_zero_implies_bit_true h
  intro h0
  have : (x &&& b).testBit c = true := by
    simp only [Nat.testBit_and, Bool.and_eq_true] at hc ⊢
    exact ⟨hc.1, hs c hc.2⟩
  rw [h0, Nat.zero_testBit] at this
  cases this

theorem and_ne_zero_of_bitsSub_left {x y a : Nat} (h : x &&& a ≠ 0) (hs : BitsSub x y) :
    y &&& a ≠ 0 := by
  obtain ⟨c, hc⟩ := Nat.ne_zero_implies_bit_true h
  intro h0
  have : (y &&& a).testBit c = true := by
    simp only [Nat.testBit_and, Bool.and_eq_true] at hc ⊢
    exact ⟨hs c hc.1, hc.2⟩
  rw [h0, Nat.zero_testBit] at this
  cases this

/-- The inner accumulation loop: the accumulators only grow, and a node is
either unchanged or a non-root that got the bit, wrote something the tree
reads and has its writes accumulated. -/
theorem accumulate_tree_spec (bit : Nat) (nodes : List Node) :
    ∀ (ra wa : Nat),
      BitsSub ra (accumulate_tree bit nodes ra wa).2.1 ∧
      BitsSub wa (accumulate_tree bit nodes ra wa).2.2 ∧
      ∀ n1 ∈ (accumulate_tree bit nodes ra wa).1, n1 ∈ nodes ∨
        ∃ n ∈ nodes, n.is_root = false ∧
          n1 = { n with root_index_affinity := n.root_index_affinity ||| bit } ∧
          n.writes &&& (accumulate_tree bit nodes ra wa).2.1 ≠ 0 ∧
          BitsSub n.writes (accumulate_tree bit nodes ra wa).2.2 := by
  induction nodes with
  | nil =>
    intro ra wa
    refine ⟨bitsSub_refl _, bitsSub_refl _, ?_⟩
    intro n1 h
    simp [accumulate_tree] at h
  | cons n earlier ih =>
    intro ra wa
    unfold accumulate_tree
    by_cases hr : n.is_root = true
    · rw [if_pos hr]
      obtain ⟨h1, h2, h3⟩ := ih ra wa
      refine ⟨h1, h2, ?_⟩
      intro n1 hn1
      rcases List.mem_cons.mp hn1 with e | hmem
      · exact Or.inl (by rw [e]; exact List.mem_cons_self _ _)
      · rcases h3 n1 hmem with h | ⟨m, hm, hrest⟩
        · exact Or.inl (List.mem_cons_of_mem _ h)
        · exact Or.inr ⟨m, List.mem_cons_of_mem _ hm, hrest⟩
    · rw [if_neg hr]
      by_cases hw : ((n.writes &&& ra) != 0) = true
      · rw [if_pos hw]
        obtain ⟨h1, h2, h3⟩ := ih (ra ||| n.reads) (wa ||| n.writes)
        refine ⟨bitsSub_trans (bitsSub_or_left _ _) h1, bitsSub_trans (bitsSub_or_left _ _) h2, ?_⟩
        intro n1 hn1
        rcases List.mem_cons.mp hn1 with e | hmem
        · refine Or.inr ⟨n, List.mem_cons_self _ _, by simpa using hr, e, ?_, ?_⟩
          · have hne : n.writes &&& ra ≠ 0 := by simpa using hw
            exact and_ne_zero_of_bitsSub hne (bitsSub_trans (bitsSub_or_left _ _) h1)
          · exact bitsSub_trans (bitsSub_or_right _ _) h2
        · rcases h3 n1 hmem with h | ⟨m, hm, hrest⟩
          · exact Or.inl (List.mem_cons_of_mem _ h)
          · exact Or.inr ⟨m, List.mem_cons_of_mem _ hm, hrest⟩
      · rw [if_neg hw]
        obtain ⟨h1, h2, h3⟩ := ih ra wa
        refine ⟨h1, h2, ?_⟩
        intro n1 hn1
        rcases List.mem_cons.mp hn1 with e | hmem
        · exact Or.inl (by rw [e]; exact List.mem_cons_self _ _)
        · rcases h3 n1 hmem with h | ⟨m, hm, hrest⟩
          · exact Or.inl (List.mem_cons_of_mem _ h)
          · exact Or.inr ⟨m, List.mem_cons_of_mem _ hm, hrest⟩

theorem affInv_final {K : Nat} {rr rw rr1 rw1 : List Nat} {n : Node} (h : AffInv K rr rw n)
    (hsame : ∀ b : Nat, b < K → rr1[b]? = rr[b]? ∧ rw1[b]? = rw[b]?) : AffFinal rr1 rw1 n := by
  intro hroot b hb
  obtain ⟨hlt, r, w, h1, h2, h3, h4⟩ := h hroot b hb
  exact ⟨r, w, by rw [(hsame b hlt).1]; exact h1, by rw [(hsame b hlt).2]; exact h2, h3, h4⟩

theorem affInv_step {K : Nat} {rr rw : List Nat} {n : Node} (ra wa : Nat) (h : AffInv K rr rw n) :
    AffInv (K + 1) (rr.set K ra) (rw.set K wa) n := by
  intro hroot b hb
  obtain ⟨hlt, r, w, h1, h2, h3, h4⟩ := h hroot b hb
  have hne : K ≠ b := by omega
  exact ⟨by omega, r, w, by rw [List.getElem?_set_ne hne]; exact h1,
    by rw [List.getElem?_set_ne hne]; exact h2, h3, h4⟩

/-- The outer accumulation loop establishes the affinity invariant and keeps
the accumulator vectors' lengths and their entries below the current root. -/
theorem accumulate_roots_aff (remaining : Nat) :
    ∀ (nodes : List Node) (K : Nat) (rr rw : List Nat) (out : List Node) (rr1 rw1 : List Nat),
      accumulate_roots remaining nodes K rr rw = .ok (out, rr1, rw1) →
      (∀ n ∈ nodes, AffInv K rr rw n) →
      (∀ n ∈ out, AffFinal rr1 rw1 n) ∧
      (∀ b : Nat, b < K → rr1[b]? = rr[b]? ∧ rw1[b]? = rw[b]?) ∧
      rr1.length = rr.length ∧ rw1.length = rw.length := by
  induction remaining with
  | zero =>
    intro nodes K rr rw out rr1 rw1 h hinv
    simp only [accumulate_roots, pure_ok, Prod.mk.injEq] at h
    obtain ⟨rfl, rfl, rfl⟩ := h
    exact ⟨fun n hn => affInv_final (hinv n hn) (fun _ _ => ⟨rfl, rfl⟩),
      fun _ _ => ⟨rfl, rfl⟩, rfl, rfl⟩
  | succ m ih =>
    intro nodes K rr rw out rr1 rw1 h hinv
    cases nodes with
    | nil =>
      simp only [accumulate_roots, pure_ok, Prod.mk.injEq] at h
      obtain ⟨rfl, rfl, rfl⟩ := h
      exact ⟨fun n hn => by simp at hn, fun _ _ => ⟨rfl, rfl⟩, rfl, rfl⟩
    | cons r earlier =>
      unfold accumulate_roots at h
      by_cases hr : r.is_root = true
      · rw [if_pos hr] at h
        simp only [bind_ok, vec_at_ok, shl_one_ok, vec_set_ok] at h
        obtain ⟨_, _, _, _, bit, ⟨hK64, hbit⟩, rr2, ⟨hKr, hrr2⟩, rw2, ⟨hKw, hrw2⟩,
          ⟨e2, rr3, rw3⟩, hrec, hfin⟩ := h
        simp only [pure_ok, Prod.mk.injEq] at hfin
        obtain ⟨rfl, rfl, rfl⟩ := hfin
        obtain ⟨_, _, hspec⟩ := accumulate_tree_spec bit earlier r.reads r.writes
        have hinv1 : ∀ n ∈ (accumulate_tree bit earlier r.reads r.writes).1,
            AffInv (K + 1) rr2 rw2 n := by
          intro n1 hn1
          rw [← hrr2, ← hrw2]
          rcases hspec n1 hn1 with hmem | ⟨n, hmem, hnr, hn1eq, hw1, hw2⟩
          · exact affInv_step _ _ (hinv n1 (List.mem_cons_of_mem _ hmem))
          · have hold := affInv_step (accumulate_tree bit earlier r.reads r.writes).2.1
              (accumulate_tree bit earlier r.reads r.writes).2.2
              (hinv n (List.mem_cons_of_mem _ hmem))
            intro hroot b hb
            rw [hn1eq] at hb
            simp only [Nat.testBit_or, Bool.or_eq_true] at hb
            rcases hb with hb | hb
            · have := hold hnr b hb
              rw [hn1eq]
              exact this
            · have hbK : b = K := by
                rw [← hbit, Nat.one_shiftLeft, Nat.testBit_two_pow] at hb
                have hKb : K = b := by simpa using hb
                exact hKb.symm
              subst hbK
              rw [hn1eq]
              refine ⟨by omega, _, _, ?_, ?_, hw1, hw2⟩
              · rw [List.getElem?_set]; simp [hKr]
              · rw [List.getElem?_set]; simp [hKw]
        obtain ⟨h1, h2, h3, h4⟩ := ih _ _ _ _ _ _ _ hrec hinv1
        refine ⟨?_, ?_, ?_, ?_⟩
        · intro n hn
          rcases List.mem_cons.mp hn with e | hmem
          · intro hroot
            rw [e] at hroot
            simp [hr] at hroot
          · exact h1 n hmem
        · intro b hb
          obtain ⟨e1, e2'⟩ := h2 b (by omega)
          have hne : K ≠ b := by omega
          rw [e1, e2', ← hrr2, ← hrw2, List.getElem?_set_ne hne, List.getElem?_set_ne hne]
          exact ⟨rfl, rfl⟩
        · rw [h3, ← hrr2, List.length_set]
        · rw [h4, ← hrw2, List.length_set]
      · rw [if_neg hr] at h
        simp only [bind_ok] at h
        obtain ⟨⟨e2, rr3, rw3⟩, hrec, hfin⟩ := h
        simp only [pure_ok, Prod.mk.injEq] at hfin
        obtain ⟨rfl, rfl, rfl⟩ := hfin
        obtain ⟨h1, h2, h3, h4⟩ := ih _ _ _ _ _ _ _ hrec
          (fun n hn => hinv n (List.mem_cons_of_mem _ hn))
        refine ⟨?_, h2, h3, h4⟩
        intro n hn
        rcases List.mem_cons.mp hn with e | hmem
        · rw [e]
          exact affInv_final (hinv r (List.mem_cons_self _ _)) h2
        · exact h1 n hmem

theorem build_trees_aff (ndebug : Bool) (passes : List le_renderpass_o) (t : RootTrees)
    (h : rendergraph_build_trees ndebug passes = .ok t) :
    (∀ n ∈ t.nodes, AffFinal t.root_reads_accum t.root_writes_accum n) ∧
    t.root_reads_accum.length = t.root_count ∧ t.root_writes_accum.length = t.root_count := by
  unfold rendergraph_build_trees at h
  simp only [bind_ok] at h
  obtain ⟨⟨u, nodes0⟩, h0, _, _, ⟨rn, rr, rw⟩, hacc, hfin⟩ := h
  simp only [pure_ok] at hfin
  have hrel := build_nodes_rel _ _ _ _ _ h0
  have hsw := node_tag_sweep_rel nodes0
  have hzero : ∀ n ∈ (node_tag_contributing nodes0).1.reverse, AffInv 0
      (List.replicate (node_tag_contributing nodes0).2 0)
      (List.replicate (node_tag_contributing nodes0).2 0) n := by
    intro n hn hroot b hb
    rw [List.mem_reverse] at hn
    obtain ⟨k, hk⟩ := List.getElem?_of_mem hn
    obtain ⟨n0, hn0, htag⟩ := forall₂_getElem?_right hsw k n hk
    obtain ⟨p, _, hpn⟩ := forall₂_getElem?_right hrel k n0 hn0
    have : n.root_index_affinity = 0 := htag.2.2.1.trans hpn.2.2
    rw [this, Nat.zero_testBit] at hb
    cases hb
  obtain ⟨h1, _, h3, h4⟩ := accumulate_roots_aff _ _ _ _ _ _ _ _ hacc hzero
  rw [← hfin]
  refine ⟨?_, by simpa using h3, by simpa using h4⟩
  intro n hn
  exact h1 n (by simpa using hn)

theorem build_queues_spec (rr rw : List Nat) (n : Nat) (st : List Nat × List Nat)
    (h : rendergraph_build_queues rr rw n = .ok st) :
    QueueWF n st ∧
    (∀ i j, i < j → j < n → roots_overlap rr rw i j = .ok true → QueueJoined i j st) := by
  unfold rendergraph_build_queues at h
  simp only [bind_ok] at h
  obtain ⟨st0, h0, h1⟩ := h
  obtain ⟨hinit, _⟩ := queue_init_fold_ok n n (Nat.le_refl n) st0 h0
  obtain ⟨⟨hwf, _⟩, hj⟩ := queue_outer_spec rr rw n st0 st (queueInit_wf n st0 hinit) h1
  exact ⟨hwf, hj⟩

theorem roots_overlap_true (rr rw : List Nat) (i j r w : Nat) (hr : rr[i]? = some r)
    (hw : rw[j]? = some w) (h : r &&& w ≠ 0) : roots_overlap rr rw i j = .ok true := by
  unfold roots_overlap
  simp only [(vec_at_ok rr i r).mpr hr, (vec_at_ok rw j w).mpr hw, bind, Except.bind]
  simp [h, pure, Except.pure]

/-- The parts of a successful build. -/
theorem build_parts (ndebug : Bool) (g g1 : le_rendergraph_o)
    (h : rendergraph_build ndebug g = .ok g1) :
    ∃ t queue_id queue_id_idx ms,
      rendergraph_build_trees ndebug g.passes = .ok t ∧
      rendergraph_build_queues t.root_reads_accum t.root_writes_accum t.root_count =
        .ok (queue_id, queue_id_idx) ∧
      g1.root_passes_affinity_masks = g.root_passes_affinity_masks ++ ms ∧
      Forall₂ (fun idx m => queue_id[idx]? = some m) (std_unique queue_id_idx) ms ∧
      g1.passes = (g.passes.zip t.nodes).filterMap write_back := by
  unfold rendergraph_build at h
  simp only [bind_ok] at h
  obtain ⟨t, ht, ⟨q, qi⟩, hq, ⟨m, c⟩, hm, ps, hps, hfin⟩ := h
  simp only [pure_ok] at hfin
  obtain ⟨ms, hms, hf⟩ := emit_masks_eq _ _ _ _ _ _ _ hm
  refine ⟨t, q, qi, ms, ht, hq, ?_, hf, ?_⟩
  · rw [← hfin]; exact hms
  · have := consolidate_passes_eq _ _ _ _ _ hps
    rw [← hfin]
    simpa using this

/-- A joined pair of roots shows in one emitted mask. -/
theorem joined_emitted {queue_id queue_id_idx ms : List Nat} {i j : Nat}
    (hj : QueueJoined i j (queue_id, queue_id_idx))
    (hf : Forall₂ (fun idx m => queue_id[idx]? = some m) (std_unique queue_id_idx) ms) :
    ∃ m ∈ ms, m.testBit i = true ∧ m.testBit j = true := by
  obtain ⟨s, q, hs, hq, hbi, hbj⟩ := hj
  have hmem : s ∈ std_unique queue_id_idx := mem_std_unique s _ (List.getElem?_mem hs)
  obtain ⟨k, hk⟩ := List.getElem?_of_mem hmem
  obtain ⟨m, hm, hqm⟩ := forall₂_getElem? hf k s hk
  have hq' : queue_id[s]? = some q := hq
  rw [hq'] at hqm
  cases hqm
  exact ⟨q, List.getElem?_mem hm, hbi, hbj⟩

/-- A non-root node with the affinity bits of two roots forces the two roots
into one emitted mask. -/
theorem shared_node_joined (ndebug : Bool) (g g1 : le_rendergraph_o)
    (h : rendergraph_build ndebug g = .ok g1) (q : le_renderpass_o) (hq : q ∈ g1.passes)
    (hroot : q.is_root = false) (i j : Nat) (hij : i < j)
    (hi : q.root_passes_affinity.testBit i = true)
    (hj : q.root_passes_affinity.testBit j = true) :
    ∃ m ∈ g1.root_passes_affinity_masks, m.testBit i = true ∧ m.testBit j = true := by
  obtain ⟨t, queue_id, queue_id_idx, ms, ht, hqs, hmasks, hf, hps⟩ := build_parts ndebug g g1 h
  rw [hps, List.mem_filterMap] at hq
  obtain ⟨⟨p, n⟩, hmem, hwb⟩ := hq
  unfold write_back at hwb
  by_cases hc : n.is_contributing = true
  · simp only [hc, if_true, Option.some.injEq] at hwb
    subst hwb
    simp only at hroot hi hj
    obtain ⟨haff, hl1, hl2⟩ := build_trees_aff ndebug g.passes t ht
    have hn : n ∈ t.nodes := (List.of_mem_zip hmem).2
    obtain ⟨ri, wi, hri, hwi, hne_i, hsub_i⟩ := haff n hn hroot i hi
    obtain ⟨rj, wj, hrj, hwj, hne_j, hsub_j⟩ := haff n hn hroot j hj
    have hov : roots_overlap t.root_reads_accum t.root_writes_accum i j = .ok true := by
      apply roots_overlap_true _ _ _ _ ri wj hri hwj
      have := and_ne_zero_of_bitsSub_left hne_i hsub_j
      rwa [Nat.land_comm] at this
    have hjn : j < t.root_count := by
      rw [← hl1]
      by_contra hc2
      rw [List.getElem?_eq_none (by omega)] at hrj
      cases hrj
    obtain ⟨_, hjoin⟩ := build_queues_spec _ _ _ _ hqs
    obtain ⟨m, hm, hb⟩ := joined_emitted (hjoin i j hij hjn hov) hf
    exact ⟨m, by rw [hmasks]; exact List.mem_append_right _ hm, hb⟩
  · simp [hc] at hwb

theorem roots_overlap_false (rr rw : List Nat) (i j ri wi rj wj : Nat) (hri : rr[i]? = some ri)
    (hwi : rw[i]? = some wi) (hrj : rr[j]? = some rj) (hwj : rw[j]? = some wj)
    (h1 : ri &&& wj = 0) (h2 : rj &&& wi = 0) : roots_overlap rr rw i j = .ok false := by
  unfold roots_overlap
  simp only [(vec_at_ok rr i ri).mpr hri, (vec_at_ok rw j wj).mpr hwj,
    (vec_at_ok rr j rj).mpr hrj, (vec_at_ok rw i wi).mpr hwi, bind, Except.bind]
  simp [h1, h2, pure, Except.pure]

theorem foldlM_id {σ α : Type} (f : σ → α → Except Fault σ) (s : σ) :
    ∀ l : List α, (∀ x ∈ l, f s x = .ok s) → l.foldlM f s = .ok s := by
  intro l
  induction l with
  | nil => intro _; rfl
  | cons x rest ih =>
    intro h
    rw [List.foldlM_cons, h x (List.mem_cons_self _ _)]
    exact ih (fun y hy => h y (List.mem_cons_of_mem _ hy))

/-- Without any overlap the pair loop leaves the initial queue ids alone. -/
theorem build_queues_isolated (rr rw : List Nat) (n : Nat) (hn : n ≤ 64)
    (hov : ∀ i j, i < j → j < n → roots_overlap rr rw i j = .ok false) :
    rendergraph_build_queues rr rw n =
      .ok ((List.range n).map (fun k => 1 <<< k), List.range n) := by
  obtain ⟨st0, h0⟩ := queue_init_fold_ex n n (Nat.le_refl n) hn
  obtain ⟨hinit, _⟩ := queue_init_fold_ok n n (Nat.le_refl n) st0 h0
  have hst0 := queueInit_eq n st0 hinit
  unfold rendergraph_build_queues
  rw [h0]
  simp only [bind, Except.bind]
  rw [← hst0]
  apply foldlM_id
  intro i hi
  apply foldlM_id
  intro j hj
  obtain ⟨hij, hjn⟩ := mem_pair_range hj
  unfold queue_combine_step
  rw [hov i j hij hjn]
  rfl

theorem std_unique_range' : ∀ (k s : Nat), std_unique (List.range' s k) = List.range' s k := by
  intro k
  induction k with
  | zero => intro s; rfl
  | succ k ih =>
    intro s
    cases k with
    | zero => rfl
    | succ k =>
      have e : List.range' s (k + 1 + 1) = s :: (s + 1) :: List.range' (s + 1 + 1) k := rfl
      have e1 : List.range' (s + 1) (k + 1) = (s + 1) :: List.range' (s + 1 + 1) k := rfl
      rw [e, std_unique, if_neg (by omega), ← e1, ih (s + 1)]

theorem two_pow_and_pred (s : Nat) : (1 <<< s) &&& (2 ^ s - 1) = 0 := by
  apply Nat.eq_of_testBit_eq
  intro c
  rw [Nat.one_shiftLeft, Nat.testBit_and, Nat.testBit_two_pow, Nat.testBit_two_pow_sub_one,
    Nat.zero_testBit]
  by_cases h : s = c
  · subst h; simp
  · simp [h]

theorem pred_or_two_pow (s : Nat) : (2 ^ s - 1) ||| (1 <<< s) = 2 ^ (s + 1) - 1 := by
  apply Nat.eq_of_testBit_eq
  intro c
  rw [Nat.one_shiftLeft, Nat.testBit_or, Nat.testBit_two_pow, Nat.testBit_two_pow_sub_one,
    Nat.testBit_two_pow_sub_one]
  by_cases h : s = c
  · subst h; simp
  · by_cases h2 : c < s
    · have : c < s + 1 := by omega
      simp [h, h2, this]
    · have : ¬ c < s + 1 := by omega
      simp [h, h2, this]

/-- Emitting the single-bit queue ids in order never trips the lane assertion. -/
theorem emit_masks_single_bits (ndebug : Bool) (n : Nat) :
    ∀ (k s : Nat) (masks : List Nat), s + k ≤ n →
      emit_masks ndebug ((List.range n).map (fun m => 1 <<< m)) (List.range' s k)
        (masks, 2 ^ s - 1) =
      .ok (masks ++ (List.range' s k).map (fun m => 1 <<< m), 2 ^ (s + k) - 1) := by
  intro k
  induction k with
  | zero => intro s masks _; simp [emit_masks, pure, Except.pure]
  | succ k ih =>
    intro s masks hsk
    have e : List.range' s (k + 1) = s :: List.range' (s + 1) k := rfl
    rw [e]
    unfold emit_masks
    have hq : vec_at ((List.range n).map (fun m => 1 <<< m)) s = .ok (1 <<< s) := by
      rw [vec_at_ok]
      simp [List.getElem?_range (show s < n by omega)]
    have ha : c_assert ndebug (((1 <<< s) &&& (2 ^ s - 1)) == 0) Fault.assert_queue_lanes =
        .ok () := by
      rw [c_assert_ok, two_pow_and_pred]
      exact Or.inr rfl
    simp only [hq, ha, bind, Except.bind]
    rw [pred_or_two_pow, ih (s + 1) _ (by omega)]
    simp [Nat.add_assoc, Nat.add_comm 1 k]

theorem consolidate_passes_ok (nodes : List Node) (ps : List le_renderpass_o) :
    ∀ (i : Nat) (acc : List le_renderpass_o), i + ps.length ≤ nodes.length →
      consolidate_passes nodes ps i acc =
        .ok (acc ++ (ps.zip (nodes.drop i)).filterMap write_back) := by
  induction ps with
  | nil => intro i acc _; simp [consolidate_passes, pure, Except.pure]
  | cons p rest ih =>
    intro i acc hlen
    simp only [List.length_cons] at hlen
    have hlt : i < nodes.length := by omega
    have hd : nodes.drop i = nodes[i] :: nodes.drop (i + 1) := List.drop_eq_getElem_cons hlt
    have hat : vec_at nodes i = .ok nodes[i] := by
      rw [vec_at_ok]; exact List.getElem?_eq_getElem hlt
    unfold consolidate_passes
    simp only [hat, bind, Except.bind]
    rw [hd, List.zip_cons_cons, List.filterMap_cons]
    by_cases hc : nodes[i].is_contributing = true
    · have hwb : write_back (p, nodes[i]) = some { p with
          is_root := nodes[i].is_root, root_passes_affinity := nodes[i].root_index_affinity } := by
        unfold write_back; rw [if_pos hc]
      rw [if_pos hc, ih _ _ (by omega), hwb]
      simp only [List.append_assoc, List.singleton_append]
    · have hwb : write_back (p, nodes[i]) = none := by
        unfold write_back; rw [if_neg hc]
      rw [if_neg hc, ih _ _ (by omega), hwb]

theorem find_resource_idx_of_mem (rs : List le_resource_handle) (h : le_resource_handle)
    (hmem : h ∈ rs) : find_resource_idx rs h < rs.length ∧ rs[find_resource_idx rs h]? = some h := by
  induction rs with
  | nil => simp at hmem
  | cons r rest ih =>
    unfold find_resource_idx
    by_cases hr : r = h
    · simp [hr]
    · rw [if_neg hr]
      have hm : h ∈ rest := by
        rcases List.mem_cons.mp hmem with e | e
        · exact absurd e.symm hr
        · exact e
      obtain ⟨h1, h2⟩ := ih hm
      exact ⟨by simp; omega, by simpa using h2⟩

theorem and_ne_zero_of_sub {x m : Nat} (hx : x ≠ 0) (hs : BitsSub x m) : x &&& m ≠ 0 := by
  have h : x &&& x ≠ 0 := by rw [Nat.and_self]; exact hx
  exact and_ne_zero_of_bitsSub h hs

theorem colorRead_sub_reads (B : AccessFlagBits2) :
    BitsSub B.eColorAttachmentRead (LE_ALL_READ_ACCESS_FLAGS B) := by
  intro c h; simp [LE_ALL_READ_ACCESS_FLAGS, h]

theorem colorWrite_sub_writes (B : AccessFlagBits2) :
    BitsSub B.eColorAttachmentWrite (LE_ALL_WRITE_ACCESS_FLAGS B) := by
  intro c h; simp [LE_ALL_WRITE_ACCESS_FLAGS, h]

theorem depthRead_sub_reads (B : AccessFlagBits2) :
    BitsSub B.eDepthStencilAttachmentRead (LE_ALL_READ_ACCESS_FLAGS B) := by
  intro c h; simp [LE_ALL_READ_ACCESS_FLAGS, h]

theorem depthWrite_sub_writes (B : AccessFlagBits2) :
    BitsSub B.eDepthStencilAttachmentWrite (LE_ALL_WRITE_ACCESS_FLAGS B) := by
  intro c h; simp [LE_ALL_WRITE_ACCESS_FLAGS, h]

theorem sampledRead_sub_reads (B : AccessFlagBits2) :
    BitsSub B.eShaderSampledRead (LE_ALL_READ_ACCESS_FLAGS B) := by
  intro c h; simp [LE_ALL_READ_ACCESS_FLAGS, h]

theorem sampledRead_sub_implied (B : AccessFlagBits2) :
    BitsSub B.eShaderSampledRead (LE_ALL_IMAGE_IMPLIED_WRITE_ACCESS_FLAGS B) := by
  intro c h; simp [LE_ALL_IMAGE_IMPLIED_WRITE_ACCESS_FLAGS, h]

theorem or_and_eq_zero {x y m : Nat} (hx : x &&& m = 0) (hy : y &&& m = 0) :
    (x ||| y) &&& m = 0 := by
  apply Nat.eq_of_testBit_eq
  intro c
  have h1 : (x &&& m).testBit c = false := by rw [hx]; simp
  have h2 : (y &&& m).testBit c = false := by rw [hy]; simp
  simp only [Nat.testBit_and, Nat.testBit_or, Nat.zero_testBit] at h1 h2 ⊢
  cases hxc : x.testBit c <;> cases hyc : y.testBit c <;> cases hmc : m.testBit c <;>
    simp_all

/-- Read and write detection on the access flags of an attachment. -/
theorem attachment_detect (B : AccessFlagBits2) (readBit writeBit : Nat)
    (hsep : AttachmentBitsSeparate B readBit writeBit)
    (hr : BitsSub readBit (LE_ALL_READ_ACCESS_FLAGS B))
    (hw : BitsSub writeBit (LE_ALL_WRITE_ACCESS_FLAGS B))
    (image_id : le_resource_handle) (info : le_image_attachment_info_t) :
    (detect_read B (attachment_access_flags readBit writeBit info) = true ↔
      info.loadOp = AttachmentLoadOp.eLoad) ∧
    (detect_write B image_id (attachment_access_flags readBit writeBit info) = true ↔
      info.storeOp = AttachmentStoreOp.eStore) := by
  obtain ⟨hr0, hw0, hrw, hri, hwr⟩ := hsep
  have hrr : readBit &&& LE_ALL_READ_ACCESS_FLAGS B ≠ 0 := and_ne_zero_of_sub hr0 hr
  have hww : writeBit &&& LE_ALL_WRITE_ACCESS_FLAGS B ≠ 0 := and_ne_zero_of_sub hw0 hw
  have hboth_r : (readBit ||| writeBit) &&& LE_ALL_READ_ACCESS_FLAGS B ≠ 0 :=
    and_ne_zero_of_bitsSub_left hrr (bitsSub_or_left _ _)
  have hboth_w : (readBit ||| writeBit) &&& LE_ALL_WRITE_ACCESS_FLAGS B ≠ 0 :=
    and_ne_zero_of_bitsSub_left hww (bitsSub_or_right _ _)
  unfold detect_read detect_write attachment_access_flags
  by_cases hl : info.loadOp = AttachmentLoadOp.eLoad <;>
  by_cases hs : info.storeOp = AttachmentStoreOp.eStore <;>
  by_cases ht : image_id.type = LeResourceType.eImage <;>
  simp [hl, hs, ht, hrr, hww, hboth_r, hboth_w, hrw, hri, hwr]

theorem rw_of_detect (dr dw : Bool) :
    (((if dw = true then (if dr = true then eUndefined ||| eRead else eUndefined) ||| eWrite
        else (if dr = true then eUndefined ||| eRead else eUndefined)) &&& eRead ≠ 0) ↔
      dr = true) ∧
    (((if dw = true then (if dr = true then eUndefined ||| eRead else eUndefined) ||| eWrite
        else (if dr = true then eUndefined ||| eRead else eUndefined)) &&& eWrite ≠ 0) ↔
      dw = true) := by
  cases dr <;> cases dw <;> decide

/-- Registration of a handle the pass already uses, with assertions compiled
out. -/
theorem use_resource_dup (B : AccessFlagBits2) (eIsRoot : Nat)
    (self : le_renderpass_o) (h : le_resource_handle) (a : Nat) (hmem : h ∈ self.resources)
    (hlen1 : self.resources_access_flags.length = self.resources.length)
    (hlen2 : self.resources_read_write_flags.length = self.resources.length) :
    renderpass_use_resource B eIsRoot true self h a = .ok
      { self with
        resources_access_flags := self.resources_access_flags.set
          (find_resource_idx self.resources h)
          (self.resources_access_flags.getD (find_resource_idx self.resources h) 0 ||| a)
        resources_read_write_flags := self.resources_read_write_flags.set
          (find_resource_idx self.resources h)
          (if detect_write B h a then
            (if detect_read B a then
              self.resources_read_write_flags.getD (find_resource_idx self.resources h) 0 |||
                eRead
             else self.resources_read_write_flags.getD (find_resource_idx self.resources h) 0)
              ||| eWrite
           else (if detect_read B a then
              self.resources_read_write_flags.getD (find_resource_idx self.resources h) 0 |||
                eRead
             else self.resources_read_write_flags.getD (find_resource_idx self.resources h) 0))
        is_root := if detect_write B h a && (decide (h.type = LeResourceType.eImage) &&
          resource_is_a_swapchain_handle eIsRoot h) then true else self.is_root } := by
  obtain ⟨hlt, _⟩ := find_resource_idx_of_mem self.resources h hmem
  have hne : find_resource_idx self.resources h ≠ self.resources.length := by omega
  have hlt1 : find_resource_idx self.resources h < self.resources_access_flags.length := by omega
  have hlt2 : find_resource_idx self.resources h < self.resources_read_write_flags.length := by
    omega
  unfold renderpass_use_resource register_resource
  simp only [hne, if_false, c_assert, Bool.true_or, if_true, vec_at, vec_set,
    List.getElem?_eq_getElem hlt1, List.getElem?_eq_getElem hlt2, hlt1, hlt2,
    List.getD_eq_getElem _ _ hlt1, List.getD_eq_getElem _ _ hlt2,
    bind, Except.bind, pure, Except.pure]

theorem setup_passes_loop_spec {W : Type} (cb : CallbackTable W) (ps : List le_renderpass_o) :
    ∀ (d x : List le_renderpass_o) (w : W),
      ∃ (outcomes : List (Bool × le_renderpass_o)) (w1 : W),
        setup_passes_loop cb ps d x w = .ok
          (d ++ (outcomes.filter (fun o => o.1)).map (fun o => o.2),
           x ++ (outcomes.filter (fun o => !o.1)).map (fun o => o.2), w1) ∧
        Forall₂ (SetupOutcome cb) ps outcomes := by
  induction ps with
  | nil =>
    intro d x w
    exact ⟨[], w, by simp [setup_passes_loop, pure, Except.pure], Forall₂.nil⟩
  | cons p rest ih =>
    intro d x w
    unfold setup_passes_loop renderpass_has_setup_callback renderpass_run_setup_callback
    by_cases h0 : p.callbackSetup = 0
    · obtain ⟨os, w1, h1, h2⟩ := ih (d ++ [p]) x w
      refine ⟨(true, p) :: os, w1, ?_, Forall₂.cons (Or.inl ⟨h0, rfl⟩) h2⟩
      simp only [h0, bne_self_eq_false, Bool.false_eq_true, if_false, h1]
      simp
    · cases hb : (cb.setup p.callbackSetup p p.setup_callback_user_data w).1 with
      | true =>
        obtain ⟨os, w1, h1, h2⟩ := ih
          (d ++ [(cb.setup p.callbackSetup p p.setup_callback_user_data w).2.1]) x
          (cb.setup p.callbackSetup p p.setup_callback_user_data w).2.2
        refine ⟨(true, (cb.setup p.callbackSetup p p.setup_callback_user_data w).2.1) :: os,
          w1, ?_, Forall₂.cons (Or.inr ⟨h0, w, hb, rfl⟩) h2⟩
        have hne : (p.callbackSetup != 0) = true := by simpa using h0
        simp only [hne, if_true, h0, if_false, bind, Except.bind, pure, Except.pure, hb, h1]
        simp
      | false =>
        obtain ⟨os, w1, h1, h2⟩ := ih d
          (x ++ [(cb.setup p.callbackSetup p p.setup_callback_user_data w).2.1])
          (cb.setup p.callbackSetup p p.setup_callback_user_data w).2.2
        refine ⟨(false, (cb.setup p.callbackSetup p p.setup_callback_user_data w).2.1) :: os,
          w1, ?_, Forall₂.cons (Or.inr ⟨h0, w, hb, rfl⟩) h2⟩
        have hne : (p.callbackSetup != 0) = true := by simpa using h0
        simp only [hne, if_true, h0, if_false, bind, Except.bind, pure, Except.pure, hb, h1,
          Bool.false_eq_true]
        simp

theorem rendergraph_setup_passes_of_loop {W : Type} (cb : CallbackTable W)
    (src dst : le_rendergraph_o) (w : W) (a b : List le_renderpass_o) (c : W)
    (h : setup_passes_loop cb src.passes dst.passes [] w = .ok (a, b, c)) :
    rendergraph_setup_passes cb src dst w = .ok
      { src_rendergraph := { src with
          passes := []
          declared_resources_id := []
          declared_resources_info := [] }
        dst_rendergraph := { dst with
          passes := a
          declared_resources_id := src.declared_resources_id
          declared_resources_info := src.declared_resources_info }
        destroyed := b
        world := c } := by
  unfold rendergraph_setup_passes
  rw [h]
  rfl

theorem find_matching_index_spec (resources : List le_resource_handle)
    (attachment : le_resource_handle) :
    ∀ (count j : Nat), j + count = resources.length →
      find_matching_index resources attachment count j = .ok
        (if attachment ∈ resources.drop j then
          some (j + find_resource_idx (resources.drop j) attachment)
         else none) := by
  intro count
  induction count with
  | zero =>
    intro j hj
    have : resources.drop j = [] := List.drop_eq_nil_of_le (by omega)
    simp [find_matching_index, this, pure, Except.pure]
  | succ count ih =>
    intro j hj
    have hlt : j < resources.length := by omega
    have hd : resources.drop j = resources[j] :: resources.drop (j + 1) :=
      List.drop_eq_getElem_cons hlt
    have hat : vec_at resources j = .ok resources[j] := by
      rw [vec_at_ok]; exact List.getElem?_eq_getElem hlt
    unfold find_matching_index
    simp only [hat, bind, Except.bind]
    rw [hd]
    by_cases he : resources[j] = attachment
    · rw [if_pos he]
      simp [he, find_resource_idx, pure, Except.pure]
    · rw [if_neg he, ih (j + 1) (by omega)]
      have hne : ¬ attachment = resources[j] := fun e => he e.symm
      by_cases hm : attachment ∈ resources.drop (j + 1)
      · simp only [hm, if_true, List.mem_cons, or_true]
        rw [find_resource_idx, if_neg he]
        congr 2
        omega
      · simp only [hm, if_false, List.mem_cons, hne, or_false]

theorem find_matching_resource_spec (resources : List le_resource_handle) :
    ∀ attachments : List le_resource_handle,
      find_matching_resource attachments resources resources.length =
        .ok (expected_swapchain_index attachments resources) := by
  intro attachments
  induction attachments with
  | nil => rfl
  | cons a rest ih =>
    unfold find_matching_resource
    rw [find_matching_index_spec resources a resources.length 0 (by omega)]
    simp only [List.drop_zero, Nat.zero_add, bind, Except.bind]
    unfold expected_swapchain_index
    by_cases hm : a ∈ resources
    · simp [hm, List.find?_cons, pure, Except.pure]
    · simp only [hm, if_false, List.find?_cons, decide_False]
      rw [ih]
      rfl

theorem expected_swapchain_index_lt (attachments swapchain_images : List le_resource_handle)
    (hpos : 0 < swapchain_images.length) :
    expected_swapchain_index attachments swapchain_images < swapchain_images.length := by
  unfold expected_swapchain_index
  cases h : attachments.find? (fun a => decide (a ∈ swapchain_images)) with
  | none => exact hpos
  | some a =>
    have := List.find?_some h
    simp only [decide_eq_true_eq] at this
    exact (find_resource_idx_of_mem swapchain_images a this).1

theorem run_execute_callbacks_ok {W : Type} (cb : CallbackTable W) :
    ∀ (callbacks : List ExecuteCallbackInfo) (encoder : le_command_buffer_encoder_o) (w : W),
      (∀ c ∈ callbacks, c.fn ≠ 0) →
      run_execute_callbacks cb callbacks encoder w =
        .ok (callbacks_in_order cb callbacks encoder w) := by
  intro callbacks
  induction callbacks with
  | nil => intro encoder w _; rfl
  | cons c rest ih =>
    intro encoder w h
    unfold run_execute_callbacks
    rw [if_neg (h c (List.mem_cons_self _ _))]
    simp only
    rw [ih _ _ (fun d hd => h d (List.mem_cons_of_mem _ hd))]
    rfl

theorem renderpass_run_execute_callbacks_ok {W : Type} (cb : CallbackTable W)
    (self : le_renderpass_o) (encoder : le_command_buffer_encoder_o) (w : W)
    (henc : self.encoder = some encoder) (hne : self.executeCallbacks ≠ [])
    (hnn : ∀ c ∈ self.executeCallbacks, c.fn ≠ 0) :
    renderpass_run_execute_callbacks cb self w = .ok
      ({ self with
          encoder := some (callbacks_in_order cb self.executeCallbacks encoder w).1 },
       (callbacks_in_order cb self.executeCallbacks encoder w).2) := by
  unfold renderpass_run_execute_callbacks
  cases hcs : self.executeCallbacks with
  | nil => exact absurd hcs hne
  | cons c rest =>
    rw [hcs] at hnn
    simp only [henc]
    rw [run_execute_callbacks_ok cb (c :: rest) encoder w hnn]
    rfl

theorem create_pass_encoder_eq (eGraphics : Nat) (backend : BackendFrame)
    (pass : le_renderpass_o) :
    create_pass_encoder eGraphics backend pass =
      expected_initial_encoder eGraphics backend pass.type pass.width pass.height := by
  unfold create_pass_encoder expected_initial_encoder encoder_set_viewport encoder_set_scissor
    encoder_create
  by_cases h : pass.type = eGraphics <;> simp [h]

/-- The extents after inference. -/
theorem infer_extents_spec (backend : BackendFrame) (pass : le_renderpass_o)
    (hnum : backend.swapchain_images.length = backend.num_swapchain_images)
    (hw : backend.swapchain_image_width.length = backend.num_swapchain_images)
    (hh : backend.swapchain_image_height.length = backend.num_swapchain_images)
    (hpos : 0 < backend.num_swapchain_images) :
    infer_extents backend pass = .ok
      (if pass.width = 0 ∨ pass.height = 0 then
        { pass with
          width := backend.swapchain_image_width.getD
            (expected_swapchain_index pass.attachmentResources backend.swapchain_images) 0
          height := backend.swapchain_image_height.getD
            (expected_swapchain_index pass.attachmentResources backend.swapchain_images) 0 }
       else pass) := by
  have hk := expected_swapchain_index_lt pass.attachmentResources backend.swapchain_images
    (by omega)
  have hk1 : expected_swapchain_index pass.attachmentResources backend.swapchain_images <
      backend.swapchain_image_width.length := by omega
  have hk2 : expected_swapchain_index pass.attachmentResources backend.swapchain_images <
      backend.swapchain_image_height.length := by omega
  unfold infer_extents
  by_cases hz : pass.width = 0 ∨ pass.height = 0
  · rw [if_pos hz, if_pos hz, ← hnum, find_matching_resource_spec]
    simp only [bind, Except.bind, vec_at, List.getElem?_eq_getElem hk1,
      List.getElem?_eq_getElem hk2, List.getD_eq_getElem _ _ hk1, List.getD_eq_getElem _ _ hk2,
      pure, Except.pure]
  · rw [if_neg hz, if_neg hz]
    rfl

theorem find_matching_index_take (resources : List le_resource_handle)
    (attachment : le_resource_handle) (n : Nat) :
    ∀ (count j : Nat), j + count = n →
      find_matching_index resources attachment count j =
        find_matching_index (resources.take n) attachment count j := by
  intro count
  induction count with
  | zero => intro j _; rfl
  | succ count ih =>
    intro j hj
    have hat : vec_at (resources.take n) j = vec_at resources j := by
      unfold vec_at
      rw [List.getElem?_take_of_lt (by omega)]
    unfold find_matching_index
    rw [hat, ih (j + 1) (by omega)]

theorem find_matching_resource_take (resources : List le_resource_handle) (n : Nat)
    (hn : n ≤ resources.length) :
    ∀ attachments : List le_resource_handle,
      find_matching_resource attachments resources n =
        .ok (expected_swapchain_index attachments (resources.take n)) := by
  intro attachments
  have hlen : (resources.take n).length = n := by simp [hn]
  have key := find_matching_resource_spec (resources.take n) attachments
  rw [hlen] at key
  rw [← key]
  induction attachments with
  | nil => rfl
  | cons a rest ih =>
    have ih' := ih (by
      have := find_matching_resource_spec (resources.take n) rest
      rw [hlen] at this
      exact this)
    unfold find_matching_resource
    rw [find_matching_index_take resources a n n 0 (by omega), ih']

theorem infer_extents_valid (backend : BackendFrame) (pass : le_renderpass_o)
    (hv : SwapchainInfoValid backend) :
    infer_extents backend pass = .ok
      (if pass.width = 0 ∨ pass.height = 0 then
        { pass with
          width := backend.swapchain_image_width.getD (expected_extent_index backend pass) 0
          height := backend.swapchain_image_height.getD (expected_extent_index backend pass) 0 }
       else pass) := by
  obtain ⟨hpos, hi, hw, hh⟩ := hv
  have hlen : (reported_swapchain_images backend).length = backend.num_swapchain_images := by
    simp [reported_swapchain_images, hi]
  have hk := expected_swapchain_index_lt pass.attachmentResources
    (reported_swapchain_images backend) (by omega)
  unfold infer_extents
  rw [find_matching_resource_take _ _ hi]
  unfold expected_extent_index
  unfold reported_swapchain_images at hk hlen ⊢
  generalize expected_swapchain_index pass.attachmentResources
    (backend.swapchain_images.take backend.num_swapchain_images) = k at hk ⊢
  have hk1 : k < backend.swapchain_image_width.length := by omega
  have hk2 : k < backend.swapchain_image_height.length := by omega
  by_cases hz : pass.width = 0 ∨ pass.height = 0
  · rw [if_pos hz, if_pos hz]
    simp only [bind, Except.bind, vec_at, List.getElem?_eq_getElem hk1,
      List.getElem?_eq_getElem hk2, List.getD_eq_getElem _ _ hk1, List.getD_eq_getElem _ _ hk2,
      pure, Except.pure]
  · rw [if_neg hz, if_neg hz]
    rfl

theorem execute_pass_empty {W : Type} (cb : CallbackTable W) (eGraphics : Nat)
    (backend : BackendFrame) (pass : le_renderpass_o) (w : W)
    (he : pass.executeCallbacks = []) :
    execute_pass cb eGraphics backend pass w = .ok (pass, w) := by
  unfold execute_pass
  rw [he]
  rfl

theorem run_callbacks_on_fresh_encoder {W : Type} (cb : CallbackTable W)
    (pass1 : le_renderpass_o) (e : le_command_buffer_encoder_o) (w : W)
    (hne : pass1.executeCallbacks ≠ []) (hnn : ∀ c ∈ pass1.executeCallbacks, c.fn ≠ 0) :
    renderpass_run_execute_callbacks cb { pass1 with encoder := some e } w = .ok
      ({ pass1 with encoder := some (callbacks_in_order cb pass1.executeCallbacks e w).1 },
       (callbacks_in_order cb pass1.executeCallbacks e w).2) :=
  renderpass_run_execute_callbacks_ok cb { pass1 with encoder := some e } e w rfl hne hnn

theorem execute_pass_spec {W : Type} (cb : CallbackTable W) (eGraphics : Nat)
    (backend : BackendFrame) (pass : le_renderpass_o) (w : W)
    (hv : SwapchainInfoValid backend) (hne : pass.executeCallbacks ≠ [])
    (hnn : ∀ c ∈ pass.executeCallbacks, c.fn ≠ 0) :
    execute_pass cb eGraphics backend pass w =
      .ok (expected_executed_pass cb eGraphics backend pass w) := by
  unfold execute_pass
  have hemp : pass.executeCallbacks.isEmpty = false := by
    cases h : pass.executeCallbacks with
    | nil => exact absurd h hne
    | cons _ _ => rfl
  rw [hemp, infer_extents_valid backend pass hv]
  simp only [Bool.false_eq_true, if_false, bind, Except.bind]
  unfold expected_executed_pass
  simp only
  generalize hp1 : (if pass.width = 0 ∨ pass.height = 0 then
        ({ pass with
          width := backend.swapchain_image_width.getD (expected_extent_index backend pass) 0
          height := backend.swapchain_image_height.getD (expected_extent_index backend pass) 0 }
          : le_renderpass_o)
       else pass) = pass1
  have hcb : pass1.executeCallbacks = pass.executeCallbacks := by
    rw [← hp1]; split <;> rfl
  rw [← hcb] at hne hnn ⊢
  rw [run_callbacks_on_fresh_encoder cb pass1 _ w hne hnn, create_pass_encoder_eq]

theorem threaded_forall₂ {W α β : Type} (R : W → α → β → W → Prop) (Q : α → β → Prop)
    (h : ∀ w a b w1, R w a b w1 → Q a b) :
    ∀ (as : List α) (bs : List β) (w w' : W), Threaded R w as bs w' → Forall₂ Q as bs := by
  intro as
  induction as with
  | nil =>
    intro bs w w' ht
    cases bs with
    | nil => exact Forall₂.nil
    | cons b bs => exact absurd ht (by simp [Threaded])
  | cons a as ih =>
    intro bs w w' ht
    cases bs with
    | nil => exact absurd ht (by simp [Threaded])
    | cons b bs =>
      obtain ⟨w1, hr, ht'⟩ := ht
      exact Forall₂.cons (h _ _ _ _ hr) (ih bs w1 w' ht')

theorem execute_passes_threaded {W : Type} (cb : CallbackTable W) (eGraphics : Nat)
    (backend : BackendFrame) (R : W → le_renderpass_o → le_renderpass_o → W → Prop) :
    ∀ (passes : List le_renderpass_o) (w : W),
      (∀ p ∈ passes, ∀ w0 : W, ∃ (p' : le_renderpass_o) (w1 : W),
        execute_pass cb eGraphics backend p w0 = .ok (p', w1) ∧ R w0 p p' w1) →
      ∃ (ps' : List le_renderpass_o) (w' : W),
        execute_passes cb eGraphics backend passes w = .ok (ps', w') ∧
        Threaded R w passes ps' w' := by
  intro passes
  induction passes with
  | nil => intro w _; exact ⟨[], w, rfl, rfl⟩
  | cons p rest ih =>
    intro w h
    obtain ⟨p', w1, he, hr⟩ := h p (List.mem_cons_self _ _) w
    obtain ⟨ps', w', hes, ht⟩ := ih w1 (fun q hq => h q (List.mem_cons_of_mem _ hq))
    refine ⟨p' :: ps', w', ?_, w1, hr, ht⟩
    unfold execute_passes
    simp only [he, bind, Except.bind, hes]
    rfl

theorem rendergraph_execute_threaded {W : Type} (cb : CallbackTable W) (eGraphics : Nat)
    (backend : BackendFrame) (R : W → le_renderpass_o → le_renderpass_o → W → Prop)
    (self : le_rendergraph_o) (w : W)
    (h : ∀ p ∈ self.passes, ∀ w0 : W, ∃ (p' : le_renderpass_o) (w1 : W),
      execute_pass cb eGraphics backend p w0 = .ok (p', w1) ∧ R w0 p p' w1) :
    ∃ (g' : le_rendergraph_o) (w' : W),
      rendergraph_execute cb eGraphics backend self w = .ok (g', w') ∧
      Threaded R w self.passes g'.passes w' := by
  obtain ⟨ps', w', hes, ht⟩ := execute_passes_threaded cb eGraphics backend R self.passes w h
  refine ⟨{ self with passes := ps' }, w', ?_, ht⟩
  unfold rendergraph_execute
  simp only [hes, bind, Except.bind]
  rfl

theorem expected_executed_pass_zero {W : Type} (cb : CallbackTable W) (eGraphics : Nat)
    (backend : BackendFrame) (p : le_renderpass_o) (w : W) (hz : p.width = 0 ∨ p.height = 0) :
    (expected_executed_pass cb eGraphics backend p w).1.width =
      backend.swapchain_image_width.getD (expected_extent_index backend p) 0 ∧
    (expected_executed_pass cb eGraphics backend p w).1.height =
      backend.swapchain_image_height.getD (expected_extent_index backend p) 0 := by
  unfold expected_executed_pass
  simp only [if_pos hz, and_self]

theorem expected_executed_pass_keep {W : Type} (cb : CallbackTable W) (eGraphics : Nat)
    (backend : BackendFrame) (p : le_renderpass_o) (w : W)
    (hz : ¬ (p.width = 0 ∨ p.height = 0)) :
    (expected_executed_pass cb eGraphics backend p w).1.width = p.width ∧
    (expected_executed_pass cb eGraphics backend p w).1.height = p.height := by
  unfold expected_executed_pass
  simp only [if_neg hz, and_self]

theorem expected_executed_pass_encoder {W : Type} (cb : CallbackTable W) (eGraphics : Nat)
    (backend : BackendFrame) (p : le_renderpass_o) (w : W) :
    (expected_executed_pass cb eGraphics backend p w).1.type = p.type ∧
    (expected_executed_pass cb eGraphics backend p w).1.executeCallbacks = p.executeCallbacks ∧
    (expected_executed_pass cb eGraphics backend p w).1.encoder =
      some (callbacks_in_order cb p.executeCallbacks
        (expected_initial_encoder eGraphics backend p.type
          (expected_executed_pass cb eGraphics backend p w).1.width
          (expected_executed_pass cb eGraphics backend p w).1.height) w).1 ∧
    (expected_executed_pass cb eGraphics backend p w).2 =
      (callbacks_in_order cb p.executeCallbacks
        (expected_initial_encoder eGraphics backend p.type
          (expected_executed_pass cb eGraphics backend p w).1.width
          (expected_executed_pass cb eGraphics backend p w).1.height) w).2 := by
  unfold expected_executed_pass
  by_cases hz : p.width = 0 ∨ p.height = 0
  · simp only [if_pos hz, and_self]
  · simp only [if_neg hz, and_self]

theorem execute_pass_extents {W : Type} (cb : CallbackTable W) (eGraphics : Nat)
    (backend : BackendFrame) (hv : SwapchainInfoValid backend) (p : le_renderpass_o)
    (hnn : ∀ c ∈ p.executeCallbacks, c.fn ≠ 0) (w0 : W) :
    ∃ (p' : le_renderpass_o) (w1 : W),
      execute_pass cb eGraphics backend p w0 = .ok (p', w1) ∧ ExtentsInferred backend p p' := by
  by_cases he : p.executeCallbacks = []
  · exact ⟨p, w0, execute_pass_empty cb eGraphics backend p w0 he, fun hne => absurd he hne⟩
  · refine ⟨(expected_executed_pass cb eGraphics backend p w0).1,
      (expected_executed_pass cb eGraphics backend p w0).2,
      execute_pass_spec cb eGraphics backend p w0 hv he hnn, fun _ => ?_⟩
    obtain ⟨hpos, hi, hw, hh⟩ := hv
    have hlen : (reported_swapchain_images backend).length = backend.num_swapchain_images := by
      simp [reported_swapchain_images, hi]
    have hk := expected_swapchain_index_lt p.attachmentResources
      (reported_swapchain_images backend) (by omega)
    have hk1 : expected_extent_index backend p < backend.swapchain_image_width.length := by
      unfold expected_extent_index; omega
    have hk2 : expected_extent_index backend p < backend.swapchain_image_height.length := by
      unfold expected_extent_index; omega
    constructor
    · intro hz
      obtain ⟨e1, e2⟩ := expected_executed_pass_zero cb eGraphics backend p w0 hz
      rw [e1, e2, List.getD_eq_getElem _ _ hk1, List.getD_eq_getElem _ _ hk2,
        List.getElem?_eq_getElem hk1, List.getElem?_eq_getElem hk2]
      exact ⟨rfl, rfl⟩
    · intro hz
      have hz' : ¬ (p.width = 0 ∨ p.height = 0) := by
        intro h; cases h with
        | inl h => exact hz.1 h
        | inr h => exact hz.2 h
      exact expected_executed_pass_keep cb eGraphics backend p w0 hz'

theorem execute_pass_executed {W : Type} (cb : CallbackTable W) (eGraphics : Nat)
    (backend : BackendFrame) (hv : SwapchainInfoValid backend) (p : le_renderpass_o)
    (hnn : ∀ c ∈ p.executeCallbacks, c.fn ≠ 0) (w0 : W) :
    ∃ (p' : le_renderpass_o) (w1 : W),
      execute_pass cb eGraphics backend p w0 = .ok (p', w1) ∧
      PassExecuted cb eGraphics backend w0 p p' w1 := by
  by_cases he : p.executeCallbacks = []
  · exact ⟨p, w0, execute_pass_empty cb eGraphics backend p w0 he,
      fun _ => ⟨rfl, rfl⟩, fun hne => absurd he hne⟩
  · exact ⟨(expected_executed_pass cb eGraphics backend p w0).1,
      (expected_executed_pass cb eGraphics backend p w0).2,
      execute_pass_spec cb eGraphics backend p w0 hv he hnn,
      fun h => absurd h he, fun _ => expected_executed_pass_encoder cb eGraphics backend p w0⟩

theorem emit_masks_keeps_masks (ndebug : Bool) (queue_id : List Nat) :
    ∀ (idxs : List Nat) (st r : List Nat × Nat),
      emit_masks ndebug queue_id idxs st = .ok r → st.1 <+: r.1 := by
  intro idxs
  induction idxs with
  | nil =>
    intro st r h
    obtain ⟨masks, acc⟩ := st
    simp only [emit_masks, pure_ok] at h
    rw [← h]
  | cons idx rest ih =>
    intro st r h
    obtain ⟨masks, acc⟩ := st
    unfold emit_masks at h
    simp only [bind_ok] at h
    obtain ⟨q, _, _, _, h⟩ := h
    exact List.IsPrefix.trans (List.prefix_append masks [q]) (ih _ _ h)

theorem rendergraph_build_keeps_masks (ndebug : Bool) (g g1 : le_rendergraph_o)
    (h : rendergraph_build ndebug g = .ok g1) :
    g.root_passes_affinity_masks <+: g1.root_passes_affinity_masks := by
  unfold rendergraph_build at h
  simp only [bind_ok, pure_ok] at h
  obtain ⟨t, _, ⟨queue_id, queue_id_idx⟩, _, ⟨masks, acc⟩, hm, passes, _, h⟩ := h
  have hp := emit_masks_keeps_masks ndebug queue_id _ _ _ hm
  rw [← h]
  exact hp

theorem uint32_inc_eq_mod (x : Nat) (h : x < 2 ^ 32) : uint32_inc x = (x + 1) % 2 ^ 32 := by
  unfold uint32_inc
  split <;> omega

theorem uint32_dec_eq_mod (x : Nat) (h : x < 2 ^ 32) :
    uint32_dec x = (x + (2 ^ 32 - 1)) % 2 ^ 32 := by
  unfold uint32_dec
  split <;> omega

theorem count_inc_cons_inc (l : List RefCall) :
    count_inc (RefCall.ref_inc :: l) = count_inc l + 1 := by
  simp [count_inc]

theorem count_inc_cons_dec (l : List RefCall) :
    count_inc (RefCall.ref_dec :: l) = count_inc l := by
  simp [count_inc]

theorem count_dec_cons_inc (l : List RefCall) :
    count_dec (RefCall.ref_inc :: l) = count_dec l := by
  simp [count_dec]

theorem count_dec_cons_dec (l : List RefCall) :
    count_dec (RefCall.ref_dec :: l) = count_dec l + 1 := by
  simp [count_dec]

theorem count_inc_nil : count_inc [] = 0 := rfl

theorem count_dec_nil : count_dec [] = 0 := rfl

theorem ref_inc_count (self : le_renderpass_o) (h : self.ref_count + 1 < 4294967296) :
    (renderpass_ref_inc self).ref_count = self.ref_count + 1 := by
  have hne : ¬ self.ref_count = 4294967295 := by omega
  simp only [renderpass_ref_inc, uint32_inc, if_neg hne]

theorem ref_dec_last (self : le_renderpass_o) (h : self.ref_count = 1) :
    renderpass_ref_dec self = none := by
  simp only [renderpass_ref_dec, uint32_dec, h]
  rfl

theorem ref_dec_more (self : le_renderpass_o) (h0 : 0 < self.ref_count)
    (h1 : self.ref_count ≠ 1) :
    renderpass_ref_dec self = some { self with ref_count := self.ref_count - 1 } := by
  have hne : ¬ self.ref_count = 0 := by omega
  have hne1 : ¬ self.ref_count - 1 = 0 := by omega
  simp only [renderpass_ref_dec, uint32_dec, if_neg hne, if_neg hne1]

theorem ref_calls_destroy_ge :
    ∀ (calls : List RefCall) (self : le_renderpass_o) (i m : Nat),
      ref_calls_destroy self calls i = some m → i ≤ m := by
  intro calls
  induction calls with
  | nil => intro self i m h; simp only [ref_calls_destroy] at h; exact absurd h (by simp)
  | cons c rest ih =>
    intro self i m h
    cases c with
    | ref_inc =>
      simp only [ref_calls_destroy] at h
      have := ih _ _ _ h
      omega
    | ref_dec =>
      simp only [ref_calls_destroy] at h
      generalize renderpass_ref_dec self = r at h
      cases r with
      | none =>
        simp only [Option.some.injEq] at h
        omega
      | some self1 =>
        simp only at h
        have := ih _ _ _ h
        omega

theorem ref_calls_destroy_spec :
    ∀ (calls : List RefCall) (self : le_renderpass_o) (i : Nat), 0 < self.ref_count →
      (∀ k : Nat, k ≤ calls.length →
        self.ref_count + count_inc (calls.take k) < 4294967296 + count_dec (calls.take k)) →
      ∀ k : Nat, ref_calls_destroy self calls i = some (i + k) ↔
        (calls[k]? = some RefCall.ref_dec ∧
         count_dec (calls.take (k + 1)) = count_inc (calls.take (k + 1)) + self.ref_count ∧
         ∀ j : Nat, j ≤ k →
           count_dec (calls.take j) + 1 ≤ count_inc (calls.take j) + self.ref_count) := by
  intro calls
  induction calls with
  | nil =>
    intro self i _ _ k
    simp only [ref_calls_destroy, List.getElem?_nil]
    constructor
    · intro h; exact absurd h (by simp)
    · intro h; exact absurd h.1 (by simp)
  | cons c rest ih =>
    intro self i hpos hb k
    have hb0 := hb 0 (Nat.zero_le _)
    simp only [List.take_zero, count_inc_nil, count_dec_nil, Nat.add_zero] at hb0
    cases c with
    | ref_inc =>
      simp only [ref_calls_destroy]
      have hcount : (renderpass_ref_inc self).ref_count = self.ref_count + 1 := by
        have h1 := hb (0 + 1) (by simp)
        simp only [List.take_succ_cons, List.take_zero, count_inc_cons_inc, count_dec_cons_inc,
          count_inc_nil, count_dec_nil] at h1
        exact ref_inc_count self (by omega)
      have hb' : ∀ k : Nat, k ≤ rest.length →
          (renderpass_ref_inc self).ref_count + count_inc (rest.take k) <
            4294967296 + count_dec (rest.take k) := by
        intro k hk
        have := hb (k + 1) (by simp; omega)
        simp only [List.take_succ_cons, count_inc_cons_inc, count_dec_cons_inc] at this
        omega
      cases k with
      | zero =>
        constructor
        · intro h
          have := ref_calls_destroy_ge _ _ _ _ h
          omega
        · intro h
          exact absurd h.1 (by simp)
      | succ k =>
        have e : i + (k + 1) = i + 1 + k := by omega
        rw [e, ih (renderpass_ref_inc self) (i + 1) (by omega) hb' k, hcount]
        simp only [List.getElem?_cons_succ, List.take_succ_cons, count_inc_cons_inc,
          count_dec_cons_inc]
        constructor
        · rintro ⟨h1, h2, h3⟩
          refine ⟨h1, by omega, ?_⟩
          intro j hj
          cases j with
          | zero =>
            simp only [List.take_zero, count_inc_nil, count_dec_nil]
            omega
          | succ j =>
            have := h3 j (by omega)
            simp only [List.take_succ_cons, count_inc_cons_inc, count_dec_cons_inc]
            omega
        · rintro ⟨h1, h2, h3⟩
          refine ⟨h1, by omega, ?_⟩
          intro j hj
          have := h3 (j + 1) (by omega)
          simp only [List.take_succ_cons, count_inc_cons_inc, count_dec_cons_inc] at this
          omega
    | ref_dec =>
      simp only [ref_calls_destroy]
      by_cases h1 : self.ref_count = 1
      · rw [ref_dec_last self h1]
        simp only [Option.some.injEq]
        cases k with
        | zero =>
          simp only [List.getElem?_cons_zero, List.take_succ_cons, List.take_zero,
            count_inc_cons_dec, count_dec_cons_dec, count_inc_nil, count_dec_nil, h1]
          constructor
          · intro _
            refine ⟨trivial, trivial, ?_⟩
            intro j hj
            have : j = 0 := by omega
            subst this
            simp only [List.take_zero, count_inc_nil, count_dec_nil]
            omega
          · intro _; rfl
        | succ k =>
          constructor
          · intro h; omega
          · rintro ⟨_, _, h3⟩
            have := h3 (0 + 1) (by omega)
            simp only [List.take_succ_cons, List.take_zero, count_inc_cons_dec,
              count_dec_cons_dec, count_inc_nil, count_dec_nil, h1] at this
            omega
      · rw [ref_dec_more self hpos h1]
        simp only
        have hb' : ∀ k : Nat, k ≤ rest.length →
            ({ self with ref_count := self.ref_count - 1 } : le_renderpass_o).ref_count +
              count_inc (rest.take k) < 4294967296 + count_dec (rest.take k) := by
          intro k hk
          have := hb (k + 1) (by simp; omega)
          simp only [List.take_succ_cons, count_inc_cons_dec, count_dec_cons_dec] at this
          simp only
          omega
        cases k with
        | zero =>
          constructor
          · intro h
            have := ref_calls_destroy_ge _ _ _ _ h
            omega
          · rintro ⟨_, h2, _⟩
            simp only [List.take_succ_cons, List.take_zero, count_inc_cons_dec,
              count_dec_cons_dec, count_inc_nil, count_dec_nil, Nat.zero_add] at h2
            omega
        | succ k =>
          have e : i + (k + 1) = i + 1 + k := by omega
          rw [e, ih _ (i + 1) (by simp only; omega) hb' k]
          simp only [List.getElem?_cons_succ, List.take_succ_cons, count_inc_cons_dec,
            count_dec_cons_dec]
          constructor
          · rintro ⟨h1, h2, h3⟩
            refine ⟨h1, by omega, ?_⟩
            intro j hj
            cases j with
            | zero =>
              simp only [List.take_zero, count_inc_nil, count_dec_nil]
              omega
            | succ j =>
              have := h3 j (by omega)
              simp only [List.take_succ_cons, count_inc_cons_dec, count_dec_cons_dec]
              omega
          · rintro ⟨h1, h2, h3⟩
            refine ⟨h1, by omega, ?_⟩
            intro j hj
            have := h3 (j + 1) (by omega)
            simp only [List.take_succ_cons, count_inc_cons_dec, count_dec_cons_dec] at this
            omega

theorem ref_calls_destroy_replicate (rest : List RefCall) :
    ∀ (n : Nat) (self : le_renderpass_o) (i : Nat), self.ref_count < 4294967296 →
      ref_calls_destroy self (List.replicate n RefCall.ref_inc ++ rest) i =
        ref_calls_destroy { self with ref_count := (self.ref_count + n) % 4294967296 } rest
          (i + n) := by
  intro n
  induction n with
  | zero =>
    intro self i h
    simp only [List.replicate_zero, List.nil_append, Nat.add_zero, Nat.mod_eq_of_lt h]
  | succ n ih =>
    intro self i h
    have hlt : uint32_inc self.ref_count < 4294967296 := by
      unfold uint32_inc; split <;> omega
    have hmod : (uint32_inc self.ref_count + n) % 4294967296 =
        (self.ref_count + (n + 1)) % 4294967296 := by
      unfold uint32_inc; split <;> omega
    rw [List.replicate_succ, List.cons_append]
    change ref_calls_destroy (renderpass_ref_inc self)
      (List.replicate n RefCall.ref_inc ++ rest) (i + 1) = _
    rw [ih (renderpass_ref_inc self) (i + 1) hlt]
    simp only [renderpass_ref_inc, hmod]
    congr 1
    omega

theorem count_inc_wrapping_calls (n : Nat) : count_inc (wrapping_calls n) = n := by
  simp [count_inc, wrapping_calls, List.count_append, List.count_replicate]

theorem count_dec_wrapping_calls (n : Nat) : count_dec (wrapping_calls n) = 1 := by
  simp [count_dec, wrapping_calls, List.count_append, List.count_replicate]

theorem not_lastDecrement_wrapping_calls (n : Nat) (hn : 0 < n) :
    ¬ LastDecrement (wrapping_calls n) n := by
  have hdec := count_dec_wrapping_calls n
  have hinc := count_inc_wrapping_calls n
  have hlen : (wrapping_calls n).length = n + 1 := by
    simp only [wrapping_calls, List.length_append, List.length_replicate, List.length_singleton]
  rintro ⟨_, h, _⟩
  rw [List.take_of_length_le (by omega), hdec, hinc] at h
  omega

theorem wrapping_calls_destroy (hash_64_fnv1a : List Nat → Nat) (renderpass_name : List Nat)
    (type_ : Nat) (n : Nat) (hn : n % 4294967296 = 0) :
    ref_calls_destroy (renderpass_create hash_64_fnv1a renderpass_name type_)
      (wrapping_calls n) 0 = some n := by
  have hmod : (1 + n) % 4294967296 = 1 := by omega
  unfold wrapping_calls
  rw [ref_calls_destroy_replicate _ _ _ _ (by simp only [renderpass_create]; omega)]
  simp only [renderpass_create, ref_calls_destroy, renderpass_ref_dec, hmod, uint32_dec]
  simp

theorem count_take_le (a : RefCall) (l : List RefCall) (k : Nat) :
    (l.take k).count a ≤ l.count a :=
  (List.take_sublist k l).count_le a

theorem callback_calls_fold :
    ∀ (calls : List CallbackCall) (self : le_renderpass_o),
      (calls.foldl apply_callback_call self).callbackSetup =
        (setup_callbacks_set calls).getLast?.getD self.callbackSetup ∧
      ((calls.foldl apply_callback_call self).executeCallbacks.isEmpty =
        (self.executeCallbacks.isEmpty && !any_execute_callback calls)) := by
  intro calls
  induction calls with
  | nil => intro self; simp [setup_callbacks_set, any_execute_callback]
  | cons c rest ih =>
    intro self
    obtain ⟨h1, h2⟩ := ih (apply_callback_call self c)
    rw [List.foldl_cons, h1, h2]
    cases c with
    | set_setup_callback user_data callback =>
      constructor
      · simp only [setup_callbacks_set, apply_callback_call, renderpass_set_setup_callback]
        cases hr : setup_callbacks_set rest with
        | nil => simp
        | cons x xs =>
          rw [List.getLast?_cons_cons]
          cases hl : (x :: xs).getLast? with
          | none => simp at hl
          | some y => rfl
      · simp [apply_callback_call, renderpass_set_setup_callback, any_execute_callback]
    | set_execute_callback user_data callback =>
      constructor
      · simp only [setup_callbacks_set, apply_callback_call, renderpass_set_execute_callback]
      · simp [apply_callback_call, renderpass_set_execute_callback, any_execute_callback]

theorem use_resource_well_formed (B : AccessFlagBits2) (eIsRoot : Nat) (ndebug : Bool)
    (self : le_renderpass_o) (h : le_resource_handle) (a : Nat) (hwf : PassWellFormed self) :
    (∀ p, renderpass_use_resource B eIsRoot ndebug self h a = .ok p → PassWellFormed p) ∧
    ∃ p, renderpass_use_resource B eIsRoot true self h a = .ok p := by
  obtain ⟨h1, h2, h3, h4, h5⟩ := hwf
  by_cases hmem : h ∈ self.resources
  · have hdup := use_resource_dup B eIsRoot self h a hmem h2 h1
    refine ⟨?_, _, hdup⟩
    intro p hp
    cases ndebug with
    | false =>
      obtain ⟨hlt, _⟩ := find_resource_idx_of_mem self.resources h hmem
      have hne : find_resource_idx self.resources h ≠ self.resources.length := by omega
      unfold renderpass_use_resource register_resource at hp
      simp [hne, c_assert, bind, Except.bind, throw, throwThe, MonadExceptOf.throw] at hp
    | true =>
      rw [hdup] at hp
      injection hp with hp
      rw [← hp]
      refine ⟨?_, ?_, h3, h4, h5⟩
      · simp only [List.length_set]; exact h1
      · simp only [List.length_set]; exact h2
  · have hnew := use_resource_new B eIsRoot
    refine ⟨?_, _, hnew true self h a hmem h1⟩
    intro p hp
    rw [hnew ndebug self h a hmem h1] at hp
    injection hp with hp
    rw [← hp]
    refine ⟨?_, ?_, h3, h4, ?_⟩
    · simp only [List.length_append, List.length_singleton]; omega
    · simp only [List.length_append, List.length_singleton]; omega
    · exact List.Nodup.append h5 (List.nodup_singleton h) (by simpa using hmem)

theorem apply_pass_call_well_formed (B : AccessFlagBits2) (eIsRoot : Nat) (ndebug : Bool)
    (self : le_renderpass_o) (c : PassCall) (hwf : PassWellFormed self) :
    (∀ p, apply_pass_call B eIsRoot ndebug self c = .ok p → PassWellFormed p) ∧
    ∃ p, apply_pass_call B eIsRoot true self c = .ok p := by
  obtain ⟨h1, h2, h3, h4, h5⟩ := hwf
  cases c with
  | use_resource resource_id access_flags =>
    exact use_resource_well_formed B eIsRoot ndebug self _ _ ⟨h1, h2, h3, h4, h5⟩
  | add_color_attachment image_id attachmentInfo =>
    exact use_resource_well_formed B eIsRoot ndebug _ _ _
      ⟨h1, h2, by simp only [List.length_append, List.length_singleton]; omega, h4, h5⟩
  | add_depth_stencil_attachment image_id attachmentInfo =>
    exact use_resource_well_formed B eIsRoot ndebug _ _ _
      ⟨h1, h2, by simp only [List.length_append, List.length_singleton]; omega, h4, h5⟩
  | sample_texture texture textureInfo =>
    simp only [apply_pass_call, renderpass_sample_texture]
    by_cases ht : vector_contains self.textureIds texture = true
    · simp only [ht, if_true]
      refine ⟨?_, self, rfl⟩
      intro p hp
      rw [pure_ok] at hp
      rw [← hp]
      exact ⟨h1, h2, h3, h4, h5⟩
    · simp only [ht, if_false]
      exact use_resource_well_formed B eIsRoot ndebug _ _ _
        ⟨h1, h2, h3, by simp only [List.length_append, List.length_singleton]; omega, h5⟩

theorem apply_pass_calls_well_formed (B : AccessFlagBits2) (eIsRoot : Nat) (ndebug : Bool) :
    ∀ (calls : List PassCall) (self : le_renderpass_o), PassWellFormed self →
      (∀ p, apply_pass_calls B eIsRoot ndebug self calls = .ok p → PassWellFormed p) ∧
      ∃ p, apply_pass_calls B eIsRoot true self calls = .ok p := by
  intro calls
  induction calls with
  | nil =>
    intro self hwf
    refine ⟨?_, self, rfl⟩
    intro p hp
    simp only [apply_pass_calls, List.foldlM_nil, pure_ok] at hp
    rw [← hp]
    exact hwf
  | cons c rest ih =>
    intro self hwf
    obtain ⟨hstep, q, hq⟩ := apply_pass_call_well_formed B eIsRoot ndebug self c hwf
    constructor
    · intro p hp
      simp only [apply_pass_calls, List.foldlM_cons, bind_ok] at hp
      obtain ⟨s1, hs1, hrest⟩ := hp
      exact (ih s1 (hstep s1 hs1)).1 p hrest
    · obtain ⟨hstep1, _⟩ := apply_pass_call_well_formed B eIsRoot true self c hwf
      obtain ⟨_, r, hr⟩ := ih q (hstep1 q hq)
      refine ⟨r, ?_⟩
      simp only [apply_pass_calls, List.foldlM_cons, bind_ok]
      exact ⟨q, hq, hr⟩

theorem renderpass_create_well_formed (hash_64_fnv1a : List Nat → Nat)
    (renderpass_name : List Nat) (type_ : Nat) :
    PassWellFormed (renderpass_create hash_64_fnv1a renderpass_name type_) := by
  unfold PassWellFormed renderpass_create
  simp

theorem bitset_and_not_testBit (a b c : Nat) :
    (bitset_and_not a b).testBit c = (a.testBit c && !b.testBit c) := by
  unfold bitset_and_not
  rw [Nat.testBit_xor, Nat.testBit_and]
  cases a.testBit c <;> cases b.testBit c <;> rfl

theorem node_tag_sweep_length (nodes : List Node) :
    (node_tag_sweep nodes).1.length = nodes.length :=
  (node_tag_sweep_rel nodes).length_eq.symm

theorem node_tag_sweep_cons (n : Node) (later : List Node) :
    node_tag_sweep (n :: later) =
      (if (n.is_root || (n.writes &&& (node_tag_sweep later).2.1) != 0) = true then
        ({ n with
            is_contributing := true
            is_root := if (n.is_root && (n.writes &&& (node_tag_sweep later).2.1) != 0) = true
              then false else n.is_root } :: (node_tag_sweep later).1,
         bitset_and_not (node_tag_sweep later).2.1 n.writes ||| n.reads,
         if (if (n.is_root && (n.writes &&& (node_tag_sweep later).2.1) != 0) = true
              then false else n.is_root) = true
           then uint32_inc (node_tag_sweep later).2.2 else (node_tag_sweep later).2.2)
       else (n :: (node_tag_sweep later).1, (node_tag_sweep later).2.1,
         (node_tag_sweep later).2.2)) := by
  rw [node_tag_sweep]

theorem node_tag_sweep_drop (nodes : List Node) :
    ∀ k : Nat, (node_tag_sweep nodes).1.drop k = (node_tag_sweep (nodes.drop k)).1 := by
  induction nodes with
  | nil => intro k; simp [node_tag_sweep]
  | cons n later ih =>
    intro k
    cases k with
    | zero => rfl
    | succ k =>
      rw [List.drop_succ_cons, ← ih k, node_tag_sweep_cons]
      split <;> rfl

theorem node_tag_sweep_at (nodes : List Node) (k : Nat) (n : Node) (h : nodes[k]? = some n) :
    (node_tag_sweep nodes).1[k]? =
      some (if (n.is_root || (n.writes &&& read_accum_at nodes k) != 0) = true then
        { n with
          is_contributing := true
          is_root := if (n.is_root && (n.writes &&& read_accum_at nodes k) != 0) = true
            then false else n.is_root }
       else n) ∧
    read_accum_after nodes k =
      (if (n.is_root || (n.writes &&& read_accum_at nodes k) != 0) = true then
        bitset_and_not (read_accum_at nodes k) n.writes ||| n.reads
       else read_accum_at nodes k) := by
  have hlt : k < nodes.length := by
    by_contra hge
    rw [List.getElem?_eq_none (by omega)] at h
    exact absurd h (by simp)
  have hd : nodes.drop k = n :: nodes.drop (k + 1) := by
    rw [List.drop_eq_getElem_cons hlt]
    congr 1
    rw [List.getElem?_eq_getElem hlt] at h
    exact Option.some.inj h
  have h0 : (node_tag_sweep nodes).1[k]? = ((node_tag_sweep nodes).1.drop k)[0]? := by
    rw [List.getElem?_drop]; rfl
  unfold read_accum_after read_accum_at
  rw [h0, node_tag_sweep_drop, hd, node_tag_sweep_cons]
  split <;> exact ⟨List.getElem?_cons_zero, rfl⟩

theorem uint32_inc_le (x : Nat) : uint32_inc x ≤ x + 1 := by
  unfold uint32_inc; split <;> omega

theorem node_tag_sweep_count (nodes : List Node) :
    (node_tag_sweep nodes).1.countP (fun n => n.is_root) ≤ nodes.length ∧
    (nodes.length < 4294967296 →
      (node_tag_sweep nodes).2.2 = (node_tag_sweep nodes).1.countP (fun n => n.is_root)) := by
  induction nodes with
  | nil => exact ⟨by simp [node_tag_sweep], fun _ => by simp [node_tag_sweep]⟩
  | cons n later ih =>
    obtain ⟨ih1, ih2⟩ := ih
    rw [node_tag_sweep_cons]
    simp only [List.length_cons]
    by_cases hc : (n.is_root || (n.writes &&& (node_tag_sweep later).2.1) != 0) = true
    · rw [if_pos hc]
      by_cases hr : (if (n.is_root && (n.writes &&& (node_tag_sweep later).2.1) != 0) = true
          then false else n.is_root) = true
      · rw [if_pos hr]
        have hcount : List.countP (fun n => n.is_root)
            (({ n with
              is_contributing := true
              is_root := if (n.is_root && (n.writes &&& (node_tag_sweep later).2.1) != 0) = true
                then false else n.is_root } : Node) :: (node_tag_sweep later).1) =
            List.countP (fun n => n.is_root) (node_tag_sweep later).1 + 1 :=
          List.countP_cons_of_pos _ _ hr
        rw [hcount]
        refine ⟨by omega, fun hlen => ?_⟩
        show uint32_inc (node_tag_sweep later).2.2 = _
        have hne : ¬ List.countP (fun n => n.is_root) (node_tag_sweep later).1 = 4294967295 := by
          omega
        rw [ih2 (by omega)]
        unfold uint32_inc
        rw [if_neg hne]
      · rw [if_neg hr]
        have hcount : List.countP (fun n => n.is_root)
            (({ n with
              is_contributing := true
              is_root := if (n.is_root && (n.writes &&& (node_tag_sweep later).2.1) != 0) = true
                then false else n.is_root } : Node) :: (node_tag_sweep later).1) =
            List.countP (fun n => n.is_root) (node_tag_sweep later).1 :=
          List.countP_cons_of_neg _ _ hr
        rw [hcount]
        exact ⟨by omega, fun hlen => ih2 (by omega)⟩
    · rw [if_neg hc]
      have hnr : ¬ n.is_root = true := by
        intro hr; rw [hr] at hc; simp at hc
      have hcount : List.countP (fun n => n.is_root) (n :: (node_tag_sweep later).1) =
          List.countP (fun n => n.is_root) (node_tag_sweep later).1 :=
        List.countP_cons_of_neg _ _ hnr
      rw [hcount]
      exact ⟨by omega, fun hlen => ih2 (by omega)⟩

theorem node_tag_sweep_many_roots (n : Nat) :
    node_tag_sweep (many_roots n) =
      (List.replicate n { is_root := true, is_contributing := true }, 0, n % 4294967296) := by
  induction n with
  | zero => rfl
  | succ n ih =>
    have e : many_roots (n + 1) = ({ is_root := true } : Node) :: many_roots n := rfl
    rw [e, node_tag_sweep_cons, ih]
    simp [List.replicate_succ, bitset_and_not, uint32_inc]
    split <;> omega

theorem countP_many_roots_tagged (n : Nat) :
    (node_tag_contributing (many_roots n)).1.countP (fun n => n.is_root) = n ∧
    (node_tag_contributing (many_roots n)).2 = n % 4294967296 := by
  unfold node_tag_contributing
  rw [node_tag_sweep_many_roots]
  simp [List.countP_replicate]

theorem testBit_or_one_shiftLeft_ne (x K i : Nat) (h : i ≠ K) :
    (x ||| 1 <<< K).testBit i = x.testBit i := by
  rw [Nat.testBit_or, Nat.one_shiftLeft, Nat.testBit_two_pow_of_ne (fun e => h e.symm)]
  simp

theorem testBit_or_one_shiftLeft_self (x K : Nat) : (x ||| 1 <<< K).testBit K = true := by
  rw [Nat.testBit_or, testBit_one_shiftLeft_self]
  simp

theorem tree_joins_same {n n1 : Node} (h : SameNode n n1) (ra : Nat) :
    tree_joins n1 ra = tree_joins n ra := by
  obtain ⟨h1, h2, h3, _⟩ := h
  unfold tree_joins
  rw [h2, h3]

theorem tree_accum_same {b b1 : List Node} (h : Forall₂ SameNode b b1) :
    ∀ ra wa : Nat, tree_accum b1 ra wa = tree_accum b ra wa := by
  induction h with
  | nil => intro ra wa; rfl
  | cons hab _ ih =>
    intro ra wa
    unfold tree_accum
    rw [tree_joins_same hab, hab.1, hab.2.1]
    split
    · exact ih _ _
    · exact ih _ _

theorem tree_accum_mono (b : List Node) :
    ∀ ra wa : Nat, BitsSub ra (tree_accum b ra wa).1 ∧ BitsSub wa (tree_accum b ra wa).2 := by
  induction b with
  | nil => intro ra wa; exact ⟨bitsSub_refl _, bitsSub_refl _⟩
  | cons n earlier ih =>
    intro ra wa
    unfold tree_accum
    split
    · exact ⟨bitsSub_trans (bitsSub_or_left _ _) (ih _ _).1,
        bitsSub_trans (bitsSub_or_left _ _) (ih _ _).2⟩
    · exact ih _ _

theorem tree_accum_cons (n : Node) (earlier : List Node) (ra wa : Nat) :
    tree_accum (n :: earlier) ra wa =
      if tree_joins n ra = true then tree_accum earlier (ra ||| n.reads) (wa ||| n.writes)
      else tree_accum earlier ra wa := by
  rw [tree_accum]

theorem tree_accum_append (b c : List Node) :
    ∀ ra wa : Nat, tree_accum (b ++ c) ra wa =
      tree_accum c (tree_accum b ra wa).1 (tree_accum b ra wa).2 := by
  induction b with
  | nil => intro ra wa; rfl
  | cons n earlier ih =>
    intro ra wa
    rw [List.cons_append, tree_accum_cons, tree_accum_cons]
    by_cases hj : tree_joins n ra = true
    · rw [if_pos hj, if_pos hj]; exact ih _ _
    · rw [if_neg hj, if_neg hj]; exact ih _ _

theorem tree_accum_take_mono (b : List Node) (p q : Nat) (hpq : p ≤ q) (ra wa : Nat) :
    BitsSub (tree_accum (b.take p) ra wa).1 (tree_accum (b.take q) ra wa).1 := by
  have e : b.take q = b.take p ++ (b.take q).drop p := by
    have := List.take_append_drop p (b.take q)
    rw [List.take_take, Nat.min_eq_left hpq] at this
    exact this.symm
  rw [e, tree_accum_append]
  exact (tree_accum_mono _ _ _).1

theorem accumulate_tree_cons (bit : Nat) (n : Node) (earlier : List Node) (ra wa : Nat) :
    accumulate_tree bit (n :: earlier) ra wa =
      if tree_joins n ra = true then
        ({ n with root_index_affinity := n.root_index_affinity ||| bit } ::
          (accumulate_tree bit earlier (ra ||| n.reads) (wa ||| n.writes)).1,
         (accumulate_tree bit earlier (ra ||| n.reads) (wa ||| n.writes)).2)
      else (n :: (accumulate_tree bit earlier ra wa).1, (accumulate_tree bit earlier ra wa).2) := by
  rw [accumulate_tree]
  unfold tree_joins
  by_cases hr : n.is_root = true
  · simp [hr]
  · by_cases hw : ((n.writes &&& ra) != 0) = true
    · rw [if_neg hr, if_pos hw]
      have hr' : n.is_root = false := by simpa using hr
      simp [hr', hw]
    · rw [if_neg hr, if_neg hw]
      have hw' : ((n.writes &&& ra) != 0) = false := by simpa using hw
      simp [hw']

theorem accumulate_tree_at (bit : Nat) (b : List Node) :
    ∀ ra wa : Nat,
      (accumulate_tree bit b ra wa).2 = tree_accum b ra wa ∧
      ∀ (p : Nat) (n : Node), b[p]? = some n →
        (accumulate_tree bit b ra wa).1[p]? =
          some (if tree_joins n (tree_accum (b.take p) ra wa).1 then
            { n with root_index_affinity := n.root_index_affinity ||| bit } else n) := by
  induction b with
  | nil =>
    intro ra wa
    exact ⟨rfl, fun p n h => by simp at h⟩
  | cons x earlier ih =>
    intro ra wa
    rw [accumulate_tree_cons, tree_accum_cons]
    by_cases hj : tree_joins x ra = true
    · rw [if_pos hj, if_pos hj]
      obtain ⟨h1, h2⟩ := ih (ra ||| x.reads) (wa ||| x.writes)
      refine ⟨h1, ?_⟩
      intro p n hp
      cases p with
      | zero =>
        simp only [List.getElem?_cons_zero, Option.some.injEq] at hp
        subst hp
        simp only [List.take_zero, List.getElem?_cons_zero, tree_accum, hj, if_true]
      | succ p =>
        simp only [List.getElem?_cons_succ] at hp ⊢
        rw [h2 p n hp, List.take_succ_cons, tree_accum_cons, if_pos hj]
    · rw [if_neg hj, if_neg hj]
      obtain ⟨h1, h2⟩ := ih ra wa
      refine ⟨h1, ?_⟩
      intro p n hp
      cases p with
      | zero =>
        simp only [List.getElem?_cons_zero, Option.some.injEq] at hp
        subst hp
        simp only [List.take_zero, List.getElem?_cons_zero, tree_accum, hj]
        rfl
      | succ p =>
        simp only [List.getElem?_cons_succ] at hp ⊢
        rw [h2 p n hp, List.take_succ_cons, tree_accum_cons, if_neg hj]

theorem accumulate_tree_kept (bit : Nat) (b : List Node) :
    ∀ ra wa : Nat, Forall₂ (TreeKept bit) b (accumulate_tree bit b ra wa).1 := by
  induction b with
  | nil => intro ra wa; exact Forall₂.nil
  | cons n earlier ih =>
    intro ra wa
    unfold accumulate_tree
    split
    · exact Forall₂.cons ⟨sameNode_refl n, fun _ => rfl, Or.inl rfl⟩ (ih _ _)
    · rename_i hr
      split
      · exact Forall₂.cons ⟨⟨rfl, rfl, rfl, rfl⟩, fun h => absurd h hr, Or.inr rfl⟩ (ih _ _)
      · exact Forall₂.cons ⟨sameNode_refl n, fun _ => rfl, Or.inl rfl⟩ (ih _ _)

theorem affinityKept_refl (i : Nat) (n : Node) : AffinityKept i n n :=
  ⟨sameNode_refl n, rfl⟩

theorem sameNode_trans {a b c : Node} (h1 : SameNode a b) (h2 : SameNode b c) : SameNode a c := by
  obtain ⟨a1, a2, a3, a4⟩ := h1
  obtain ⟨b1, b2, b3, b4⟩ := h2
  exact ⟨b1.trans a1, b2.trans a2, b3.trans a3, b4.trans a4⟩

theorem affinityKept_trans {i : Nat} {a b c : Node} (h1 : AffinityKept i a b)
    (h2 : AffinityKept i b c) : AffinityKept i a c :=
  ⟨sameNode_trans h1.1 h2.1, h2.2.trans h1.2⟩

theorem treeKept_affinityKept {K i : Nat} (h : i ≠ K) {n n1 : Node}
    (hk : TreeKept (1 <<< K) n n1) : AffinityKept i n n1 := by
  obtain ⟨h1, _, h3⟩ := hk
  refine ⟨h1, ?_⟩
  rcases h3 with e | e
  · rw [e]
  · rw [e, testBit_or_one_shiftLeft_ne _ _ _ h]

theorem forall₂_append_cons_split {α β : Type} {R : α → β → Prop} :
    ∀ (a : List α) (r : α) (b : List α) (l : List β), Forall₂ R (a ++ r :: b) l →
      ∃ (a1 : List β) (r1 : β) (b1 : List β), l = a1 ++ r1 :: b1 ∧
        Forall₂ R a a1 ∧ R r r1 ∧ Forall₂ R b b1 := by
  intro a
  induction a with
  | nil =>
    intro r b l h
    cases h with
    | cons hr hb => exact ⟨[], _, _, rfl, Forall₂.nil, hr, hb⟩
  | cons x a0 ih =>
    intro r b l h
    cases h with
    | cons hx hrest =>
      obtain ⟨a1, r1, b1, e, h1, h2, h3⟩ := ih r b _ hrest
      exact ⟨_ :: a1, r1, b1, by rw [e]; rfl, Forall₂.cons hx h1, h2, h3⟩

theorem countP_is_root_same {a a1 : List Node} (h : Forall₂ SameNode a a1) :
    a1.countP (fun n => n.is_root) = a.countP (fun n => n.is_root) := by
  induction h with
  | nil => rfl
  | cons hab _ ih =>
    rw [List.countP_cons, List.countP_cons, ih, hab.2.2.1]

/-- The trees accumulated from root index `K` on leave the affinity bits below
`K` alone. -/
theorem accumulate_roots_bits_below (remaining : Nat) :
    ∀ (nodes : List Node) (K : Nat) (rr rw : List Nat) (out : List Node) (rr1 rw1 : List Nat),
      accumulate_roots remaining nodes K rr rw = .ok (out, rr1, rw1) →
      ∀ i : Nat, i < K → Forall₂ (AffinityKept i) nodes out := by
  induction remaining with
  | zero =>
    intro nodes K rr rw out rr1 rw1 h i _
    simp only [accumulate_roots, pure_ok, Prod.mk.injEq] at h
    rw [← h.1]
    exact List.forall₂_same.mpr (fun x _ => affinityKept_refl i x)
  | succ m ih =>
    intro nodes K rr rw out rr1 rw1 h i hi
    cases nodes with
    | nil =>
      simp only [accumulate_roots, pure_ok, Prod.mk.injEq] at h
      rw [← h.1]; exact Forall₂.nil
    | cons r earlier =>
      unfold accumulate_roots at h
      by_cases hr : r.is_root = true
      · rw [if_pos hr] at h
        simp only [bind_ok, vec_at_ok, shl_one_ok, vec_set_ok] at h
        obtain ⟨_, _, _, _, bit, ⟨hK64, hbit⟩, rr2, ⟨hKr, hrr2⟩, rw2, ⟨hKw, hrw2⟩,
          ⟨e2, rr3, rw3⟩, hrec, hfin⟩ := h
        simp only [pure_ok, Prod.mk.injEq] at hfin
        obtain ⟨rfl, rfl, rfl⟩ := hfin
        subst hbit
        have hne : i ≠ K := by omega
        have hk := accumulate_tree_kept (1 <<< K) earlier r.reads r.writes
        have h1 : Forall₂ (AffinityKept i) earlier
            (accumulate_tree (1 <<< K) earlier r.reads r.writes).1 :=
          hk.imp (fun _ _ h => treeKept_affinityKept hne h)
        have h2 := ih _ _ _ _ _ _ _ hrec i (by omega)
        have h3 : Forall₂ (AffinityKept i) earlier e2 :=
          forall₂_comp (R := AffinityKept i) (S := AffinityKept i) (T := AffinityKept i)
            (fun _ _ _ hab hbc => affinityKept_trans hab hbc) h1 h2
        exact Forall₂.cons ⟨⟨rfl, rfl, rfl, rfl⟩, testBit_or_one_shiftLeft_ne _ _ _ hne⟩ h3
      · rw [if_neg hr] at h
        simp only [bind_ok] at h
        obtain ⟨⟨e2, rr3, rw3⟩, hrec, hfin⟩ := h
        simp only [pure_ok, Prod.mk.injEq] at hfin
        obtain ⟨rfl, rfl, rfl⟩ := hfin
        exact Forall₂.cons (affinityKept_refl i r) (ih _ _ _ _ _ _ _ hrec i hi)

/-- The trees accumulated from root index `K` on leave the accumulators of the
roots below `K` alone. -/
theorem accumulate_roots_entries_below (remaining : Nat) :
    ∀ (nodes : List Node) (K : Nat) (rr rw : List Nat) (out : List Node) (rr1 rw1 : List Nat),
      accumulate_roots remaining nodes K rr rw = .ok (out, rr1, rw1) →
      (∀ j : Nat, j < K → rr1[j]? = rr[j]? ∧ rw1[j]? = rw[j]?) ∧
      rr1.length = rr.length ∧ rw1.length = rw.length := by
  induction remaining with
  | zero =>
    intro nodes K rr rw out rr1 rw1 h
    simp only [accumulate_roots, pure_ok, Prod.mk.injEq] at h
    obtain ⟨_, rfl, rfl⟩ := h
    exact ⟨fun _ _ => ⟨rfl, rfl⟩, rfl, rfl⟩
  | succ m ih =>
    intro nodes K rr rw out rr1 rw1 h
    cases nodes with
    | nil =>
      simp only [accumulate_roots, pure_ok, Prod.mk.injEq] at h
      obtain ⟨_, rfl, rfl⟩ := h
      exact ⟨fun _ _ => ⟨rfl, rfl⟩, rfl, rfl⟩
    | cons r earlier =>
      unfold accumulate_roots at h
      by_cases hr : r.is_root = true
      · rw [if_pos hr] at h
        simp only [bind_ok, vec_at_ok, shl_one_ok, vec_set_ok] at h
        obtain ⟨_, _, _, _, bit, ⟨hK64, hbit⟩, rr2, ⟨hKr, hrr2⟩, rw2, ⟨hKw, hrw2⟩,
          ⟨e2, rr3, rw3⟩, hrec, hfin⟩ := h
        simp only [pure_ok, Prod.mk.injEq] at hfin
        obtain ⟨rfl, rfl, rfl⟩ := hfin
        obtain ⟨h2, h3, h4⟩ := ih _ _ _ _ _ _ _ hrec
        refine ⟨?_, ?_, ?_⟩
        · intro j hj
          obtain ⟨e1, e2'⟩ := h2 j (by omega)
          have hne : K ≠ j := by omega
          rw [e1, e2', ← hrr2, ← hrw2, List.getElem?_set_ne hne, List.getElem?_set_ne hne]
          exact ⟨rfl, rfl⟩
        · rw [h3, ← hrr2, List.length_set]
        · rw [h4, ← hrw2, List.length_set]
      · rw [if_neg hr] at h
        simp only [bind_ok] at h
        obtain ⟨⟨e2, rr3, rw3⟩, hrec, hfin⟩ := h
        simp only [pure_ok, Prod.mk.injEq] at hfin
        obtain ⟨rfl, rfl, rfl⟩ := hfin
        exact ih _ _ _ _ _ _ _ hrec

theorem countP_is_root_cons_pos (x : Node) (l : List Node) (hx : x.is_root = true) :
    (x :: l).countP (fun n => n.is_root) = l.countP (fun n => n.is_root) + 1 :=
  List.countP_cons_of_pos _ _ hx

theorem countP_is_root_cons_neg (x : Node) (l : List Node) (hx : ¬ x.is_root = true) :
    (x :: l).countP (fun n => n.is_root) = l.countP (fun n => n.is_root) :=
  List.countP_cons_of_neg _ _ hx

/-- The tree of every root: for the root `r` with the nodes `a` in front of it in
visiting order and the nodes `b` behind it, the root index is `K` plus the
number of roots in `a`, and the accumulators and the affinity bit of that index
are what `tree_accum` and `tree_joins` give on `b`. -/
theorem accumulate_roots_tree (remaining : Nat) :
    ∀ (nodes : List Node) (K : Nat) (rr rw : List Nat) (out : List Node) (rr1 rw1 : List Nat),
      nodes.length ≤ remaining →
      accumulate_roots remaining nodes K rr rw = .ok (out, rr1, rw1) →
      ∀ (a : List Node) (r : Node) (b : List Node), nodes = a ++ r :: b → r.is_root = true →
        ∃ (a1 : List Node) (r1 : Node) (b1 : List Node), out = a1 ++ r1 :: b1 ∧
          Forall₂ (AffinityKept (K + a.countP (fun n => n.is_root))) a a1 ∧
          SameNode r r1 ∧
          r1.root_index_affinity =
            r.root_index_affinity ||| 1 <<< (K + a.countP (fun n => n.is_root)) ∧
          K + a.countP (fun n => n.is_root) < 64 ∧
          b1.length = b.length ∧
          (∀ (p : Nat) (n : Node), b[p]? = some n → ∃ n1, b1[p]? = some n1 ∧ SameNode n n1 ∧
            n1.root_index_affinity.testBit (K + a.countP (fun n => n.is_root)) =
              (n.root_index_affinity.testBit (K + a.countP (fun n => n.is_root)) ||
                tree_joins n (tree_accum (b.take p) r.reads r.writes).1)) ∧
          rr1[K + a.countP (fun n => n.is_root)]? = some (tree_accum b r.reads r.writes).1 ∧
          rw1[K + a.countP (fun n => n.is_root)]? = some (tree_accum b r.reads r.writes).2 := by
  induction remaining with
  | zero =>
    intro nodes K rr rw out rr1 rw1 hlen _ a r b hsplit _
    rw [hsplit] at hlen
    simp at hlen
  | succ m ih =>
    intro nodes K rr rw out rr1 rw1 hlen h a r b hsplit hroot
    cases a with
    | nil =>
      simp only [List.nil_append] at hsplit
      subst hsplit
      simp only [List.countP_nil, Nat.add_zero]
      unfold accumulate_roots at h
      rw [if_pos hroot] at h
      simp only [bind_ok, vec_at_ok, shl_one_ok, vec_set_ok] at h
      obtain ⟨_, _, _, _, bit, ⟨hK64, hbit⟩, rr2, ⟨hKr, hrr2⟩, rw2, ⟨hKw, hrw2⟩,
        ⟨e2, rr3, rw3⟩, hrec, hfin⟩ := h
      simp only [pure_ok, Prod.mk.injEq] at hfin
      obtain ⟨rfl, rfl, rfl⟩ := hfin
      subst hbit
      obtain ⟨hacc, hat⟩ := accumulate_tree_at (1 <<< K) b r.reads r.writes
      have hbelow := accumulate_roots_bits_below _ _ _ _ _ _ _ _ hrec K (by omega)
      obtain ⟨hent, _, _⟩ := accumulate_roots_entries_below _ _ _ _ _ _ _ _ hrec
      have hsame := accumulate_tree_same (1 <<< K) b r.reads r.writes
      refine ⟨[], _, e2, rfl, Forall₂.nil, ⟨rfl, rfl, rfl, rfl⟩, rfl, hK64, ?_, ?_, ?_, ?_⟩
      · rw [← hbelow.length_eq, ← hsame.length_eq]
      · intro p n hp
        obtain ⟨n1, hn1, hk1, hk2⟩ := forall₂_getElem? hbelow p _ (hat p n hp)
        refine ⟨n1, hn1, ?_, ?_⟩
        · refine sameNode_trans ?_ hk1
          split <;> exact ⟨rfl, rfl, rfl, rfl⟩
        · rw [hk2]
          by_cases hj : tree_joins n (tree_accum (b.take p) r.reads r.writes).1 = true
          · rw [if_pos hj, hj]
            simp only [Bool.or_true]
            exact testBit_or_one_shiftLeft_self _ _
          · rw [if_neg hj]
            simp only [Bool.not_eq_true] at hj
            rw [hj, Bool.or_false]
      · rw [(hent K (by omega)).1, ← hrr2, List.getElem?_set]
        simp only [hKr, if_true]
        rw [← hacc]
      · rw [(hent K (by omega)).2, ← hrw2, List.getElem?_set]
        simp only [hKw, if_true]
        rw [← hacc]
    | cons x a0 =>
      simp only [List.cons_append] at hsplit
      subst hsplit
      unfold accumulate_roots at h
      by_cases hx : x.is_root = true
      · rw [if_pos hx] at h
        simp only [bind_ok, vec_at_ok, shl_one_ok, vec_set_ok] at h
        obtain ⟨_, _, _, _, bit, ⟨hK64, hbit⟩, rr2, ⟨hKr, hrr2⟩, rw2, ⟨hKw, hrw2⟩,
          ⟨e2, rr3, rw3⟩, hrec, hfin⟩ := h
        simp only [pure_ok, Prod.mk.injEq] at hfin
        obtain ⟨rfl, rfl, rfl⟩ := hfin
        subst hbit
        have hk := accumulate_tree_kept (1 <<< K) (a0 ++ r :: b) x.reads x.writes
        obtain ⟨a0t, rt, bt, hsp, hka, hkr, hkb⟩ := forall₂_append_cons_split _ _ _ _ hk
        have hrt : rt = r := hkr.2.1 hroot
        subst hrt
        have hlen1 : (accumulate_tree (1 <<< K) (a0 ++ rt :: b) x.reads x.writes).1.length ≤ m := by
          rw [← hk.length_eq]
          simp only [List.length_cons] at hlen
          omega
        have hsa : Forall₂ SameNode a0 a0t := hka.imp (fun _ _ h => h.1)
        have hsb : Forall₂ SameNode b bt := hkb.imp (fun _ _ h => h.1)
        have hcount := countP_is_root_same hsa
        have hidx : K + 1 + a0t.countP (fun n => n.is_root) =
            K + (x :: a0).countP (fun n => n.is_root) := by
          rw [hcount, countP_is_root_cons_pos _ _ hx]
          omega
        obtain ⟨a1, r1, b1, hout, h1, h2, h3, h4, h5, h6, h7, h8⟩ :=
          ih _ _ _ _ _ _ _ hlen1 hrec a0t rt bt hsp hroot
        rw [hidx] at h1 h3 h4 h6 h7 h8
        have hne : K + (x :: a0).countP (fun n => n.is_root) ≠ K := by
          rw [countP_is_root_cons_pos _ _ hx]
          omega
        refine ⟨_ :: a1, r1, b1, by rw [hout]; rfl, ?_, h2, h3, h4, ?_, ?_, ?_, ?_⟩
        · refine Forall₂.cons ⟨⟨rfl, rfl, rfl, rfl⟩, testBit_or_one_shiftLeft_ne _ _ _ hne⟩ ?_
          exact forall₂_comp
            (R := TreeKept (1 <<< K))
            (S := AffinityKept (K + (x :: a0).countP (fun n => n.is_root)))
            (T := AffinityKept (K + (x :: a0).countP (fun n => n.is_root)))
            (fun _ _ _ hab hbc => affinityKept_trans (treeKept_affinityKept hne hab) hbc)
            hka h1
        · rw [h5, hsb.length_eq]
        · intro p n hp
          obtain ⟨nt, hnt, hkt⟩ := forall₂_getElem? hkb p n hp
          obtain ⟨n1, hn1, hs1, hb1⟩ := h6 p nt hnt
          refine ⟨n1, hn1, sameNode_trans hkt.1 hs1, ?_⟩
          rw [hb1, (treeKept_affinityKept hne hkt).2, tree_joins_same hkt.1,
            tree_accum_same (List.forall₂_take p hsb)]
        · rw [h7, tree_accum_same hsb]
        · rw [h8, tree_accum_same hsb]
      · rw [if_neg hx] at h
        simp only [bind_ok] at h
        obtain ⟨⟨e2, rr3, rw3⟩, hrec, hfin⟩ := h
        simp only [pure_ok, Prod.mk.injEq] at hfin
        obtain ⟨rfl, rfl, rfl⟩ := hfin
        have hlen1 : (a0 ++ r :: b).length ≤ m := by
          simp only [List.length_cons] at hlen
          omega
        have hidx := countP_is_root_cons_neg x a0 hx
        obtain ⟨a1, r1, b1, hout, h1, h2, h3, h4, h5, h6, h7, h8⟩ :=
          ih _ _ _ _ _ _ _ hlen1 hrec a0 r b rfl hroot
        rw [hidx]
        exact ⟨x :: a1, r1, b1, by rw [hout]; rfl,
          Forall₂.cons (affinityKept_refl _ x) h1, h2, h3, h4, h5, h6, h7, h8⟩

theorem build_trees_parts (ndebug : Bool) (passes : List le_renderpass_o) (t : RootTrees)
    (h : rendergraph_build_trees ndebug passes = .ok t) :
    ∃ nodes0 : List Node, Forall₂ PassNode passes nodes0 ∧
      t.root_count = (node_tag_contributing nodes0).2 ∧
      accumulate_roots (node_tag_contributing nodes0).1.length
        (node_tag_contributing nodes0).1.reverse 0
        (List.replicate t.root_count 0) (List.replicate t.root_count 0) =
        .ok (t.nodes.reverse, t.root_reads_accum, t.root_writes_accum) ∧
      (ndebug = true ∨ t.root_count ≤ LE_MAX_NUM_GRAPH_ROOTS) := by
  unfold rendergraph_build_trees at h
  simp only [bind_ok, c_assert_ok] at h
  obtain ⟨⟨u, nodes0⟩, h0, _, hassert, ⟨rn, rr, rw⟩, hacc, hfin⟩ := h
  simp only [pure_ok] at hfin
  refine ⟨nodes0, build_nodes_rel _ _ _ _ _ h0, ?_, ?_, ?_⟩
  · rw [← hfin]
  · rw [← hfin]
    simp only [List.reverse_reverse]
    exact hacc
  · rw [← hfin]
    rcases hassert with h1 | h1
    · exact Or.inl h1
    · exact Or.inr (by simpa using h1)

theorem tagged_affinity_zero {passes : List le_renderpass_o} {nodes0 : List Node}
    (h0 : Forall₂ PassNode passes nodes0) :
    ∀ n ∈ (node_tag_contributing nodes0).1, n.root_index_affinity = 0 := by
  intro n hn
  obtain ⟨k, hk⟩ := List.getElem?_of_mem hn
  obtain ⟨n0, hn0, ht⟩ := forall₂_getElem?_right (node_tag_sweep_rel nodes0) k n hk
  obtain ⟨p, _, hp⟩ := forall₂_getElem?_right h0 k n0 hn0
  rw [ht.2.2.1, hp.2.2]

/-- Every bit the sweep monitors is read by a node it tagged contributing. -/
theorem node_tag_sweep_cover (nodes : List Node) :
    ∀ c : Nat, (node_tag_sweep nodes).2.1.testBit c = true →
      ∃ (j : Nat) (n2 : Node), (node_tag_sweep nodes).1[j]? = some n2 ∧
        n2.is_contributing = true ∧ n2.reads.testBit c = true := by
  induction nodes with
  | nil => intro c h; simp [node_tag_sweep] at h
  | cons n later ih =>
    intro c h
    rw [node_tag_sweep_cons] at h ⊢
    by_cases hc : (n.is_root || (n.writes &&& (node_tag_sweep later).2.1) != 0) = true
    · rw [if_pos hc] at h ⊢
      simp only [Nat.testBit_or, bitset_and_not_testBit, Bool.or_eq_true, Bool.and_eq_true] at h
      rcases h with h | h
      · obtain ⟨j, n2, h1, h2, h3⟩ := ih c h.1
        exact ⟨j + 1, n2, by simpa using h1, h2, h3⟩
      · exact ⟨0, _, List.getElem?_cons_zero, rfl, h⟩
    · rw [if_neg hc] at h ⊢
      obtain ⟨j, n2, h1, h2, h3⟩ := ih c h
      exact ⟨j + 1, n2, by simpa using h1, h2, h3⟩

/-- A node the sweep tagged contributing and that is no root afterwards writes
something a contributing node behind it reads. -/
theorem node_tag_sweep_feeds (nodes : List Node) (k : Nat) (n n1 : Node)
    (hn : nodes[k]? = some n) (hentry : n.is_contributing = false)
    (hn1 : (node_tag_sweep nodes).1[k]? = some n1) (hc : n1.is_contributing = true)
    (hr : n1.is_root = false) :
    ∃ (j : Nat) (n2 : Node), k < j ∧ (node_tag_sweep nodes).1[j]? = some n2 ∧
      n2.is_contributing = true ∧ n1.writes &&& n2.reads ≠ 0 := by
  obtain ⟨h1, _⟩ := node_tag_sweep_at nodes k n hn
  rw [hn1] at h1
  have h1 := Option.some.inj h1
  by_cases hcond : (n.is_root || (n.writes &&& read_accum_at nodes k) != 0) = true
  · rw [if_pos hcond] at h1
    have hw : n.writes &&& read_accum_at nodes k ≠ 0 := by
      by_contra h0
      rw [h0] at hcond h1
      simp only [bne_self_eq_false, Bool.or_false, Bool.and_false, Bool.false_eq_true,
        if_false] at hcond h1
      rw [h1] at hr
      simp only at hr
      rw [hcond] at hr
      cases hr
    obtain ⟨c, hcbit⟩ := Nat.ne_zero_implies_bit_true hw
    simp only [Nat.testBit_and, Bool.and_eq_true] at hcbit
    obtain ⟨j, n2, hj1, hj2, hj3⟩ := node_tag_sweep_cover (nodes.drop (k + 1)) c hcbit.2
    rw [← node_tag_sweep_drop, List.getElem?_drop] at hj1
    refine ⟨k + 1 + j, n2, by omega, hj1, hj2, ?_⟩
    have hwr : n1.writes = n.writes := by rw [h1]
    rw [hwr]
    intro h0
    have : (n.writes &&& n2.reads).testBit c = true := by
      simp only [Nat.testBit_and, Bool.and_eq_true]
      exact ⟨hcbit.1, hj3⟩
    rw [h0, Nat.zero_testBit] at this
    cases this
  · rw [if_neg hcond] at h1
    rw [h1, hentry] at hc
    cases hc

theorem tree_accum_take_succ (b : List Node) (p : Nat) (n : Node) (hp : b[p]? = some n)
    (ra wa : Nat) (hj : tree_joins n (tree_accum (b.take p) ra wa).1 = true) :
    BitsSub n.reads (tree_accum (b.take (p + 1)) ra wa).1 := by
  have e : b.take (p + 1) = b.take p ++ [n] := by
    rw [List.take_succ, hp]
    rfl
  rw [e, tree_accum_append, tree_accum_cons, if_pos hj]
  exact bitsSub_or_right _ _

theorem list_split_at {α : Type} (l : List α) (q : Nat) (x : α) (h : l[q]? = some x) :
    l = l.take q ++ x :: l.drop (q + 1) ∧ (l.take q).length = q := by
  have hlt : q < l.length := by
    by_contra hge
    rw [List.getElem?_eq_none (by omega)] at h
    exact absurd h (by simp)
  have hx : l[q] = x := by
    rw [List.getElem?_eq_getElem hlt] at h
    exact Option.some.inj h
  refine ⟨?_, by simp; omega⟩
  rw [← hx, ← List.drop_eq_getElem_cons hlt, List.take_append_drop]

/-- Every node the sweep tagged contributing ends with an affinity bit of a
root that is visited with or before it: the root's own bit, or the bit of the
tree of a contributing node it feeds. -/
theorem contributing_has_tree_bit (nodes0 : List Node)
    (hentry : ∀ n ∈ nodes0, n.is_contributing = false)
    (hzero : ∀ n ∈ (node_tag_sweep nodes0).1, n.root_index_affinity = 0)
    (out : List Node) (rr rw : List Nat) (c : Nat)
    (hacc : accumulate_roots (node_tag_sweep nodes0).1.length (node_tag_sweep nodes0).1.reverse 0
      (List.replicate c 0) (List.replicate c 0) = .ok (out, rr, rw)) :
    ∀ (q : Nat) (n1 : Node), (node_tag_sweep nodes0).1.reverse[q]? = some n1 →
      n1.is_contributing = true →
      ∃ (a : List Node) (r : Node) (b : List Node),
        (node_tag_sweep nodes0).1.reverse = a ++ r :: b ∧ r.is_root = true ∧ a.length ≤ q ∧
        ∃ o, out[q]? = some o ∧
          o.root_index_affinity.testBit (a.countP (fun n => n.is_root)) = true := by
  have hlen := node_tag_sweep_length nodes0
  intro q
  induction q using Nat.strong_induction_on with
  | _ q ih =>
    intro n1 hq hc
    have hqlt : q < (node_tag_sweep nodes0).1.length := by
      by_contra hge
      rw [List.getElem?_eq_none (by simp; omega)] at hq
      exact absurd hq (by simp)
    by_cases hroot : n1.is_root = true
    · obtain ⟨hsplit, hal⟩ := list_split_at _ q n1 hq
      obtain ⟨a1, r1, b1, hout, h1, _, h3, _, _, _, _, _⟩ :=
        accumulate_roots_tree _ _ _ _ _ _ _ _ (by simp) hacc _ _ _ hsplit hroot
      refine ⟨_, _, _, hsplit, hroot, by omega, r1, ?_, ?_⟩
      · rw [hout, List.getElem?_append_right (by rw [← h1.length_eq, hal])]
        rw [← h1.length_eq, hal]
        simp
      · rw [h3]
        simp only [Nat.zero_add]
        exact testBit_or_one_shiftLeft_self _ _
    · have hroot' : n1.is_root = false := by simpa using hroot
      -- the node in pass order
      have hk : (node_tag_sweep nodes0).1[(node_tag_sweep nodes0).1.length - 1 - q]? = some n1 := by
        rw [← List.getElem?_reverse hqlt]
        exact hq
      have hklt : (node_tag_sweep nodes0).1.length - 1 - q < nodes0.length := by omega
      have hn : nodes0[(node_tag_sweep nodes0).1.length - 1 - q]? =
          some nodes0[(node_tag_sweep nodes0).1.length - 1 - q] :=
        List.getElem?_eq_getElem hklt
      obtain ⟨j, n2, hj, hj1, hj2, hj3⟩ := node_tag_sweep_feeds nodes0 _ _ n1 hn
        (hentry _ (List.getElem_mem _)) hk hc hroot'
      have hjlt : j < (node_tag_sweep nodes0).1.length := by
        by_contra hge
        rw [List.getElem?_eq_none (by omega)] at hj1
        exact absurd hj1 (by simp)
      have hq2 : (node_tag_sweep nodes0).1.reverse[(node_tag_sweep nodes0).1.length - 1 - j]? =
          some n2 := by
        rw [List.getElem?_reverse (by omega)]
        have : (node_tag_sweep nodes0).1.length - 1 -
            ((node_tag_sweep nodes0).1.length - 1 - j) = j := by omega
        rw [this]
        exact hj1
      obtain ⟨a, r, b, hsplit, hr, hs, o2, ho2, hbit2⟩ :=
        ih ((node_tag_sweep nodes0).1.length - 1 - j) (by omega) n2 hq2 hj2
      obtain ⟨a1, r1, b1, hout, h1, _, _, _, h5, h6, _, _⟩ :=
        accumulate_roots_tree _ _ _ _ _ _ _ _ (by simp) hacc _ _ _ hsplit hr
      simp only [Nat.zero_add] at h6
      have hal : a1.length = a.length := h1.length_eq.symm
      -- the place of `n1` behind the root
      have hb1 : b[q - a.length - 1]? = some n1 := by
        rw [hsplit, List.getElem?_append_right (by omega)] at hq
        have e : q - a.length = (q - a.length - 1) + 1 := by omega
        rw [e, List.getElem?_cons_succ] at hq
        exact hq
      obtain ⟨o, ho, _, hob⟩ := h6 _ n1 hb1
      have hoq : out[q]? = some o := by
        rw [hout, List.getElem?_append_right (by omega)]
        have e : q - a1.length = (q - a.length - 1) + 1 := by omega
        rw [e, List.getElem?_cons_succ]
        exact ho
      refine ⟨a, r, b, hsplit, hr, by omega, o, hoq, ?_⟩
      rw [hob]
      -- the reads of `n2` are in the accumulator
      have hsub : BitsSub n2.reads
          (tree_accum (b.take (q - a.length - 1)) r.reads r.writes).1 := by
        by_cases hs2 : (node_tag_sweep nodes0).1.length - 1 - j = a.length
        · have hr2 : n2 = r := by
            rw [hsplit, hs2, List.getElem?_append_right (Nat.le_refl _)] at hq2
            simp only [Nat.sub_self, List.getElem?_cons_zero, Option.some.injEq] at hq2
            exact hq2.symm
          rw [hr2]
          exact (tree_accum_mono _ _ _).1
        · have hb2 : b[(node_tag_sweep nodes0).1.length - 1 - j - a.length - 1]? = some n2 := by
            rw [hsplit, List.getElem?_append_right (by omega)] at hq2
            have e : (node_tag_sweep nodes0).1.length - 1 - j - a.length =
                ((node_tag_sweep nodes0).1.length - 1 - j - a.length - 1) + 1 := by omega
            rw [e, List.getElem?_cons_succ] at hq2
            exact hq2
          obtain ⟨o3, ho3, _, hob3⟩ := h6 _ n2 hb2
          have ho23 : out[(node_tag_sweep nodes0).1.length - 1 - j]? = some o3 := by
            rw [hout, List.getElem?_append_right (by omega)]
            have e : (node_tag_sweep nodes0).1.length - 1 - j - a1.length =
                ((node_tag_sweep nodes0).1.length - 1 - j - a.length - 1) + 1 := by omega
            rw [e, List.getElem?_cons_succ]
            exact ho3
          rw [ho2] at ho23
          have ho23 := Option.some.inj ho23
          rw [← ho23, hbit2, hzero n2 (List.getElem?_mem hj1)] at hob3
          simp only [Nat.zero_testBit, Bool.false_or] at hob3
          exact bitsSub_trans (tree_accum_take_succ b _ n2 hb2 _ _ hob3.symm)
            (tree_accum_take_mono b _ _ (by omega) _ _)
      have hne := and_ne_zero_of_bitsSub hj3 hsub
      simp only [tree_joins, hroot', Bool.not_false, Bool.true_and, Bool.or_eq_true, bne_iff_ne,
        ne_eq]
      exact Or.inr hne

theorem node_tag_sweep_count_le (nodes : List Node) :
    (node_tag_sweep nodes).2.2 ≤ (node_tag_sweep nodes).1.countP (fun n => n.is_root) := by
  induction nodes with
  | nil => simp [node_tag_sweep]
  | cons n later ih =>
    rw [node_tag_sweep_cons]
    by_cases hc : (n.is_root || (n.writes &&& (node_tag_sweep later).2.1) != 0) = true
    · rw [if_pos hc]
      by_cases hr : (if (n.is_root && (n.writes &&& (node_tag_sweep later).2.1) != 0) = true
          then false else n.is_root) = true
      · rw [if_pos hr]
        have hcount := countP_is_root_cons_pos
          ({ n with
            is_contributing := true
            is_root := if (n.is_root && (n.writes &&& (node_tag_sweep later).2.1) != 0) = true
              then false else n.is_root } : Node) (node_tag_sweep later).1 hr
        rw [hcount]
        have := uint32_inc_le (node_tag_sweep later).2.2
        show uint32_inc (node_tag_sweep later).2.2 ≤ _
        omega
      · rw [if_neg hr]
        have hcount := countP_is_root_cons_neg
          ({ n with
            is_contributing := true
            is_root := if (n.is_root && (n.writes &&& (node_tag_sweep later).2.1) != 0) = true
              then false else n.is_root } : Node) (node_tag_sweep later).1 hr
        rw [hcount]
        exact ih
    · rw [if_neg hc]
      have hnr : ¬ n.is_root = true := by
        intro hr; rw [hr] at hc; simp at hc
      rw [countP_is_root_cons_neg _ _ hnr]
      exact ih

/-- The accumulation only returns when every root finds its accumulators. -/
theorem accumulate_roots_count (remaining : Nat) :
    ∀ (nodes : List Node) (K : Nat) (rr rw : List Nat) (out : List Node) (rr1 rw1 : List Nat),
      nodes.length ≤ remaining →
      accumulate_roots remaining nodes K rr rw = .ok (out, rr1, rw1) →
      0 < nodes.countP (fun n => n.is_root) →
      K + nodes.countP (fun n => n.is_root) ≤ rr.length := by
  induction remaining with
  | zero =>
    intro nodes K rr rw out rr1 rw1 hlen _ hpos
    have : nodes = [] := List.length_eq_zero.mp (by omega)
    rw [this] at hpos
    simp at hpos
  | succ m ih =>
    intro nodes K rr rw out rr1 rw1 hlen h hpos
    cases nodes with
    | nil => simp at hpos
    | cons r earlier =>
      simp only [List.length_cons] at hlen
      unfold accumulate_roots at h
      by_cases hr : r.is_root = true
      · rw [if_pos hr] at h
        simp only [bind_ok, vec_at_ok, shl_one_ok, vec_set_ok] at h
        obtain ⟨_, _, _, _, bit, ⟨hK64, hbit⟩, rr2, ⟨hKr, hrr2⟩, rw2, ⟨hKw, hrw2⟩,
          ⟨e2, rr3, rw3⟩, hrec, hfin⟩ := h
        have hsame := accumulate_tree_same bit earlier r.reads r.writes
        have hcount := countP_is_root_same hsame
        rw [countP_is_root_cons_pos _ _ hr]
        by_cases hp : 0 < earlier.countP (fun n => n.is_root)
        · have := ih _ _ _ _ _ _ _ (by rw [← hsame.length_eq]; omega) hrec (by omega)
          rw [hcount, ← hrr2, List.length_set] at this
          omega
        · omega
      · rw [if_neg hr] at h
        simp only [bind_ok] at h
        obtain ⟨⟨e2, rr3, rw3⟩, hrec, hfin⟩ := h
        rw [countP_is_root_cons_neg _ _ hr] at hpos ⊢
        exact ih _ _ _ _ _ _ _ (by omega) hrec hpos

theorem write_back_some (x : le_renderpass_o × Node) (h : x.2.is_contributing = true) :
    ∃ q, write_back x = some q ∧ q.is_root = x.2.is_root ∧
      q.root_passes_affinity = x.2.root_index_affinity := by
  refine ⟨{ x.1 with is_root := x.2.is_root, root_passes_affinity := x.2.root_index_affinity },
    ?_, rfl, rfl⟩
  unfold write_back
  rw [if_pos h]

theorem write_back_none (x : le_renderpass_o × Node) (h : ¬ x.2.is_contributing = true) :
    write_back x = none := by
  unfold write_back
  rw [if_neg h]

theorem write_back_eq_some (x : le_renderpass_o × Node) (q : le_renderpass_o)
    (h : write_back x = some q) :
    x.2.is_contributing = true ∧ q.is_root = x.2.is_root ∧
      q.root_passes_affinity = x.2.root_index_affinity := by
  by_cases hc : x.2.is_contributing = true
  · obtain ⟨q1, h1, h2, h3⟩ := write_back_some x hc
    rw [h1] at h
    cases h
    exact ⟨hc, h2, h3⟩
  · rw [write_back_none x hc] at h
    cases h

theorem countP_write_back (Z : List (le_renderpass_o × Node))
    (h : ∀ x ∈ Z, x.2.is_root = true → x.2.is_contributing = true) :
    (Z.filterMap write_back).countP (fun p => p.is_root) =
      (Z.map Prod.snd).countP (fun n => n.is_root) := by
  induction Z with
  | nil => rfl
  | cons x rest ih =>
    have ih1 := ih (fun y hy => h y (List.mem_cons_of_mem _ hy))
    have hx := h x (List.mem_cons_self _ _)
    rw [List.map_cons, List.countP_cons]
    by_cases hc : x.2.is_contributing = true
    · obtain ⟨q, hq, hqr, _⟩ := write_back_some x hc
      rw [List.filterMap_cons_some hq, List.countP_cons, ih1]
      simp only [hqr]
    · have hnr : x.2.is_root = false := by
        by_contra hr
        exact hc (hx (by simpa using hr))
      rw [List.filterMap_cons_none (write_back_none x hc), ih1]
      simp [hnr]

theorem forall₂_append_cons_split_right {α β : Type} {R : α → β → Prop} :
    ∀ (l : List α) (a1 : List β) (r1 : β) (b1 : List β), Forall₂ R l (a1 ++ r1 :: b1) →
      ∃ (a : List α) (r : α) (b : List α), l = a ++ r :: b ∧
        Forall₂ R a a1 ∧ R r r1 ∧ Forall₂ R b b1 := by
  intro l a1
  induction a1 generalizing l with
  | nil =>
    intro r1 b1 h
    cases h with
    | cons hr hb => exact ⟨[], _, _, rfl, Forall₂.nil, hr, hb⟩
  | cons x a0 ih =>
    intro r1 b1 h
    cases h with
    | cons hx hrest =>
      obtain ⟨a, r, b, e, h1, h2, h3⟩ := ih _ r1 b1 hrest
      exact ⟨_ :: a, r, b, by rw [e]; rfl, Forall₂.cons hx h1, h2, h3⟩

theorem getElem?_append_cons_length {α : Type} (a : List α) (x : α) (b : List α) :
    (a ++ x :: b)[a.length]? = some x := by
  rw [List.getElem?_append_right (Nat.le_refl _), Nat.sub_self]
  exact List.getElem?_cons_zero

theorem testBit_one_shiftLeft (i b : Nat) (h : (1 <<< i).testBit b = true) : b = i := by
  rw [Nat.one_shiftLeft] at h
  by_contra hne
  rw [Nat.testBit_two_pow_of_ne (fun e => hne e.symm)] at h
  cases h

/-- The affinities the trees of a build leave in the nodes. -/
theorem build_trees_affinity (ndebug : Bool) (passes : List le_renderpass_o) (t : RootTrees)
    (h : rendergraph_build_trees ndebug passes = .ok t) :
    t.nodes.length = passes.length ∧
    t.nodes.countP (fun n => n.is_root) = t.root_count ∧
    (∀ n ∈ t.nodes, n.is_root = true → n.is_contributing = true) ∧
    ∀ (front : List Node) (n : Node) (back : List Node), t.nodes = front ++ n :: back →
      n.is_contributing = true →
      n.root_index_affinity ≠ 0 ∧
      (∀ b, n.root_index_affinity.testBit b = true → b < t.root_count) ∧
      (n.is_root = true →
        n.root_index_affinity = 1 <<< back.countP (fun m => m.is_root)) := by
  obtain ⟨nodes0, hrel, hcount, hacc, _⟩ := build_trees_parts ndebug passes t h
  obtain ⟨haff, hrrlen, _⟩ := build_trees_aff ndebug passes t h
  have hzero := tagged_affinity_zero hrel
  simp only [node_tag_contributing] at hcount hacc hzero
  have hsame := accumulate_roots_same _ _ _ _ _ _ _ _ hacc
  have hsw := node_tag_sweep_rel nodes0
  have hcountP : t.nodes.countP (fun n => n.is_root) =
      (node_tag_sweep nodes0).1.countP (fun n => n.is_root) := by
    have := countP_is_root_same hsame
    rwa [List.countP_reverse, List.countP_reverse] at this
  have hroots : ∀ n ∈ t.nodes, n.is_root = true → n.is_contributing = true := by
    intro n hn hr
    obtain ⟨k, hk⟩ := List.getElem?_of_mem (List.mem_reverse.mpr hn)
    obtain ⟨n1, hn1, hs⟩ := forall₂_getElem?_right hsame k n hk
    obtain ⟨k1, hk1⟩ := List.getElem?_of_mem (List.mem_reverse.mp (List.getElem?_mem hn1))
    obtain ⟨n0, _, htag⟩ := forall₂_getElem?_right hsw k1 n1 hk1
    rw [hs.2.2.2]
    exact htag.2.2.2.2.2.1 (by rw [← hs.2.2.1]; exact hr)
  refine ⟨?_, ?_, hroots, ?_⟩
  · have h1 := hrel.length_eq
    have h2 := hsw.length_eq
    have h3 := hsame.length_eq
    simp only [List.length_reverse] at h3
    omega
  · rw [hcountP, hcount]
    apply Nat.le_antisymm
    · by_cases hp : 0 < (node_tag_sweep nodes0).1.countP (fun n => n.is_root)
      · have := accumulate_roots_count _ _ _ _ _ _ _ _ (by simp) hacc
          (by rw [List.countP_reverse]; exact hp)
        rw [List.countP_reverse, List.length_replicate] at this
        omega
      · omega
    · exact node_tag_sweep_count_le nodes0
  · intro front n back hsplit hc
    have hout : t.nodes.reverse = back.reverse ++ n :: front.reverse := by
      rw [hsplit]
      simp
    rw [hout] at hsame hacc
    obtain ⟨a, r, b, hT, hab, hrn, _⟩ := forall₂_append_cons_split_right _ _ _ _ hsame
    have halen : a.length = back.reverse.length := hab.length_eq
    have hq : (node_tag_sweep nodes0).1.reverse[a.length]? = some r := by
      rw [hT]
      exact getElem?_append_cons_length a r b
    have houtq : (back.reverse ++ n :: front.reverse)[a.length]? = some n := by
      rw [halen]
      exact getElem?_append_cons_length _ _ _
    have hentry : ∀ m ∈ nodes0, m.is_contributing = false := by
      intro m hm
      obtain ⟨k, hk⟩ := List.getElem?_of_mem hm
      obtain ⟨p, _, hp⟩ := forall₂_getElem?_right hrel k m hk
      exact hp.2.1
    have hrc : r.is_contributing = true := by rw [← hrn.2.2.2]; exact hc
    have hroot_bit : n.is_root = true →
        n.root_index_affinity = 1 <<< back.countP (fun m => m.is_root) ∧
        back.countP (fun m => m.is_root) < t.root_count := by
      intro hr
      have hrr : r.is_root = true := by rw [← hrn.2.2.1]; exact hr
      obtain ⟨a1, r1, b1, ho, ha1, _, haffr, _, _, _, hrr1, _⟩ :=
        accumulate_roots_tree _ _ _ _ _ _ _ _ (by simp) hacc a r b hT hrr
      have hlen1 : a1.length = back.reverse.length := by rw [← ha1.length_eq]; exact halen
      have hinj := List.append_inj ho.symm hlen1
      have hr1 : r1 = n := (List.cons.inj hinj.2).1
      have hca : a.countP (fun m => m.is_root) = back.countP (fun m => m.is_root) := by
        have := countP_is_root_same hab
        rw [List.countP_reverse] at this
        exact this.symm
      have hz : r.root_index_affinity = 0 :=
        hzero r (List.mem_reverse.mp (List.getElem?_mem hq))
      rw [hr1, hz, Nat.zero_add, hca, Nat.zero_or] at haffr
      rw [Nat.zero_add, hca] at hrr1
      refine ⟨haffr, ?_⟩
      rw [← hrrlen]
      by_contra hge
      rw [List.getElem?_eq_none (by omega)] at hrr1
      cases hrr1
    refine ⟨?_, ?_, fun hr => (hroot_bit hr).1⟩
    · obtain ⟨a0, r0, b0, _, _, _, o, ho, hbit⟩ :=
        contributing_has_tree_bit nodes0 hentry hzero _ _ _ _ hacc a.length r hq hrc
      rw [houtq] at ho
      cases ho
      intro hz
      rw [hz, Nat.zero_testBit] at hbit
      cases hbit
    · intro bit hbit
      by_cases hr : n.is_root = true
      · obtain ⟨he, hlt⟩ := hroot_bit hr
        rw [he] at hbit
        rw [testBit_one_shiftLeft _ _ hbit]
        exact hlt
      · have hn : n ∈ t.nodes := by rw [hsplit]; simp
        obtain ⟨rv, _, hrv, _⟩ := haff n hn (by simpa using hr) bit hbit
        rw [← hrrlen]
        by_contra hge
        rw [List.getElem?_eq_none (by omega)] at hrv
        cases hrv

theorem filterMap_split {α β : Type} (f : α → Option β) (Z : List α) (front : List β) (q : β)
    (back : List β) (h : Z.filterMap f = front ++ q :: back) :
    ∃ (l1 : List α) (x : α) (l2 : List α), Z = l1 ++ x :: l2 ∧ f x = some q ∧
      l2.filterMap f = back := by
  obtain ⟨m1, m2, hZ, _, h2⟩ := List.filterMap_eq_append_iff.mp h
  obtain ⟨l21, x, l22, h3, _, hx, hb⟩ := List.filterMap_eq_cons_iff.mp h2
  refine ⟨m1 ++ l21, x, l22, ?_, hx, hb⟩
  rw [hZ, h3, List.append_assoc]

theorem bitset_set_testBit (bits pos : Nat) (val : Bool) (r : Nat)
    (h : bitset_set bits pos val = .ok r) (c : Nat) :
    r.testBit c = if c = pos then val else bits.testBit c := by
  rw [bitset_set_ok] at h
  obtain ⟨_, h⟩ := h
  rw [← h]
  cases val
  · simp only [Bool.false_eq_true, if_false]
    have := bitset_and_not_testBit bits (1 <<< pos) c
    unfold bitset_and_not at this
    rw [this]
    by_cases hc : c = pos
    · rw [if_pos hc, hc, testBit_one_shiftLeft_self]
      simp
    · rw [if_neg hc, Nat.one_shiftLeft, Nat.testBit_two_pow_of_ne (fun e => hc e.symm)]
      simp
  · simp only [if_true]
    by_cases hc : c = pos
    · rw [if_pos hc, hc, testBit_or_one_shiftLeft_self]
    · rw [if_neg hc, testBit_or_one_shiftLeft_ne _ _ _ hc]

theorem write_flag_shift (f : Nat) : (((f &&& eWrite) >>> 1) != 0) = ((f &&& eWrite) != 0) := by
  have hle : f &&& eWrite ≤ 2 := Nat.and_le_right
  have h0 : (f &&& eWrite).testBit 0 = false := by
    rw [Nat.testBit_and]
    have : eWrite.testBit 0 = false := by decide
    rw [this]
    simp
  have hcases : f &&& eWrite = 0 ∨ f &&& eWrite = 1 ∨ f &&& eWrite = 2 := by omega
  rcases hcases with e | e | e
  · rw [e]; rfl
  · rw [e] at h0
    exact absurd h0 (by decide)
  · rw [e]; rfl

theorem add_unique_handle_spec (ndebug : Bool) (U U1 : List le_resource_handle)
    (h : le_resource_handle)
    (hadd : add_unique_handle ndebug U h (find_resource_idx U h) = .ok U1) (hU : U.Nodup) :
    (∃ ext, U1 = U ++ ext) ∧ U1.Nodup ∧ U1[find_resource_idx U h]? = some h := by
  unfold add_unique_handle at hadd
  by_cases hf : find_resource_idx U h = U.length
  · rw [if_pos hf] at hadd
    by_cases h64 : find_resource_idx U h < LE_MAX_NUM_GRAPH_RESOURCES
    · rw [if_pos h64] at hadd
      simp only [bind_ok, pure_ok] at hadd
      obtain ⟨_, _, hadd⟩ := hadd
      have hnot : h ∉ U := (find_resource_idx_eq_length U h).mp hf
      refine ⟨⟨[h], hadd.symm⟩, ?_, ?_⟩
      · rw [← hadd]
        exact List.Nodup.append hU (List.nodup_singleton h) (by simpa using hnot)
      · rw [← hadd, hf]
        simp
    · rw [if_neg h64] at hadd
      exact absurd hadd (by simp [throw_ok])
  · rw [if_neg hf] at hadd
    simp only [pure_ok] at hadd
    have hmem : h ∈ U := by
      by_contra hn
      exact hf ((find_resource_idx_eq_length U h).mpr hn)
    refine ⟨⟨[], by simp [hadd]⟩, hadd ▸ hU, ?_⟩
    rw [← hadd]
    exact (find_resource_idx_of_mem U h hmem).2

/-- What the resource loop of one pass leaves in the bitfields of its node:
the bit of a handle the pass uses follows the read/write summary stored with
that handle, every other bit is as before. -/
theorem build_node_bits (ndebug : Bool) (flags : List Nat) (res : List le_resource_handle) :
    ∀ (i : Nat) (U : List le_resource_handle) (node : Node) (U1 : List le_resource_handle)
      (node1 : Node), build_node ndebug flags res i U node = .ok (U1, node1) →
      U.Nodup → res.Nodup →
      (∃ ext, U1 = U ++ ext) ∧ U1.Nodup ∧ (∀ h ∈ res, h ∈ U1) ∧
      (∀ (j : Nat) (h : le_resource_handle) (c : Nat), res[j]? = some h → U1[c]? = some h →
        ∃ f, flags[i + j]? = some f ∧ node1.reads.testBit c = ((f &&& eRead) != 0) ∧
          node1.writes.testBit c = ((f &&& eWrite) != 0)) ∧
      (∀ c : Nat, (∀ h ∈ res, U1[c]? ≠ some h) →
        node1.reads.testBit c = node.reads.testBit c ∧
        node1.writes.testBit c = node.writes.testBit c) := by
  induction res with
  | nil =>
    intro i U node U1 node1 h hU _
    simp only [build_node, pure_ok, Prod.mk.injEq] at h
    obtain ⟨rfl, rfl⟩ := h
    refine ⟨⟨[], by simp⟩, hU, by simp, ?_, fun c _ => ⟨rfl, rfl⟩⟩
    intro j h c hj
    simp at hj
  | cons h rest ih =>
    intro i U node U1 node1 hb hU hres
    unfold build_node at hb
    simp only [bind_ok, vec_at_ok] at hb
    obtain ⟨af, hflag, U0, hadd, reads, hreads, writes, hwrites, hrec⟩ := hb
    obtain ⟨⟨ext0, hU0⟩, hnd0, hidx0⟩ := add_unique_handle_spec ndebug U U0 h hadd hU
    have hres1 : rest.Nodup := (List.nodup_cons.mp hres).2
    have hnot : h ∉ rest := (List.nodup_cons.mp hres).1
    obtain ⟨⟨ext1, hU1⟩, hnd, hmem, hR1, hR2⟩ := ih _ _ _ _ _ hrec hnd0 hres1
    have hlt0 : find_resource_idx U h < U0.length := by
      by_contra hge
      rw [List.getElem?_eq_none (by omega)] at hidx0
      cases hidx0
    have hidx : U1[find_resource_idx U h]? = some h := by
      rw [hU1, List.getElem?_append_left hlt0]
      exact hidx0
    have hlt1 : find_resource_idx U h < U1.length := by
      rw [hU1, List.length_append]; omega
    have hself : ∀ h1 ∈ rest, U1[find_resource_idx U h]? ≠ some h1 := by
      intro h1 hh1 e
      rw [hidx] at e
      exact hnot ((Option.some.inj e) ▸ hh1)
    have hrb := bitset_set_testBit _ _ _ _ hreads
    have hwb := bitset_set_testBit _ _ _ _ hwrites
    refine ⟨⟨ext0 ++ ext1, by rw [hU1, hU0, List.append_assoc]⟩, hnd, ?_, ?_, ?_⟩
    · intro h1 hh1
      rcases List.mem_cons.mp hh1 with e | e
      · rw [e]; exact List.getElem?_mem hidx
      · exact hmem h1 e
    · intro j h1 c hj hc
      cases j with
      | zero =>
        simp only [List.getElem?_cons_zero, Option.some.injEq] at hj
        rw [← hj] at hc
        have hceq : find_resource_idx U h = c :=
          List.getElem?_inj hlt1 hnd (hidx.trans hc.symm)
        obtain ⟨h1r, h1w⟩ := hR2 _ hself
        simp only [] at h1r h1w
        refine ⟨af, hflag, ?_, ?_⟩
        · rw [← hceq, h1r, hrb, if_pos rfl]
        · rw [← hceq, h1w, hwb, if_pos rfl, write_flag_shift]
      | succ j =>
        simp only [List.getElem?_cons_succ] at hj
        obtain ⟨f, hf, h1r, h1w⟩ := hR1 j h1 c hj hc
        refine ⟨f, ?_, h1r, h1w⟩
        rw [← hf]
        congr 1
        omega
    · intro c hc
      have hne : c ≠ find_resource_idx U h := by
        intro e
        exact hc h (List.mem_cons_self _ _) (e ▸ hidx)
      obtain ⟨h1r, h1w⟩ := hR2 c (fun h1 hh1 => hc h1 (List.mem_cons_of_mem _ hh1))
      simp only [] at h1r h1w
      rw [h1r, h1w, hrb, hwb, if_neg hne, if_neg hne]
      exact ⟨rfl, rfl⟩

theorem getElem?_append_some {α : Type} (a b : List α) (c : Nat) (x : α)
    (h : a[c]? = some x) : (a ++ b)[c]? = some x := by
  have hlt : c < a.length := by
    by_contra hge
    rw [List.getElem?_eq_none (by omega)] at h
    cases h
  rw [List.getElem?_append_left hlt]
  exact h

/-- The bitfields of the nodes that the translation loop builds, in terms of
the final table of unique handles: bit `c` of a node stands for the handle
`uniqueHandles[ c ]`. -/
theorem build_nodes_bits (ndebug : Bool) (ps : List le_renderpass_o) :
    ∀ (U U2 : List le_resource_handle) (nodes : List Node),
      build_nodes ndebug ps U = .ok (U2, nodes) → U.Nodup →
      (∀ p ∈ ps, p.resources.Nodup) →
      (∃ ext, U2 = U ++ ext) ∧ U2.Nodup ∧
      ∀ (k : Nat) (p : le_renderpass_o) (n : Node), ps[k]? = some p → nodes[k]? = some n →
        (∀ h ∈ p.resources, h ∈ U2) ∧
        (∀ (j : Nat) (h : le_resource_handle) (c : Nat), p.resources[j]? = some h →
          U2[c]? = some h →
          ∃ f, p.resources_read_write_flags[j]? = some f ∧
            n.reads.testBit c = ((f &&& eRead) != 0) ∧
            n.writes.testBit c = ((f &&& eWrite) != 0)) ∧
        (∀ c : Nat, (∀ h ∈ p.resources, U2[c]? ≠ some h) →
          n.reads.testBit c = false ∧ n.writes.testBit c = false) := by
  induction ps with
  | nil =>
    intro U U2 nodes h hU _
    simp only [build_nodes, pure_ok, Prod.mk.injEq] at h
    obtain ⟨rfl, rfl⟩ := h
    refine ⟨⟨[], by simp⟩, hU, ?_⟩
    intro k p n hk
    simp at hk
  | cons p0 rest ih =>
    intro U U2 nodes h hU hps
    unfold build_nodes at h
    simp only [bind_ok] at h
    obtain ⟨⟨Ua, na⟩, h1, ⟨Ub, nb⟩, h2, h3⟩ := h
    simp only [pure_ok, Prod.mk.injEq] at h3
    obtain ⟨rfl, rfl⟩ := h3
    obtain ⟨⟨ext0, hUa⟩, hnda, hmema, hR1, hR2⟩ :=
      build_node_bits ndebug _ _ _ _ _ _ _ h1 hU (hps p0 (List.mem_cons_self _ _))
    obtain ⟨⟨ext1, hUb⟩, hndb, hrest⟩ :=
      ih _ _ _ h2 hnda (fun p hp => hps p (List.mem_cons_of_mem _ hp))
    refine ⟨⟨ext0 ++ ext1, by rw [hUb, hUa, List.append_assoc]⟩, hndb, ?_⟩
    intro k p n hk hn
    cases k with
    | succ k =>
      simp only [List.getElem?_cons_succ] at hk hn
      exact hrest k p n hk hn
    | zero =>
      simp only [List.getElem?_cons_zero, Option.some.injEq] at hk hn
      rw [← hk]
      have hnr : n.reads = na.reads := by
        rw [← hn]; cases p0.is_root <;> rfl
      have hnw : n.writes = na.writes := by
        rw [← hn]; cases p0.is_root <;> rfl
      rw [hnr, hnw]
      refine ⟨?_, ?_, ?_⟩
      · intro h hh
        rw [hUb]
        exact List.mem_append_left _ (hmema h hh)
      · intro j h c hj hc
        obtain ⟨c1, hc1⟩ := List.getElem?_of_mem (hmema h (List.getElem?_mem hj))
        have hc2 : Ub[c1]? = some h := by
          rw [hUb]; exact getElem?_append_some _ _ _ _ hc1
        have hlt : c1 < Ub.length := by
          by_contra hge
          rw [List.getElem?_eq_none (by omega)] at hc2
          cases hc2
        have hceq : c1 = c := List.getElem?_inj hlt hndb (hc2.trans hc.symm)
        rw [← hceq]
        obtain ⟨f, hf, hr, hw⟩ := hR1 j h c1 hj hc1
        rw [Nat.zero_add] at hf
        exact ⟨f, hf, hr, hw⟩
      · intro c hc
        have := hR2 c (fun h hh e => hc h hh (by rw [hUb]; exact getElem?_append_some _ _ _ _ e))
        simpa using this

theorem and_ne_zero_of_testBit (a b c : Nat) (ha : a.testBit c = true) (hb : b.testBit c = true) :
    a &&& b ≠ 0 := by
  intro e
  have := Nat.testBit_and a b c
  rw [e, ha, hb, Nat.zero_testBit] at this
  cases this

/-- The sweep keeps the last writer of a monitored bit: when the node at `k`
is tagged contributing and reads bit `c`, and the node at `m < k` is the last
one before `k` that writes bit `c`, the node at `m` is tagged contributing. -/
theorem sweep_keeps_last_writer (nodes : List Node)
    (hentry : ∀ n ∈ nodes, n.is_contributing = false) (k m c : Nat) (nk nm nk1 : Node)
    (hmk : m < k) (hk : nodes[k]? = some nk) (hm : nodes[m]? = some nm)
    (hk1 : (node_tag_sweep nodes).1[k]? = some nk1) (hc : nk1.is_contributing = true)
    (hr : nk.reads.testBit c = true) (hw : nm.writes.testBit c = true)
    (hbetween : ∀ (j : Nat) (nj : Node), m < j → j < k → nodes[j]? = some nj →
      nj.writes.testBit c = false) :
    ∃ nm1, (node_tag_sweep nodes).1[m]? = some nm1 ∧ nm1.is_contributing = true := by
  have hklt : k < nodes.length := by
    by_contra hge
    rw [List.getElem?_eq_none (by omega)] at hk
    cases hk
  have hafter_k : (read_accum_after nodes k).testBit c = true := by
    obtain ⟨h1, h2⟩ := node_tag_sweep_at nodes k nk hk
    by_cases hcond : (nk.is_root || (nk.writes &&& read_accum_at nodes k) != 0) = true
    · rw [if_pos hcond] at h2
      rw [h2, Nat.testBit_or, hr]
      simp
    · rw [if_neg hcond, hk1] at h1
      have e : nk1 = nk := Option.some.inj h1
      rw [e, hentry nk (List.getElem?_mem hk)] at hc
      cases hc
  have hstep : ∀ (d j : Nat), j + d = k → m < j →
      (read_accum_after nodes j).testBit c = true := by
    intro d
    induction d with
    | zero =>
      intro j hj _
      have : j = k := by omega
      rw [this]
      exact hafter_k
    | succ d ih =>
      intro j hj hmj
      have hnext : (read_accum_at nodes j).testBit c = true :=
        ih (j + 1) (by omega) (by omega)
      have hjlt : j < nodes.length := by omega
      have hj' : nodes[j]? = some (nodes.get ⟨j, hjlt⟩) := List.getElem?_eq_getElem hjlt
      obtain ⟨_, h2⟩ := node_tag_sweep_at nodes j _ hj'
      have hnw := hbetween j _ hmj (by omega) hj'
      rw [h2]
      split
      · rw [Nat.testBit_or, bitset_and_not_testBit, hnext, hnw]
        simp
      · exact hnext
  have hat_m : (read_accum_at nodes m).testBit c = true :=
    hstep (k - (m + 1)) (m + 1) (by omega) (by omega)
  obtain ⟨h1, _⟩ := node_tag_sweep_at nodes m nm hm
  have hne := and_ne_zero_of_testBit _ _ c hw hat_m
  have hcond : (nm.is_root || (nm.writes &&& read_accum_at nodes m) != 0) = true := by
    simp [hne]
  rw [if_pos hcond] at h1
  exact ⟨_, h1, rfl⟩

theorem any_zip_flag (res : List le_resource_handle) (flags : List Nat)
    (x : le_resource_handle) (bit : Nat) :
    (res.zip flags).any (fun hf => decide (hf.1 = x) && (hf.2 &&& bit) != 0) = true ↔
      ∃ (j : Nat) (f : Nat), res[j]? = some x ∧ flags[j]? = some f ∧ f &&& bit ≠ 0 := by
  rw [List.any_eq_true]
  constructor
  · rintro ⟨⟨h, f⟩, hmem, hp⟩
    obtain ⟨j, hj⟩ := List.getElem?_of_mem hmem
    rw [List.getElem?_zip_eq_some] at hj
    simp only [Bool.and_eq_true, decide_eq_true_eq, bne_iff_ne, ne_eq] at hp
    exact ⟨j, f, by rw [← hp.1]; exact hj.1, hj.2, hp.2⟩
  · rintro ⟨j, f, hj, hf, hb⟩
    refine ⟨(x, f), ?_, by simp [hb]⟩
    apply List.getElem?_mem (n := j)
    rw [List.getElem?_zip_eq_some]
    exact ⟨hj, hf⟩

theorem build_trees_nodes (ndebug : Bool) (passes : List le_renderpass_o) (t : RootTrees)
    (h : rendergraph_build_trees ndebug passes = .ok t) :
    ∃ (U : List le_resource_handle) (nodes0 : List Node),
      build_nodes ndebug passes [] = .ok (U, nodes0) ∧
      Forall₂ SameNode (node_tag_sweep nodes0).1 t.nodes := by
  unfold rendergraph_build_trees at h
  simp only [bind_ok] at h
  obtain ⟨⟨u, nodes0⟩, h0, _, _, ⟨rn, rr, rw⟩, hacc, hfin⟩ := h
  simp only [pure_ok] at hfin
  refine ⟨u, nodes0, h0, ?_⟩
  have := accumulate_roots_same _ _ _ _ _ _ _ _ hacc
  rw [← hfin]
  simp only [node_tag_contributing] at this ⊢
  have h2 := List.rel_reverse this
  simpa using h2

theorem pass_retained_iff (ndebug : Bool) (passes : List le_renderpass_o) (t : RootTrees)
    (h : rendergraph_build_trees ndebug passes = .ok t) (k : Nat) :
    pass_retained ndebug passes k = true ↔
      ∃ n, t.nodes[k]? = some n ∧ n.is_contributing = true := by
  unfold pass_retained
  rw [h]
  cases hk : t.nodes[k]? with
  | none => simp [hk]
  | some n => simp [hk]

/-- A list with an element that satisfies `f` splits at the last such element. -/
theorem exists_last_split {α : Type} (f : α → Bool) :
    ∀ l : List α, (∃ x ∈ l, f x = true) →
      ∃ (pre : List α) (r : α) (suf : List α), l = pre ++ r :: suf ∧ f r = true ∧
        ∀ y ∈ suf, f y = false
  | [], h => by
    obtain ⟨x, hx, _⟩ := h
    simp at hx
  | a :: rest, h => by
    by_cases hrest : ∃ x ∈ rest, f x = true
    · obtain ⟨pre, r, suf, e, hr, hs⟩ := exists_last_split f rest hrest
      exact ⟨a :: pre, r, suf, by rw [e]; rfl, hr, hs⟩
    · obtain ⟨x, hx, hfx⟩ := h
      rcases List.mem_cons.mp hx with e | e
      · refine ⟨[], a, rest, rfl, by rw [← e]; exact hfx, ?_⟩
        intro y hy
        by_contra hne
        exact hrest ⟨y, hy, by simpa using hne⟩
      · exact absurd ⟨x, e, hfx⟩ hrest

/-- The sweep leaves the last root a root: nothing behind it is monitored. -/
theorem node_tag_sweep_last_root (pre : List Node) (r : Node) (suf : List Node)
    (hr : r.is_root = true) (hsuf : ∀ n ∈ suf, n.is_root = false) :
    (node_tag_sweep (pre ++ r :: suf)).1[pre.length]? =
      some { r with is_contributing := true } := by
  have hk : (pre ++ r :: suf)[pre.length]? = some r := by
    rw [List.getElem?_append_right (Nat.le_refl _), Nat.sub_self]
    exact List.getElem?_cons_zero
  obtain ⟨h1, _⟩ := node_tag_sweep_at _ _ _ hk
  have hra : read_accum_at (pre ++ r :: suf) pre.length = 0 := by
    unfold read_accum_at
    have : (pre ++ r :: suf).drop (pre.length + 1) = suf := by
      rw [← List.drop_drop, List.drop_left]
      rfl
    rw [this, node_tag_sweep_no_roots suf hsuf]
  rw [h1, hra, hr]
  simp

/-- Build keeps a root exactly when the graph has one, and the last root of
the graph stays a root. -/
theorem build_keeps_last_root (ndebug : Bool) (g g1 : le_rendergraph_o)
    (h : rendergraph_build ndebug g = .ok g1) :
    (∀ q ∈ g1.passes, q.is_root = true → ∃ p ∈ g.passes, p.is_root = true) ∧
    ∀ (pre : List le_renderpass_o) (r : le_renderpass_o) (suf : List le_renderpass_o),
      g.passes = pre ++ r :: suf → r.is_root = true → (∀ p ∈ suf, p.is_root = false) →
      ∃ aff, { r with is_root := true, root_passes_affinity := aff } ∈ g1.passes := by
  obtain ⟨t, ht, hp⟩ := build_passes_eq ndebug g g1 h
  obtain ⟨nodes0, hrel, hsame, _⟩ := build_trees_ok ndebug g.passes t ht
  have hsw := node_tag_sweep_rel nodes0
  refine ⟨?_, ?_⟩
  · intro q hq hqr
    rw [hp, List.mem_filterMap] at hq
    obtain ⟨⟨p, n⟩, hmem, hwb⟩ := hq
    obtain ⟨k, hk⟩ := List.getElem?_of_mem hmem
    rw [List.getElem?_zip_eq_some] at hk
    obtain ⟨hkp, hkn⟩ := hk
    obtain ⟨_, hroot, _⟩ := write_back_eq_some (p, n) q hwb
    obtain ⟨tn, htn, hs⟩ := forall₂_getElem?_right hsame k n hkn
    obtain ⟨n0, hn0, htag⟩ := forall₂_getElem?_right hsw k tn htn
    obtain ⟨p1, hp1, hpn⟩ := forall₂_getElem?_right hrel k n0 hn0
    have hpp : p1 = p := Option.some.inj (hp1.symm.trans hkp)
    refine ⟨p, List.getElem?_mem hkp, ?_⟩
    rw [← hpp, ← hpn.1]
    apply htag.2.2.2.2.1
    rw [← hs.2.2.1, ← hroot]
    exact hqr
  · intro pre r suf hsplit hr hsuf
    obtain ⟨a0, n0, b0, hn, ha, hrn, hb⟩ :=
      forall₂_append_cons_split pre r suf nodes0 (hsplit ▸ hrel)
    have hlen : a0.length = pre.length := ha.length_eq.symm
    have hn0r : n0.is_root = true := hrn.1.trans hr
    have hb0 : ∀ n ∈ b0, n.is_root = false := by
      intro n hnb
      obtain ⟨k, hk⟩ := List.getElem?_of_mem hnb
      obtain ⟨p, hpk, hpn⟩ := forall₂_getElem?_right hb k n hk
      rw [hpn.1]
      exact hsuf p (List.getElem?_mem hpk)
    have htag := node_tag_sweep_last_root a0 n0 b0 hn0r hb0
    rw [← hn, hlen] at htag
    obtain ⟨tn, htn, hs⟩ := forall₂_getElem? hsame pre.length _ htag
    have hrk : g.passes[pre.length]? = some r := by
      rw [hsplit]
      exact getElem?_append_cons_length pre r suf
    have hc : tn.is_contributing = true := hs.2.2.2
    have hroot : tn.is_root = true := by rw [hs.2.2.1]; exact hn0r
    refine ⟨tn.root_index_affinity, ?_⟩
    rw [hp, List.mem_filterMap]
    refine ⟨(r, tn), ?_, ?_⟩
    · apply List.getElem?_mem (n := pre.length)
      rw [List.getElem?_zip_eq_some]
      exact ⟨hrk, htn⟩
    · unfold write_back
      rw [if_pos hc, hroot]

theorem of_mem_std_unique (x : Nat) : ∀ l : List Nat, x ∈ std_unique l → x ∈ l
  | [], h => h
  | [y], h => by simpa [std_unique] using h
  | y :: z :: rest, h => by
    have ih := of_mem_std_unique x (z :: rest)
    by_cases hyz : y = z
    · rw [std_unique, if_pos hyz] at h
      exact List.mem_cons_of_mem _ (ih h)
    · rw [std_unique, if_neg hyz] at h
      rcases List.mem_cons.mp h with h | h
      · rw [h]; exact List.mem_cons_self _ _
      · exact List.mem_cons_of_mem _ (ih h)

theorem std_unique_length_le : ∀ l : List Nat, (std_unique l).length ≤ l.length
  | [] => Nat.le_refl _
  | [_] => by simp [std_unique]
  | y :: z :: rest => by
    have ih := std_unique_length_le (z :: rest)
    by_cases hyz : y = z
    · rw [std_unique, if_pos hyz]
      simp only [List.length_cons] at ih ⊢
      omega
    · rw [std_unique, if_neg hyz]
      simp only [List.length_cons] at ih ⊢
      omega

theorem std_unique_length_pos (l : List Nat) (h : 0 < l.length) : 0 < (std_unique l).length := by
  cases l with
  | nil => simp at h
  | cons y rest =>
    exact List.length_pos_of_mem (mem_std_unique y _ (List.mem_cons_self _ _))

theorem testBit_foldl_or (b : Nat) : ∀ (l : List Nat) (a : Nat),
    (l.foldl (fun x m => x ||| m) a).testBit b = (a.testBit b || l.any (fun m => m.testBit b))
  | [], a => by simp
  | m :: rest, a => by
    rw [List.foldl_cons, testBit_foldl_or b rest, Nat.testBit_or, List.any_cons, Bool.or_assoc]

theorem queueInit_bounded (n : Nat) (st : List Nat × List Nat) (h : QueueInit n n st) :
    QueueBounded n st := by
  obtain ⟨hl1, _, hall⟩ := h
  intro s q hs b hb
  have hsn : s < n := by
    by_contra hge
    rw [List.getElem?_eq_none (by omega)] at hs
    cases hs
  have h1 := (hall s hsn).2
  rw [if_pos hsn, hs] at h1
  rw [Option.some.inj h1] at hb
  rw [testBit_one_shiftLeft _ _ hb]
  exact hsn

theorem queue_combine_bounded (n i j : Nat) (st st1 : List Nat × List Nat)
    (hb : QueueBounded n st) (h : queue_combine i j st = .ok st1) : QueueBounded n st1 := by
  obtain ⟨idx_i, idx_j, q_i, q_j, _, _, hqi, hqj, hst1⟩ := queue_combine_eq i j st st1 h
  intro s q hs b hbit
  rw [hst1] at hs
  simp only [] at hs
  by_cases hsm : min idx_i idx_j = s
  · rw [hsm, List.getElem?_set] at hs
    simp only [if_true] at hs
    split at hs
    · rw [← Option.some.inj hs, Nat.testBit_or] at hbit
      rcases Bool.or_eq_true_iff.mp hbit with hbit | hbit
      · exact hb _ _ hqj b hbit
      · exact hb _ _ hqi b hbit
    · cases hs
  · rw [List.getElem?_set_ne hsm] at hs
    exact hb s q hs b hbit

theorem queue_combine_step_bounded (rr rw : List Nat) (n i j : Nat) (a b : List Nat × List Nat)
    (ha : QueueBounded n a) (h : queue_combine_step rr rw i a j = .ok b) : QueueBounded n b := by
  unfold queue_combine_step at h
  simp only [bind_ok] at h
  obtain ⟨ov, _, h⟩ := h
  cases ov with
  | true =>
    simp only [if_true] at h
    exact queue_combine_bounded n i j a b ha h
  | false =>
    simp only [Bool.false_eq_true, if_false, pure_ok] at h
    subst h
    exact ha

theorem build_queues_bounded (rr rw : List Nat) (n : Nat) (st : List Nat × List Nat)
    (h : rendergraph_build_queues rr rw n = .ok st) : QueueBounded n st ∧ n ≤ 64 := by
  unfold rendergraph_build_queues at h
  simp only [bind_ok] at h
  obtain ⟨st0, h0, h1⟩ := h
  obtain ⟨hinit, h64⟩ := queue_init_fold_ok n n (Nat.le_refl n) st0 h0
  have hb0 := queueInit_bounded n st0 hinit
  have hinner : ∀ y ∈ List.range n, ∀ a b, QueueBounded n a →
      (List.range' (y + 1) (n - (y + 1))).foldlM (queue_combine_step rr rw y) a = .ok b →
      QueueBounded n b ∧ True := by
    intro y _ a b ha hab
    exact foldlM_inv _ (QueueBounded n) (fun _ _ => True) (fun _ => trivial)
      (fun _ _ _ _ _ => trivial) _ a b
      (fun z _ c d hc hcd => ⟨queue_combine_step_bounded rr rw n y z c d hc hcd, trivial⟩) ha hab
  exact ⟨(foldlM_inv _ (QueueBounded n) (fun _ _ => True) (fun _ => trivial)
    (fun _ _ _ _ _ => trivial) _ st0 st hinner hb0 h1).1, h64⟩

/-- The number of roots among the passes a build retains is the root count of
its trees. -/
theorem build_root_count (ndebug : Bool) (g g1 : le_rendergraph_o) (t : RootTrees)
    (ht : rendergraph_build_trees ndebug g.passes = .ok t)
    (hp : g1.passes = (g.passes.zip t.nodes).filterMap write_back) :
    g1.passes.countP (fun p => p.is_root) = t.root_count := by
  obtain ⟨hlen, hcount, hroots, _⟩ := build_trees_affinity ndebug g.passes t ht
  have hsnd : (g.passes.zip t.nodes).map Prod.snd = t.nodes :=
    List.map_snd_zip _ _ (by omega)
  have hZ : ∀ x ∈ g.passes.zip t.nodes, x.2.is_root = true → x.2.is_contributing = true := by
    intro x hx
    apply hroots
    rw [← hsnd]
    exact List.mem_map_of_mem Prod.snd hx
  rw [hp, countP_write_back _ hZ, hsnd, hcount]

theorem roots_overlap_either (rr rw : List Nat) (i j ri wi rj wj : Nat) (hri : rr[i]? = some ri)
    (hwi : rw[i]? = some wi) (hrj : rr[j]? = some rj) (hwj : rw[j]? = some wj)
    (h : ri &&& wj ≠ 0 ∨ rj &&& wi ≠ 0) : roots_overlap rr rw i j = .ok true := by
  by_cases h1 : ri &&& wj ≠ 0
  · exact roots_overlap_true rr rw i j ri wj hri hwj h1
  · have h2 : rj &&& wi ≠ 0 := by
      rcases h with h | h
      · exact absurd h h1
      · exact h
    have h1' : ri &&& wj = 0 := by simpa using h1
    unfold roots_overlap
    simp only [(vec_at_ok rr i ri).mpr hri, (vec_at_ok rw j wj).mpr hwj,
      (vec_at_ok rr j rj).mpr hrj, (vec_at_ok rw i wi).mpr hwi, bind, Except.bind]
    simp [h1', h2, pure, Except.pure]

theorem or_and_ne_zero (x y m : Nat) : (x ||| y) &&& m ≠ 0 ↔ x &&& m ≠ 0 ∨ y &&& m ≠ 0 := by
  constructor
  · intro h
    by_contra hn
    rw [not_or, not_not, not_not] at hn
    exact h (or_and_eq_zero hn.1 hn.2)
  · intro h hz
    have hsub : ∀ z : Nat, BitsSub (z &&& m) ((x ||| y) &&& m) → z &&& m ≠ 0 → False := by
      intro z hs hne
      obtain ⟨c, hc⟩ := Nat.ne_zero_implies_bit_true hne
      have := hs c hc
      rw [hz, Nat.zero_testBit] at this
      cases this
    rcases h with h | h
    · refine hsub x ?_ h
      intro c hc
      rw [Nat.testBit_and] at hc ⊢
      rw [Nat.testBit_or]
      simp only [Bool.and_eq_true] at hc ⊢
      exact ⟨by simp [hc.1], hc.2⟩
    · refine hsub y ?_ h
      intro c hc
      rw [Nat.testBit_and] at hc ⊢
      rw [Nat.testBit_or]
      simp only [Bool.and_eq_true] at hc ⊢
      exact ⟨by simp [hc.1], hc.2⟩

theorem bne_or_and (x y m : Nat) :
    (((x ||| y) &&& m) != 0) = (((x &&& m) != 0) || ((y &&& m) != 0)) := by
  rw [Bool.eq_iff_iff]
  simp only [bne_iff_ne, Bool.or_eq_true]
  exact or_and_ne_zero x y m

theorem detect_read_or (B : AccessFlagBits2) (x y : Nat) :
    detect_read B (x ||| y) = (detect_read B x || detect_read B y) := by
  unfold detect_read
  exact bne_or_and x y _

theorem detect_write_or (B : AccessFlagBits2) (h : le_resource_handle) (x y : Nat) :
    detect_write B h (x ||| y) = (detect_write B h x || detect_write B h y) := by
  unfold detect_write
  by_cases ht : h.type = LeResourceType.eImage
  · simp only [ht, if_true, bne_or_and]
    cases ((x &&& LE_ALL_WRITE_ACCESS_FLAGS B) != 0) <;>
      cases ((y &&& LE_ALL_WRITE_ACCESS_FLAGS B) != 0) <;>
      cases ((x &&& LE_ALL_IMAGE_IMPLIED_WRITE_ACCESS_FLAGS B) != 0) <;>
      cases ((y &&& LE_ALL_IMAGE_IMPLIED_WRITE_ACCESS_FLAGS B) != 0) <;> rfl
  · simp only [ht, if_false, bne_or_and]

theorem derived_rw_new (dr dw : Bool) :
    (if dw = true then (if dr = true then eUndefined ||| eRead else eUndefined) ||| eWrite
      else (if dr = true then eUndefined ||| eRead else eUndefined)) =
    (if dr = true then eRead else eUndefined) ||| (if dw = true then eWrite else eUndefined) := by
  cases dr <;> cases dw <;> decide

theorem derived_rw_dup (dr0 dw0 dr dw : Bool) :
    (if dw = true then
      (if dr = true then
        ((if dr0 = true then eRead else eUndefined) |||
          (if dw0 = true then eWrite else eUndefined)) ||| eRead
       else (if dr0 = true then eRead else eUndefined) |||
          (if dw0 = true then eWrite else eUndefined)) ||| eWrite
     else (if dr = true then
        ((if dr0 = true then eRead else eUndefined) |||
          (if dw0 = true then eWrite else eUndefined)) ||| eRead
       else (if dr0 = true then eRead else eUndefined) |||
          (if dw0 = true then eWrite else eUndefined))) =
    (if (dr0 || dr) = true then eRead else eUndefined) |||
      (if (dw0 || dw) = true then eWrite else eUndefined) := by
  cases dr0 <;> cases dw0 <;> cases dr <;> cases dw <;> decide

theorem getElem?_append_singleton {α : Type} (l : List α) (x y : α) (i : Nat)
    (h : (l ++ [x])[i]? = some y) : l[i]? = some y ∨ (i = l.length ∧ y = x) := by
  by_cases hi : i < l.length
  · rw [List.getElem?_append_left hi] at h
    exact Or.inl h
  · rw [List.getElem?_append_right (by omega)] at h
    have h0 : i - l.length = 0 := by
      by_contra hne
      rw [List.getElem?_eq_none (by simp; omega)] at h
      cases h
    rw [h0, List.getElem?_cons_zero] at h
    exact Or.inr ⟨by omega, (Option.some.inj h).symm⟩

/-- One call of `renderpass_use_resource` keeps every summary derived. -/
theorem use_resource_summary (B : AccessFlagBits2) (eIsRoot : Nat) (ndebug : Bool)
    (self : le_renderpass_o) (h : le_resource_handle) (a : Nat) (hwf : PassWellFormed self)
    (hs : SummaryDerived B self) (p : le_renderpass_o)
    (hp : renderpass_use_resource B eIsRoot ndebug self h a = .ok p) : SummaryDerived B p := by
  obtain ⟨h1, h2, _, _, h5⟩ := hwf
  by_cases hmem : h ∈ self.resources
  · cases ndebug with
    | false =>
      obtain ⟨hlt, _⟩ := find_resource_idx_of_mem self.resources h hmem
      have hne : find_resource_idx self.resources h ≠ self.resources.length := by omega
      unfold renderpass_use_resource register_resource at hp
      simp [hne, c_assert, bind, Except.bind, throw, throwThe, MonadExceptOf.throw] at hp
    | true =>
      rw [use_resource_dup B eIsRoot self h a hmem h2 h1] at hp
      injection hp with hp
      obtain ⟨hlt, hidx⟩ := find_resource_idx_of_mem self.resources h hmem
      have hlta : find_resource_idx self.resources h < self.resources_access_flags.length := by
        omega
      have hltr : find_resource_idx self.resources h <
          self.resources_read_write_flags.length := by omega
      have hold : self.resources_access_flags[find_resource_idx self.resources h]? =
          some (self.resources_access_flags.getD (find_resource_idx self.resources h) 0) := by
        rw [List.getD_eq_getElem _ _ hlta, List.getElem?_eq_getElem hlta]
      have hrw := hs _ _ _ hidx hold
      have hrwD : self.resources_read_write_flags.getD (find_resource_idx self.resources h) 0 =
          derived_rw_flags B h
            (self.resources_access_flags.getD (find_resource_idx self.resources h) 0) := by
        rw [List.getD_eq_getElem?_getD, hrw]
        rfl
      rw [← hp]
      intro i h' a' hi ha
      simp only [] at hi ha ⊢
      by_cases hii : find_resource_idx self.resources h = i
      · rw [← hii] at hi ha ⊢
        rw [hidx] at hi
        rw [List.getElem?_set_self hlta] at ha
        rw [List.getElem?_set_self hltr, ← Option.some.inj hi, ← Option.some.inj ha, hrwD]
        unfold derived_rw_flags
        rw [detect_read_or, detect_write_or, derived_rw_dup]
      · rw [List.getElem?_set_ne hii] at ha ⊢
        exact hs i h' a' hi ha
  · rw [use_resource_new B eIsRoot ndebug self h a hmem h1] at hp
    injection hp with hp
    rw [← hp]
    intro i h' a' hi ha
    simp only [] at hi ha ⊢
    rcases getElem?_append_singleton _ _ _ _ hi with hi | ⟨hil, hh⟩
    · have hlt : i < self.resources.length := by
        by_contra hge
        rw [List.getElem?_eq_none (by omega)] at hi
        cases hi
      rw [List.getElem?_append_left (by omega)] at ha ⊢
      exact hs i h' a' hi ha
    · rcases getElem?_append_singleton _ _ _ _ ha with ha | ⟨_, haa⟩
      · rw [List.getElem?_eq_none (by omega)] at ha
        cases ha
      · rw [hil, ← h1, List.getElem?_append_right (Nat.le_refl _), Nat.sub_self,
          List.getElem?_cons_zero, hh, haa, derived_rw_new]
        rfl

theorem apply_pass_call_summary (B : AccessFlagBits2) (eIsRoot : Nat) (ndebug : Bool)
    (self : le_renderpass_o) (c : PassCall) (hwf : PassWellFormed self)
    (hs : SummaryDerived B self) (p : le_renderpass_o)
    (hp : apply_pass_call B eIsRoot ndebug self c = .ok p) : SummaryDerived B p := by
  obtain ⟨h1, h2, h3, h4, h5⟩ := hwf
  cases c with
  | use_resource resource_id access_flags =>
    exact use_resource_summary B eIsRoot ndebug self _ _ ⟨h1, h2, h3, h4, h5⟩ hs p hp
  | add_color_attachment image_id attachmentInfo =>
    have hp1 : renderpass_use_resource B eIsRoot ndebug
        { self with
          imageAttachments := self.imageAttachments ++ [attachmentInfo]
          attachmentResources := self.attachmentResources ++ [image_id] }
        image_id
        (attachment_access_flags B.eColorAttachmentRead B.eColorAttachmentWrite attachmentInfo) =
        .ok p := hp
    refine use_resource_summary B eIsRoot ndebug _ _ _ ?_ ?_ p hp1
    · exact ⟨h1, h2, by simp only [List.length_append, List.length_singleton]; omega, h4, h5⟩
    · exact fun i h a => hs i h a
  | add_depth_stencil_attachment image_id attachmentInfo =>
    have hp1 : renderpass_use_resource B eIsRoot ndebug
        { self with
          imageAttachments := self.imageAttachments ++ [attachmentInfo]
          attachmentResources := self.attachmentResources ++ [image_id] }
        image_id
        (attachment_access_flags B.eDepthStencilAttachmentRead B.eDepthStencilAttachmentWrite
          attachmentInfo) = .ok p := hp
    refine use_resource_summary B eIsRoot ndebug _ _ _ ?_ ?_ p hp1
    · exact ⟨h1, h2, by simp only [List.length_append, List.length_singleton]; omega, h4, h5⟩
    · exact fun i h a => hs i h a
  | sample_texture texture textureInfo =>
    simp only [apply_pass_call, renderpass_sample_texture] at hp
    by_cases ht : vector_contains self.textureIds texture = true
    · simp only [ht, if_true, pure_ok] at hp
      rw [← hp]
      exact hs
    · simp only [ht, Bool.false_eq_true, if_false] at hp
      have hp1 : renderpass_use_resource B eIsRoot ndebug
          { self with
            textureIds := self.textureIds ++ [texture]
            textureInfos := self.textureInfos ++ [textureInfo] }
          textureInfo.imageView_imageId B.eShaderSampledRead = .ok p := hp
      refine use_resource_summary B eIsRoot ndebug _ _ _ ?_ ?_ p hp1
      · exact ⟨h1, h2, h3, by simp only [List.length_append, List.length_singleton]; omega, h5⟩
      · exact fun i h a => hs i h a

theorem apply_pass_calls_summary (B : AccessFlagBits2) (eIsRoot : Nat) (ndebug : Bool) :
    ∀ (calls : List PassCall) (self : le_renderpass_o), PassWellFormed self →
      SummaryDerived B self → ∀ p, apply_pass_calls B eIsRoot ndebug self calls = .ok p →
      SummaryDerived B p := by
  intro calls
  induction calls with
  | nil =>
    intro self _ hs p hp
    simp only [apply_pass_calls, List.foldlM_nil, pure_ok] at hp
    rw [← hp]
    exact hs
  | cons c rest ih =>
    intro self hwf hs p hp
    simp only [apply_pass_calls, List.foldlM_cons, bind_ok] at hp
    obtain ⟨s1, hs1, hrest⟩ := hp
    exact ih s1 ((apply_pass_call_well_formed B eIsRoot ndebug self c hwf).1 s1 hs1)
      (apply_pass_call_summary B eIsRoot ndebug self c hwf hs s1 hs1) p hrest

theorem derived_rw_bits (dr dw : Bool) :
    ((((if dr = true then eRead else eUndefined) |||
        (if dw = true then eWrite else eUndefined)) &&& eRead ≠ 0) ↔ dr = true) ∧
    ((((if dr = true then eRead else eUndefined) |||
        (if dw = true then eWrite else eUndefined)) &&& eWrite ≠ 0) ↔ dw = true) := by
  cases dr <;> cases dw <;> decide

theorem detect_write_iff (B : AccessFlagBits2) (h : le_resource_handle) (a : Nat) :
    detect_write B h a = true ↔ (a &&& LE_ALL_WRITE_ACCESS_FLAGS B ≠ 0 ∨
      (h.type = LeResourceType.eImage ∧ a &&& LE_ALL_IMAGE_IMPLIED_WRITE_ACCESS_FLAGS B ≠ 0)) := by
  unfold detect_write
  by_cases ht : h.type = LeResourceType.eImage
  · simp [ht]
  · simp [ht]

theorem add_unique_handle_eq (ndebug : Bool) (U U1 : List le_resource_handle)
    (h : le_resource_handle)
    (hadd : add_unique_handle ndebug U h (find_resource_idx U h) = .ok U1) :
    U1 = add_first_occurrence U h := by
  unfold add_unique_handle at hadd
  unfold add_first_occurrence
  by_cases hf : find_resource_idx U h = U.length
  · have hnot : h ∉ U := (find_resource_idx_eq_length U h).mp hf
    rw [if_pos hf] at hadd
    rw [if_neg hnot]
    by_cases h64 : find_resource_idx U h < LE_MAX_NUM_GRAPH_RESOURCES
    · rw [if_pos h64] at hadd
      simp only [bind_ok, pure_ok] at hadd
      obtain ⟨_, _, hadd⟩ := hadd
      exact hadd.symm
    · rw [if_neg h64] at hadd
      exact absurd hadd (by simp [throw_ok])
  · have hmem : h ∈ U := by
      by_contra hn
      exact hf ((find_resource_idx_eq_length U h).mpr hn)
    rw [if_neg hf] at hadd
    rw [if_pos hmem]
    simp only [pure_ok] at hadd
    exact hadd.symm

theorem build_node_handles (ndebug : Bool) (flags : List Nat) (res : List le_resource_handle) :
    ∀ (i : Nat) (U : List le_resource_handle) (node : Node) (U1 : List le_resource_handle)
      (node1 : Node), build_node ndebug flags res i U node = .ok (U1, node1) →
      U1 = res.foldl add_first_occurrence U := by
  induction res with
  | nil =>
    intro i U node U1 node1 h
    simp only [build_node, pure_ok, Prod.mk.injEq] at h
    exact h.1.symm
  | cons h rest ih =>
    intro i U node U1 node1 hb
    unfold build_node at hb
    simp only [bind_ok, vec_at_ok] at hb
    obtain ⟨af, _, U0, hadd, reads, _, writes, _, hrec⟩ := hb
    rw [List.foldl_cons, ← add_unique_handle_eq ndebug U U0 h hadd]
    exact ih _ _ _ _ _ hrec

theorem build_nodes_handles (ndebug : Bool) (ps : List le_renderpass_o) :
    ∀ (U U2 : List le_resource_handle) (nodes : List Node),
      build_nodes ndebug ps U = .ok (U2, nodes) →
      U2 = (all_resources ps).foldl add_first_occurrence U := by
  induction ps with
  | nil =>
    intro U U2 nodes h
    simp only [build_nodes, pure_ok, Prod.mk.injEq] at h
    exact h.1.symm
  | cons p rest ih =>
    intro U U2 nodes h
    unfold build_nodes at h
    simp only [bind_ok] at h
    obtain ⟨⟨Ua, na⟩, h1, ⟨Ub, nb⟩, h2, h3⟩ := h
    simp only [pure_ok, Prod.mk.injEq] at h3
    obtain ⟨rfl, _⟩ := h3
    have ha := build_node_handles ndebug _ _ _ _ _ _ _ h1
    have hb := ih _ _ _ h2
    unfold all_resources at hb ⊢
    rw [List.flatMap_cons, List.foldl_append, ← ha]
    exact hb

theorem find_resource_idx_append_left (l r : List le_resource_handle) (h : le_resource_handle)
    (hmem : h ∈ l) : find_resource_idx (l ++ r) h = find_resource_idx l h := by
  induction l with
  | nil => simp at hmem
  | cons x rest ih =>
    rw [List.cons_append]
    unfold find_resource_idx
    by_cases hx : x = h
    · rw [if_pos hx, if_pos hx]
    · rw [if_neg hx, if_neg hx]
      rcases List.mem_cons.mp hmem with e | e
      · exact absurd e.symm hx
      · rw [ih e]

theorem find_resource_idx_append_right (l r : List le_resource_handle) (h : le_resource_handle)
    (hmem : h ∉ l) : find_resource_idx (l ++ r) h = l.length + find_resource_idx r h := by
  induction l with
  | nil => simp
  | cons x rest ih =>
    rw [List.cons_append]
    have hx : x ≠ h := fun e => hmem (e ▸ List.mem_cons_self _ _)
    have hr : h ∉ rest := fun e => hmem (List.mem_cons_of_mem _ e)
    rw [find_resource_idx, if_neg hx, ih hr, List.length_cons]
    omega

theorem find_resource_idx_le (l : List le_resource_handle) (h : le_resource_handle) :
    find_resource_idx l h ≤ l.length := by
  induction l with
  | nil => simp [find_resource_idx]
  | cons x rest ih =>
    unfold find_resource_idx
    split
    · omega
    · simp only [List.length_cons]; omega

/-- The numbering in the order of first occurrence, spelled out. -/
theorem first_occurrences_spec (hs : List le_resource_handle) :
    (first_occurrences hs).Nodup ∧
    (∀ h, h ∈ first_occurrences hs ↔ h ∈ hs) ∧
    ∀ (i j : Nat) (hi hj : le_resource_handle), (first_occurrences hs)[i]? = some hi →
      (first_occurrences hs)[j]? = some hj →
      (i < j ↔ find_resource_idx hs hi < find_resource_idx hs hj) := by
  induction hs using List.reverseRecOn with
  | nil =>
    refine ⟨List.nodup_nil, fun h => Iff.rfl, ?_⟩
    intro i j hi hj h1
    simp [first_occurrences] at h1
  | append_singleton l x ih =>
    obtain ⟨hnd, hmem, hord⟩ := ih
    have hfo : first_occurrences (l ++ [x]) = add_first_occurrence (first_occurrences l) x := by
      unfold first_occurrences
      rw [List.foldl_append]
      rfl
    rw [hfo]
    unfold add_first_occurrence
    by_cases hx : x ∈ first_occurrences l
    · rw [if_pos hx]
      refine ⟨hnd, ?_, ?_⟩
      · intro h
        rw [hmem, List.mem_append, List.mem_singleton]
        constructor
        · exact Or.inl
        · rintro (e | e)
          · exact e
          · rw [e]; exact (hmem x).mp hx
      · intro i j hi hj h1 h2
        rw [find_resource_idx_append_left l [x] hi ((hmem hi).mp (List.getElem?_mem h1)),
          find_resource_idx_append_left l [x] hj ((hmem hj).mp (List.getElem?_mem h2))]
        exact hord i j hi hj h1 h2
    · rw [if_neg hx]
      have hxl : x ∉ l := fun e => hx ((hmem x).mpr e)
      refine ⟨List.Nodup.append hnd (List.nodup_singleton x) (by simpa using hx), ?_, ?_⟩
      · intro h
        rw [List.mem_append, List.mem_append, hmem]
      · intro i j hi hj h1 h2
        have hfx : find_resource_idx (l ++ [x]) x = l.length := by
          rw [find_resource_idx_append_right l [x] x hxl]
          simp [find_resource_idx]
        have hlt : ∀ h, h ∈ l → find_resource_idx (l ++ [x]) h < l.length := by
          intro h hh
          rw [find_resource_idx_append_left l [x] h hh]
          have := find_resource_idx_le l h
          have hne : find_resource_idx l h ≠ l.length := by
            intro e
            exact (find_resource_idx_eq_length l h).mp e hh
          omega
        rcases getElem?_append_singleton _ _ _ _ h1 with h1 | ⟨h1i, h1h⟩ <;>
          rcases getElem?_append_singleton _ _ _ _ h2 with h2 | ⟨h2i, h2h⟩
        · rw [find_resource_idx_append_left l [x] hi ((hmem hi).mp (List.getElem?_mem h1)),
            find_resource_idx_append_left l [x] hj ((hmem hj).mp (List.getElem?_mem h2))]
          exact hord i j hi hj h1 h2
        · have hil : i < (first_occurrences l).length := by
            by_contra hge
            rw [List.getElem?_eq_none (by omega)] at h1
            cases h1
          rw [h2h, hfx]
          have := hlt hi ((hmem hi).mp (List.getElem?_mem h1))
          constructor
          · intro _; exact this
          · intro _; omega
        · have hjl : j < (first_occurrences l).length := by
            by_contra hge
            rw [List.getElem?_eq_none (by omega)] at h2
            cases h2
          rw [h1h, hfx]
          have := hlt hj ((hmem hj).mp (List.getElem?_mem h2))
          constructor
          · intro hij; omega
          · intro hij; omega
        · rw [h1h, h2h, h1i, h2i]
          exact ⟨fun h => absurd h (Nat.lt_irrefl _), fun h => absurd h (Nat.lt_irrefl _)⟩

theorem pass_reads_iff (p : le_renderpass_o) (x : le_resource_handle) :
    pass_reads p x = true ↔ ∃ (j : Nat) (f : Nat), p.resources[j]? = some x ∧
      p.resources_read_write_flags[j]? = some f ∧ f &&& eRead ≠ 0 := by
  unfold pass_reads
  exact any_zip_flag _ _ _ _

theorem pass_writes_iff (p : le_renderpass_o) (x : le_resource_handle) :
    pass_writes p x = true ↔ ∃ (j : Nat) (f : Nat), p.resources[j]? = some x ∧
      p.resources_read_write_flags[j]? = some f ∧ f &&& eWrite ≠ 0 := by
  unfold pass_writes
  exact any_zip_flag _ _ _ _

theorem forall₂_of_getElem? {α β : Type} {R : α → β → Prop} :
    ∀ (l1 : List α) (l2 : List β), l1.length = l2.length →
      (∀ (k : Nat) (a : α) (b : β), l1[k]? = some a → l2[k]? = some b → R a b) →
      Forall₂ R l1 l2
  | [], [], _, _ => Forall₂.nil
  | [], _ :: _, h, _ => by simp at h
  | _ :: _, [], h, _ => by simp at h
  | a :: l1, b :: l2, hlen, h => by
    refine Forall₂.cons (h 0 a b List.getElem?_cons_zero List.getElem?_cons_zero)
      (forall₂_of_getElem? l1 l2 ?_ ?_)
    · simpa using hlen
    · intro k a1 b1 ha hb
      exact h (k + 1) a1 b1 (by simpa using ha) (by simpa using hb)

/-- The nodes the translation loop builds mirror the passes. -/
theorem build_nodes_mirror (ndebug : Bool) (ps : List le_renderpass_o)
    (U : List le_resource_handle) (nodes : List Node)
    (h : build_nodes ndebug ps [] = .ok (U, nodes))
    (hwf : ∀ p ∈ ps, p.resources.Nodup) :
    U.Nodup ∧ Forall₂ (NodeMirrorsPass U) ps nodes ∧
      ∀ p ∈ ps, ∀ x ∈ p.resources, x ∈ U := by
  obtain ⟨_, hnd, hbits⟩ := build_nodes_bits ndebug ps [] U nodes h List.nodup_nil hwf
  have hrel := build_nodes_rel _ _ _ _ _ h
  refine ⟨hnd, ?_, ?_⟩
  · apply forall₂_of_getElem? _ _ hrel.length_eq
    intro k p n hp hn
    obtain ⟨hm, hR1, hR2⟩ := hbits k p n hp hn
    obtain ⟨n1, hn1, hpn⟩ := forall₂_getElem? hrel k p hp
    have hnn : n1 = n := Option.some.inj (hn1.symm.trans hn)
    rw [hnn] at hpn
    refine ⟨hpn.1, ?_, ?_⟩
    · intro c
      constructor
      · intro hc
        by_cases hex : ∃ x ∈ p.resources, U[c]? = some x
        · obtain ⟨x, hx, hUx⟩ := hex
          obtain ⟨j, hj⟩ := List.getElem?_of_mem hx
          obtain ⟨f, hf, hr, _⟩ := hR1 j x c hj hUx
          rw [hr] at hc
          exact ⟨x, hUx, (pass_reads_iff p x).mpr ⟨j, f, hj, hf, by simpa using hc⟩⟩
        · have := (hR2 c (fun x hx e => hex ⟨x, hx, e⟩)).1
          rw [this] at hc
          cases hc
      · rintro ⟨x, hUx, hrd⟩
        obtain ⟨j, f, hj, hf, hb⟩ := (pass_reads_iff p x).mp hrd
        obtain ⟨f1, hf1, hr, _⟩ := hR1 j x c hj hUx
        rw [hf] at hf1
        rw [hr, ← Option.some.inj hf1]
        simpa using hb
    · intro c
      constructor
      · intro hc
        by_cases hex : ∃ x ∈ p.resources, U[c]? = some x
        · obtain ⟨x, hx, hUx⟩ := hex
          obtain ⟨j, hj⟩ := List.getElem?_of_mem hx
          obtain ⟨f, hf, _, hw⟩ := hR1 j x c hj hUx
          rw [hw] at hc
          exact ⟨x, hUx, (pass_writes_iff p x).mpr ⟨j, f, hj, hf, by simpa using hc⟩⟩
        · have := (hR2 c (fun x hx e => hex ⟨x, hx, e⟩)).2
          rw [this] at hc
          cases hc
      · rintro ⟨x, hUx, hwr⟩
        obtain ⟨j, f, hj, hf, hb⟩ := (pass_writes_iff p x).mp hwr
        obtain ⟨f1, hf1, _, hw⟩ := hR1 j x c hj hUx
        rw [hf] at hf1
        rw [hw, ← Option.some.inj hf1]
        simpa using hb
  · intro p hp x hx
    obtain ⟨k, hk⟩ := List.getElem?_of_mem hp
    obtain ⟨n, hn, _⟩ := forall₂_getElem? hrel k p hk
    exact (hbits k p n hk hn).1 x hx

theorem add_first_occurrence_length (U : List le_resource_handle) (h : le_resource_handle) :
    U.length ≤ (add_first_occurrence U h).length := by
  unfold add_first_occurrence
  split
  · exact Nat.le_refl _
  · simp

theorem foldl_add_first_occurrence_length (l : List le_resource_handle) :
    ∀ U : List le_resource_handle, U.length ≤ (l.foldl add_first_occurrence U).length := by
  induction l with
  | nil => intro U; exact Nat.le_refl _
  | cons h rest ih =>
    intro U
    rw [List.foldl_cons]
    exact Nat.le_trans (add_first_occurrence_length U h) (ih _)

/-- The table stays within the bitset: registering a handle returns. -/
theorem add_unique_handle_total (ndebug : Bool) (U : List le_resource_handle)
    (h : le_resource_handle) (h64 : (add_first_occurrence U h).length ≤ 64)
    (hassert : ndebug = true ∨ (add_first_occurrence U h).length < 64) :
    add_unique_handle ndebug U h (find_resource_idx U h) = .ok (add_first_occurrence U h) ∧
    find_resource_idx U h < 64 := by
  unfold add_unique_handle
  unfold add_first_occurrence at h64 hassert ⊢
  by_cases hmem : h ∈ U
  · rw [if_pos hmem] at h64 hassert ⊢
    obtain ⟨hlt, _⟩ := find_resource_idx_of_mem U h hmem
    have hne : find_resource_idx U h ≠ U.length := by omega
    rw [if_neg hne]
    exact ⟨rfl, by omega⟩
  · rw [if_neg hmem] at h64 hassert ⊢
    have hf := (find_resource_idx_eq_length U h).mpr hmem
    simp only [List.length_append, List.length_singleton] at h64 hassert
    have hlt : find_resource_idx U h < LE_MAX_NUM_GRAPH_RESOURCES := by
      unfold LE_MAX_NUM_GRAPH_RESOURCES; omega
    rw [if_pos hf, if_pos hlt]
    have hc : c_assert ndebug (decide (U.length + 1 < LE_MAX_NUM_GRAPH_RESOURCES))
        Fault.assert_too_many_resources = .ok () := by
      rw [c_assert_ok]
      rcases hassert with e | e
      · exact Or.inl e
      · right
        unfold LE_MAX_NUM_GRAPH_RESOURCES
        simpa using e
    simp only [hc, bind, Except.bind]
    exact ⟨rfl, by omega⟩

theorem build_node_total (ndebug : Bool) (flags : List Nat) (res : List le_resource_handle) :
    ∀ (i : Nat) (U : List le_resource_handle) (node : Node),
      i + res.length ≤ flags.length →
      (res.foldl add_first_occurrence U).length ≤ 64 →
      (ndebug = true ∨ (res.foldl add_first_occurrence U).length < 64) →
      ∃ node1, build_node ndebug flags res i U node =
        .ok (res.foldl add_first_occurrence U, node1) := by
  induction res with
  | nil =>
    intro i U node _ _ _
    exact ⟨node, rfl⟩
  | cons h rest ih =>
    intro i U node hlen h64 hassert
    simp only [List.length_cons] at hlen
    rw [List.foldl_cons] at h64 hassert ⊢
    have hmono := foldl_add_first_occurrence_length rest (add_first_occurrence U h)
    obtain ⟨hadd, hidx⟩ := add_unique_handle_total ndebug U h (by omega)
      (by rcases hassert with e | e
          · exact Or.inl e
          · right; omega)
    have hi : i < flags.length := by omega
    have hv : vec_at flags i = .ok (flags.get ⟨i, hi⟩) := by
      rw [vec_at_ok]
      exact List.getElem?_eq_getElem hi
    have hset : ∀ (bits : Nat) (val : Bool), bitset_set bits (find_resource_idx U h) val =
        .ok (if val then bits ||| (1 <<< find_resource_idx U h)
          else bits ^^^ (bits &&& (1 <<< find_resource_idx U h))) := by
      intro bits val
      rw [bitset_set_ok]
      exact ⟨hidx, rfl⟩
    obtain ⟨node1, hrec⟩ := ih (i + 1) (add_first_occurrence U h)
      { node with
        reads := if ((flags.get ⟨i, hi⟩ &&& eRead) != 0) = true
          then node.reads ||| (1 <<< find_resource_idx U h)
          else node.reads ^^^ (node.reads &&& (1 <<< find_resource_idx U h))
        writes := if (((flags.get ⟨i, hi⟩ &&& eWrite) >>> 1) != 0) = true
          then node.writes ||| (1 <<< find_resource_idx U h)
          else node.writes ^^^ (node.writes &&& (1 <<< find_resource_idx U h)) }
      (by omega) h64 hassert
    refine ⟨node1, ?_⟩
    rw [build_node]
    simp only [hv, hadd, hset, bind, Except.bind]
    exact hrec

theorem build_nodes_total (ndebug : Bool) (ps : List le_renderpass_o) :
    ∀ (U : List le_resource_handle),
      (∀ p ∈ ps, p.resources.length ≤ p.resources_read_write_flags.length) →
      ((all_resources ps).foldl add_first_occurrence U).length ≤ 64 →
      (ndebug = true ∨ ((all_resources ps).foldl add_first_occurrence U).length < 64) →
      ∃ nodes, build_nodes ndebug ps U =
        .ok ((all_resources ps).foldl add_first_occurrence U, nodes) := by
  induction ps with
  | nil =>
    intro U _ _ _
    exact ⟨[], rfl⟩
  | cons p rest ih =>
    intro U hlen h64 hassert
    have hall : all_resources (p :: rest) = p.resources ++ all_resources rest := by
      unfold all_resources
      rw [List.flatMap_cons]
    rw [hall, List.foldl_append] at h64 hassert ⊢
    have hmono := foldl_add_first_occurrence_length (all_resources rest)
      (p.resources.foldl add_first_occurrence U)
    obtain ⟨node1, h1⟩ := build_node_total ndebug p.resources_read_write_flags p.resources 0 U {}
      (by have := hlen p (List.mem_cons_self _ _); omega) (by omega)
      (by rcases hassert with e | e
          · exact Or.inl e
          · right; omega)
    obtain ⟨nodes, h2⟩ := ih (p.resources.foldl add_first_occurrence U)
      (fun q hq => hlen q (List.mem_cons_of_mem _ hq)) h64 hassert
    refine ⟨(if p.is_root then { node1 with is_root := true } else node1) :: nodes, ?_⟩
    rw [build_nodes]
    simp only [h1, h2, bind, Except.bind]
    rfl

/-- The counter of the sweep is exact as long as the roots are fewer than
`2 ^ 32`. -/
theorem node_tag_sweep_count_exact (nodes : List Node) :
    (node_tag_sweep nodes).1.countP (fun n => n.is_root) < 4294967296 →
    (node_tag_sweep nodes).2.2 = (node_tag_sweep nodes).1.countP (fun n => n.is_root) := by
  induction nodes with
  | nil => intro _; simp [node_tag_sweep]
  | cons n later ih =>
    rw [node_tag_sweep_cons]
    by_cases hc : (n.is_root || (n.writes &&& (node_tag_sweep later).2.1) != 0) = true
    · rw [if_pos hc]
      by_cases hr : (if (n.is_root && (n.writes &&& (node_tag_sweep later).2.1) != 0) = true
          then false else n.is_root) = true
      · rw [if_pos hr]
        have hcount := countP_is_root_cons_pos
          ({ n with
            is_contributing := true
            is_root := if (n.is_root && (n.writes &&& (node_tag_sweep later).2.1) != 0) = true
              then false else n.is_root } : Node) (node_tag_sweep later).1 hr
        rw [hcount]
        intro hlt
        have h1 := ih (by omega)
        show uint32_inc (node_tag_sweep later).2.2 = _
        rw [h1]
        unfold uint32_inc
        rw [if_neg (by omega)]
      · rw [if_neg hr]
        have hcount := countP_is_root_cons_neg
          ({ n with
            is_contributing := true
            is_root := if (n.is_root && (n.writes &&& (node_tag_sweep later).2.1) != 0) = true
              then false else n.is_root } : Node) (node_tag_sweep later).1 hr
        rw [hcount]
        exact ih
    · rw [if_neg hc]
      have hnr : ¬ n.is_root = true := by
        intro hr; rw [hr] at hc; simp at hc
      rw [countP_is_root_cons_neg _ _ hnr]
      exact ih

/-- The accumulation returns when every root has its accumulators and its
bit. -/
theorem accumulate_roots_total (remaining : Nat) :
    ∀ (nodes : List Node) (K : Nat) (rr rw : List Nat), nodes.length ≤ remaining →
      K + nodes.countP (fun n => n.is_root) ≤ rr.length → rr.length = rw.length →
      K + nodes.countP (fun n => n.is_root) ≤ 64 →
      ∃ out, accumulate_roots remaining nodes K rr rw = .ok out := by
  induction remaining with
  | zero =>
    intro nodes K rr rw _ _ _ _
    exact ⟨_, rfl⟩
  | succ m ih =>
    intro nodes K rr rw hlen hK hrw h64
    cases nodes with
    | nil => exact ⟨_, rfl⟩
    | cons r earlier =>
      simp only [List.length_cons] at hlen
      by_cases hr : r.is_root = true
      · rw [countP_is_root_cons_pos _ _ hr] at hK h64
        have hKr : K < rr.length := by omega
        have hKw : K < rw.length := by omega
        have hsame := accumulate_tree_same (1 <<< K) earlier r.reads r.writes
        have hcount := countP_is_root_same hsame
        obtain ⟨out, hrec⟩ := ih (accumulate_tree (1 <<< K) earlier r.reads r.writes).1 (K + 1)
          (rr.set K (accumulate_tree (1 <<< K) earlier r.reads r.writes).2.1)
          (rw.set K (accumulate_tree (1 <<< K) earlier r.reads r.writes).2.2)
          (by rw [← hsame.length_eq]; omega)
          (by rw [hcount, List.length_set]; omega)
          (by rw [List.length_set, List.length_set]; exact hrw)
          (by rw [hcount]; omega)
        have hv1 : vec_at rr K = .ok (rr.get ⟨K, hKr⟩) := by
          rw [vec_at_ok]; exact List.getElem?_eq_getElem hKr
        have hv2 : vec_at rw K = .ok (rw.get ⟨K, hKw⟩) := by
          rw [vec_at_ok]; exact List.getElem?_eq_getElem hKw
        have hsh : shl_one K = .ok (1 <<< K) := by
          rw [shl_one_ok]; exact ⟨by omega, rfl⟩
        have hs1 : ∀ x, vec_set rr K x = .ok (rr.set K x) := by
          intro x; rw [vec_set_ok]; exact ⟨hKr, rfl⟩
        have hs2 : ∀ x, vec_set rw K x = .ok (rw.set K x) := by
          intro x; rw [vec_set_ok]; exact ⟨hKw, rfl⟩
        rw [accumulate_roots, if_pos hr]
        simp only [hv1, hv2, hsh, hs1, hs2, hrec, bind, Except.bind]
        exact ⟨_, rfl⟩
      · rw [countP_is_root_cons_neg _ _ hr] at hK h64
        obtain ⟨out, hrec⟩ := ih earlier K rr rw (by omega) hK hrw h64
        rw [accumulate_roots, if_neg hr]
        simp only [hrec, bind, Except.bind]
        exact ⟨_, rfl⟩

theorem foldlM_total {σ α : Type} (f : σ → α → Except Fault σ) (P : σ → Prop) :
    ∀ (l : List α) (s : σ), (∀ x ∈ l, ∀ a, P a → ∃ b, f a x = .ok b ∧ P b) → P s →
      ∃ s1, l.foldlM f s = .ok s1 ∧ P s1 := by
  intro l
  induction l with
  | nil =>
    intro s _ hs
    exact ⟨s, rfl, hs⟩
  | cons x rest ih =>
    intro s hstep hs
    obtain ⟨b, hb, hPb⟩ := hstep x (List.mem_cons_self _ _) s hs
    obtain ⟨s1, h1, hP1⟩ := ih b (fun y hy => hstep y (List.mem_cons_of_mem _ hy)) hPb
    refine ⟨s1, ?_, hP1⟩
    simp only [List.foldlM_cons, bind_ok]
    exact ⟨b, hb, h1⟩

theorem roots_overlap_total (rr rw : List Nat) (i j : Nat) (hi : i < rr.length)
    (hj : j < rr.length) (hlen : rr.length = rw.length) :
    ∃ b, roots_overlap rr rw i j = .ok b := by
  have h1 : vec_at rr i = .ok (rr.get ⟨i, hi⟩) := by
    rw [vec_at_ok]; exact List.getElem?_eq_getElem hi
  have h2 : vec_at rw j = .ok (rw.get ⟨j, by omega⟩) := by
    rw [vec_at_ok]; exact List.getElem?_eq_getElem (by omega)
  have h3 : vec_at rr j = .ok (rr.get ⟨j, hj⟩) := by
    rw [vec_at_ok]; exact List.getElem?_eq_getElem hj
  have h4 : vec_at rw i = .ok (rw.get ⟨i, by omega⟩) := by
    rw [vec_at_ok]; exact List.getElem?_eq_getElem (by omega)
  unfold roots_overlap
  simp only [h1, h2, h3, h4, bind, Except.bind]
  split
  · exact ⟨_, rfl⟩
  · exact ⟨_, rfl⟩

theorem queue_combine_total (n i j : Nat) (st : List Nat × List Nat) (hwf : QueueWF n st)
    (hi : i < n) (hj : j < n) : ∃ st1, queue_combine i j st = .ok st1 := by
  obtain ⟨hl1, hl2, hall⟩ := hwf
  obtain ⟨si, qi, hsi, hsile, hqi, _⟩ := hall i hi
  obtain ⟨sj, qj, hsj, hsjle, hqj, _⟩ := hall j hj
  unfold queue_combine queue_repoint
  simp only [(vec_at_ok _ _ _).mpr hsi, (vec_at_ok _ _ _).mpr hsj, (vec_at_ok _ _ _).mpr hqi,
    (vec_at_ok _ _ _).mpr hqj, bind, Except.bind]
  by_cases hle : si ≤ sj
  · have hs : vec_set st.2 j si = .ok (st.2.set j si) := by
      rw [vec_set_ok]; exact ⟨by omega, rfl⟩
    have hget : (st.2.set j si)[i]? = some si := by
      by_cases hij : j = i
      · rw [hij, List.getElem?_set_self (by omega)]
      · rw [List.getElem?_set_ne hij]; exact hsi
    have hs2 : vec_set st.1 si (qj ||| qi) = .ok (st.1.set si (qj ||| qi)) := by
      rw [vec_set_ok]; exact ⟨by omega, rfl⟩
    simp only [if_pos hle, hs, (vec_at_ok _ _ _).mpr hget, hs2]
    exact ⟨_, rfl⟩
  · have hs : vec_set st.2 i sj = .ok (st.2.set i sj) := by
      rw [vec_set_ok]; exact ⟨by omega, rfl⟩
    have hget : (st.2.set i sj)[i]? = some sj := List.getElem?_set_self (by omega)
    have hs2 : vec_set st.1 sj (qj ||| qi) = .ok (st.1.set sj (qj ||| qi)) := by
      rw [vec_set_ok]; exact ⟨by omega, rfl⟩
    simp only [if_neg hle, hs, (vec_at_ok _ _ _).mpr hget, hs2]
    exact ⟨_, rfl⟩

theorem queue_combine_step_total (rr rw : List Nat) (n i j : Nat) (a : List Nat × List Nat)
    (hr : rr.length = n) (hw : rw.length = n) (hi : i < n) (hj : j < n) (ha : QueueWF n a) :
    ∃ b, queue_combine_step rr rw i a j = .ok b ∧ QueueWF n b := by
  obtain ⟨ov, hov⟩ := roots_overlap_total rr rw i j (by omega) (by omega) (by omega)
  unfold queue_combine_step
  simp only [hov, bind, Except.bind]
  cases ov with
  | true =>
    obtain ⟨b, hb⟩ := queue_combine_total n i j a ha hi hj
    simp only [if_true]
    exact ⟨b, hb, (queue_combine_spec n i j a b ha hi hj hb).1⟩
  | false =>
    simp only [Bool.false_eq_true, if_false]
    exact ⟨a, rfl, ha⟩

theorem build_queues_total (rr rw : List Nat) (n : Nat) (hr : rr.length = n)
    (hw : rw.length = n) (h64 : n ≤ 64) :
    ∃ st, rendergraph_build_queues rr rw n = .ok st := by
  obtain ⟨st0, h0⟩ := queue_init_fold_ex n n (Nat.le_refl n) h64
  have hwf0 := queueInit_wf n st0 (queue_init_fold_ok n n (Nat.le_refl n) st0 h0).1
  obtain ⟨st, hst, _⟩ := foldlM_total
    (fun st i => (List.range' (i + 1) (n - (i + 1))).foldlM (queue_combine_step rr rw i) st)
    (QueueWF n) (List.range n) st0
    (fun i hi a ha => foldlM_total (queue_combine_step rr rw i) (QueueWF n) _ a
      (fun j hj c hc => queue_combine_step_total rr rw n i j c hr hw (List.mem_range.mp hi)
        (mem_pair_range hj).2 hc) ha) hwf0
  refine ⟨st, ?_⟩
  unfold rendergraph_build_queues
  simp only [bind_ok]
  exact ⟨st0, h0, hst⟩

/-- The loop that emits the masks reads within `queue_id`; it returns, or stops
at the assertion on the queue lanes. -/
theorem emit_masks_total (ndebug : Bool) (queue_id : List Nat) :
    ∀ (l : List Nat) (st : List Nat × Nat), (∀ idx ∈ l, idx < queue_id.length) →
      (∃ out, emit_masks ndebug queue_id l st = .ok out) ∨
      (ndebug = false ∧ emit_masks ndebug queue_id l st = .error Fault.assert_queue_lanes) := by
  intro l
  induction l with
  | nil =>
    intro st _
    exact Or.inl ⟨st, by rw [emit_masks]; rfl⟩
  | cons idx rest ih =>
    intro st hl
    obtain ⟨masks, c⟩ := st
    have hidx := hl idx (List.mem_cons_self _ _)
    have hv : vec_at queue_id idx = .ok (queue_id.get ⟨idx, hidx⟩) := by
      rw [vec_at_ok]; exact List.getElem?_eq_getElem hidx
    rw [emit_masks]
    simp only [hv, bind, Except.bind]
    by_cases hc : (ndebug || ((queue_id.get ⟨idx, hidx⟩ &&& c) == 0)) = true
    · have ha : c_assert ndebug ((queue_id.get ⟨idx, hidx⟩ &&& c) == 0)
          Fault.assert_queue_lanes = .ok () := by
        unfold c_assert
        rw [if_pos hc]
        rfl
      simp only [ha]
      exact ih _ (fun i hi => hl i (List.mem_cons_of_mem _ hi))
    · have ha : c_assert ndebug ((queue_id.get ⟨idx, hidx⟩ &&& c) == 0)
          Fault.assert_queue_lanes = .error Fault.assert_queue_lanes := by
        unfold c_assert
        rw [if_neg hc]
        rfl
      right
      refine ⟨?_, ?_⟩
      · cases ndebug with
        | false => rfl
        | true => simp at hc
      · simp only [ha]

theorem build_trees_total (ndebug : Bool) (passes : List le_renderpass_o)
    (U : List le_resource_handle) (nodes0 : List Node)
    (hbn : build_nodes ndebug passes [] = .ok (U, nodes0))
    (hroots : (node_tag_sweep nodes0).1.countP (fun n => n.is_root) ≤ 64) :
    ∃ t, rendergraph_build_trees ndebug passes = .ok t := by
  have hcount := node_tag_sweep_count_exact nodes0 (by omega)
  have hassert : c_assert ndebug
      (decide ((node_tag_sweep nodes0).2.2 ≤ LE_MAX_NUM_GRAPH_ROOTS))
      Fault.assert_too_many_roots = .ok () := by
    rw [c_assert_ok]
    right
    unfold LE_MAX_NUM_GRAPH_ROOTS
    rw [hcount]
    simpa using hroots
  obtain ⟨out, hacc⟩ := accumulate_roots_total (node_tag_sweep nodes0).1.length
    (node_tag_sweep nodes0).1.reverse 0
    (List.replicate (node_tag_sweep nodes0).2.2 0) (List.replicate (node_tag_sweep nodes0).2.2 0)
    (by simp)
    (by rw [List.countP_reverse, List.length_replicate, hcount]; omega)
    (by simp)
    (by rw [List.countP_reverse]; omega)
  rw [rendergraph_build_trees]
  simp only [hbn, node_tag_contributing, hassert, hacc, bind, Except.bind]
  exact ⟨_, rfl⟩

/-- Within the caps every access of build is in bounds and the assertions on
the resources and on the roots hold: build returns, or stops at the assertion
on the queue lanes. -/
theorem build_total (ndebug : Bool) (g : le_rendergraph_o)
    (U : List le_resource_handle) (nodes0 : List Node)
    (hbn : build_nodes ndebug g.passes [] = .ok (U, nodes0))
    (hroots : (node_tag_sweep nodes0).1.countP (fun n => n.is_root) ≤ 64) :
    (∃ g1, rendergraph_build ndebug g = .ok g1) ∨
    (ndebug = false ∧ rendergraph_build ndebug g = .error Fault.assert_queue_lanes) := by
  obtain ⟨t, ht⟩ := build_trees_total ndebug g.passes U nodes0 hbn hroots
  obtain ⟨_, hrr, hrw⟩ := build_trees_aff ndebug g.passes t ht
  obtain ⟨hlen, hcount, _, _⟩ := build_trees_affinity ndebug g.passes t ht
  obtain ⟨_, h1, _⟩ := build_trees_ok ndebug g.passes t ht
  have hsw := node_tag_sweep_rel nodes0
  have h64 : t.root_count ≤ 64 := by
    obtain ⟨n0, _, hsame, hc⟩ := build_trees_ok ndebug g.passes t ht
    obtain ⟨U1, n1, hbn1, hs1⟩ := build_trees_nodes ndebug g.passes t ht
    rw [hbn] at hbn1
    injection hbn1 with e
    have e2 : nodes0 = n1 := (Prod.mk.inj e).2
    rw [← hcount, countP_is_root_same (e2 ▸ hs1)]
    exact hroots
  obtain ⟨⟨queue_id, queue_id_idx⟩, hq⟩ :=
    build_queues_total t.root_reads_accum t.root_writes_accum t.root_count hrr hrw h64
  obtain ⟨⟨hl1, hl2, hwf⟩, _⟩ := build_queues_spec _ _ _ _ hq
  simp only [] at hl1 hl2 hwf
  have hidx : ∀ idx ∈ std_unique queue_id_idx, idx < queue_id.length := by
    intro idx hmem
    obtain ⟨k, hk⟩ := List.getElem?_of_mem (of_mem_std_unique idx _ hmem)
    have hkn : k < t.root_count := by
      rw [← hl2]
      by_contra hge
      rw [List.getElem?_eq_none (by omega)] at hk
      cases hk
    obtain ⟨s, q, hs, hsk, _, _⟩ := hwf k hkn
    rw [hk] at hs
    rw [Option.some.inj hs, hl1]
    omega
  have hcons := consolidate_passes_ok t.nodes g.passes 0 [] (by omega)
  rw [rendergraph_build]
  simp only [ht, hq, bind, Except.bind]
  rcases emit_masks_total ndebug queue_id (std_unique queue_id_idx)
    (g.root_passes_affinity_masks, 0) hidx with ⟨⟨ms, c⟩, hm⟩ | ⟨hnd, hm⟩
  · left
    simp only [hm, hcons]
    exact ⟨_, rfl⟩
  · right
    refine ⟨hnd, ?_⟩
    simp only [hm]

theorem and_ne_zero_iff_testBit (a b : Nat) :
    a &&& b ≠ 0 ↔ ∃ c, a.testBit c = true ∧ b.testBit c = true := by
  constructor
  · intro h
    obtain ⟨c, hc⟩ := Nat.ne_zero_implies_bit_true h
    rw [Nat.testBit_and, Bool.and_eq_true] at hc
    exact ⟨c, hc⟩
  · rintro ⟨c, ha, hb⟩
    exact and_ne_zero_of_testBit a b c ha hb

theorem pass_sweep_cons (p : le_renderpass_o) (later : List le_renderpass_o) :
    pass_sweep (p :: later) =
      (if (p.is_root ||
          p.resources.any (fun h => pass_writes p h && (pass_sweep later).2 h)) = true then
        ((true, if (p.is_root &&
            p.resources.any (fun h => pass_writes p h && (pass_sweep later).2 h)) = true
            then false else p.is_root) :: (pass_sweep later).1,
         fun h => ((pass_sweep later).2 h && !pass_writes p h) || pass_reads p h)
       else ((false, p.is_root) :: (pass_sweep later).1, (pass_sweep later).2)) := by
  rw [pass_sweep]

theorem pass_writes_mem (p : le_renderpass_o) (x : le_resource_handle)
    (h : pass_writes p x = true) : x ∈ p.resources := by
  obtain ⟨j, _, hj, _, _⟩ := (pass_writes_iff p x).mp h
  exact List.getElem?_mem hj

theorem pass_reads_mem (p : le_renderpass_o) (x : le_resource_handle)
    (h : pass_reads p x = true) : x ∈ p.resources := by
  obtain ⟨j, _, hj, _, _⟩ := (pass_reads_iff p x).mp h
  exact List.getElem?_mem hj

/-- The sweep over nodes that mirror the passes is the sweep told on the
passes. -/
theorem node_tag_sweep_mirror (U : List le_resource_handle) :
    ∀ (ps : List le_renderpass_o) (nodes : List Node), Forall₂ (NodeMirrorsPass U) ps nodes →
      (∀ n ∈ nodes, n.is_contributing = false) →
      (∀ p ∈ ps, ∀ x ∈ p.resources, x ∈ U) →
      (node_tag_sweep nodes).1.map (fun n => (n.is_contributing, n.is_root)) =
        (pass_sweep ps).1 ∧
      ∀ c : Nat, (node_tag_sweep nodes).2.1.testBit c = true ↔
        ∃ h, U[c]? = some h ∧ (pass_sweep ps).2 h = true := by
  intro ps nodes hrel
  induction hrel with
  | nil =>
    intro _ _
    refine ⟨rfl, ?_⟩
    intro c
    simp [node_tag_sweep, pass_sweep]
  | @cons p n ps1 nodes1 hpn _ ih =>
    intro hentry hmem
    obtain ⟨htags, hra⟩ := ih (fun m hm => hentry m (List.mem_cons_of_mem _ hm))
      (fun q hq => hmem q (List.mem_cons_of_mem _ hq))
    obtain ⟨hroot, hreads, hwrites⟩ := hpn
    have hnc := hentry n (List.mem_cons_self _ _)
    have hpU := hmem p (List.mem_cons_self _ _)
    have hw : ((n.writes &&& (node_tag_sweep nodes1).2.1) != 0) =
        p.resources.any (fun h => pass_writes p h && (pass_sweep ps1).2 h) := by
      rw [Bool.eq_iff_iff, bne_iff_ne, List.any_eq_true, and_ne_zero_iff_testBit]
      constructor
      · rintro ⟨c, hc1, hc2⟩
        obtain ⟨h1, hU1, hw1⟩ := (hwrites c).mp hc1
        obtain ⟨h2, hU2, hr2⟩ := (hra c).mp hc2
        have e : h2 = h1 := Option.some.inj (hU2.symm.trans hU1)
        rw [e] at hr2
        exact ⟨h1, pass_writes_mem p h1 hw1, by simp [hw1, hr2]⟩
      · rintro ⟨h1, hm1, hb⟩
        rw [Bool.and_eq_true] at hb
        obtain ⟨c, hc⟩ := List.getElem?_of_mem (hpU h1 hm1)
        exact ⟨c, (hwrites c).mpr ⟨h1, hc, hb.1⟩, (hra c).mpr ⟨h1, hc, hb.2⟩⟩
    rw [node_tag_sweep_cons, pass_sweep_cons, hw, hroot]
    by_cases hc : (p.is_root ||
        p.resources.any (fun h => pass_writes p h && (pass_sweep ps1).2 h)) = true
    · rw [if_pos hc, if_pos hc]
      refine ⟨?_, ?_⟩
      · rw [List.map_cons, htags]
      · intro c
        show (bitset_and_not (node_tag_sweep nodes1).2.1 n.writes ||| n.reads).testBit c = true ↔
          ∃ h, U[c]? = some h ∧
            (((pass_sweep ps1).2 h && !pass_writes p h) || pass_reads p h) = true
        rw [Nat.testBit_or, bitset_and_not_testBit]
        constructor
        · intro hbit
          rcases Bool.or_eq_true_iff.mp hbit with hb | hb
          · rw [Bool.and_eq_true] at hb
            obtain ⟨h2, hU2, hr2⟩ := (hra c).mp hb.1
            refine ⟨h2, hU2, ?_⟩
            have hnw : pass_writes p h2 = false := by
              by_contra hne
              have hwt : pass_writes p h2 = true := by simpa using hne
              have := (hwrites c).mpr ⟨h2, hU2, hwt⟩
              rw [this] at hb
              simp at hb
            simp [hr2, hnw]
          · obtain ⟨h1, hU1, hr1⟩ := (hreads c).mp hb
            exact ⟨h1, hU1, by simp [hr1]⟩
        · rintro ⟨h1, hU1, hb⟩
          rcases Bool.or_eq_true_iff.mp hb with hb | hb
          · rw [Bool.and_eq_true] at hb
            have h1r := (hra c).mpr ⟨h1, hU1, hb.1⟩
            have hnw : n.writes.testBit c = false := by
              by_contra hne
              have hwt : n.writes.testBit c = true := by simpa using hne
              obtain ⟨h2, hU2, hw2⟩ := (hwrites c).mp hwt
              have e : h2 = h1 := Option.some.inj (hU2.symm.trans hU1)
              rw [e] at hw2
              rw [hw2] at hb
              simp at hb
            simp [h1r, hnw]
          · have := (hreads c).mpr ⟨h1, hU1, hb⟩
            simp [this]
    · rw [if_neg hc, if_neg hc]
      refine ⟨?_, hra⟩
      rw [List.map_cons, htags, hnc, hroot]

theorem passAlike_fields {k q : le_renderpass_o} (h : PassAlike k q) :
    q.resources = k.resources ∧
    q.resources_read_write_flags = k.resources_read_write_flags ∧ q.is_root = k.is_root := by
  unfold PassAlike at h
  refine ⟨?_, ?_, ?_⟩
  · rw [h]
  · rw [h]
  · rw [h]

theorem pass_reads_congr {k q : le_renderpass_o} (h1 : q.resources = k.resources)
    (h2 : q.resources_read_write_flags = k.resources_read_write_flags)
    (x : le_resource_handle) : pass_reads q x = pass_reads k x := by
  unfold pass_reads
  rw [h1, h2]

theorem pass_writes_congr {k q : le_renderpass_o} (h1 : q.resources = k.resources)
    (h2 : q.resources_read_write_flags = k.resources_read_write_flags)
    (x : le_resource_handle) : pass_writes q x = pass_writes k x := by
  unfold pass_writes
  rw [h1, h2]

theorem sweep_flags_again (R W qr : Bool) (hc : (R || W) = true)
    (hqr : qr = if (R && W) = true then false else R) :
    (qr || W) = true ∧ (if (qr && W) = true then false else qr) = qr := by
  cases R <;> cases W <;> simp_all

/-- The sweep told on the passes it retained retains them all again, with the
same roots, and monitors the same handles. -/
theorem pass_sweep_retained :
    ∀ (ps ps1 : List le_renderpass_o),
      Forall₂ PassAlike (pass_retain ps (pass_sweep ps).1) ps1 →
      (pass_sweep ps1).1 = ps1.map (fun q => (true, q.is_root)) ∧
      ∀ h, (pass_sweep ps1).2 h = (pass_sweep ps).2 h := by
  intro ps
  induction ps with
  | nil =>
    intro ps1 hrel
    have : ps1 = [] := by
      cases hrel
      rfl
    rw [this]
    exact ⟨rfl, fun _ => rfl⟩
  | cons p later ih =>
    intro ps1 hrel
    rw [pass_sweep_cons] at hrel ⊢
    by_cases hc : (p.is_root ||
        p.resources.any (fun h => pass_writes p h && (pass_sweep later).2 h)) = true
    · rw [if_pos hc] at hrel ⊢
      simp only [pass_retain, if_true] at hrel
      cases hrel with
      | @cons k q ks qs hkq hrest =>
        obtain ⟨ih1, ih2⟩ := ih qs hrest
        obtain ⟨hres, hfl, hqr⟩ := passAlike_fields hkq
        have hres1 : q.resources = p.resources := hres
        have hfl1 : q.resources_read_write_flags = p.resources_read_write_flags := hfl
        have hfun : (fun h => pass_writes q h && (pass_sweep qs).2 h) =
            (fun h => pass_writes p h && (pass_sweep later).2 h) :=
          funext (fun h => by rw [pass_writes_congr hres1 hfl1 h, ih2 h])
        obtain ⟨hor, htag⟩ := sweep_flags_again p.is_root
          (p.resources.any (fun h => pass_writes p h && (pass_sweep later).2 h)) q.is_root hc hqr
        rw [pass_sweep_cons, hres1, hfun, if_pos hor, htag]
        refine ⟨?_, ?_⟩
        · rw [List.map_cons, ih1]
        · intro h
          show (((pass_sweep qs).2 h && !pass_writes q h) || pass_reads q h) =
            (((pass_sweep later).2 h && !pass_writes p h) || pass_reads p h)
          rw [ih2 h, pass_writes_congr hres1 hfl1 h, pass_reads_congr hres1 hfl1 h]
    · rw [if_neg hc] at hrel ⊢
      simp only [pass_retain, Bool.false_eq_true, if_false] at hrel
      exact ih ps1 hrel

theorem pass_retain_write_back :
    ∀ (ps : List le_renderpass_o) (ns : List Node), ps.length = ns.length →
      Forall₂ PassAlike (pass_retain ps (ns.map (fun n => (n.is_contributing, n.is_root))))
        ((ps.zip ns).filterMap write_back)
  | [], [], _ => Forall₂.nil
  | [], _ :: _, h => by simp at h
  | _ :: _, [], h => by simp at h
  | p :: ps, n :: ns, hlen => by
    have ih := pass_retain_write_back ps ns (by simpa using hlen)
    rw [List.map_cons, List.zip_cons_cons]
    by_cases hc : n.is_contributing = true
    · obtain ⟨q, hq, _, _⟩ := write_back_some (p, n) hc
      have hq2 : write_back (p, n) = some
          { p with is_root := n.is_root, root_passes_affinity := n.root_index_affinity } := by
        unfold write_back
        rw [if_pos hc]
      rw [List.filterMap_cons_some hq2]
      simp only [pass_retain, hc, if_true]
      exact Forall₂.cons rfl ih
    · rw [List.filterMap_cons_none (write_back_none (p, n) hc)]
      have : n.is_contributing = false := by simpa using hc
      simp only [pass_retain, this, Bool.false_eq_true, if_false]
      exact ih

theorem write_back_all_kept :
    ∀ (ps : List le_renderpass_o) (ns : List Node), ps.length = ns.length →
      ns.map (fun n => (n.is_contributing, n.is_root)) = ps.map (fun q => (true, q.is_root)) →
      Forall₂ PassAlike ps ((ps.zip ns).filterMap write_back)
  | [], [], _, _ => Forall₂.nil
  | [], _ :: _, h, _ => by simp at h
  | _ :: _, [], h, _ => by simp at h
  | p :: ps, n :: ns, hlen, hmap => by
    rw [List.map_cons, List.map_cons] at hmap
    injection hmap with hhead htail
    have hc : n.is_contributing = true := (Prod.mk.inj hhead).1
    have hr : n.is_root = p.is_root := (Prod.mk.inj hhead).2
    have ih := write_back_all_kept ps ns (by simpa using hlen) htail
    have hq2 : write_back (p, n) = some
        { p with is_root := n.is_root, root_passes_affinity := n.root_index_affinity } := by
      unfold write_back
      rw [if_pos hc]
    rw [List.zip_cons_cons, List.filterMap_cons_some hq2]
    refine Forall₂.cons ?_ ih
    unfold PassAlike
    rw [hr]

theorem map_flags_same {a b : List Node} (h : Forall₂ SameNode a b) :
    b.map (fun n => (n.is_contributing, n.is_root)) =
      a.map (fun n => (n.is_contributing, n.is_root)) := by
  induction h with
  | nil => rfl
  | cons hab _ ih =>
    rw [List.map_cons, List.map_cons, ih, hab.2.2.1, hab.2.2.2]

/-- The flags of the nodes of a build are those of the sweep told on the
passes. -/
theorem build_trees_flags (ndebug : Bool) (passes : List le_renderpass_o) (t : RootTrees)
    (ht : rendergraph_build_trees ndebug passes = .ok t)
    (hnd : ∀ p ∈ passes, p.resources.Nodup) :
    t.nodes.map (fun n => (n.is_contributing, n.is_root)) = (pass_sweep passes).1 ∧
    t.nodes.length = passes.length := by
  obtain ⟨U, nodes0, hbn, hsame⟩ := build_trees_nodes ndebug passes t ht
  obtain ⟨_, hmir, hmem⟩ := build_nodes_mirror ndebug passes U nodes0 hbn hnd
  have hrel := build_nodes_rel _ _ _ _ _ hbn
  have hentry : ∀ n ∈ nodes0, n.is_contributing = false := by
    intro n hn
    obtain ⟨i, hi⟩ := List.getElem?_of_mem hn
    obtain ⟨p, _, hpn⟩ := forall₂_getElem?_right hrel i n hi
    exact hpn.2.1
  obtain ⟨htags, _⟩ := node_tag_sweep_mirror U passes nodes0 hmir hentry hmem
  refine ⟨?_, (build_trees_affinity ndebug passes t ht).1⟩
  rw [map_flags_same hsame, htags]

theorem built_passes_resources (g g1 : le_rendergraph_o) (nodes : List Node)
    (hp : g1.passes = (g.passes.zip nodes).filterMap write_back) :
    ∀ q ∈ g1.passes, ∃ p ∈ g.passes, q.resources = p.resources ∧
      q.resources_read_write_flags = p.resources_read_write_flags := by
  intro q hq
  rw [hp, List.mem_filterMap] at hq
  obtain ⟨⟨p, n⟩, hmem, hwb⟩ := hq
  refine ⟨p, (List.of_mem_zip hmem).1, ?_⟩
  unfold write_back at hwb
  split at hwb
  · injection hwb with e
    rw [← e]
    exact ⟨rfl, rfl⟩
  · cases hwb

/-- A second build keeps every pass of the first, each but for its root
affinity. -/
theorem second_build_alike (ndebug : Bool) (g g1 g2 : le_rendergraph_o)
    (h1 : rendergraph_build ndebug g = .ok g1) (h2 : rendergraph_build ndebug g1 = .ok g2)
    (hnd : ∀ p ∈ g.passes, p.resources.Nodup) : Forall₂ PassAlike g1.passes g2.passes := by
  obtain ⟨t, ht, hp1⟩ := build_passes_eq ndebug g g1 h1
  obtain ⟨hflags, hlen⟩ := build_trees_flags ndebug g.passes t ht hnd
  have halike := pass_retain_write_back g.passes t.nodes hlen.symm
  rw [hflags, ← hp1] at halike
  obtain ⟨hsw, _⟩ := pass_sweep_retained g.passes g1.passes halike
  have hnd1 : ∀ q ∈ g1.passes, q.resources.Nodup := by
    intro q hq
    obtain ⟨p, hp, hres, _⟩ := built_passes_resources g g1 t.nodes hp1 q hq
    rw [hres]
    exact hnd p hp
  obtain ⟨t2, ht2, hp2⟩ := build_passes_eq ndebug g1 g2 h2
  obtain ⟨hflags2, hlen2⟩ := build_trees_flags ndebug g1.passes t2 ht2 hnd1
  rw [hsw] at hflags2
  rw [hp2]
  exact write_back_all_kept g1.passes t2.nodes hlen2.symm hflags2

theorem add_unique_handle_length (ndebug : Bool) (U U1 : List le_resource_handle)
    (h : le_resource_handle) (res_idx : Nat)
    (hadd : add_unique_handle ndebug U h res_idx = .ok U1) (hU : U.length ≤ 64) :
    U1.length ≤ 64 := by
  unfold add_unique_handle at hadd
  by_cases hf : res_idx = U.length
  · rw [if_pos hf] at hadd
    by_cases h64 : res_idx < LE_MAX_NUM_GRAPH_RESOURCES
    · rw [if_pos h64] at hadd
      simp only [bind_ok, pure_ok] at hadd
      obtain ⟨_, _, hadd⟩ := hadd
      rw [← hadd, List.length_append, List.length_singleton]
      unfold LE_MAX_NUM_GRAPH_RESOURCES at h64
      omega
    · rw [if_neg h64] at hadd
      exact absurd hadd (by simp [throw_ok])
  · rw [if_neg hf] at hadd
    simp only [pure_ok] at hadd
    rw [← hadd]
    exact hU

theorem build_node_length (ndebug : Bool) (flags : List Nat) (res : List le_resource_handle) :
    ∀ (i : Nat) (U : List le_resource_handle) (node : Node) (U1 : List le_resource_handle)
      (node1 : Node), build_node ndebug flags res i U node = .ok (U1, node1) →
      U.length ≤ 64 → U1.length ≤ 64 := by
  induction res with
  | nil =>
    intro i U node U1 node1 h hU
    simp only [build_node, pure_ok, Prod.mk.injEq] at h
    rw [← h.1]
    exact hU
  | cons h rest ih =>
    intro i U node U1 node1 hb hU
    unfold build_node at hb
    simp only [bind_ok, vec_at_ok] at hb
    obtain ⟨af, _, U0, hadd, reads, _, writes, _, hrec⟩ := hb
    exact ih _ _ _ _ _ hrec (add_unique_handle_length ndebug U U0 h _ hadd hU)

theorem build_nodes_length (ndebug : Bool) (ps : List le_renderpass_o) :
    ∀ (U U2 : List le_resource_handle) (nodes : List Node),
      build_nodes ndebug ps U = .ok (U2, nodes) → U.length ≤ 64 → U2.length ≤ 64 := by
  induction ps with
  | nil =>
    intro U U2 nodes h hU
    simp only [build_nodes, pure_ok, Prod.mk.injEq] at h
    rw [← h.1]
    exact hU
  | cons p rest ih =>
    intro U U2 nodes h hU
    unfold build_nodes at h
    simp only [bind_ok] at h
    obtain ⟨⟨Ua, na⟩, h1, ⟨Ub, nb⟩, h2, h3⟩ := h
    simp only [pure_ok, Prod.mk.injEq] at h3
    obtain ⟨rfl, _⟩ := h3
    exact ih _ _ _ h2 (build_node_length ndebug _ _ _ _ _ _ _ h1 hU)

theorem countP_flags {α : Type} (f : α → Bool × Bool) (l : List α) :
    (l.map f).countP (fun x => x.2) = l.countP (fun a => (f a).2) := by
  rw [List.countP_map]
  rfl

/-- With assertions compiled out a build of the passes a build retained
returns. -/
theorem second_build_returns (g g1 : le_rendergraph_o)
    (h1 : rendergraph_build true g = .ok g1) (hwf : ∀ p ∈ g.passes, PassWellFormed p) :
    ∃ g2, rendergraph_build true g1 = .ok g2 := by
  have hnd : ∀ p ∈ g.passes, p.resources.Nodup := fun p hp => (hwf p hp).2.2.2.2
  obtain ⟨t, queue_id, queue_id_idx, ms, ht, hq, _, _, hp1⟩ := build_parts true g g1 h1
  obtain ⟨U, nodes0, hbn, _⟩ := build_trees_nodes true g.passes t ht
  obtain ⟨hflags, hlen⟩ := build_trees_flags true g.passes t ht hnd
  have halike := pass_retain_write_back g.passes t.nodes hlen.symm
  rw [hflags, ← hp1] at halike
  obtain ⟨hsw, _⟩ := pass_sweep_retained g.passes g1.passes halike
  have hres := built_passes_resources g g1 t.nodes hp1
  have hnd1 : ∀ q ∈ g1.passes, q.resources.Nodup := by
    intro q hq
    obtain ⟨p, hp, hr, _⟩ := hres q hq
    rw [hr]
    exact hnd p hp
  have hU := build_nodes_handles true g.passes [] U nodes0 hbn
  have hU64 : U.length ≤ 64 := build_nodes_length true g.passes [] U nodes0 hbn (by simp)
  obtain ⟨hnd2, hmem2, _⟩ := first_occurrences_spec (all_resources g1.passes)
  obtain ⟨_, hmemU, _⟩ := first_occurrences_spec (all_resources g.passes)
  have hsub : first_occurrences (all_resources g1.passes) ⊆ U := by
    intro x hx
    rw [hmem2] at hx
    unfold all_resources at hx
    rw [List.mem_flatMap] at hx
    obtain ⟨q, hq, hxq⟩ := hx
    obtain ⟨p, hp, hr, _⟩ := hres q hq
    have hU1 : U = first_occurrences (all_resources g.passes) := hU
    rw [hU1, hmemU]
    unfold all_resources
    rw [List.mem_flatMap]
    exact ⟨p, hp, hr ▸ hxq⟩
  have hlen2 := (List.subperm_of_subset hnd2 hsub).length_le
  obtain ⟨nodes1, hbn1⟩ := build_nodes_total true g1.passes []
    (fun q hq => by
      obtain ⟨p, hp, hr, hf⟩ := hres q hq
      rw [hr, hf, (hwf p hp).1])
    (by unfold first_occurrences at hlen2; omega) (Or.inl rfl)
  obtain ⟨_, hmir, hmemU1⟩ := build_nodes_mirror true g1.passes _ nodes1 hbn1 hnd1
  have hrel1 := build_nodes_rel _ _ _ _ _ hbn1
  have hentry : ∀ n ∈ nodes1, n.is_contributing = false := by
    intro n hn
    obtain ⟨i, hi⟩ := List.getElem?_of_mem hn
    obtain ⟨p, _, hpn⟩ := forall₂_getElem?_right hrel1 i n hi
    exact hpn.2.1
  obtain ⟨htags, _⟩ := node_tag_sweep_mirror _ g1.passes nodes1 hmir hentry hmemU1
  rw [hsw] at htags
  have hcount : (node_tag_sweep nodes1).1.countP (fun n => n.is_root) =
      g1.passes.countP (fun q => q.is_root) := by
    have := congrArg (fun l => List.countP (fun x : Bool × Bool => x.2) l) htags
    simp only [countP_flags] at this
    exact this
  have h64 : g1.passes.countP (fun p => p.is_root) ≤ 64 := by
    rw [build_root_count true g g1 t ht hp1]
    exact (build_queues_bounded _ _ _ _ hq).2
  rcases build_total true g1 _ nodes1 hbn1 (by rw [hcount]; exact h64) with hok | ⟨hf, _⟩
  · exact hok
  · cases hf

theorem map_is_root_alike {l1 l2 : List le_renderpass_o} (h : Forall₂ PassAlike l1 l2) :
    l2.map (fun q => q.is_root) = l1.map (fun p => p.is_root) := by
  induction h with
  | nil => rfl
  | cons hab _ ih => rw [List.map_cons, List.map_cons, ih, (passAlike_fields hab).2.2]

theorem getElem?_set_self_of_some {α : Type} (l : List α) (i : Nat) (x y : α)
    (h : l[i]? = some x) : (l.set i y)[i]? = some y := by
  have hlt : i < l.length := by
    by_contra hge
    rw [List.getElem?_eq_none (by omega)] at h
    cases h
  exact List.getElem?_set_self hlt

namespace Earlier

theorem reach_valid (deps : List (List Nat)) (hv : DepsValid deps) :
    ∀ (k a b : Nat), a < deps.length → Reach deps k a b → b < deps.length := by
  intro k
  induction k with
  | zero =>
    intro a b ha h
    have e : a = b := h
    omega
  | succ k ih =>
    intro a b _ h
    obtain ⟨c, ds, hds, hc, hr⟩ := h
    exact ih c b (hv a ds c hds hc) hr

theorem reach_snoc (deps : List (List Nat)) :
    ∀ (k a b c : Nat) (ds : List Nat), Reach deps k a b → deps[b]? = some ds → c ∈ ds →
      Reach deps (k + 1) a c := by
  intro k
  induction k with
  | zero =>
    intro a b c ds h hds hc
    have e : a = b := h
    exact ⟨c, ds, e ▸ hds, hc, rfl⟩
  | succ k ih =>
    intro a b c ds h hds hc
    obtain ⟨c1, ds1, hds1, hc1, hr⟩ := h
    exact ⟨c1, ds1, hds1, hc1, ih c1 b c ds hr hds hc⟩

theorem traverse_fold_spec (deps : List (List Nat)) (D : Nat)
    (f : List Nat → Nat → Except Fault (List Nat))
    (hcall : ∀ (c : Nat) (s : List Nat), c < deps.length → s.length = deps.length →
      ∃ s1, f s c = .ok s1 ∧ TraverseSpec deps [c] D s s1) :
    ∀ (cs : List Nat) (so : List Nat), (∀ c ∈ cs, c < deps.length) →
      so.length = deps.length →
      ∃ so1, cs.foldlM f so = .ok so1 ∧ TraverseSpec deps cs D so so1 := by
  intro cs
  induction cs with
  | nil =>
    intro so _ _
    refine ⟨so, rfl, rfl, fun x v h => ⟨v, h, Nat.le_refl v⟩, ?_, fun x v h => Or.inl h⟩
    intro c hc
    simp at hc
  | cons c rest ih =>
    intro so hcs hlen
    obtain ⟨s1, hs1, hl1, ha1, hb1, hc1⟩ := hcall c so (hcs c (List.mem_cons_self _ _)) hlen
    obtain ⟨s2, hs2, hl2, ha2, hb2, hc2⟩ := ih s1
      (fun d hd => hcs d (List.mem_cons_of_mem _ hd)) (hl1.trans hlen)
    refine ⟨s2, ?_, hl2.trans hl1, ?_, ?_, ?_⟩
    · rw [List.foldlM_cons, bind_ok]
      exact ⟨s1, hs1, hs2⟩
    · intro x v hx
      obtain ⟨v1, hv1, hle1⟩ := ha1 x v hx
      obtain ⟨v2, hv2, hle2⟩ := ha2 x v1 hv1
      exact ⟨v2, hv2, Nat.le_trans hle1 hle2⟩
    · intro d hd k x hr hk
      rcases List.mem_cons.mp hd with e | e
      · obtain ⟨v1, hv1, hle1⟩ := hb1 c (List.mem_singleton_self c) k x (e ▸ hr) hk
        obtain ⟨v2, hv2, hle2⟩ := ha2 x v1 hv1
        exact ⟨v2, hv2, Nat.le_trans hle1 hle2⟩
      · exact hb2 d e k x hr hk
    · intro x v2 hx
      rcases hc2 x v2 hx with h | ⟨d, hd, k, hr, hk, hv⟩
      · rcases hc1 x v2 h with h | ⟨d, hd, k, hr, hk, hv⟩
        · exact Or.inl h
        · rw [List.mem_singleton] at hd
          exact Or.inr ⟨c, List.mem_cons_self _ _, k, hd ▸ hr, hk, hv⟩
      · exact Or.inr ⟨d, List.mem_cons_of_mem _ hd, k, hr, hk, hv⟩

theorem traverse_passes_fuel_spec (deps : List (List Nat)) (hv : DepsValid deps) :
    ∀ (fuel D id : Nat) (so : List Nat), fuel = 21 - D → id < deps.length →
      so.length = deps.length →
      ∃ so1, traverse_passes_fuel fuel deps id D so = .ok so1 ∧
        TraverseSpec deps [id] D so so1 := by
  intro fuel
  induction fuel with
  | zero =>
    intro D id so hf _ _
    refine ⟨so, rfl, rfl, fun x v h => ⟨v, h, Nat.le_refl v⟩, ?_, fun x v h => Or.inl h⟩
    intro c _ k x _ hk
    omega
  | succ fuel ih =>
    intro D id so hf hid hlen
    have hD : ¬ D > LE_GRAPH_BUILDER_RECURSION_DEPTH := by
      unfold LE_GRAPH_BUILDER_RECURSION_DEPTH; omega
    have hidso : id < so.length := by omega
    have hcur : vec_at so id = .ok (so.get ⟨id, hidso⟩) := by
      rw [vec_at_ok]; exact List.getElem?_eq_getElem hidso
    have hsrc : vec_at deps id = .ok (deps.get ⟨id, hid⟩) := by
      rw [vec_at_ok]; exact List.getElem?_eq_getElem hid
    have hdeps : deps[id]? = some (deps.get ⟨id, hid⟩) := List.getElem?_eq_getElem hid
    have hsoid : so[id]? = some (so.get ⟨id, hidso⟩) := List.getElem?_eq_getElem hidso
    -- the sort orders after the update of the pass itself
    obtain ⟨so0, hso0, hl0, hmono0, hid0, hother0⟩ : ∃ so0 : List Nat,
        (if so.get ⟨id, hidso⟩ < D then vec_set so id D else pure so) = .ok so0 ∧
        so0.length = so.length ∧
        (∀ (x v : Nat), so[x]? = some v → ∃ v1, so0[x]? = some v1 ∧ v ≤ v1) ∧
        (∃ v1, so0[id]? = some v1 ∧ D ≤ v1) ∧
        (∀ (x v1 : Nat), so0[x]? = some v1 → so[x]? = some v1 ∨ (x = id ∧ v1 = D)) := by
      by_cases hlt : so.get ⟨id, hidso⟩ < D
      · refine ⟨so.set id D, ?_, List.length_set _ _ _, ?_, ?_, ?_⟩
        · rw [if_pos hlt, vec_set_ok]
          exact ⟨hidso, rfl⟩
        · intro x v hx
          by_cases hxi : id = x
          · rw [← hxi, hsoid] at hx
            rw [← hxi, List.getElem?_set_self hidso]
            exact ⟨D, rfl, by rw [← Option.some.inj hx]; omega⟩
          · rw [List.getElem?_set_ne hxi]
            exact ⟨v, hx, Nat.le_refl v⟩
        · exact ⟨D, List.getElem?_set_self hidso, Nat.le_refl D⟩
        · intro x v1 hx
          by_cases hxi : id = x
          · rw [← hxi, List.getElem?_set_self hidso] at hx
            exact Or.inr ⟨hxi.symm, (Option.some.inj hx).symm⟩
          · rw [List.getElem?_set_ne hxi] at hx
            exact Or.inl hx
      · refine ⟨so, ?_, rfl, fun x v hx => ⟨v, hx, Nat.le_refl v⟩, ?_, fun x v1 hx => Or.inl hx⟩
        · rw [if_neg hlt]
          rfl
        · exact ⟨_, hsoid, by omega⟩
    have hvalid : ∀ c ∈ deps.get ⟨id, hid⟩, c < deps.length := fun c hc => hv id _ c hdeps hc
    obtain ⟨so1, hfold, hl1, ha1, hb1, hc1⟩ := traverse_fold_spec deps (D + 1)
      (fun s src => traverse_passes_fuel fuel deps src (D + 1) s)
      (fun c s hc hs => ih (D + 1) c s (by omega) hc hs)
      (deps.get ⟨id, hid⟩) so0 hvalid (hl0.trans hlen)
    refine ⟨so1, ?_, hl1.trans hl0, ?_, ?_, ?_⟩
    · rw [traverse_passes_fuel, if_neg hD, bind_ok]
      refine ⟨_, hcur, ?_⟩
      simp only []
      by_cases hlt : so.get ⟨id, hidso⟩ < D
      · rw [if_pos hlt] at hso0 ⊢
        rw [bind_ok]
        refine ⟨so0, hso0, ?_⟩
        rw [bind_ok]
        exact ⟨_, hsrc, hfold⟩
      · rw [if_neg hlt] at hso0 ⊢
        rw [bind_ok]
        refine ⟨so0, hso0, ?_⟩
        rw [bind_ok]
        exact ⟨_, hsrc, hfold⟩
    · intro x v hx
      obtain ⟨v0, hv0, hle0⟩ := hmono0 x v hx
      obtain ⟨v1, hv1, hle1⟩ := ha1 x v0 hv0
      exact ⟨v1, hv1, Nat.le_trans hle0 hle1⟩
    · intro c hc k x hr hk
      rw [List.mem_singleton] at hc
      rw [hc] at hr
      cases k with
      | zero =>
        have e : id = x := hr
        obtain ⟨v0, hv0, hle0⟩ := hid0
        obtain ⟨v1, hv1, hle1⟩ := ha1 id v0 hv0
        exact ⟨v1, e ▸ hv1, by omega⟩
      | succ k =>
        obtain ⟨c1, ds, hds, hc1m, hr1⟩ := hr
        rw [hdeps] at hds
        rw [← Option.some.inj hds] at hc1m
        obtain ⟨v1, hv1, hle1⟩ := hb1 c1 hc1m k x hr1 (by omega)
        exact ⟨v1, hv1, by omega⟩
    · intro x v1 hx
      rcases hc1 x v1 hx with h | ⟨c1, hc1m, k, hr, hk, hv1⟩
      · rcases hother0 x v1 h with h | ⟨hxi, hvD⟩
        · exact Or.inl h
        · refine Or.inr ⟨id, List.mem_singleton_self id, 0, ?_, by omega, by omega⟩
          exact hxi.symm
      · exact Or.inr ⟨id, List.mem_singleton_self id, k + 1,
          ⟨c1, _, hdeps, hc1m, hr⟩, by omega, by omega⟩


theorem lookup_foldl_writes (k r : Nat) :
    ∀ (ws : List Nat) (table : List (Nat × Nat)),
      (ws.foldl (fun t it => (it, k) :: t) table).lookup r =
        if r ∈ ws then some k else table.lookup r := by
  intro ws
  induction ws with
  | nil => intro table; simp
  | cons w rest ih =>
    intro table
    rw [List.foldl_cons, ih]
    by_cases hr : r ∈ rest
    · rw [if_pos hr, if_pos (List.mem_cons_of_mem _ hr)]
    · rw [if_neg hr]
      by_cases hw : r = w
      · rw [if_pos (by rw [hw]; exact List.mem_cons_self _ _), List.lookup_cons]
        simp [hw]
      · rw [if_neg (by simp [hw, hr]), List.lookup_cons]
        have : (r == w) = false := by simpa using hw
        rw [this]

theorem isLastWriter_succ (all : List le_renderpass_o) (k : Nat) (p : le_renderpass_o)
    (hk : all[k]? = some p) (r q : Nat) :
    IsLastWriter all r (k + 1) q ↔
      (r ∈ p.writeResources ∧ q = k) ∨ (r ∉ p.writeResources ∧ IsLastWriter all r k q) := by
  constructor
  · rintro ⟨hq, hw, hno⟩
    by_cases hr : r ∈ p.writeResources
    · left
      refine ⟨hr, ?_⟩
      by_contra hne
      exact hno k p (by omega) (by omega) hk hr
    · right
      refine ⟨hr, ?_, hw, fun j pj h1 h2 hj => hno j pj h1 (by omega) hj⟩
      by_contra hge
      have : q = k := by omega
      obtain ⟨pQ, hpQ, hrQ⟩ := hw
      rw [this, hk] at hpQ
      exact hr (Option.some.inj hpQ ▸ hrQ)
  · rintro (⟨hr, hq⟩ | ⟨hr, hq, hw, hno⟩)
    · refine ⟨by omega, ⟨p, hq ▸ hk, hr⟩, ?_⟩
      intro j pj h1 h2 _
      omega
    · refine ⟨by omega, hw, ?_⟩
      intro j pj h1 h2 hj
      by_cases hjk : j = k
      · rw [hjk, hk] at hj
        exact Option.some.inj hj ▸ hr
      · exact hno j pj h1 (by omega) hj

theorem resolve_loop_spec (all : List le_renderpass_o) :
    ∀ (rest pre : List le_renderpass_o) (table : List (Nat × Nat)), all = pre ++ rest →
      (∀ r q : Nat, table.lookup r = some q ↔ IsLastWriter all r pre.length q) →
      (resolve_resource_ids_loop rest pre.length table).length = rest.length ∧
      ∀ (i : Nat) (ds : List Nat),
        (resolve_resource_ids_loop rest pre.length table)[i]? = some ds →
        ∀ Q : Nat, Q ∈ ds ↔ DependsOn all (pre.length + i) Q := by
  intro rest
  induction rest with
  | nil =>
    intro pre table _ _
    refine ⟨rfl, ?_⟩
    intro i ds h
    simp [resolve_resource_ids_loop] at h
  | cons p rest ih =>
    intro pre table hall htable
    have hk : all[pre.length]? = some p := by
      rw [hall]
      exact getElem?_append_cons_length pre p rest
    have htable1 : ∀ r q : Nat,
        (p.writeResources.foldl (fun t it => (it, pre.length) :: t) table).lookup r = some q ↔
          IsLastWriter all r (pre ++ [p]).length q := by
      intro r q
      rw [lookup_foldl_writes, List.length_append, List.length_singleton,
        isLastWriter_succ all pre.length p hk]
      by_cases hr : r ∈ p.writeResources
      · rw [if_pos hr]
        constructor
        · intro h
          exact Or.inl ⟨hr, (Option.some.inj h).symm⟩
        · rintro (⟨_, hq⟩ | ⟨hn, _⟩)
          · rw [hq]
          · exact absurd hr hn
      · rw [if_neg hr, htable]
        constructor
        · intro h
          exact Or.inr ⟨hr, h⟩
        · rintro (⟨hn, _⟩ | ⟨_, h⟩)
          · exact absurd hn hr
          · exact h
    obtain ⟨ihlen, ihspec⟩ := ih (pre ++ [p]) _ (by rw [hall, List.append_assoc]; rfl) htable1
    rw [List.length_append, List.length_singleton] at ihlen ihspec
    rw [resolve_resource_ids_loop]
    refine ⟨by rw [List.length_cons, ihlen, List.length_cons], ?_⟩
    intro i ds h
    cases i with
    | zero =>
      rw [List.getElem?_cons_zero] at h
      intro Q
      rw [← Option.some.inj h, List.mem_filterMap, Nat.add_zero]
      constructor
      · rintro ⟨r, hr, hl⟩
        exact ⟨p, r, hk, hr, (htable r Q).mp hl⟩
      · rintro ⟨pP, r, hpP, hr, hlw⟩
        rw [hk] at hpP
        exact ⟨r, Option.some.inj hpP ▸ hr, (htable r Q).mpr hlw⟩
    | succ i =>
      rw [List.getElem?_cons_succ] at h
      intro Q
      have := ihspec i ds h Q
      rw [this]
      have e : pre.length + 1 + i = pre.length + (i + 1) := by omega
      rw [e]

/-- The dependencies `graph_builder_resolve_resource_ids` returns for the pass
at `P` are the passes it depends on. -/
theorem resolve_spec (passes : List le_renderpass_o) :
    (graph_builder_resolve_resource_ids passes).length = passes.length ∧
    (∀ (P : Nat) (ds : List Nat), (graph_builder_resolve_resource_ids passes)[P]? = some ds →
      ∀ Q : Nat, Q ∈ ds ↔ DependsOn passes P Q) ∧
    DepsValid (graph_builder_resolve_resource_ids passes) := by
  have h := resolve_loop_spec passes passes [] [] rfl (by
    intro r q
    constructor
    · intro h
      simp at h
    · rintro ⟨hq, _⟩
      simp at hq)
  simp only [List.length_nil, Nat.zero_add] at h
  obtain ⟨hlen, hspec⟩ := h
  refine ⟨hlen, hspec, ?_⟩
  intro a ds c hds hc
  obtain ⟨pP, r, hpP, _, hq, _, _⟩ := (hspec a ds hds c).mp hc
  have ha : a < passes.length := by
    by_contra hge
    rw [List.getElem?_eq_none (by omega)] at hpP
    cases hpP
  have hlen' : (graph_builder_resolve_resource_ids passes).length = passes.length := hlen
  omega


theorem reach_iff_dependsPath (passes : List le_renderpass_o) :
    ∀ (k a b : Nat), Reach (graph_builder_resolve_resource_ids passes) k a b ↔
      DependsPath passes k a b := by
  obtain ⟨hlen, hspec, _⟩ := resolve_spec passes
  intro k
  induction k with
  | zero => intro a b; exact Iff.rfl
  | succ k ih =>
    intro a b
    constructor
    · rintro ⟨c, ds, hds, hc, hr⟩
      exact ⟨c, (hspec a ds hds c).mp hc, (ih c b).mp hr⟩
    · rintro ⟨c, hdep, hp⟩
      have ha : a < (graph_builder_resolve_resource_ids passes).length := by
        obtain ⟨pP, _, hpP, _⟩ := hdep
        rw [hlen]
        by_contra hge
        rw [List.getElem?_eq_none (by omega)] at hpP
        cases hpP
      exact ⟨c, _, List.getElem?_eq_getElem ha,
        (hspec a _ (List.getElem?_eq_getElem ha) c).mpr hdep, (ih c b).mpr hp⟩

theorem find_root_passes_loop_spec :
    ∀ (rest : List le_renderpass_o) (k x : Nat), x ∈ find_root_passes_loop rest k ↔
      ∃ (i : Nat) (p : le_renderpass_o), rest[i]? = some p ∧ p.isRoot ≠ 0 ∧ x = k + i := by
  intro rest
  induction rest with
  | nil =>
    intro k x
    simp [find_root_passes_loop]
  | cons p rest ih =>
    intro k x
    have hstep : (x = k ∧ p.isRoot ≠ 0) ∨ x ∈ find_root_passes_loop rest (k + 1) ↔
        ∃ (i : Nat) (q : le_renderpass_o), (p :: rest)[i]? = some q ∧ q.isRoot ≠ 0 ∧
          x = k + i := by
      rw [ih]
      constructor
      · rintro (⟨hx, hp⟩ | ⟨i, q, hq, hr, hx⟩)
        · exact ⟨0, p, List.getElem?_cons_zero, hp, hx⟩
        · exact ⟨i + 1, q, by rw [List.getElem?_cons_succ]; exact hq, hr, by omega⟩
      · rintro ⟨i, q, hq, hr, hx⟩
        cases i with
        | zero =>
          rw [List.getElem?_cons_zero] at hq
          exact Or.inl ⟨hx, Option.some.inj hq ▸ hr⟩
        | succ i =>
          rw [List.getElem?_cons_succ] at hq
          exact Or.inr ⟨i, q, hq, hr, by omega⟩
    rw [← hstep, find_root_passes_loop]
    by_cases hp : p.isRoot ≠ 0
    · rw [if_pos hp, List.mem_cons]
      constructor
      · rintro (h | h)
        · exact Or.inl ⟨h, hp⟩
        · exact Or.inr h
      · rintro (h | h)
        · exact Or.inl h.1
        · exact Or.inr h
    · rw [if_neg hp]
      constructor
      · intro h
        exact Or.inr h
      · rintro (h | h)
        · exact absurd h.2 hp
        · exact h

theorem find_root_passes_spec (passes : List le_renderpass_o) (x : Nat) :
    x ∈ graph_builder_find_root_passes passes ↔
      ∃ p : le_renderpass_o, passes[x]? = some p ∧ p.isRoot ≠ 0 := by
  unfold graph_builder_find_root_passes
  rw [find_root_passes_loop_spec]
  constructor
  · rintro ⟨i, p, hp, hr, hx⟩
    rw [Nat.zero_add] at hx
    exact ⟨p, hx ▸ hp, hr⟩
  · rintro ⟨p, hp, hr⟩
    exact ⟨x, p, hp, hr, by omega⟩

theorem store_sort_keys_eq (so : List Nat) :
    ∀ (rest : List le_renderpass_o) (k : Nat), k + rest.length ≤ so.length →
      store_sort_keys so rest k =
        .ok (List.zipWith (fun p v => { p with sort_key := v }) rest (so.drop k)) := by
  intro rest
  induction rest with
  | nil =>
    intro k _
    rw [store_sort_keys, List.zipWith_nil_left]
    rfl
  | cons p rest ih =>
    intro k hk
    rw [List.length_cons] at hk
    have hlt : k < so.length := by omega
    rw [store_sort_keys, bind_ok]
    refine ⟨so.get ⟨k, hlt⟩, ?_, ?_⟩
    · rw [vec_at_ok]
      exact List.getElem?_eq_getElem hlt
    · rw [bind_ok]
      refine ⟨_, ih (k + 1) (by omega), ?_⟩
      rw [pure_ok, List.drop_eq_getElem_cons hlt, List.zipWith_cons_cons]
      rfl

theorem insert_by_sort_key_perm (p : le_renderpass_o) :
    ∀ l : List le_renderpass_o, List.Perm (insert_by_sort_key p l) (p :: l) := by
  intro l
  induction l with
  | nil => exact List.Perm.refl _
  | cons q rest ih =>
    rw [insert_by_sort_key]
    by_cases h : q.sort_key > p.sort_key
    · rw [if_pos h]
      exact (List.Perm.cons q ih).trans (List.Perm.swap p q rest)
    · rw [if_neg h]

theorem std_stable_sort_perm :
    ∀ l : List le_renderpass_o, List.Perm (std_stable_sort l) l := by
  intro l
  induction l with
  | nil => exact List.Perm.refl _
  | cons p rest ih =>
    rw [std_stable_sort]
    exact (insert_by_sort_key_perm p _).trans (List.Perm.cons p ih)

theorem insert_by_sort_key_sorted (p : le_renderpass_o) :
    ∀ l : List le_renderpass_o, List.Pairwise (fun a b => b.sort_key ≤ a.sort_key) l →
      List.Pairwise (fun a b => b.sort_key ≤ a.sort_key) (insert_by_sort_key p l) := by
  intro l
  induction l with
  | nil =>
    intro _
    exact List.pairwise_singleton _ _
  | cons q rest ih =>
    intro h
    obtain ⟨hq, hrest⟩ := List.pairwise_cons.mp h
    rw [insert_by_sort_key]
    by_cases hk : q.sort_key > p.sort_key
    · rw [if_pos hk]
      refine List.pairwise_cons.mpr ⟨?_, ih hrest⟩
      intro y hy
      rcases List.mem_cons.mp ((insert_by_sort_key_perm p rest).mem_iff.mp hy) with e | e
      · rw [e]; omega
      · exact hq y e
    · rw [if_neg hk]
      refine List.pairwise_cons.mpr ⟨?_, h⟩
      intro y hy
      rcases List.mem_cons.mp hy with e | e
      · rw [e]; omega
      · have := hq y e
        omega

theorem std_stable_sort_sorted :
    ∀ l : List le_renderpass_o,
      List.Pairwise (fun a b => b.sort_key ≤ a.sort_key) (std_stable_sort l) := by
  intro l
  induction l with
  | nil => exact List.Pairwise.nil
  | cons p rest ih =>
    rw [std_stable_sort]
    exact insert_by_sort_key_sorted p _ ih

theorem sorted_position_lt (l : List le_renderpass_o)
    (h : List.Pairwise (fun a b => b.sort_key ≤ a.sort_key) l) (i j : Nat)
    (a b : le_renderpass_o) (ha : l[i]? = some a) (hb : l[j]? = some b)
    (hlt : b.sort_key < a.sort_key) : i < j := by
  by_contra hge
  have hji : j ≤ i := by omega
  rcases Nat.lt_or_eq_of_le hji with hji | hji
  · obtain ⟨hi, hai⟩ := List.getElem?_eq_some_iff.mp ha
    obtain ⟨hj, hbj⟩ := List.getElem?_eq_some_iff.mp hb
    have := (List.pairwise_iff_getElem.mp h) j i hj hi hji
    rw [hai, hbj] at this
    omega
  · rw [hji, ha] at hb
    rw [Option.some.inj hb] at hlt
    omega


/-- The sort orders `graph_builder_build_graph` computes: it returns, and the
sort order of a pass is 0 or one more than the length of a chain of
dependencies, of fewer than 20 steps, from a root to it. -/
theorem build_sort_orders (passes : List le_renderpass_o) :
    ∃ so : List Nat,
      (graph_builder_find_root_passes passes).foldlM
        (fun so root =>
          graph_builder_traverse_passes (graph_builder_resolve_resource_ids passes) root 1 so)
        (List.replicate passes.length 0) = .ok so ∧
      so.length = passes.length ∧
      (∀ (r : Nat) (pr : le_renderpass_o) (k x : Nat), passes[r]? = some pr → pr.isRoot ≠ 0 →
        DependsPath passes k r x → 1 + k ≤ 20 → ∃ v, so[x]? = some v ∧ 1 + k ≤ v) ∧
      (∀ (x v : Nat), so[x]? = some v → v = 0 ∨
        ∃ (r : Nat) (pr : le_renderpass_o) (k : Nat), passes[r]? = some pr ∧ pr.isRoot ≠ 0 ∧
          DependsPath passes k r x ∧ 1 + k ≤ 20 ∧ v = 1 + k) := by
  obtain ⟨hlen, _, hvalid⟩ := resolve_spec passes
  have hroots : ∀ c ∈ graph_builder_find_root_passes passes,
      c < (graph_builder_resolve_resource_ids passes).length := by
    intro c hc
    obtain ⟨p, hp, _⟩ := (find_root_passes_spec passes c).mp hc
    rw [hlen]
    by_contra hge
    rw [List.getElem?_eq_none (by omega)] at hp
    cases hp
  obtain ⟨so, hfold, hl, _, hb, hc⟩ := traverse_fold_spec
    (graph_builder_resolve_resource_ids passes) 1
    (fun so root =>
      graph_builder_traverse_passes (graph_builder_resolve_resource_ids passes) root 1 so)
    (fun c s hc hs => traverse_passes_fuel_spec _ hvalid _ 1 c s rfl hc hs)
    (graph_builder_find_root_passes passes) (List.replicate passes.length 0) hroots
    (by rw [List.length_replicate, hlen])
  refine ⟨so, hfold, by rw [hl, List.length_replicate], ?_, ?_⟩
  · intro r pr k x hr hroot hp hk
    exact hb r ((find_root_passes_spec passes r).mpr ⟨pr, hr, hroot⟩) k x
      ((reach_iff_dependsPath passes k r x).mpr hp) hk
  · intro x v hx
    rcases hc x v hx with h | ⟨r, hr, k, hreach, hk, hv⟩
    · left
      rw [List.getElem?_replicate] at h
      split at h
      · exact (Option.some.inj h).symm
      · cases h
    · obtain ⟨pr, hpr, hroot⟩ := (find_root_passes_spec passes r).mp hr
      exact Or.inr ⟨r, pr, k, hpr, hroot, (reach_iff_dependsPath passes k r x).mp hreach, hk, hv⟩

theorem zipWith_sort_key_getElem? (passes : List le_renderpass_o) (so : List Nat) (i : Nat)
    (p : le_renderpass_o) (v : Nat) (hp : passes[i]? = some p) (hv : so[i]? = some v) :
    (List.zipWith (fun (p : le_renderpass_o) (v : Nat) => { p with sort_key := v })
      passes so)[i]? = some { p with sort_key := v } := by
  rw [List.getElem?_zipWith, hp, hv]

theorem dependsPath_snoc (passes : List le_renderpass_o) :
    ∀ (k a b c : Nat), DependsPath passes k a b → DependsOn passes b c →
      DependsPath passes (k + 1) a c := by
  intro k
  induction k with
  | zero =>
    intro a b c h hdep
    have e : a = b := h
    exact ⟨c, e ▸ hdep, rfl⟩
  | succ k ih =>
    intro a b c h hdep
    obtain ⟨c1, hdep1, hp⟩ := h
    exact ⟨c1, hdep1, ih c1 b c hp hdep⟩

end Earlier

theorem contributesToRoot_tail (p : le_renderpass_o) (ps : List le_renderpass_o) :
    ∀ i : Nat, ContributesToRoot (p :: ps) i → ∀ k : Nat, i = k + 1 →
      ContributesToRoot ps k := by
  intro i h
  induction h with
  | root i q hq hr =>
    intro k hk
    rw [hk, List.getElem?_cons_succ] at hq
    exact ContributesToRoot.root k q hq hr
  | feeds i m pk pm x him hpk hpm _ hw hrd hbet ih =>
    intro k hk
    obtain ⟨m1, hm1⟩ : ∃ m1, m = m1 + 1 := ⟨m - 1, by omega⟩
    rw [hk, List.getElem?_cons_succ] at hpk
    rw [hm1, List.getElem?_cons_succ] at hpm
    refine ContributesToRoot.feeds k m1 pk pm x (by omega) hpk hpm (ih m1 hm1) hw hrd ?_
    intro j pj h1 h2 hj
    exact hbet (j + 1) pj (by omega) (by omega) (by rw [List.getElem?_cons_succ]; exact hj)

theorem contributesToRoot_cons (p : le_renderpass_o) (ps : List le_renderpass_o) (k : Nat)
    (h : ContributesToRoot ps k) : ContributesToRoot (p :: ps) (k + 1) := by
  induction h with
  | root k q hq hr =>
    exact ContributesToRoot.root (k + 1) q (by rw [List.getElem?_cons_succ]; exact hq) hr
  | feeds k m pk pm x hkm hpk hpm _ hw hrd hbet ih =>
    refine ContributesToRoot.feeds (k + 1) (m + 1) pk pm x (by omega)
      (by rw [List.getElem?_cons_succ]; exact hpk)
      (by rw [List.getElem?_cons_succ]; exact hpm) ih hw hrd ?_
    intro j pj h1 h2 hj
    obtain ⟨j1, hj1⟩ : ∃ j1, j = j1 + 1 := ⟨j - 1, by omega⟩
    rw [hj1, List.getElem?_cons_succ] at hj
    exact hbet j1 pj (by omega) (by omega) hj

theorem pass_sweep_flags_length :
    ∀ ps : List le_renderpass_o, (pass_sweep ps).1.length = ps.length := by
  intro ps
  induction ps with
  | nil => rfl
  | cons p later ih =>
    rw [pass_sweep_cons]
    split
    · rw [List.length_cons, ih, List.length_cons]
    · rw [List.length_cons, ih, List.length_cons]

/-- A resource the pass-level sweep monitors is read by a retained pass that
no pass in front of it writes. -/
theorem pass_sweep_monitored_reader :
    ∀ (ps : List le_renderpass_o) (x : le_resource_handle), (pass_sweep ps).2 x = true →
      ∃ (m : Nat) (pm : le_renderpass_o) (r : Bool), ps[m]? = some pm ∧
        (pass_sweep ps).1[m]? = some (true, r) ∧ pass_reads pm x = true ∧
        ∀ (j : Nat) (pj : le_renderpass_o), j < m → ps[j]? = some pj →
          pass_writes pj x = false := by
  intro ps
  induction ps with
  | nil =>
    intro x h
    exact absurd h (by simp [pass_sweep])
  | cons p later ih =>
    intro x h
    rw [pass_sweep_cons] at h ⊢
    by_cases hc : (p.is_root ||
        p.resources.any (fun h => pass_writes p h && (pass_sweep later).2 h)) = true
    · rw [if_pos hc] at h ⊢
      simp only [] at h ⊢
      by_cases hrd : pass_reads p x = true
      · refine ⟨0, p, _, List.getElem?_cons_zero, List.getElem?_cons_zero, hrd, ?_⟩
        intro j pj hj _
        omega
      · have hmon : (pass_sweep later).2 x = true ∧ pass_writes p x = false := by
          simp only [Bool.or_eq_true, Bool.and_eq_true, Bool.not_eq_true'] at h
          rcases h with h | h
          · exact h
          · exact absurd h hrd
        obtain ⟨m, pm, r, hpm, hfl, hr, hbet⟩ := ih x hmon.1
        refine ⟨m + 1, pm, r, by rw [List.getElem?_cons_succ]; exact hpm,
          by rw [List.getElem?_cons_succ]; exact hfl, hr, ?_⟩
        intro j pj hj hpj
        cases j with
        | zero =>
          rw [List.getElem?_cons_zero] at hpj
          rw [← Option.some.inj hpj]
          exact hmon.2
        | succ j =>
          rw [List.getElem?_cons_succ] at hpj
          exact hbet j pj (by omega) hpj
    · rw [if_neg hc] at h ⊢
      simp only [] at h ⊢
      obtain ⟨m, pm, r, hpm, hfl, hr, hbet⟩ := ih x h
      refine ⟨m + 1, pm, r, by rw [List.getElem?_cons_succ]; exact hpm,
        by rw [List.getElem?_cons_succ]; exact hfl, hr, ?_⟩
      intro j pj hj hpj
      cases j with
      | zero =>
        rw [List.getElem?_cons_zero] at hpj
        rw [← Option.some.inj hpj]
        by_contra hw
        have hw1 : pass_writes p x = true := by simpa using hw
        apply hc
        rw [Bool.or_eq_true]
        right
        rw [List.any_eq_true]
        exact ⟨x, pass_writes_mem p x hw1, by rw [hw1, h]; rfl⟩
      | succ j =>
        rw [List.getElem?_cons_succ] at hpj
        exact hbet j pj (by omega) hpj

/-- What a retained pass reads is monitored in front of the list when no pass
in front of the reader writes it. -/
theorem pass_sweep_reader_monitored :
    ∀ (ps : List le_renderpass_o) (m : Nat) (pm : le_renderpass_o) (r : Bool)
      (x : le_resource_handle), ps[m]? = some pm → (pass_sweep ps).1[m]? = some (true, r) →
      pass_reads pm x = true →
      (∀ (j : Nat) (pj : le_renderpass_o), j < m → ps[j]? = some pj →
        pass_writes pj x = false) →
      (pass_sweep ps).2 x = true := by
  intro ps
  induction ps with
  | nil =>
    intro m pm r x hpm
    simp at hpm
  | cons p later ih =>
    intro m pm r x hpm hfl hrd hbet
    rw [pass_sweep_cons] at hfl ⊢
    cases m with
    | zero =>
      rw [List.getElem?_cons_zero] at hpm
      have hp : p = pm := Option.some.inj hpm
      by_cases hc : (p.is_root ||
          p.resources.any (fun h => pass_writes p h && (pass_sweep later).2 h)) = true
      · rw [if_pos hc]
        simp only []
        rw [hp, hrd, Bool.or_true]
      · rw [if_neg hc] at hfl
        simp only [List.getElem?_cons_zero] at hfl
        have := Option.some.inj hfl
        simp at this
    | succ m =>
      rw [List.getElem?_cons_succ] at hpm
      have hfl1 : (pass_sweep later).1[m]? = some (true, r) := by
        by_cases hc : (p.is_root ||
            p.resources.any (fun h => pass_writes p h && (pass_sweep later).2 h)) = true
        · rw [if_pos hc] at hfl
          simpa using hfl
        · rw [if_neg hc] at hfl
          simpa using hfl
      have hmon := ih m pm r x hpm hfl1 hrd
        (fun j pj hj hpj => hbet (j + 1) pj (by omega)
          (by rw [List.getElem?_cons_succ]; exact hpj))
      have hw : pass_writes p x = false := hbet 0 p (by omega) List.getElem?_cons_zero
      by_cases hc : (p.is_root ||
          p.resources.any (fun h => pass_writes p h && (pass_sweep later).2 h)) = true
      · rw [if_pos hc]
        simp only []
        rw [hmon, hw]
        rfl
      · rw [if_neg hc]
        exact hmon

/-- The pass-level sweep retains a pass iff the pass contributes to a root. -/
theorem pass_sweep_contributes :
    ∀ (ps : List le_renderpass_o) (k : Nat) (c r : Bool),
      (pass_sweep ps).1[k]? = some (c, r) → (c = true ↔ ContributesToRoot ps k) := by
  intro ps
  induction ps with
  | nil =>
    intro k c r h
    simp [pass_sweep] at h
  | cons p later ih =>
    intro k c r h
    rw [pass_sweep_cons] at h
    cases k with
    | succ k =>
      have h1 : (pass_sweep later).1[k]? = some (c, r) := by
        by_cases hc : (p.is_root ||
            p.resources.any (fun h => pass_writes p h && (pass_sweep later).2 h)) = true
        · rw [if_pos hc] at h
          simpa using h
        · rw [if_neg hc] at h
          simpa using h
      rw [ih k c r h1]
      exact ⟨contributesToRoot_cons p later k,
        fun hh => contributesToRoot_tail p later (k + 1) hh k rfl⟩
    | zero =>
      by_cases hc : (p.is_root ||
          p.resources.any (fun h => pass_writes p h && (pass_sweep later).2 h)) = true
      · rw [if_pos hc] at h
        simp only [List.getElem?_cons_zero, Option.some.injEq, Prod.mk.injEq] at h
        rw [← h.1]
        refine ⟨fun _ => ?_, fun _ => rfl⟩
        rw [Bool.or_eq_true] at hc
        rcases hc with hroot | hany
        · exact ContributesToRoot.root 0 p List.getElem?_cons_zero hroot
        · rw [List.any_eq_true] at hany
          obtain ⟨x, _, hx⟩ := hany
          rw [Bool.and_eq_true] at hx
          obtain ⟨m, pm, r1, hpm, hfl, hrd, hbet⟩ := pass_sweep_monitored_reader later x hx.2
          refine ContributesToRoot.feeds 0 (m + 1) p pm x (by omega) List.getElem?_cons_zero
            (by rw [List.getElem?_cons_succ]; exact hpm)
            (contributesToRoot_cons p later m ((ih m true r1 hfl).mp rfl)) hx.1 hrd ?_
          intro j pj h1 h2 hj
          obtain ⟨j1, hj1⟩ : ∃ j1, j = j1 + 1 := ⟨j - 1, by omega⟩
          rw [hj1, List.getElem?_cons_succ] at hj
          exact hbet j1 pj (by omega) hj
      · rw [if_neg hc] at h
        simp only [List.getElem?_cons_zero, Option.some.injEq, Prod.mk.injEq] at h
        rw [← h.1]
        refine ⟨fun hf => absurd hf (by simp), fun hcon => ?_⟩
        exfalso
        apply hc
        rw [Bool.or_eq_true]
        cases hcon with
        | root _ q hq hr =>
          rw [List.getElem?_cons_zero] at hq
          left
          rw [Option.some.inj hq]
          exact hr
        | feeds _ m pk pm x hkm hpk hpm hcm hw hrd hbet =>
          right
          obtain ⟨m1, hm1⟩ : ∃ m1, m = m1 + 1 := ⟨m - 1, by omega⟩
          rw [List.getElem?_cons_zero] at hpk
          have hp : p = pk := Option.some.inj hpk
          rw [hm1, List.getElem?_cons_succ] at hpm
          have hcm1 : ContributesToRoot later m1 :=
            contributesToRoot_tail p later m hcm m1 hm1
          have hlt : m1 < (pass_sweep later).1.length := by
            rw [pass_sweep_flags_length]
            by_contra hge
            rw [List.getElem?_eq_none (by omega)] at hpm
            cases hpm
          have hfl : (pass_sweep later).1[m1]? =
              some (((pass_sweep later).1.get ⟨m1, hlt⟩).1,
                ((pass_sweep later).1.get ⟨m1, hlt⟩).2) := List.getElem?_eq_getElem hlt
          have htrue := (ih m1 _ _ hfl).mpr hcm1
          rw [htrue] at hfl
          have hmon := pass_sweep_reader_monitored later m1 pm _ x hpm hfl hrd
            (fun j pj hj hpj => hbet (j + 1) pj (by omega) (by omega)
              (by rw [List.getElem?_cons_succ]; exact hpj))
          rw [List.any_eq_true]
          exact ⟨x, pass_writes_mem p x (hp ▸ hw), by rw [hp, hw, hmon]; rfl⟩

/-- The node of a pass is contributing after the build of the trees iff the
pass contributes to a root. -/
theorem build_trees_contributes (ndebug : Bool) (passes : List le_renderpass_o) (t : RootTrees)
    (ht : rendergraph_build_trees ndebug passes = .ok t)
    (hnd : ∀ p ∈ passes, p.resources.Nodup) (k : Nat) (node : Node)
    (hk : t.nodes[k]? = some node) :
    node.is_contributing = true ↔ ContributesToRoot passes k := by
  obtain ⟨hflags, _⟩ := build_trees_flags ndebug passes t ht hnd
  refine pass_sweep_contributes passes k node.is_contributing node.is_root ?_
  rw [← hflags, List.getElem?_map, hk]
  rfl

/-! ## Claims -/

/-- C1: for a handle `h` the pass does not use yet and any access flags `a`,
`renderpass_use_resource` succeeds, appends `h` to the resources and `a` to the
access flags, and appends a read/write summary whose read bit is set iff
`a & ALL_READS ≠ 0` and whose write bit is set iff `a & ALL_WRITES ≠ 0` or `h`
is an image and `a & IMAGE_IMPLIED_WRITES ≠ 0`.  The pass is any pass whose
read/write flags are index-aligned with its resources. -/
theorem use_resource_appends_and_derives_rw (B : AccessFlagBits2) (eIsRoot : Nat) (ndebug : Bool)
    (self : le_renderpass_o) (h : le_resource_handle) (a : Nat)
    (hnew : h ∉ self.resources)
    (hlen : self.resources_read_write_flags.length = self.resources.length) :
    ∃ p rw, renderpass_use_resource B eIsRoot ndebug self h a = .ok p ∧
      p.resources = self.resources ++ [h] ∧
      p.resources_access_flags = self.resources_access_flags ++ [a] ∧
      p.resources_read_write_flags = self.resources_read_write_flags ++ [rw] ∧
      (rw &&& eRead ≠ 0 ↔ a &&& LE_ALL_READ_ACCESS_FLAGS B ≠ 0) ∧
      (rw &&& eWrite ≠ 0 ↔ (a &&& LE_ALL_WRITE_ACCESS_FLAGS B ≠ 0 ∨
        (h.type = LeResourceType.eImage ∧
          a &&& LE_ALL_IMAGE_IMPLIED_WRITE_ACCESS_FLAGS B ≠ 0))) := by
  obtain ⟨b1, b2, b3, b4, b5, b6, b7, b8⟩ := rw_bits
  refine ⟨_, _, use_resource_new B eIsRoot ndebug self h a hnew hlen, rfl, rfl, rfl, ?_, ?_⟩
  · unfold detect_write detect_read
    by_cases hr : a &&& LE_ALL_READ_ACCESS_FLAGS B = 0 <;>
    by_cases hw : a &&& LE_ALL_WRITE_ACCESS_FLAGS B = 0 <;>
    by_cases hi : a &&& LE_ALL_IMAGE_IMPLIED_WRITE_ACCESS_FLAGS B = 0 <;>
    by_cases ht : h.type = LeResourceType.eImage <;>
    simp [hr, hw, hi, ht, b1, b2, b3, b4, b5, b6, b7, b8]
  · unfold detect_write detect_read
    by_cases hr : a &&& LE_ALL_READ_ACCESS_FLAGS B = 0 <;>
    by_cases hw : a &&& LE_ALL_WRITE_ACCESS_FLAGS B = 0 <;>
    by_cases hi : a &&& LE_ALL_IMAGE_IMPLIED_WRITE_ACCESS_FLAGS B = 0 <;>
    by_cases ht : h.type = LeResourceType.eImage <;>
    simp [hr, hw, hi, ht, b1, b2, b3, b4, b5, b6, b7, b8]

/-- Witness for C1: a colour-attachment write to the swapchain image registered
on an empty pass. -/
theorem use_resource_appends_and_derives_rw_witness :
    swapchain_image ∉ ({} : le_renderpass_o).resources ∧
    ({} : le_renderpass_o).resources_read_write_flags.length =
      ({} : le_renderpass_o).resources.length ∧
    ∃ p rw, renderpass_use_resource vkAccessFlagBits2 4 false {} swapchain_image 0x100 = .ok p ∧
      p.resources = ({} : le_renderpass_o).resources ++ [swapchain_image] ∧
      p.resources_access_flags = ({} : le_renderpass_o).resources_access_flags ++ [0x100] ∧
      p.resources_read_write_flags =
        ({} : le_renderpass_o).resources_read_write_flags ++ [rw] ∧
      (rw &&& eRead ≠ 0 ↔ 0x100 &&& LE_ALL_READ_ACCESS_FLAGS vkAccessFlagBits2 ≠ 0) ∧
      (rw &&& eWrite ≠ 0 ↔ (0x100 &&& LE_ALL_WRITE_ACCESS_FLAGS vkAccessFlagBits2 ≠ 0 ∨
        (swapchain_image.type = LeResourceType.eImage ∧
          0x100 &&& LE_ALL_IMAGE_IMPLIED_WRITE_ACCESS_FLAGS vkAccessFlagBits2 ≠ 0))) :=
  ⟨by decide, by decide,
   use_resource_appends_and_derives_rw vkAccessFlagBits2 4 false {} swapchain_image 0x100
    (by decide) (by decide)⟩

/-- C2 as stated fails: an image handle with all eight flag bits set has the
`IsRoot` bit set whichever single bit `IsRoot` is, a colour-attachment write to
it is detected as a write, and the pass is not a root after the call. -/
theorem swapchain_bit_with_other_flags_not_root :
    (List.range 8).all (fun k =>
      let h : le_resource_handle := { id := 0, type := LeResourceType.eImage, flags := 255 }
      decide (h.flags &&& (1 <<< k) ≠ 0) &&
      detect_write vkAccessFlagBits2 h vkAccessFlagBits2.eColorAttachmentWrite &&
      decide ((renderpass_use_resource vkAccessFlagBits2 (1 <<< k) false {} h
        vkAccessFlagBits2.eColorAttachmentWrite).map (fun p => p.is_root) = .ok false)) = true := by
  decide

/-- C2, amended: for an image handle whose flags are exactly `eIsRoot`, a call of
`renderpass_use_resource` that detects a write (the access flags intersect
`ALL_WRITES` or `IMAGE_IMPLIED_WRITES`) and returns leaves `is_root` true. -/
theorem swapchain_write_forces_root (B : AccessFlagBits2) (eIsRoot : Nat) (ndebug : Bool)
    (self p : le_renderpass_o) (h : le_resource_handle) (a : Nat)
    (himg : h.type = LeResourceType.eImage) (hflags : h.flags = eIsRoot)
    (hw : a &&& LE_ALL_WRITE_ACCESS_FLAGS B ≠ 0 ∨
      a &&& LE_ALL_IMAGE_IMPLIED_WRITE_ACCESS_FLAGS B ≠ 0)
    (hok : renderpass_use_resource B eIsRoot ndebug self h a = .ok p) :
    p.is_root = true := by
  have hdw : detect_write B h a = true := by
    unfold detect_write
    rcases hw with hw | hw <;> simp [himg, hw]
  unfold renderpass_use_resource at hok
  simp only [bind_ok, hdw, pure_ok] at hok
  obtain ⟨_, _, _, _, _, _, rfl⟩ := hok
  simp [resource_is_a_swapchain_handle, himg, hflags]

/-- Witness for C2 (amended): a colour-attachment write to the swapchain
image on a fresh pass. -/
theorem swapchain_write_forces_root_witness :
    swapchain_image.type = LeResourceType.eImage ∧ swapchain_image.flags = 4 ∧
    (0x100 &&& LE_ALL_WRITE_ACCESS_FLAGS vkAccessFlagBits2 ≠ 0 ∨
      0x100 &&& LE_ALL_IMAGE_IMPLIED_WRITE_ACCESS_FLAGS vkAccessFlagBits2 ≠ 0) ∧
    renderpass_use_resource vkAccessFlagBits2 4 false {} swapchain_image 0x100 =
      .ok swapchain_writer ∧
    swapchain_writer.is_root = true :=
  ⟨by decide, by decide, by decide, by decide,
   swapchain_write_forces_root vkAccessFlagBits2 4 false {} swapchain_writer swapchain_image
    0x100 (by decide) (by decide) (by decide) (by decide)⟩

/-- C3: when build returns, every pass that was a root when build started is in
the resulting pass list: its node is contributing and the pass, with the node's
`is_root` and root affinity written back, sits at the position given by the
number of contributing nodes before it. -/
theorem root_pass_survives_build (ndebug : Bool) (g g1 : le_rendergraph_o)
    (h : rendergraph_build ndebug g = .ok g1) (i : Nat) (p : le_renderpass_o)
    (hp : g.passes[i]? = some p) (hroot : p.is_root = true) :
    ∃ t n, rendergraph_build_trees ndebug g.passes = .ok t ∧ t.nodes[i]? = some n ∧
      n.is_contributing = true ∧
      g1.passes[((g.passes.zip t.nodes).take i).countP (fun pn => pn.2.is_contributing)]? =
        some { p with is_root := n.is_root, root_passes_affinity := n.root_index_affinity } := by
  obtain ⟨t, ht, hps⟩ := build_passes_eq ndebug g g1 h
  obtain ⟨n, hn, hc⟩ := forall₂_getElem? (build_trees_pass_node ndebug g.passes t ht) i p hp
  have hc1 := hc hroot
  refine ⟨t, n, ht, hn, hc1, ?_⟩
  have hz : (g.passes.zip t.nodes)[i]? = some (p, n) := by
    rw [List.getElem?_zip_eq_some]
    exact ⟨hp, hn⟩
  have hw : write_back (p, n) =
      some { p with is_root := n.is_root, root_passes_affinity := n.root_index_affinity } := by
    simp [write_back, hc1]
  have := filterMap_getElem?_countP write_back _ i _ _ hz hw
  rw [hps]
  convert this using 3
  funext pn
  unfold write_back
  cases pn.2.is_contributing <;> simp

/-- Witness for C3: the root of the pure chain is retained by build. -/
theorem root_pass_survives_build_witness :
    rendergraph_build false pure_chain_graph = .ok pure_chain_built ∧
    pure_chain_graph.passes[2]? = some pure_chain_root ∧ pure_chain_root.is_root = true ∧
    ∃ t n, rendergraph_build_trees false pure_chain_graph.passes = .ok t ∧
      t.nodes[2]? = some n ∧ n.is_contributing = true ∧
      pure_chain_built.passes[((pure_chain_graph.passes.zip t.nodes).take 2).countP
          (fun pn => pn.2.is_contributing)]? =
        some { pure_chain_root with
          is_root := n.is_root, root_passes_affinity := n.root_index_affinity } :=
  ⟨by decide, by decide, by decide,
   root_pass_survives_build false pure_chain_graph pure_chain_built (by decide) 2
    pure_chain_root (by decide) (by decide)⟩

/-- C4: when build returns, the resulting pass list is the old pass list
filtered by the `is_contributing` flag of each pass's node, in the original
order, each retained pass carrying the `is_root` flag and the root affinity of
its node; there is one node per pass. -/
theorem build_filters_by_contributing (ndebug : Bool) (g g1 : le_rendergraph_o)
    (h : rendergraph_build ndebug g = .ok g1) :
    ∃ t, rendergraph_build_trees ndebug g.passes = .ok t ∧
      t.nodes.length = g.passes.length ∧
      g1.passes = (g.passes.zip t.nodes).filterMap write_back ∧
      (∀ q ∈ g1.passes, ∃ p n, (p, n) ∈ g.passes.zip t.nodes ∧ n.is_contributing = true ∧
        q = { p with is_root := n.is_root, root_passes_affinity := n.root_index_affinity }) ∧
      (∀ p n, (p, n) ∈ g.passes.zip t.nodes → n.is_contributing = true →
        { p with is_root := n.is_root, root_passes_affinity := n.root_index_affinity } ∈
          g1.passes) := by
  obtain ⟨t, ht, hps⟩ := build_passes_eq ndebug g g1 h
  refine ⟨t, ht, ?_, hps, ?_, ?_⟩
  · exact (build_trees_pass_node ndebug g.passes t ht).length_eq.symm
  · intro q hq
    rw [hps, List.mem_filterMap] at hq
    obtain ⟨⟨p, n⟩, hmem, hwb⟩ := hq
    unfold write_back at hwb
    by_cases hc : n.is_contributing = true
    · simp only [hc, if_true, Option.some.injEq] at hwb
      exact ⟨p, n, hmem, hc, hwb.symm⟩
    · simp [hc] at hwb
  · intro p n hmem hc
    rw [hps, List.mem_filterMap]
    exact ⟨(p, n), hmem, by simp [write_back, hc]⟩

/-- Witness for C4: the dead-branch graph keeps exactly its root. -/
theorem build_filters_by_contributing_witness :
    rendergraph_build false dead_branch_graph = .ok dead_branch_built ∧
    ∃ t, rendergraph_build_trees false dead_branch_graph.passes = .ok t ∧
      t.nodes.length = dead_branch_graph.passes.length ∧
      dead_branch_built.passes = (dead_branch_graph.passes.zip t.nodes).filterMap write_back ∧
      (∀ q ∈ dead_branch_built.passes, ∃ p n, (p, n) ∈ dead_branch_graph.passes.zip t.nodes ∧
        n.is_contributing = true ∧
        q = { p with is_root := n.is_root, root_passes_affinity := n.root_index_affinity }) ∧
      (∀ p n, (p, n) ∈ dead_branch_graph.passes.zip t.nodes → n.is_contributing = true →
        { p with is_root := n.is_root, root_passes_affinity := n.root_index_affinity } ∈
          dead_branch_built.passes) :=
  ⟨by decide, build_filters_by_contributing false dead_branch_graph dead_branch_built (by decide)⟩

/-- C5: when build returns on well-formed passes, the consolidation loop drops
the pass at a position iff that pass contributes to no root (it is no root and
nothing it writes reaches, unoverwritten, a later contributing pass that reads
it); whatever the passes, the passes behind the last root are all removed
(the result is drawn from the passes up to the last root only), a graph
without any root is left with an empty pass list, and in the dead-branch
scenario only the root `C` survives, with the single mask `0b1`. -/
theorem build_drops_passes_without_root :
    (∀ (ndebug : Bool) (g g1 : le_rendergraph_o),
      (∀ p ∈ g.passes, PassWellFormed p) → rendergraph_build ndebug g = .ok g1 →
      ∃ t, rendergraph_build_trees ndebug g.passes = .ok t ∧
        t.nodes.length = g.passes.length ∧
        g1.passes = (g.passes.zip t.nodes).filterMap write_back ∧
        ∀ (k : Nat) (p : le_renderpass_o) (node : Node), g.passes[k]? = some p →
          t.nodes[k]? = some node →
          (write_back (p, node) = none ↔ ¬ ContributesToRoot g.passes k)) ∧
    (∀ (ndebug : Bool) (g g1 : le_rendergraph_o) (pre suf : List le_renderpass_o),
      g.passes = pre ++ suf → (∀ p ∈ suf, p.is_root = false) →
      rendergraph_build ndebug g = .ok g1 →
      ∃ t, rendergraph_build_trees ndebug g.passes = .ok t ∧
        g1.passes = (pre.zip t.nodes).filterMap write_back ∧
        g1.passes.length ≤ pre.length) ∧
    (∀ (ndebug : Bool) (g g1 : le_rendergraph_o),
      (∀ p ∈ g.passes, p.is_root = false) →
      rendergraph_build ndebug g = .ok g1 → g1.passes = []) ∧
    (∀ ndebug : Bool, rendergraph_build ndebug dead_branch_graph = .ok dead_branch_built) := by
  refine ⟨?_, ?_, ?_, by decide⟩
  · intro ndebug g g1 hwf h
    obtain ⟨t, ht, hp⟩ := build_passes_eq ndebug g g1 h
    have hnd : ∀ p ∈ g.passes, p.resources.Nodup := fun p hp => (hwf p hp).2.2.2.2
    refine ⟨t, ht, (build_trees_flags ndebug g.passes t ht hnd).2, hp, ?_⟩
    intro k p node _ hnode
    rw [← build_trees_contributes ndebug g.passes t ht hnd k node hnode]
    unfold write_back
    cases hc : node.is_contributing <;> simp
  · intro ndebug g g1 pre suf hsplit hsuf h
    obtain ⟨t, ht, hp⟩ := build_passes_after_last_root ndebug g g1 pre suf hsplit hsuf h
    refine ⟨t, ht, hp, ?_⟩
    rw [hp]
    refine (List.length_filterMap_le _ _).trans ?_
    rw [List.length_zip]
    exact Nat.min_le_left _ _
  · intro ndebug g g1 hall h
    obtain ⟨t, _, hp⟩ := build_passes_after_last_root ndebug g g1 [] g.passes rfl hall h
    simpa using hp

/-- Witness for C5: in the culled-link graph the pass at index 1 writes only a
resource that the pass at index 2 overwrites before the root at index 3 reads
it: it contributes to no root and is dropped, while the pass at index 2, whose
output the root reads, is kept; and in the dead-branch graph with a dead pass
appended behind the root, the appended pass is removed. -/
theorem build_drops_passes_without_root_witness :
    (∀ p ∈ culled_link_graph.passes, PassWellFormed p) ∧
    rendergraph_build false culled_link_graph = .ok culled_link_built ∧
    ¬ ContributesToRoot culled_link_graph.passes 1 ∧
    ContributesToRoot culled_link_graph.passes 2 ∧
    culled_link_graph.passes.map (fun p => p.id) = [1, 2, 3, 4, 5] ∧
    culled_link_built.passes.map (fun p => p.id) = [1, 3, 4, 5] ∧
    dead_tail_graph.passes = dead_branch_graph.passes ++ [dead_tail_pass] ∧
    (∀ p ∈ [dead_tail_pass], p.is_root = false) ∧
    rendergraph_build false dead_tail_graph = .ok dead_branch_built ∧
    ∃ t, rendergraph_build_trees false dead_tail_graph.passes = .ok t ∧
      dead_branch_built.passes = (dead_branch_graph.passes.zip t.nodes).filterMap write_back ∧
      dead_branch_built.passes.length ≤ dead_branch_graph.passes.length := by
  obtain ⟨t, ht, _, _, hiff⟩ := build_drops_passes_without_root.1 false culled_link_graph
    culled_link_built (by decide) (by decide)
  have hc : (rendergraph_build_trees false culled_link_graph.passes).map
      (fun t => t.nodes.map (fun n => n.is_contributing)) =
      .ok [true, false, true, true, true] := by decide
  rw [ht] at hc
  have hc1 : t.nodes.map (fun n => n.is_contributing) = [true, false, true, true, true] :=
    Except.ok.inj hc
  have hat : ∀ (k : Nat) (b : Bool), [true, false, true, true, true][k]? = some b →
      ∃ node, t.nodes[k]? = some node ∧ node.is_contributing = b := by
    intro k b hb
    rw [← hc1, List.getElem?_map] at hb
    cases hn : t.nodes[k]? with
    | none => rw [hn] at hb; cases hb
    | some node =>
      rw [hn] at hb
      exact ⟨node, rfl, Option.some.inj hb⟩
  obtain ⟨n1, hn1, hf1⟩ := hat 1 false rfl
  obtain ⟨n2, hn2, hf2⟩ := hat 2 true rfl
  refine ⟨by decide, by decide, ?_, ?_, by decide, by decide, by decide, by decide, by decide,
    build_drops_passes_without_root.2.1 false dead_tail_graph dead_branch_built
      dead_branch_graph.passes [dead_tail_pass] (by decide) (by decide) (by decide)⟩
  · refine (hiff 1 (culled_link_graph.passes.get ⟨1, by decide⟩) n1
      (List.getElem?_eq_getElem _) hn1).mp ?_
    unfold write_back
    simp [hf1]
  · by_contra hno
    have := (hiff 2 (culled_link_graph.passes.get ⟨2, by decide⟩) n2
      (List.getElem?_eq_getElem _) hn2).mpr hno
    unfold write_back at this
    simp [hf2] at this

/-- C6, evaluated on a fresh graph with three roots of which roots 0 and 2
overlap: with assertions enabled the lane assertion stops build, and with
assertions compiled out the emitted masks are `[5, 2, 5]`, whose first and
third entries share bits. -/
theorem three_roots_lane_assertion_fires :
    three_roots_graph.root_passes_affinity_masks = [] ∧
    (rendergraph_build_trees false three_roots_graph.passes).map (fun t => t.root_count) =
      .ok 3 ∧
    rendergraph_build false three_roots_graph = .error Fault.assert_queue_lanes ∧
    (rendergraph_build true three_roots_graph).map (fun g => g.root_passes_affinity_masks) =
      .ok [5, 2, 5] ∧
    ([5, 2, 5].getD 0 0) &&& ([5, 2, 5].getD 2 0) ≠ 0 := by
  decide

/-- C7, evaluated on the graph with four roots, assertions compiled out: the
emitted masks are `[15, 10, 15]`; root 2 is in entry 0, root 3 in the different
entry 1, and root 2 writes what root 3 reads.  With assertions enabled build
stops at the lane assertion. -/
theorem four_roots_not_isolated :
    rendergraph_build_trees true four_roots_graph.passes = .ok four_roots_trees ∧
    (rendergraph_build true four_roots_graph).map (fun g => g.root_passes_affinity_masks) =
      .ok [15, 10, 15] ∧
    ([15, 10, 15].getD 0 0).testBit 2 = true ∧ ([15, 10, 15].getD 1 0).testBit 3 = true ∧
    four_roots_trees.root_writes_accum.getD 2 0 &&&
      four_roots_trees.root_reads_accum.getD 3 0 ≠ 0 ∧
    rendergraph_build false four_roots_graph = .error Fault.assert_queue_lanes := by
  decide

/-- C8, evaluated on the graph with four roots, assertions compiled out: the
overlapping pairs (0,2), (2,3), (1,3) chain all four roots into one component,
yet three masks `[15, 10, 15]` are emitted instead of the single mask `15`, and
the queue index table `[0, 1, 0, 0]` still has root 1 pointing at the stale
queue 1. -/
theorem four_roots_one_component_three_masks :
    roots_overlap four_roots_trees.root_reads_accum four_roots_trees.root_writes_accum 0 2 =
      .ok true ∧
    roots_overlap four_roots_trees.root_reads_accum four_roots_trees.root_writes_accum 2 3 =
      .ok true ∧
    roots_overlap four_roots_trees.root_reads_accum four_roots_trees.root_writes_accum 1 3 =
      .ok true ∧
    rendergraph_build_queues four_roots_trees.root_reads_accum
      four_roots_trees.root_writes_accum four_roots_trees.root_count =
      .ok ([15, 10, 4, 8], [0, 1, 0, 0]) ∧
    std_unique [0, 1, 0, 0] = [0, 1, 0] ∧
    (rendergraph_build true four_roots_graph).map (fun g => g.root_passes_affinity_masks) =
      .ok [15, 10, 15] := by
  decide

/-- C9: when build returns, a retained pass that is not a root and has the
affinity bits of two different roots `i` and `j` forces the two roots into one
queue-submission group: some emitted mask has both bit `i` and bit `j`. -/
theorem shared_contributor_combines_roots (ndebug : Bool) (g g1 : le_rendergraph_o)
    (h : rendergraph_build ndebug g = .ok g1) (q : le_renderpass_o) (hq : q ∈ g1.passes)
    (hroot : q.is_root = false) (i j : Nat) (hij : i ≠ j)
    (hi : q.root_passes_affinity.testBit i = true)
    (hj : q.root_passes_affinity.testBit j = true) :
    ∃ m ∈ g1.root_passes_affinity_masks, m.testBit i = true ∧ m.testBit j = true := by
  rcases Nat.lt_or_gt_of_ne hij with hlt | hgt
  · exact shared_node_joined ndebug g g1 h q hq hroot i j hlt hi hj
  · obtain ⟨m, hm, h1, h2⟩ := shared_node_joined ndebug g g1 h q hq hroot j i hgt hj hi
    exact ⟨m, hm, h2, h1⟩

/-- Witness for C9: in the overlapping-roots scenario the pass `A` has the bits
of both roots and the single emitted mask `0b11` holds both. -/
theorem shared_contributor_combines_roots_witness :
    rendergraph_build false overlapping_roots_graph = .ok overlapping_roots_built ∧
    overlapping_roots_shared ∈ overlapping_roots_built.passes ∧
    overlapping_roots_shared.is_root = false ∧ 0 ≠ 1 ∧
    overlapping_roots_shared.root_passes_affinity.testBit 0 = true ∧
    overlapping_roots_shared.root_passes_affinity.testBit 1 = true ∧
    ∃ m ∈ overlapping_roots_built.root_passes_affinity_masks,
      m.testBit 0 = true ∧ m.testBit 1 = true :=
  ⟨by decide, by decide, by decide, by decide, by decide, by decide,
   shared_contributor_combines_roots false overlapping_roots_graph overlapping_roots_built
    (by decide) overlapping_roots_shared (by decide) (by decide) 0 1 (by decide) (by decide)
    (by decide)⟩

/-- C10: when the first part of build succeeds on a fresh graph with `n` final
roots, `n` within the cap, and no pair of roots has a read/write overlap, build
returns and emits exactly `n` masks, the `k`-th being the single bit `1 << k`.
Roots that only read the same resource have no such overlap. -/
theorem isolated_roots_keep_single_bit_masks (ndebug : Bool) (g : le_rendergraph_o)
    (t : RootTrees) (ht : rendergraph_build_trees ndebug g.passes = .ok t)
    (hcap : t.root_count ≤ LE_MAX_NUM_GRAPH_ROOTS)
    (hfresh : g.root_passes_affinity_masks = [])
    (hiso : ∀ j, j < t.root_count → ∀ i, i < j →
      t.root_reads_accum.getD i 0 &&& t.root_writes_accum.getD j 0 = 0 ∧
      t.root_reads_accum.getD j 0 &&& t.root_writes_accum.getD i 0 = 0) :
    ∃ g1, rendergraph_build ndebug g = .ok g1 ∧
      g1.root_passes_affinity_masks = (List.range t.root_count).map (fun k => 1 <<< k) ∧
      g1.root_passes_affinity_masks.length = t.root_count := by
  obtain ⟨_, hl1, hl2⟩ := build_trees_aff ndebug g.passes t ht
  have hov : ∀ i j, i < j → j < t.root_count →
      roots_overlap t.root_reads_accum t.root_writes_accum i j = .ok false := by
    intro i j hij hj
    have hi1 : i < t.root_reads_accum.length := by omega
    have hi2 : i < t.root_writes_accum.length := by omega
    have hj1 : j < t.root_reads_accum.length := by omega
    have hj2 : j < t.root_writes_accum.length := by omega
    obtain ⟨h1, h2⟩ := hiso j hj i hij
    rw [List.getD_eq_getElem _ _ hi1, List.getD_eq_getElem _ _ hj2] at h1
    rw [List.getD_eq_getElem _ _ hj1, List.getD_eq_getElem _ _ hi2] at h2
    exact roots_overlap_false _ _ i j _ _ _ _ (List.getElem?_eq_getElem hi1)
      (List.getElem?_eq_getElem hi2) (List.getElem?_eq_getElem hj1)
      (List.getElem?_eq_getElem hj2) h1 h2
  have hq := build_queues_isolated _ _ t.root_count hcap hov
  have hlen : t.nodes.length = g.passes.length :=
    (build_trees_pass_node ndebug g.passes t ht).length_eq.symm
  have hemit := emit_masks_single_bits ndebug t.root_count t.root_count 0 [] (by omega)
  have hcons := consolidate_passes_ok t.nodes g.passes 0 [] (by omega)
  refine ⟨{ g with
    passes := (g.passes.zip t.nodes).filterMap write_back
    root_passes_affinity_masks := (List.range t.root_count).map (fun k => 1 <<< k) }, ?_, rfl,
    by simp⟩
  unfold rendergraph_build
  simp only [ht, hq, bind, Except.bind, hfresh]
  rw [List.range_eq_range', std_unique_range']
  have h0 : (2 : Nat) ^ 0 - 1 = 0 := rfl
  rw [h0] at hemit
  rw [List.range_eq_range'] at hemit
  simp only [hemit, hcons]
  simp [pure, Except.pure]

/-- Witness for C10: two roots that read the same buffer keep their own
single-bit masks `1` and `2`. -/
theorem isolated_roots_keep_single_bit_masks_witness :
    rendergraph_build_trees false shared_read_graph.passes = .ok shared_read_trees ∧
    shared_read_trees.root_count ≤ LE_MAX_NUM_GRAPH_ROOTS ∧
    shared_read_graph.root_passes_affinity_masks = [] ∧
    (∀ j, j < shared_read_trees.root_count → ∀ i, i < j →
      shared_read_trees.root_reads_accum.getD i 0 &&&
        shared_read_trees.root_writes_accum.getD j 0 = 0 ∧
      shared_read_trees.root_reads_accum.getD j 0 &&&
        shared_read_trees.root_writes_accum.getD i 0 = 0) ∧
    ∃ g1, rendergraph_build false shared_read_graph = .ok g1 ∧
      g1.root_passes_affinity_masks =
        (List.range shared_read_trees.root_count).map (fun k => 1 <<< k) ∧
      g1.root_passes_affinity_masks.length = shared_read_trees.root_count :=
  ⟨by decide, by decide, by decide, by decide,
   isolated_roots_keep_single_bit_masks false shared_read_graph shared_read_trees (by decide)
    (by decide) (by decide) (by decide)⟩

/-- C13: `renderpass_use_resource` with a handle the pass already uses violates
the assertion: with assertions enabled the call stops there; when execution
continues past it, no entry is appended (the resources are unchanged) and the
access flags in the slot of the handle become the old flags OR the new ones.
The pass is any pass whose three resource vectors are index-aligned. -/
theorem use_resource_duplicate_ors_flags (B : AccessFlagBits2) (eIsRoot : Nat)
    (self : le_renderpass_o) (h : le_resource_handle) (a : Nat) (hmem : h ∈ self.resources)
    (hlen1 : self.resources_access_flags.length = self.resources.length)
    (hlen2 : self.resources_read_write_flags.length = self.resources.length) :
    renderpass_use_resource B eIsRoot false self h a = .error Fault.assert_duplicate_resource ∧
    ∃ p idx old, renderpass_use_resource B eIsRoot true self h a = .ok p ∧
      self.resources[idx]? = some h ∧ self.resources_access_flags[idx]? = some old ∧
      p.resources = self.resources ∧
      p.resources_access_flags = self.resources_access_flags.set idx (old ||| a) ∧
      p.resources_access_flags.length = self.resources_access_flags.length := by
  obtain ⟨hlt, hget⟩ := find_resource_idx_of_mem self.resources h hmem
  constructor
  · have hne : find_resource_idx self.resources h ≠ self.resources.length := by omega
    unfold renderpass_use_resource register_resource
    simp [hne, c_assert, bind, Except.bind, throw, throwThe, MonadExceptOf.throw]
  · have hdup := use_resource_dup B eIsRoot self h a hmem hlen1 hlen2
    have hlt1 : find_resource_idx self.resources h < self.resources_access_flags.length := by
      omega
    refine ⟨_, find_resource_idx self.resources h,
      self.resources_access_flags.getD (find_resource_idx self.resources h) 0, hdup, hget,
      ?_, rfl, rfl, by simp⟩
    rw [List.getD_eq_getElem _ _ hlt1]
    exact List.getElem?_eq_getElem hlt1

/-- Witness for C13: the swapchain writer registers the swapchain image a
second time, now as a colour-attachment read. -/
theorem use_resource_duplicate_ors_flags_witness :
    swapchain_image ∈ swapchain_writer.resources ∧
    swapchain_writer.resources_access_flags.length = swapchain_writer.resources.length ∧
    swapchain_writer.resources_read_write_flags.length = swapchain_writer.resources.length ∧
    renderpass_use_resource vkAccessFlagBits2 4 false swapchain_writer swapchain_image 0x80 =
      .error Fault.assert_duplicate_resource ∧
    ∃ p idx old,
      renderpass_use_resource vkAccessFlagBits2 4 true swapchain_writer swapchain_image 0x80 =
        .ok p ∧
      swapchain_writer.resources[idx]? = some swapchain_image ∧
      swapchain_writer.resources_access_flags[idx]? = some old ∧
      p.resources = swapchain_writer.resources ∧
      p.resources_access_flags = swapchain_writer.resources_access_flags.set idx (old ||| 0x80) ∧
      p.resources_access_flags.length = swapchain_writer.resources_access_flags.length :=
  ⟨by decide, by decide, by decide,
   use_resource_duplicate_ors_flags vkAccessFlagBits2 4 swapchain_writer swapchain_image 0x80
    (by decide) (by decide) (by decide)⟩

/-- C14: on an image the pass does not use yet, `renderpass_add_color_attachment`
(resp. `renderpass_add_depth_stencil_attachment`) returns, appends the
attachment info and the image, and registers the image with the access flags
`ColorAttachmentRead` (resp. `DepthStencilAttachmentRead`) iff `loadOp` is
`eLoad`, OR-ed with `ColorAttachmentWrite` (resp. `DepthStencilAttachmentWrite`)
iff `storeOp` is `eStore`; the read bit of the new summary is set iff `loadOp`
is `eLoad` and the write bit iff `storeOp` is `eStore`.  The two access bits
are assumed to be what their names say (`AttachmentBitsSeparate`). -/
theorem add_attachment_registers_load_store (B : AccessFlagBits2) (eIsRoot : Nat)
    (ndebug : Bool) (self : le_renderpass_o) (image_id : le_resource_handle)
    (info : le_image_attachment_info_t) (hnew : image_id ∉ self.resources)
    (hlen : self.resources_read_write_flags.length = self.resources.length) :
    (AttachmentBitsSeparate B B.eColorAttachmentRead B.eColorAttachmentWrite →
      ∃ p rw, renderpass_add_color_attachment B eIsRoot ndebug self image_id info = .ok p ∧
        p.imageAttachments = self.imageAttachments ++ [info] ∧
        p.attachmentResources = self.attachmentResources ++ [image_id] ∧
        p.resources = self.resources ++ [image_id] ∧
        p.resources_access_flags = self.resources_access_flags ++
          [(if info.loadOp = AttachmentLoadOp.eLoad then B.eColorAttachmentRead else 0) |||
           (if info.storeOp = AttachmentStoreOp.eStore then B.eColorAttachmentWrite else 0)] ∧
        p.resources_read_write_flags = self.resources_read_write_flags ++ [rw] ∧
        (rw &&& eRead ≠ 0 ↔ info.loadOp = AttachmentLoadOp.eLoad) ∧
        (rw &&& eWrite ≠ 0 ↔ info.storeOp = AttachmentStoreOp.eStore)) ∧
    (AttachmentBitsSeparate B B.eDepthStencilAttachmentRead B.eDepthStencilAttachmentWrite →
      ∃ p rw,
        renderpass_add_depth_stencil_attachment B eIsRoot ndebug self image_id info = .ok p ∧
        p.imageAttachments = self.imageAttachments ++ [info] ∧
        p.attachmentResources = self.attachmentResources ++ [image_id] ∧
        p.resources = self.resources ++ [image_id] ∧
        p.resources_access_flags = self.resources_access_flags ++
          [(if info.loadOp = AttachmentLoadOp.eLoad then B.eDepthStencilAttachmentRead else 0)
            ||| (if info.storeOp = AttachmentStoreOp.eStore then B.eDepthStencilAttachmentWrite
              else 0)] ∧
        p.resources_read_write_flags = self.resources_read_write_flags ++ [rw] ∧
        (rw &&& eRead ≠ 0 ↔ info.loadOp = AttachmentLoadOp.eLoad) ∧
        (rw &&& eWrite ≠ 0 ↔ info.storeOp = AttachmentStoreOp.eStore)) := by
  have hflags : ∀ r w : Nat, attachment_access_flags r w info =
      (if info.loadOp = AttachmentLoadOp.eLoad then r else 0) |||
      (if info.storeOp = AttachmentStoreOp.eStore then w else 0) := by
    intro r w
    unfold attachment_access_flags
    by_cases hl : info.loadOp = AttachmentLoadOp.eLoad <;>
    by_cases hs : info.storeOp = AttachmentStoreOp.eStore <;> simp [hl, hs]
  constructor
  · intro hsep
    obtain ⟨hd1, hd2⟩ := attachment_detect B _ _ hsep (colorRead_sub_reads B)
      (colorWrite_sub_writes B) image_id info
    obtain ⟨hb1, hb2⟩ := rw_of_detect
      (detect_read B (attachment_access_flags B.eColorAttachmentRead B.eColorAttachmentWrite
        info))
      (detect_write B image_id
        (attachment_access_flags B.eColorAttachmentRead B.eColorAttachmentWrite info))
    refine ⟨_, _, use_resource_new B eIsRoot ndebug _ image_id _ hnew hlen, rfl, rfl, rfl, ?_,
      rfl, hb1.trans hd1, hb2.trans hd2⟩
    simp only [hflags]
  · intro hsep
    obtain ⟨hd1, hd2⟩ := attachment_detect B _ _ hsep (depthRead_sub_reads B)
      (depthWrite_sub_writes B) image_id info
    obtain ⟨hb1, hb2⟩ := rw_of_detect
      (detect_read B (attachment_access_flags B.eDepthStencilAttachmentRead
        B.eDepthStencilAttachmentWrite info))
      (detect_write B image_id (attachment_access_flags B.eDepthStencilAttachmentRead
        B.eDepthStencilAttachmentWrite info))
    refine ⟨_, _, use_resource_new B eIsRoot ndebug _ image_id _ hnew hlen, rfl, rfl, rfl, ?_,
      rfl, hb1.trans hd1, hb2.trans hd2⟩
    simp only [hflags]

/-- C20: `renderpass_steal_encoder` returns the encoder the pass held and
leaves the encoder of the pass null, a second call returns null, and the pass
after the call differs from the pass before it in the encoder only. -/
theorem steal_encoder_returns_and_clears (self : le_renderpass_o) :
    (renderpass_steal_encoder self).1 = self.encoder ∧
    (renderpass_steal_encoder self).2.encoder = none ∧
    (renderpass_steal_encoder (renderpass_steal_encoder self).2).1 = none ∧
    (renderpass_steal_encoder self).2 = { self with encoder := none } ∧
    (renderpass_steal_encoder (renderpass_steal_encoder self).2).2 =
      (renderpass_steal_encoder self).2 := by
  refine ⟨rfl, rfl, rfl, rfl, rfl⟩

/-- Witness for C14: a loaded and stored colour attachment on the swapchain
image, added to a fresh pass. -/
theorem add_attachment_registers_load_store_witness :
    swapchain_image ∉ ({} : le_renderpass_o).resources ∧
    ({} : le_renderpass_o).resources_read_write_flags.length =
      ({} : le_renderpass_o).resources.length ∧
    AttachmentBitsSeparate vkAccessFlagBits2 vkAccessFlagBits2.eColorAttachmentRead
      vkAccessFlagBits2.eColorAttachmentWrite ∧
    ∃ p rw, renderpass_add_color_attachment vkAccessFlagBits2 4 false {} swapchain_image
        load_store_info = .ok p ∧
      p.imageAttachments = ({} : le_renderpass_o).imageAttachments ++ [load_store_info] ∧
      p.attachmentResources = ({} : le_renderpass_o).attachmentResources ++ [swapchain_image] ∧
      p.resources = ({} : le_renderpass_o).resources ++ [swapchain_image] ∧
      p.resources_access_flags = ({} : le_renderpass_o).resources_access_flags ++
        [(if load_store_info.loadOp = AttachmentLoadOp.eLoad then
            vkAccessFlagBits2.eColorAttachmentRead else 0) |||
         (if load_store_info.storeOp = AttachmentStoreOp.eStore then
            vkAccessFlagBits2.eColorAttachmentWrite else 0)] ∧
      p.resources_read_write_flags =
        ({} : le_renderpass_o).resources_read_write_flags ++ [rw] ∧
      (rw &&& eRead ≠ 0 ↔ load_store_info.loadOp = AttachmentLoadOp.eLoad) ∧
      (rw &&& eWrite ≠ 0 ↔ load_store_info.storeOp = AttachmentStoreOp.eStore) :=
  ⟨by decide, by decide, by unfold AttachmentBitsSeparate; decide,
   (add_attachment_registers_load_store vkAccessFlagBits2 4 false {} swapchain_image
    load_store_info (by decide) (by decide)).1 (by unfold AttachmentBitsSeparate; decide)⟩

/-- C15: for a texture handle not yet in the pass and a sampler info whose image
the pass does not use yet, `renderpass_sample_texture` returns, appends the
texture and its info and registers the image with the access flags
`ShaderSampledRead` exactly; the read/write summary of the image is read|write,
and when the image is the swapchain image the pass is a root afterwards.  The
bit `ShaderSampledRead` is assumed not to be empty. -/
theorem sample_texture_registers_sampled_read (B : AccessFlagBits2) (eIsRoot : Nat)
    (ndebug : Bool) (self : le_renderpass_o) (texture : Nat) (info : le_image_sampler_info_t)
    (htex : texture ∉ self.textureIds) (hnew : info.imageView_imageId ∉ self.resources)
    (hlen : self.resources_read_write_flags.length = self.resources.length)
    (himg : info.imageView_imageId.type = LeResourceType.eImage)
    (hbit : B.eShaderSampledRead ≠ 0) :
    ∃ p, renderpass_sample_texture B eIsRoot ndebug self texture info = .ok p ∧
      p.textureIds = self.textureIds ++ [texture] ∧
      p.textureInfos = self.textureInfos ++ [info] ∧
      p.resources = self.resources ++ [info.imageView_imageId] ∧
      p.resources_access_flags = self.resources_access_flags ++ [B.eShaderSampledRead] ∧
      p.resources_read_write_flags = self.resources_read_write_flags ++ [eRead ||| eWrite] ∧
      (info.imageView_imageId.flags = eIsRoot → p.is_root = true) := by
  have hr : detect_read B B.eShaderSampledRead = true := by
    unfold detect_read
    simpa using and_ne_zero_of_sub hbit (sampledRead_sub_reads B)
  have hw : detect_write B info.imageView_imageId B.eShaderSampledRead = true := by
    unfold detect_write
    have := and_ne_zero_of_sub hbit (sampledRead_sub_implied B)
    simp [himg, this]
  have hcall := use_resource_new B eIsRoot ndebug
    { self with
      textureIds := self.textureIds ++ [texture]
      textureInfos := self.textureInfos ++ [info] }
    info.imageView_imageId B.eShaderSampledRead hnew hlen
  have hst : renderpass_sample_texture B eIsRoot ndebug self texture info =
      renderpass_use_resource B eIsRoot ndebug
        { self with
          textureIds := self.textureIds ++ [texture]
          textureInfos := self.textureInfos ++ [info] }
        info.imageView_imageId B.eShaderSampledRead := by
    unfold renderpass_sample_texture vector_contains
    simp only [htex, decide_False, Bool.false_eq_true, if_false]
  refine ⟨_, hst.trans hcall, rfl, rfl, rfl, rfl, ?_, ?_⟩
  · simp only [hr, hw, if_true]
    have e : eUndefined ||| eRead ||| eWrite = eRead ||| eWrite := by decide
    rw [e]
  · intro hflags
    simp [hw, himg, resource_is_a_swapchain_handle, hflags]

/-- Witness for C15: sampling the swapchain image on a fresh pass. -/
theorem sample_texture_registers_sampled_read_witness :
    (7 : Nat) ∉ ({} : le_renderpass_o).textureIds ∧
    swapchain_sampler_info.imageView_imageId ∉ ({} : le_renderpass_o).resources ∧
    ({} : le_renderpass_o).resources_read_write_flags.length =
      ({} : le_renderpass_o).resources.length ∧
    swapchain_sampler_info.imageView_imageId.type = LeResourceType.eImage ∧
    vkAccessFlagBits2.eShaderSampledRead ≠ 0 ∧
    ∃ p, renderpass_sample_texture vkAccessFlagBits2 4 false {} 7 swapchain_sampler_info =
        .ok p ∧
      p.textureIds = ({} : le_renderpass_o).textureIds ++ [7] ∧
      p.textureInfos = ({} : le_renderpass_o).textureInfos ++ [swapchain_sampler_info] ∧
      p.resources = ({} : le_renderpass_o).resources ++
        [swapchain_sampler_info.imageView_imageId] ∧
      p.resources_access_flags = ({} : le_renderpass_o).resources_access_flags ++
        [vkAccessFlagBits2.eShaderSampledRead] ∧
      p.resources_read_write_flags =
        ({} : le_renderpass_o).resources_read_write_flags ++ [eRead ||| eWrite] ∧
      (swapchain_sampler_info.imageView_imageId.flags = 4 → p.is_root = true) :=
  ⟨by decide, by decide, by decide, by decide, by decide,
   sample_texture_registers_sampled_read vkAccessFlagBits2 4 false {} 7 swapchain_sampler_info
    (by decide) (by decide) (by decide) (by decide) (by decide)⟩

/-- C17: `rendergraph_setup_passes` always returns, leaves the pass list of the
source empty, and the declared resource ids and infos of the destination are
those of the source before the call, unchanged in content and order; resources
declared with `rendergraph_declare_resource` arrive index-aligned. -/
theorem setup_passes_moves_declared_resources {W : Type} (cb : CallbackTable W)
    (src dst : le_rendergraph_o) (w : W) :
    (∃ r : SetupResult W, rendergraph_setup_passes cb src dst w = .ok r ∧
      r.src_rendergraph.passes = [] ∧
      r.dst_rendergraph.declared_resources_id = src.declared_resources_id ∧
      r.dst_rendergraph.declared_resources_info = src.declared_resources_info) ∧
    (∀ (resource_id : le_resource_handle) (info : le_resource_info_t),
      ∃ r : SetupResult W,
        rendergraph_setup_passes cb (rendergraph_declare_resource src resource_id info) dst w =
          .ok r ∧
        r.dst_rendergraph.declared_resources_id = src.declared_resources_id ++ [resource_id] ∧
        r.dst_rendergraph.declared_resources_info = src.declared_resources_info ++ [info]) := by
  constructor
  · obtain ⟨os, w1, h1, _⟩ := setup_passes_loop_spec cb src.passes dst.passes [] w
    exact ⟨_, rendergraph_setup_passes_of_loop cb src dst w _ _ _ h1, rfl, rfl, rfl⟩
  · intro resource_id info
    obtain ⟨os, w1, h1, _⟩ := setup_passes_loop_spec cb
      (rendergraph_declare_resource src resource_id info).passes dst.passes [] w
    exact ⟨_, rendergraph_setup_passes_of_loop cb _ dst w _ _ _ h1, rfl, rfl⟩

/-- C18: with swapchain info that reports at least one image, `execute` returns,
and every pass with an execute callback whose width or height was zero ends
with the width and the height of swapchain image `k`, the index of the
reported swapchain image equal to the first attachment resource that equals
any of them, and 0 when there is none; a pass with an execute callback and
both extents non-zero keeps them. -/
theorem execute_infers_extents_from_swapchain {W : Type} (cb : CallbackTable W)
    (eGraphics : Nat) (backend : BackendFrame) (self : le_rendergraph_o) (w : W)
    (hv : SwapchainInfoValid backend)
    (hnn : ∀ p ∈ self.passes, ∀ c ∈ p.executeCallbacks, c.fn ≠ 0) :
    ∃ (g' : le_rendergraph_o) (w' : W),
      rendergraph_execute cb eGraphics backend self w = .ok (g', w') ∧
      Forall₂ (ExtentsInferred backend) self.passes g'.passes := by
  obtain ⟨g', w', he, ht⟩ := rendergraph_execute_threaded cb eGraphics backend
    (fun _ p p' _ => ExtentsInferred backend p p') self w
    (fun p hp w0 => execute_pass_extents cb eGraphics backend hv p (hnn p hp) w0)
  exact ⟨g', w', he, threaded_forall₂ (fun _ p p' _ => ExtentsInferred backend p p')
    (ExtentsInferred backend) (fun _ _ _ _ h => h) _ _ _ _ ht⟩

/-- Witness for C18 on the execute scenario: the passes end with
800x600 (second swapchain image), 640x480 (no attachment, image 0), 320x200
(kept) and 0x0 (no execute callback). -/
theorem execute_infers_extents_from_swapchain_witness :
    SwapchainInfoValid example_backend ∧
    (∀ p ∈ example_execute_graph.passes, ∀ c ∈ p.executeCallbacks, c.fn ≠ 0) ∧
    (∃ (g' : le_rendergraph_o) (w' : Nat),
      rendergraph_execute example_callbacks 1 example_backend example_execute_graph 0 =
        .ok (g', w') ∧
      Forall₂ (ExtentsInferred example_backend) example_execute_graph.passes g'.passes) ∧
    (rendergraph_execute example_callbacks 1 example_backend example_execute_graph 0).map
      (fun r => r.1.passes.map (fun p => (p.width, p.height))) =
      .ok [(800, 600), (640, 480), (320, 200), (0, 0)] :=
  ⟨by decide, by decide,
   execute_infers_extents_from_swapchain example_callbacks 1 example_backend
     example_execute_graph 0 (by decide) (by decide),
   by decide⟩

/-- C19: with swapchain info that reports at least one image, `execute` returns,
and pass by pass, in the state the user code was left in by the pass before:
the encoder of a pass with an execute callback holds the default scissor
`(0, 0, w, h)` and then the default viewport `(0, 0, w, h, 0, 1)` for the
extents `w`, `h` of the pass when the pass is a graphics pass, and nothing
otherwise, followed by what the execute callbacks did, each called once in
insertion order with its own user data; a pass without execute callback is
left as it was, without an encoder being created. -/
theorem execute_records_defaults_then_callbacks {W : Type} (cb : CallbackTable W)
    (eGraphics : Nat) (backend : BackendFrame) (self : le_rendergraph_o) (w : W)
    (hv : SwapchainInfoValid backend)
    (hnn : ∀ p ∈ self.passes, ∀ c ∈ p.executeCallbacks, c.fn ≠ 0) :
    ∃ (g' : le_rendergraph_o) (w' : W),
      rendergraph_execute cb eGraphics backend self w = .ok (g', w') ∧
      Threaded (PassExecuted cb eGraphics backend) w self.passes g'.passes w' :=
  rendergraph_execute_threaded cb eGraphics backend (PassExecuted cb eGraphics backend) self w
    (fun p hp w0 => execute_pass_executed cb eGraphics backend hv p (hnn p hp) w0)

/-- Witness for C19 on the execute scenario: the encoders hold the
scissor, the viewport and the two callbacks of the first pass, the callback of
the compute pass alone, the scissor, the viewport and the callback of the
third pass, and the last pass has no encoder; four callbacks were called. -/
theorem execute_records_defaults_then_callbacks_witness :
    SwapchainInfoValid example_backend ∧
    (∀ p ∈ example_execute_graph.passes, ∀ c ∈ p.executeCallbacks, c.fn ≠ 0) ∧
    (∃ (g' : le_rendergraph_o) (w' : Nat),
      rendergraph_execute example_callbacks 1 example_backend example_execute_graph 0 =
        .ok (g', w') ∧
      Threaded (PassExecuted example_callbacks 1 example_backend) 0
        example_execute_graph.passes g'.passes w') ∧
    (rendergraph_execute example_callbacks 1 example_backend example_execute_graph 0).map
      (fun r => (r.1.passes.map (fun p => p.encoder.map (fun e => e.commands)), r.2)) =
      .ok ([some [EncoderCommand.set_scissor 0 1 [{ x := 0, y := 0, width := 800, height := 600 }],
                  EncoderCommand.set_viewport 0 1
                    [{ x := FloatValue.zero, y := FloatValue.zero,
                       width := FloatValue.of_uint32 800, height := FloatValue.of_uint32 600,
                       minDepth := FloatValue.zero, maxDepth := FloatValue.one }],
                  EncoderCommand.recorded 111, EncoderCommand.recorded 212],
            some [EncoderCommand.recorded 313],
            some [EncoderCommand.set_scissor 0 1 [{ x := 0, y := 0, width := 320, height := 200 }],
                  EncoderCommand.set_viewport 0 1
                    [{ x := FloatValue.zero, y := FloatValue.zero,
                       width := FloatValue.of_uint32 320, height := FloatValue.of_uint32 200,
                       minDepth := FloatValue.zero, maxDepth := FloatValue.one }],
                  EncoderCommand.recorded 414],
            none], 4) :=
  ⟨by decide, by decide,
   execute_records_defaults_then_callbacks example_callbacks 1 example_backend
     example_execute_graph 0 (by decide) (by decide),
   by decide⟩

/-- C12: a graph of one root pass that uses exactly 64 distinct handles, the
value of `LE_MAX_NUM_GRAPH_RESOURCES`, fails the assertion on the number of
unique resources, while the same graph with 63 handles is built. -/
theorem sixty_four_handles_fail_the_resource_assertion :
    rendergraph_build false (many_handles_graph 64) = .error Fault.assert_too_many_resources ∧
    (rendergraph_build false (many_handles_graph 63)).map
      (fun g => (g.passes.length, g.root_passes_affinity_masks)) = .ok (1, [1]) := by
  set_option maxRecDepth 100000 in
  constructor <;> decide

/-- C11: a second build is not a repetition of the first.  No build removes a
mask that was stored before it.  On the pure chain the second build leaves the
passes as they are and stores the mask of the one tree a second time, `[1, 1]`
after `[1]`.  On the culled-link graph the first build gives pass 1 the
affinity `0b11` and stores the mask `[3]`; the second build gives the same
pass the affinity `0b01` and leaves the masks `[3, 1, 2]`. -/
theorem second_build_changes_masks_and_affinity :
    (∀ (ndebug : Bool) (g g1 : le_rendergraph_o), rendergraph_build ndebug g = .ok g1 →
      g.root_passes_affinity_masks <+: g1.root_passes_affinity_masks) ∧
    (rendergraph_build false pure_chain_graph).map build_outcome =
      .ok ([(10, false, 1), (11, false, 1), (12, true, 1)], [1]) ∧
    (rendergraph_build false pure_chain_graph >>= rendergraph_build false).map build_outcome =
      .ok ([(10, false, 1), (11, false, 1), (12, true, 1)], [1, 1]) ∧
    (rendergraph_build false culled_link_graph).map build_outcome =
      .ok ([(1, false, 3), (3, false, 2), (4, true, 2), (5, true, 1)], [3]) ∧
    (rendergraph_build false culled_link_graph >>= rendergraph_build false).map build_outcome =
      .ok ([(1, false, 1), (3, false, 2), (4, true, 2), (5, true, 1)], [3, 1, 2]) :=
  ⟨rendergraph_build_keeps_masks, by decide, by decide, by decide, by decide⟩

/-- C21: after `rendergraph_reset` the pass list, the declared resource ids
and infos and the affinity masks are empty and every pass the graph held has
been destroyed; the graph is as `rendergraph_create` returns it, so that after
adding any passes to it, a build gives what it gives on a fresh graph with
these passes. -/
theorem reset_leaves_fresh_graph (self : le_rendergraph_o) :
    (rendergraph_reset self).1.passes = [] ∧
    (rendergraph_reset self).1.declared_resources_id = [] ∧
    (rendergraph_reset self).1.declared_resources_info = [] ∧
    (rendergraph_reset self).1.root_passes_affinity_masks = [] ∧
    (rendergraph_reset self).2 = self.passes ∧
    (rendergraph_reset self).1 = rendergraph_create ∧
    ∀ (ndebug : Bool) (passes : List le_renderpass_o),
      rendergraph_build ndebug
          (passes.foldl rendergraph_add_renderpass (rendergraph_reset self).1) =
        rendergraph_build ndebug (passes.foldl rendergraph_add_renderpass rendergraph_create) :=
  ⟨rfl, rfl, rfl, rfl, rfl, rfl, fun _ _ => rfl⟩

/-- C22: `rendergraph_add_renderpass` appends one pass to `passes`, the given
pass with `ref_count` 1 and every other field as given, whatever the count of
the given pass; the passes already in the graph stay in front of it, unchanged,
and nothing else in the graph changes. -/
theorem add_renderpass_appends_clone (self : le_rendergraph_o) (renderpass : le_renderpass_o) :
    (rendergraph_add_renderpass self renderpass).passes =
      self.passes ++ [{ renderpass with ref_count := 1 }] ∧
    rendergraph_add_renderpass self renderpass =
      { self with passes := self.passes ++ [{ renderpass with ref_count := 1 }] } ∧
    (∀ ref_count : Nat,
      renderpass_clone { renderpass with ref_count := ref_count } = renderpass_clone renderpass) :=
  ⟨rfl, rfl, fun _ => rfl⟩

/-- Counterexample for C23: after `2 ^ 32` increments and one decrement no part
of the call sequence has more decrements than increments plus one, and the
decrement destroys the pass although it is not the last decrement: `2 ^ 32`
references are outstanding. -/
theorem ref_count_wraps_and_destroys_early :
    (∀ k : Nat, count_dec ((wrapping_calls 4294967296).take k) ≤
      count_inc ((wrapping_calls 4294967296).take k) + 1) ∧
    ref_calls_destroy (renderpass_create (fun _ => 0) [] 0) (wrapping_calls 4294967296) 0 =
      some 4294967296 ∧
    ¬ LastDecrement (wrapping_calls 4294967296) 4294967296 := by
  refine ⟨?_, wrapping_calls_destroy _ _ _ _ (by omega),
    not_lastDecrement_wrapping_calls _ (by omega)⟩
  intro k
  have hdec := count_dec_wrapping_calls 4294967296
  have := count_take_le RefCall.ref_dec (wrapping_calls 4294967296) k
  unfold count_dec at hdec ⊢
  omega

/-- C23 as amended: as long as fewer than `2 ^ 32` references are held at any
time, the calls of `renderpass_ref_inc` and `renderpass_ref_dec` on a pass
from `renderpass_create` destroy it at call `k` exactly when call `k` is the
last decrement: a decrement, the first call with which the decrements are one
more than the increments.  No earlier call and no increment destroys it. -/
theorem ref_dec_destroys_at_last_decrement (hash_64_fnv1a : List Nat → Nat)
    (renderpass_name : List Nat) (type_ : Nat) (calls : List RefCall)
    (hbound : ∀ k : Nat, k ≤ calls.length →
      1 + count_inc (calls.take k) < 4294967296 + count_dec (calls.take k))
    (k : Nat) :
    ref_calls_destroy (renderpass_create hash_64_fnv1a renderpass_name type_) calls 0 = some k ↔
      LastDecrement calls k := by
  have h := ref_calls_destroy_spec calls (renderpass_create hash_64_fnv1a renderpass_name type_)
    0 (by simp only [renderpass_create]; omega) hbound k
  rw [Nat.zero_add] at h
  rw [h]
  unfold LastDecrement
  have hc : (renderpass_create hash_64_fnv1a renderpass_name type_).ref_count = 1 := rfl
  rw [hc]
  constructor
  · rintro ⟨h1, h2, h3⟩
    exact ⟨h1, h2, fun j hj => by have := h3 j hj; omega⟩
  · rintro ⟨h1, h2, h3⟩
    exact ⟨h1, h2, fun j hj => by have := h3 j hj; omega⟩

/-- Witness for C23: of the calls inc, dec, inc, inc, dec, dec, dec, inc the
seventh, number 6, destroys the pass. -/
theorem ref_dec_destroys_at_last_decrement_witness :
    (∀ k : Nat, k ≤ balanced_calls.length →
      1 + count_inc (balanced_calls.take k) < 4294967296 + count_dec (balanced_calls.take k)) ∧
    (ref_calls_destroy (renderpass_create (fun _ => 0) [] 0) balanced_calls 0 = some 6 ↔
      LastDecrement balanced_calls 6) ∧
    ref_calls_destroy (renderpass_create (fun _ => 0) [] 0) balanced_calls 0 = some 6 :=
  ⟨by decide,
   ref_dec_destroys_at_last_decrement (fun _ => 0) [] 0 balanced_calls (by decide) 6,
   by decide⟩

/-- C24: `renderpass_has_setup_callback` tells whether the setup callback of
the pass is non-null, and `renderpass_set_execute_callback` does not change its
answer; `renderpass_has_execute_callback` tells whether the pass holds an
execute callback, and `renderpass_set_setup_callback` does not change its
answer.  After any calls of the two setters on a pass from
`renderpass_create`, the first is true iff the last setup callback set is
non-null, and the second iff an execute callback was added. -/
theorem callback_queries_match_their_setters (hash_64_fnv1a : List Nat → Nat)
    (renderpass_name : List Nat) (type_ : Nat) :
    (∀ self : le_renderpass_o,
      (renderpass_has_setup_callback self = true ↔ self.callbackSetup ≠ 0) ∧
      (renderpass_has_execute_callback self = true ↔ self.executeCallbacks ≠ [])) ∧
    (∀ (self : le_renderpass_o) (user_data callback : Nat),
      renderpass_has_setup_callback (renderpass_set_execute_callback self user_data callback) =
        renderpass_has_setup_callback self ∧
      renderpass_has_execute_callback (renderpass_set_setup_callback self user_data callback) =
        renderpass_has_execute_callback self ∧
      (renderpass_has_setup_callback (renderpass_set_setup_callback self user_data callback) =
        true ↔ callback ≠ 0) ∧
      renderpass_has_execute_callback (renderpass_set_execute_callback self user_data callback) =
        true) ∧
    (∀ calls : List CallbackCall,
      (renderpass_has_setup_callback
          (calls.foldl apply_callback_call
            (renderpass_create hash_64_fnv1a renderpass_name type_)) = true ↔
        last_setup_callback calls ≠ 0) ∧
      (renderpass_has_execute_callback
          (calls.foldl apply_callback_call
            (renderpass_create hash_64_fnv1a renderpass_name type_)) = true ↔
        any_execute_callback calls = true)) := by
  refine ⟨?_, ?_, ?_⟩
  · intro self
    constructor
    · simp [renderpass_has_setup_callback]
    · simp [renderpass_has_execute_callback]
  · intro self user_data callback
    refine ⟨rfl, rfl, ?_, ?_⟩
    · simp [renderpass_has_setup_callback, renderpass_set_setup_callback]
    · simp [renderpass_has_execute_callback, renderpass_set_execute_callback]
  · intro calls
    obtain ⟨h1, h2⟩ := callback_calls_fold calls
      (renderpass_create hash_64_fnv1a renderpass_name type_)
    constructor
    · simp only [renderpass_has_setup_callback, h1, last_setup_callback]
      simp [renderpass_create]
    · simp only [renderpass_has_execute_callback, h2]
      simp [renderpass_create]

/-- C25: whatever calls of `use_resource`, `add_color_attachment`,
`add_depth_stencil_attachment` and `sample_texture` are made on a pass from
`renderpass_create`, the pass they leave is well-formed: the resources, their
read/write flags and their access flags have the same length, the image
attachments and the attachment resources have the same length, the texture
handles and the texture infos have the same length, and no handle occurs twice
in the resources.  With assertions compiled out the calls always return. -/
theorem pass_calls_keep_well_formed (B : AccessFlagBits2) (eIsRoot : Nat) (ndebug : Bool)
    (hash_64_fnv1a : List Nat → Nat) (renderpass_name : List Nat) (type_ : Nat)
    (calls : List PassCall) (p : le_renderpass_o)
    (h : apply_pass_calls B eIsRoot ndebug
      (renderpass_create hash_64_fnv1a renderpass_name type_) calls = .ok p) :
    PassWellFormed p ∧
    ∃ q, apply_pass_calls B eIsRoot true
      (renderpass_create hash_64_fnv1a renderpass_name type_) calls = .ok q ∧
      PassWellFormed q := by
  have hc := renderpass_create_well_formed hash_64_fnv1a renderpass_name type_
  obtain ⟨h1, _⟩ := apply_pass_calls_well_formed B eIsRoot ndebug calls _ hc
  obtain ⟨h2, q, hq⟩ := apply_pass_calls_well_formed B eIsRoot true calls _ hc
  exact ⟨h1 p h, q, hq, h2 q hq⟩

/-- Witness for C25: the calls of the well-formedness scenario, with a repeated
texture and a repeated image, on a fresh pass with assertions compiled out. -/
theorem pass_calls_keep_well_formed_witness :
    apply_pass_calls vkAccessFlagBits2 4 true
      (renderpass_create (fun _ => 3) [112, 97, 115, 115] 1) example_pass_calls =
      .ok example_pass_after_calls ∧
    PassWellFormed example_pass_after_calls ∧
    ∃ q, apply_pass_calls vkAccessFlagBits2 4 true
      (renderpass_create (fun _ => 3) [112, 97, 115, 115] 1) example_pass_calls = .ok q ∧
      PassWellFormed q :=
  ⟨by rfl,
   pass_calls_keep_well_formed vkAccessFlagBits2 4 true (fun _ => 3) [112, 97, 115, 115] 1
    example_pass_calls example_pass_after_calls (by rfl)⟩

/-- C26: `node_tag_contributing` visits the nodes from last to first, with
`read_accum` empty at the last node and otherwise as the node behind left it.
It sets `is_contributing` of a node iff the node is a root on entry or its
writes intersect `read_accum` at that moment (a flag already set on entry
stays set); after such a node `read_accum` holds the bits it held that the
node does not write, and the bits the node reads; after any other node it is
unchanged.  The reads and writes of the node stay as they were. -/
theorem sweep_marks_contributing (nodes : List Node) (k : Nat) (n : Node)
    (h : nodes[k]? = some n) :
    (k + 1 = nodes.length → read_accum_at nodes k = 0) ∧
    read_accum_at nodes k = read_accum_after nodes (k + 1) ∧
    ∃ n1, (node_tag_contributing nodes).1[k]? = some n1 ∧
      n1.reads = n.reads ∧ n1.writes = n.writes ∧
      (n1.is_contributing = true ↔ n.is_contributing = true ∨ n.is_root = true ∨
        n.writes &&& read_accum_at nodes k ≠ 0) ∧
      (n.is_root = true ∨ n.writes &&& read_accum_at nodes k ≠ 0 →
        ∀ c : Nat, (read_accum_after nodes k).testBit c =
          ((read_accum_at nodes k).testBit c && !n.writes.testBit c || n.reads.testBit c)) ∧
      (¬ (n.is_root = true ∨ n.writes &&& read_accum_at nodes k ≠ 0) →
        read_accum_after nodes k = read_accum_at nodes k) := by
  obtain ⟨h1, h2⟩ := node_tag_sweep_at nodes k n h
  refine ⟨?_, rfl, ?_⟩
  · intro hk
    unfold read_accum_at
    rw [List.drop_eq_nil_of_le (by omega)]
    rfl
  · by_cases hc : (n.is_root || (n.writes &&& read_accum_at nodes k) != 0) = true
    · rw [if_pos hc] at h1 h2
      have hc' : n.is_root = true ∨ n.writes &&& read_accum_at nodes k ≠ 0 := by
        simpa using hc
      refine ⟨_, h1, rfl, rfl, ?_, ?_, ?_⟩
      · simp only [true_iff]
        exact Or.inr hc'
      · intro _ c
        rw [h2, Nat.testBit_or, bitset_and_not_testBit]
      · intro hn
        exact absurd hc' hn
    · rw [if_neg hc] at h1 h2
      have hc' : ¬ (n.is_root = true ∨ n.writes &&& read_accum_at nodes k ≠ 0) := by
        simpa using hc
      refine ⟨_, h1, rfl, rfl, ?_, ?_, ?_⟩
      · constructor
        · intro hn; exact Or.inl hn
        · intro hn
          cases hn with
          | inl hn => exact hn
          | inr hn => exact absurd hn hc'
      · intro hn
        exact absurd hn hc'
      · intro _
        exact h2

/-- Witness for C26: in the sweep scenario the root at index 1 writes `b`,
which the root behind it reads. -/
theorem sweep_marks_contributing_witness :
    example_sweep_nodes[1]? = some { reads := 1, writes := 2, is_root := true } ∧
    node_tag_contributing example_sweep_nodes =
      ([{ writes := 1, is_contributing := true },
        { reads := 1, writes := 2, is_contributing := true },
        { writes := 4 },
        { reads := 2, is_root := true, is_contributing := true }], 1) ∧
    ((1 + 1 = example_sweep_nodes.length → read_accum_at example_sweep_nodes 1 = 0) ∧
     read_accum_at example_sweep_nodes 1 = read_accum_after example_sweep_nodes (1 + 1) ∧
     ∃ n1, (node_tag_contributing example_sweep_nodes).1[1]? = some n1 ∧
      n1.reads = ({ reads := 1, writes := 2, is_root := true } : Node).reads ∧
      n1.writes = ({ reads := 1, writes := 2, is_root := true } : Node).writes ∧
      (n1.is_contributing = true ↔
        ({ reads := 1, writes := 2, is_root := true } : Node).is_contributing = true ∨
        ({ reads := 1, writes := 2, is_root := true } : Node).is_root = true ∨
        ({ reads := 1, writes := 2, is_root := true } : Node).writes &&&
          read_accum_at example_sweep_nodes 1 ≠ 0) ∧
      (({ reads := 1, writes := 2, is_root := true } : Node).is_root = true ∨
        ({ reads := 1, writes := 2, is_root := true } : Node).writes &&&
          read_accum_at example_sweep_nodes 1 ≠ 0 →
        ∀ c : Nat, (read_accum_after example_sweep_nodes 1).testBit c =
          ((read_accum_at example_sweep_nodes 1).testBit c &&
            !({ reads := 1, writes := 2, is_root := true } : Node).writes.testBit c ||
            ({ reads := 1, writes := 2, is_root := true } : Node).reads.testBit c)) ∧
      (¬ (({ reads := 1, writes := 2, is_root := true } : Node).is_root = true ∨
        ({ reads := 1, writes := 2, is_root := true } : Node).writes &&&
          read_accum_at example_sweep_nodes 1 ≠ 0) →
        read_accum_after example_sweep_nodes 1 = read_accum_at example_sweep_nodes 1)) :=
  ⟨by decide, by decide,
   sweep_marks_contributing example_sweep_nodes 1 { reads := 1, writes := 2, is_root := true }
    (by decide)⟩

/-- Counterexample for C27: of `2 ^ 32` roots that use no resource every one is
still a root after `node_tag_contributing`, and the reported root count, a
`uint32_t`, is 0. -/
theorem root_count_wraps_at_two_pow_32 :
    (node_tag_contributing (many_roots 4294967296)).1.countP (fun n => n.is_root) =
      4294967296 ∧
    (node_tag_contributing (many_roots 4294967296)).2 = 0 :=
  ⟨(countP_many_roots_tagged 4294967296).1,
   (countP_many_roots_tagged 4294967296).2.trans (Nat.mod_self 4294967296)⟩

/-- C27 as amended: after `node_tag_contributing`, when fewer than `2 ^ 32`
nodes are roots on exit the reported root count is their number; and, for
every node list, a node is a root iff it was a root on entry and its writes did
not intersect `read_accum` when it was visited; a root on entry is
contributing afterwards, demoted or not, and no node becomes a root. -/
theorem sweep_demotes_and_counts_roots (nodes : List Node) :
    ((node_tag_contributing nodes).1.countP (fun n => n.is_root) < 4294967296 →
      (node_tag_contributing nodes).2 =
        (node_tag_contributing nodes).1.countP (fun n => n.is_root)) ∧
    ∀ (k : Nat) (n : Node), nodes[k]? = some n →
      ∃ n1, (node_tag_contributing nodes).1[k]? = some n1 ∧
        (n1.is_root = true ↔ n.is_root = true ∧ n.writes &&& read_accum_at nodes k = 0) ∧
        (n.is_root = true → n1.is_contributing = true) := by
  refine ⟨node_tag_sweep_count_exact nodes, ?_⟩
  intro k n h
  obtain ⟨h1, _⟩ := node_tag_sweep_at nodes k n h
  refine ⟨_, h1, ?_, ?_⟩
  · cases hr : n.is_root <;>
      cases hw : ((n.writes &&& read_accum_at nodes k) != 0) <;> simp_all
  · intro hr
    simp [hr]

/-- Witness for C27: the sweep scenario has four nodes; one root is left, and
the root at index 1 is demoted. -/
theorem sweep_demotes_and_counts_roots_witness :
    (node_tag_contributing example_sweep_nodes).1.countP (fun n => n.is_root) < 4294967296 ∧
    (((node_tag_contributing example_sweep_nodes).1.countP (fun n => n.is_root) <
        4294967296 →
      (node_tag_contributing example_sweep_nodes).2 =
        (node_tag_contributing example_sweep_nodes).1.countP (fun n => n.is_root)) ∧
     ∀ (k : Nat) (n : Node), example_sweep_nodes[k]? = some n →
      ∃ n1, (node_tag_contributing example_sweep_nodes).1[k]? = some n1 ∧
        (n1.is_root = true ↔
          n.is_root = true ∧ n.writes &&& read_accum_at example_sweep_nodes k = 0) ∧
        (n.is_root = true → n1.is_contributing = true)) ∧
    (node_tag_contributing example_sweep_nodes).2 = 1 ∧
    (node_tag_contributing example_sweep_nodes).1.map (fun n => n.is_root) =
      [false, false, false, true] :=
  ⟨by decide, sweep_demotes_and_counts_roots example_sweep_nodes, by decide, by decide⟩

/-- Counterexample for C28: in the earlier-root scenario pass 1 is an earlier
node than root 0 (pass 3) and writes `R`, which the read accumulator of root 0
holds; yet bit 0 is not set in its affinity and its read of `Q` is not in
`root_reads[0]`, because pass 1 is a root itself. -/
theorem earlier_root_is_skipped_by_tree :
    rendergraph_build_trees false earlier_root_graph.passes = .ok earlier_root_trees ∧
    ∃ (e : Node) (root_reads_0 : Nat), earlier_root_trees.nodes[0]? = some e ∧
      earlier_root_trees.root_reads_accum[0]? = some root_reads_0 ∧
      e.writes &&& root_reads_0 ≠ 0 ∧
      e.root_index_affinity.testBit 0 = false ∧
      e.reads &&& root_reads_0 = 0 ∧ e.reads ≠ 0 :=
  ⟨by decide, _, _, rfl, rfl, by decide, by decide, by decide, by decide⟩

/-- C28 as amended: when the first part of build returns, then for every root
`r` of the tagged nodes, with `a` the nodes behind it in pass order and `b` the
nodes before it, nearest first: the index `i` of the root is the number of
roots behind it, so the last root has bit 0; the root gets the affinity
`1 << i`; an earlier node gets bit `i` iff it is not a root and its writes
intersect the read accumulator of the tree at that moment; the reads and
writes of the nodes that join are OR-ed into the accumulators, which start
from the reads and writes of the root and end as `root_reads[i]` and
`root_writes[i]`; no node behind the root gets bit `i`. -/
theorem root_trees_accumulate_earlier_non_roots (ndebug : Bool)
    (passes : List le_renderpass_o) (t : RootTrees)
    (h : rendergraph_build_trees ndebug passes = .ok t) :
    ∃ nodes0 : List Node, Forall₂ PassNode passes nodes0 ∧
      ∀ (a : List Node) (r : Node) (b : List Node),
        (node_tag_contributing nodes0).1.reverse = a ++ r :: b → r.is_root = true →
        ∃ (a1 : List Node) (r1 : Node) (b1 : List Node), t.nodes.reverse = a1 ++ r1 :: b1 ∧
          a1.length = a.length ∧ b1.length = b.length ∧
          a.countP (fun n => n.is_root) < t.root_count ∧
          r1.root_index_affinity = 1 <<< a.countP (fun n => n.is_root) ∧
          t.root_reads_accum[a.countP (fun n => n.is_root)]? =
            some (tree_accum b r.reads r.writes).1 ∧
          t.root_writes_accum[a.countP (fun n => n.is_root)]? =
            some (tree_accum b r.reads r.writes).2 ∧
          (∀ (p : Nat) (n : Node), b[p]? = some n → ∃ n1, b1[p]? = some n1 ∧
            n1.root_index_affinity.testBit (a.countP (fun n => n.is_root)) =
              tree_joins n (tree_accum (b.take p) r.reads r.writes).1) ∧
          (∀ n1 ∈ a1, n1.root_index_affinity.testBit (a.countP (fun n => n.is_root)) = false) := by
  obtain ⟨nodes0, h0, hcount, hacc, _⟩ := build_trees_parts ndebug passes t h
  refine ⟨nodes0, h0, ?_⟩
  intro a r b hsplit hroot
  have hzero := tagged_affinity_zero h0
  obtain ⟨a1, r1, b1, hout, h1, h2, h3, h4, h5, h6, h7, h8⟩ :=
    accumulate_roots_tree _ _ _ _ _ _ _ _ (by simp) hacc a r b hsplit hroot
  simp only [Nat.zero_add] at h1 h3 h4 h6 h7 h8
  obtain ⟨_, hl1, _⟩ := accumulate_roots_entries_below _ _ _ _ _ _ _ _ hacc
  have hmem : ∀ n, n ∈ a ∨ n = r ∨ n ∈ b → n.root_index_affinity = 0 := by
    intro n hn
    apply hzero
    rw [← List.mem_reverse, hsplit]
    simp only [List.mem_append, List.mem_cons]
    tauto
  refine ⟨a1, r1, b1, hout, h1.length_eq.symm, h5, ?_, ?_, h7, h8, ?_, ?_⟩
  · have hlt : a.countP (fun n => n.is_root) < t.root_reads_accum.length := by
      by_contra hge
      rw [List.getElem?_eq_none (by omega)] at h7
      exact absurd h7 (by simp)
    rw [hl1, List.length_replicate] at hlt
    exact hlt
  · rw [h3, hmem r (Or.inr (Or.inl rfl))]
    simp
  · intro p n hp
    obtain ⟨n1, hn1, _, hb⟩ := h6 p n hp
    refine ⟨n1, hn1, ?_⟩
    rw [hb, hmem n (Or.inr (Or.inr (List.getElem?_mem hp)))]
    simp
  · intro n1 hn1
    obtain ⟨k, hk⟩ := List.getElem?_of_mem hn1
    obtain ⟨n, hn, hkept⟩ := forall₂_getElem?_right h1 k n1 hk
    rw [hkept.2, hmem n (Or.inl (List.getElem?_mem hn))]
    simp

/-- Witness for C28: the trees of the earlier-root scenario. -/
theorem root_trees_accumulate_earlier_non_roots_witness :
    rendergraph_build_trees false earlier_root_graph.passes = .ok earlier_root_trees ∧
    ∃ nodes0 : List Node, Forall₂ PassNode earlier_root_graph.passes nodes0 ∧
      ∀ (a : List Node) (r : Node) (b : List Node),
        (node_tag_contributing nodes0).1.reverse = a ++ r :: b → r.is_root = true →
        ∃ (a1 : List Node) (r1 : Node) (b1 : List Node),
          earlier_root_trees.nodes.reverse = a1 ++ r1 :: b1 ∧
          a1.length = a.length ∧ b1.length = b.length ∧
          a.countP (fun n => n.is_root) < earlier_root_trees.root_count ∧
          r1.root_index_affinity = 1 <<< a.countP (fun n => n.is_root) ∧
          earlier_root_trees.root_reads_accum[a.countP (fun n => n.is_root)]? =
            some (tree_accum b r.reads r.writes).1 ∧
          earlier_root_trees.root_writes_accum[a.countP (fun n => n.is_root)]? =
            some (tree_accum b r.reads r.writes).2 ∧
          (∀ (p : Nat) (n : Node), b[p]? = some n → ∃ n1, b1[p]? = some n1 ∧
            n1.root_index_affinity.testBit (a.countP (fun n => n.is_root)) =
              tree_joins n (tree_accum (b.take p) r.reads r.writes).1) ∧
          (∀ n1 ∈ a1, n1.root_index_affinity.testBit (a.countP (fun n => n.is_root)) = false) :=
  ⟨by decide,
   root_trees_accumulate_earlier_non_roots false earlier_root_graph.passes earlier_root_trees
    (by decide)⟩

/-- C30: after a successful build every retained pass has a root affinity that
is not zero and whose set bits are all below the number of roots among the
retained passes, and a retained pass that is a root has the single bit whose
index is the number of roots after it in the list (roots are numbered from
the back). -/
theorem retained_passes_have_root_affinity (ndebug : Bool) (g g1 : le_rendergraph_o)
    (h : rendergraph_build ndebug g = .ok g1) :
    (∀ q ∈ g1.passes, q.root_passes_affinity ≠ 0 ∧
      ∀ b, q.root_passes_affinity.testBit b = true →
        b < g1.passes.countP (fun p => p.is_root)) ∧
    (∀ (front : List le_renderpass_o) (q : le_renderpass_o) (back : List le_renderpass_o),
      g1.passes = front ++ q :: back → q.is_root = true →
      q.root_passes_affinity = 1 <<< back.countP (fun p => p.is_root)) := by
  obtain ⟨t, ht, hp⟩ := build_passes_eq ndebug g g1 h
  obtain ⟨hlen, hcount, hroots, hnode⟩ := build_trees_affinity ndebug g.passes t ht
  have hsnd : (g.passes.zip t.nodes).map Prod.snd = t.nodes :=
    List.map_snd_zip _ _ (by omega)
  have hZ : ∀ x ∈ g.passes.zip t.nodes, x.2.is_root = true → x.2.is_contributing = true := by
    intro x hx
    apply hroots
    rw [← hsnd]
    exact List.mem_map_of_mem Prod.snd hx
  have htotal : g1.passes.countP (fun p => p.is_root) = t.root_count := by
    rw [hp, countP_write_back _ hZ, hsnd, hcount]
  have hsplit : ∀ (front : List le_renderpass_o) (q : le_renderpass_o)
      (back : List le_renderpass_o), g1.passes = front ++ q :: back →
      q.root_passes_affinity ≠ 0 ∧
      (∀ b, q.root_passes_affinity.testBit b = true → b < t.root_count) ∧
      (q.is_root = true → q.root_passes_affinity = 1 <<< back.countP (fun p => p.is_root)) := by
    intro front q back hq
    rw [hp] at hq
    obtain ⟨l1, x, l2, hz, hx, hb⟩ := filterMap_split _ _ _ _ _ hq
    obtain ⟨hc, hqr, hqa⟩ := write_back_eq_some x q hx
    have hnodes : t.nodes = l1.map Prod.snd ++ x.2 :: l2.map Prod.snd := by
      rw [← hsnd, hz]
      simp
    have hback : back.countP (fun p => p.is_root) =
        (l2.map Prod.snd).countP (fun n => n.is_root) := by
      rw [← hb]
      apply countP_write_back
      intro y hy
      apply hZ
      rw [hz]
      simp [hy]
    obtain ⟨h1, h2, h3⟩ := hnode _ _ _ hnodes hc
    rw [hqa, hqr, hback]
    exact ⟨h1, h2, h3⟩
  refine ⟨?_, ?_⟩
  · intro q hq
    obtain ⟨front, back, hs⟩ := List.append_of_mem hq
    obtain ⟨h1, h2, _⟩ := hsplit front q back hs
    rw [htotal]
    exact ⟨h1, h2⟩
  · intro front q back hs hr
    exact (hsplit front q back hs).2.2 hr

theorem retained_passes_have_root_affinity_witness :
    rendergraph_build false overlapping_roots_graph = .ok overlapping_roots_built ∧
    (∀ q ∈ overlapping_roots_built.passes, q.root_passes_affinity ≠ 0 ∧
      ∀ b, q.root_passes_affinity.testBit b = true →
        b < overlapping_roots_built.passes.countP (fun p => p.is_root)) ∧
    (∀ (front : List le_renderpass_o) (q : le_renderpass_o) (back : List le_renderpass_o),
      overlapping_roots_built.passes = front ++ q :: back → q.is_root = true →
      q.root_passes_affinity = 1 <<< back.countP (fun p => p.is_root)) :=
  ⟨by decide,
   retained_passes_have_root_affinity false overlapping_roots_graph overlapping_roots_built
    (by decide)⟩

/-- C29: pruning is dependency-closed.  After a successful build of a graph
whose passes are well-formed (the invariant that creating a pass and recording
resources, attachments and textures in it keeps), take a retained pass at
position `k` that reads the resource `x`, and let the pass at `m < k` be the
last pass before `k` that writes `x`.  Then the pass at `m` is retained too: its
node is tagged contributing, and the pass is written back to the pass list. -/
theorem pruning_keeps_last_producer (ndebug : Bool) (g g1 : le_rendergraph_o)
    (h : rendergraph_build ndebug g = .ok g1)
    (hwf : ∀ p ∈ g.passes, PassWellFormed p)
    (k m : Nat) (pk pm : le_renderpass_o) (x : le_resource_handle)
    (hmk : m < k) (hk : g.passes[k]? = some pk) (hm : g.passes[m]? = some pm)
    (hret : pass_retained ndebug g.passes k = true)
    (hrd : pass_reads pk x = true) (hwr : pass_writes pm x = true)
    (hbet : ∀ (j : Nat) (pj : le_renderpass_o), m < j → j < k → g.passes[j]? = some pj →
      pass_writes pj x = false) :
    pass_retained ndebug g.passes m = true ∧
    ∃ t nm, rendergraph_build_trees ndebug g.passes = .ok t ∧ t.nodes[m]? = some nm ∧
      { pm with is_root := nm.is_root, root_passes_affinity := nm.root_index_affinity } ∈
        g1.passes := by
  obtain ⟨t, ht, hp⟩ := build_passes_eq ndebug g g1 h
  obtain ⟨U, nodes0, hbn, hsame⟩ := build_trees_nodes ndebug g.passes t ht
  have hrel := build_nodes_rel _ _ _ _ _ hbn
  obtain ⟨_, hnd, hbits⟩ := build_nodes_bits ndebug g.passes [] U nodes0 hbn List.nodup_nil
    (fun p hp => (hwf p hp).2.2.2.2)
  have hentry : ∀ n ∈ nodes0, n.is_contributing = false := by
    intro n hn
    obtain ⟨i, hi⟩ := List.getElem?_of_mem hn
    obtain ⟨p, _, hpn⟩ := forall₂_getElem?_right hrel i n hi
    exact hpn.2.1
  obtain ⟨nk, hnk, hc⟩ := (pass_retained_iff ndebug g.passes t ht k).mp hret
  obtain ⟨n0k, hn0k, _⟩ := forall₂_getElem? hrel k pk hk
  obtain ⟨n0m, hn0m, _⟩ := forall₂_getElem? hrel m pm hm
  obtain ⟨tk, htk, hsk⟩ := forall₂_getElem?_right hsame k nk hnk
  have htkc : tk.is_contributing = true := by rw [← hsk.2.2.2]; exact hc
  unfold pass_reads at hrd
  unfold pass_writes at hwr
  obtain ⟨jr, fr, hjr, hfr, hbr⟩ := (any_zip_flag _ _ _ _).mp hrd
  obtain ⟨jw, fw, hjw, hfw, hbw⟩ := (any_zip_flag _ _ _ _).mp hwr
  obtain ⟨hmk1, hR1k, _⟩ := hbits k pk n0k hk hn0k
  obtain ⟨_, hR1m, _⟩ := hbits m pm n0m hm hn0m
  obtain ⟨c, hcU⟩ := List.getElem?_of_mem (hmk1 x (List.getElem?_mem hjr))
  have hread : n0k.reads.testBit c = true := by
    obtain ⟨f, hf, hr, _⟩ := hR1k jr x c hjr hcU
    rw [hfr] at hf
    rw [hr, ← Option.some.inj hf]
    simpa using hbr
  have hwrite : n0m.writes.testBit c = true := by
    obtain ⟨f, hf, _, hw⟩ := hR1m jw x c hjw hcU
    rw [hfw] at hf
    rw [hw, ← Option.some.inj hf]
    simpa using hbw
  have hbetween : ∀ (j : Nat) (nj : Node), m < j → j < k → nodes0[j]? = some nj →
      nj.writes.testBit c = false := by
    intro j nj hmj hjk hnj
    obtain ⟨pj, hpj, _⟩ := forall₂_getElem?_right hrel j nj hnj
    have hno := hbet j pj hmj hjk hpj
    obtain ⟨_, hR1j, hR2j⟩ := hbits j pj nj hpj hnj
    by_cases hex : ∃ h1 ∈ pj.resources, U[c]? = some h1
    · obtain ⟨h1, hh1, hU1⟩ := hex
      have hx : h1 = x := Option.some.inj (hU1.symm.trans hcU)
      rw [hx] at hh1
      obtain ⟨j2, hj2⟩ := List.getElem?_of_mem hh1
      obtain ⟨f2, hf2, _, hw2⟩ := hR1j j2 x c hj2 hcU
      rw [hw2]
      by_contra hne
      have hb2 : f2 &&& eWrite ≠ 0 := by simpa using hne
      have : pass_writes pj x = true := by
        unfold pass_writes
        exact (any_zip_flag _ _ _ _).mpr ⟨j2, f2, hj2, hf2, hb2⟩
      rw [hno] at this
      cases this
    · exact (hR2j c (fun h1 hh1 e => hex ⟨h1, hh1, e⟩)).2
  obtain ⟨tm1, htm1, hcm⟩ := sweep_keeps_last_writer nodes0 hentry k m c n0k n0m tk hmk
    hn0k hn0m htk htkc hread hwrite hbetween
  obtain ⟨nm, hnm, hsm⟩ := forall₂_getElem? hsame m tm1 htm1
  have hnmc : nm.is_contributing = true := by rw [hsm.2.2.2]; exact hcm
  refine ⟨(pass_retained_iff ndebug g.passes t ht m).mpr ⟨nm, hnm, hnmc⟩, t, nm, ht, hnm, ?_⟩
  rw [hp, List.mem_filterMap]
  refine ⟨(pm, nm), ?_, ?_⟩
  · apply List.getElem?_mem (n := m)
    rw [List.getElem?_zip_eq_some]
    exact ⟨hm, hnm⟩
  · unfold write_back
    rw [if_pos hnmc]

theorem pruning_keeps_last_producer_witness :
    rendergraph_build false overlapping_roots_graph = .ok overlapping_roots_built ∧
    (∀ p ∈ overlapping_roots_graph.passes, PassWellFormed p) ∧
    pass_retained false overlapping_roots_graph.passes 2 = true ∧
    (∃ pk pm, overlapping_roots_graph.passes[2]? = some pk ∧
      overlapping_roots_graph.passes[0]? = some pm ∧
      pass_reads pk { id := 1, type := LeResourceType.eBuffer, flags := 0 } = true ∧
      pass_writes pm { id := 1, type := LeResourceType.eBuffer, flags := 0 } = true) ∧
    (∀ (j : Nat) (pj : le_renderpass_o), 0 < j → j < 2 →
      overlapping_roots_graph.passes[j]? = some pj →
      pass_writes pj { id := 1, type := LeResourceType.eBuffer, flags := 0 } = false) ∧
    pass_retained false overlapping_roots_graph.passes 0 = true ∧
    ∃ t nm, rendergraph_build_trees false overlapping_roots_graph.passes = .ok t ∧
      t.nodes[0]? = some nm ∧
      { overlapping_roots_shared with
        is_root := nm.is_root, root_passes_affinity := nm.root_index_affinity } ∈
        overlapping_roots_built.passes :=
  have hbet : ∀ (j : Nat) (pj : le_renderpass_o), 0 < j → j < 2 →
      overlapping_roots_graph.passes[j]? = some pj →
      pass_writes pj { id := 1, type := LeResourceType.eBuffer, flags := 0 } = false := by
    intro j pj h0 h2 hj
    obtain rfl : j = 1 := by omega
    obtain rfl : pj = _ := (Option.some.inj hj).symm
    decide
  ⟨by decide, by decide, by decide, ⟨_, _, rfl, rfl, by decide, by decide⟩, hbet,
   pruning_keeps_last_producer false overlapping_roots_graph overlapping_roots_built
    (by decide) (by decide) 2 0 _ { overlapping_roots_shared with root_passes_affinity := 0 }
    { id := 1, type := LeResourceType.eBuffer, flags := 0 }
    (by decide) rfl (by decide) (by decide) (by decide) (by decide) hbet⟩

/-- C31: after a successful build some retained pass is a root if and only if
some pass of the graph was a root before; the last root in pass order is
retained as a root, because the sweep visits it with an empty read accumulator
and does not demote it. -/
theorem build_keeps_a_root_iff_graph_has_one (ndebug : Bool) (g g1 : le_rendergraph_o)
    (h : rendergraph_build ndebug g = .ok g1) :
    ((∃ q ∈ g1.passes, q.is_root = true) ↔ (∃ p ∈ g.passes, p.is_root = true)) ∧
    ∀ (pre : List le_renderpass_o) (r : le_renderpass_o) (suf : List le_renderpass_o),
      g.passes = pre ++ r :: suf → r.is_root = true → (∀ p ∈ suf, p.is_root = false) →
      ∃ aff, { r with is_root := true, root_passes_affinity := aff } ∈ g1.passes := by
  obtain ⟨h1, h2⟩ := build_keeps_last_root ndebug g g1 h
  refine ⟨⟨?_, ?_⟩, h2⟩
  · rintro ⟨q, hq, hqr⟩
    exact h1 q hq hqr
  · intro hex
    obtain ⟨pre, r, suf, hsplit, hr, hsuf⟩ :=
      exists_last_split (fun p : le_renderpass_o => p.is_root) g.passes hex
    obtain ⟨aff, hmem⟩ := h2 pre r suf hsplit hr hsuf
    exact ⟨_, hmem, rfl⟩

theorem build_keeps_a_root_iff_graph_has_one_witness :
    rendergraph_build false earlier_root_graph = .ok earlier_root_built ∧
    (((∃ q ∈ earlier_root_built.passes, q.is_root = true) ↔
        (∃ p ∈ earlier_root_graph.passes, p.is_root = true)) ∧
      ∀ (pre : List le_renderpass_o) (r : le_renderpass_o) (suf : List le_renderpass_o),
        earlier_root_graph.passes = pre ++ r :: suf → r.is_root = true →
        (∀ p ∈ suf, p.is_root = false) →
        ∃ aff, { r with is_root := true, root_passes_affinity := aff } ∈
          earlier_root_built.passes) ∧
    (∃ p ∈ earlier_root_graph.passes, p.is_root = true) :=
  ⟨by decide,
   build_keeps_a_root_iff_graph_has_one false earlier_root_graph earlier_root_built (by decide),
   by decide⟩

/-- C32: after a successful build of a graph without masks, with `n` the
number of roots among the retained passes: `n ≤ 64`; bit `b` is set in the
bitwise OR of the emitted masks iff `b < n`; no emitted mask is zero; and
there are at most `n` masks, and at least one when `n ≥ 1` (so none when
`n = 0`). -/
theorem emitted_masks_cover_all_roots (ndebug : Bool) (g g1 : le_rendergraph_o)
    (h : rendergraph_build ndebug g = .ok g1) (hfresh : g.root_passes_affinity_masks = []) :
    g1.passes.countP (fun p => p.is_root) ≤ 64 ∧
    (∀ b : Nat, (g1.root_passes_affinity_masks.foldl (fun x m => x ||| m) 0).testBit b = true ↔
      b < g1.passes.countP (fun p => p.is_root)) ∧
    (∀ m ∈ g1.root_passes_affinity_masks, m ≠ 0) ∧
    g1.root_passes_affinity_masks.length ≤ g1.passes.countP (fun p => p.is_root) ∧
    (1 ≤ g1.passes.countP (fun p => p.is_root) → 1 ≤ g1.root_passes_affinity_masks.length) ∧
    (g1.passes.countP (fun p => p.is_root) = 0 → g1.root_passes_affinity_masks = []) := by
  obtain ⟨t, queue_id, queue_id_idx, ms, ht, hq, hmasks, hf, hp⟩ := build_parts ndebug g g1 h
  rw [hfresh, List.nil_append] at hmasks
  rw [build_root_count ndebug g g1 t ht hp, hmasks]
  obtain ⟨⟨hl1, hl2, hwf⟩, _⟩ := build_queues_spec _ _ _ _ hq
  obtain ⟨hbound, h64⟩ := build_queues_bounded _ _ _ _ hq
  have hlen : ms.length = (std_unique queue_id_idx).length := hf.length_eq.symm
  have hle := std_unique_length_le queue_id_idx
  simp only [] at hl1 hl2 hwf
  have hmem : ∀ m ∈ ms, ∃ k s, k < t.root_count ∧ queue_id_idx[k]? = some s ∧
      queue_id[s]? = some m := by
    intro m hm
    obtain ⟨p, hp⟩ := List.getElem?_of_mem hm
    obtain ⟨s, hs, hsm⟩ := forall₂_getElem?_right hf p m hp
    obtain ⟨k, hk⟩ := List.getElem?_of_mem (of_mem_std_unique s _ (List.getElem?_mem hs))
    have hkn : k < t.root_count := by
      rw [← hl2]
      by_contra hge
      rw [List.getElem?_eq_none (by omega)] at hk
      cases hk
    exact ⟨k, s, hkn, hk, hsm⟩
  refine ⟨h64, ?_, ?_, by omega, ?_, ?_⟩
  · intro b
    rw [testBit_foldl_or, Nat.zero_testBit, Bool.false_or, List.any_eq_true]
    constructor
    · rintro ⟨m, hm, hb⟩
      obtain ⟨k, s, _, _, hsm⟩ := hmem m hm
      exact hbound s m hsm b hb
    · intro hb
      obtain ⟨s, q, hs, _, hq1, hbit⟩ := hwf b hb
      have hsu : s ∈ std_unique queue_id_idx := mem_std_unique s _ (List.getElem?_mem hs)
      obtain ⟨p, hp⟩ := List.getElem?_of_mem hsu
      obtain ⟨m, hm, hsm⟩ := forall₂_getElem? hf p s hp
      have hsm' : queue_id[s]? = some m := hsm
      rw [hq1] at hsm'
      exact ⟨m, List.getElem?_mem hm, by rw [← Option.some.inj hsm']; exact hbit⟩
  · intro m hm hz
    obtain ⟨k, s, hkn, hks, hsm⟩ := hmem m hm
    obtain ⟨s1, q, hs1, _, hq1, hbit⟩ := hwf k hkn
    rw [hks] at hs1
    rw [← Option.some.inj hs1, hsm] at hq1
    rw [← Option.some.inj hq1, hz, Nat.zero_testBit] at hbit
    cases hbit
  · intro hn
    have := std_unique_length_pos queue_id_idx (by omega)
    omega
  · intro hn
    apply List.eq_nil_of_length_eq_zero
    omega

theorem emitted_masks_cover_all_roots_witness :
    rendergraph_build false overlapping_roots_graph = .ok overlapping_roots_built ∧
    overlapping_roots_graph.root_passes_affinity_masks = [] ∧
    (overlapping_roots_built.passes.countP (fun p => p.is_root) ≤ 64 ∧
      (∀ b : Nat,
        (overlapping_roots_built.root_passes_affinity_masks.foldl (fun x m => x ||| m)
          0).testBit b = true ↔
        b < overlapping_roots_built.passes.countP (fun p => p.is_root)) ∧
      (∀ m ∈ overlapping_roots_built.root_passes_affinity_masks, m ≠ 0) ∧
      overlapping_roots_built.root_passes_affinity_masks.length ≤
        overlapping_roots_built.passes.countP (fun p => p.is_root) ∧
      (1 ≤ overlapping_roots_built.passes.countP (fun p => p.is_root) →
        1 ≤ overlapping_roots_built.root_passes_affinity_masks.length) ∧
      (overlapping_roots_built.passes.countP (fun p => p.is_root) = 0 →
        overlapping_roots_built.root_passes_affinity_masks = [])) ∧
    overlapping_roots_built.passes.countP (fun p => p.is_root) = 2 ∧
    overlapping_roots_built.root_passes_affinity_masks = [3] :=
  ⟨by decide, by decide,
   emitted_masks_cover_all_roots false overlapping_roots_graph overlapping_roots_built
    (by decide) (by decide),
   by decide, by decide⟩

/-- C33: after a successful build, for every two roots `i < j` whose
accumulators overlap directly (`root_reads[i] & root_writes[j]` or
`root_reads[j] & root_writes[i]` is not empty), one of the masks this build
emitted has both bit `i` and bit `j`. -/
theorem overlapping_roots_share_a_mask (ndebug : Bool) (g g1 : le_rendergraph_o)
    (h : rendergraph_build ndebug g = .ok g1) :
    ∃ t ms, rendergraph_build_trees ndebug g.passes = .ok t ∧
      g1.root_passes_affinity_masks = g.root_passes_affinity_masks ++ ms ∧
      ∀ (i j ri wi rj wj : Nat), i < j →
        t.root_reads_accum[i]? = some ri → t.root_writes_accum[i]? = some wi →
        t.root_reads_accum[j]? = some rj → t.root_writes_accum[j]? = some wj →
        (ri &&& wj ≠ 0 ∨ rj &&& wi ≠ 0) →
        ∃ m ∈ ms, m.testBit i = true ∧ m.testBit j = true := by
  obtain ⟨t, queue_id, queue_id_idx, ms, ht, hq, hmasks, hf, _⟩ := build_parts ndebug g g1 h
  obtain ⟨_, hrrlen, _⟩ := build_trees_aff ndebug g.passes t ht
  obtain ⟨_, hjoin⟩ := build_queues_spec _ _ _ _ hq
  refine ⟨t, ms, ht, hmasks, ?_⟩
  intro i j ri wi rj wj hij hri hwi hrj hwj hov
  have hjn : j < t.root_count := by
    rw [← hrrlen]
    by_contra hge
    rw [List.getElem?_eq_none (by omega)] at hrj
    cases hrj
  exact joined_emitted
    (hjoin i j hij hjn (roots_overlap_either _ _ i j ri wi rj wj hri hwi hrj hwj hov)) hf

theorem overlapping_roots_share_a_mask_witness :
    rendergraph_build false earlier_root_graph = .ok earlier_root_built ∧
    (∃ t ms, rendergraph_build_trees false earlier_root_graph.passes = .ok t ∧
      earlier_root_built.root_passes_affinity_masks =
        earlier_root_graph.root_passes_affinity_masks ++ ms ∧
      ∀ (i j ri wi rj wj : Nat), i < j →
        t.root_reads_accum[i]? = some ri → t.root_writes_accum[i]? = some wi →
        t.root_reads_accum[j]? = some rj → t.root_writes_accum[j]? = some wj →
        (ri &&& wj ≠ 0 ∨ rj &&& wi ≠ 0) →
        ∃ m ∈ ms, m.testBit i = true ∧ m.testBit j = true) ∧
    rendergraph_build_trees false earlier_root_graph.passes = .ok earlier_root_trees ∧
    (earlier_root_trees.root_reads_accum.getD 0 0 &&&
      earlier_root_trees.root_writes_accum.getD 1 0 ≠ 0) ∧
    earlier_root_built.root_passes_affinity_masks = [3] :=
  ⟨by decide,
   overlapping_roots_share_a_mask false earlier_root_graph earlier_root_built (by decide),
   by decide, by decide, by decide⟩

/-- C35: whatever calls of `use_resource`, `add_color_attachment`,
`add_depth_stencil_attachment` and `sample_texture` are made on a pass from
`renderpass_create`, with assertions enabled or compiled out (where a handle
used again has the new access flags OR-ed into its entry), every entry of the
pass they leave has access flags and a read/write summary, and the summary is
the one derived from the access flags accumulated in the entry and the type
of the handle: read iff the flags hold a read flag, write iff they hold a
write flag or the handle is an image and they hold a flag that implies a
write. -/
theorem pass_calls_keep_summaries_derived (B : AccessFlagBits2) (eIsRoot : Nat) (ndebug : Bool)
    (hash_64_fnv1a : List Nat → Nat) (renderpass_name : List Nat) (type_ : Nat)
    (calls : List PassCall) (p : le_renderpass_o)
    (h : apply_pass_calls B eIsRoot ndebug
      (renderpass_create hash_64_fnv1a renderpass_name type_) calls = .ok p) :
    ∀ (i : Nat) (handle : le_resource_handle), p.resources[i]? = some handle →
      ∃ a rw : Nat, p.resources_access_flags[i]? = some a ∧
        p.resources_read_write_flags[i]? = some rw ∧
        rw = derived_rw_flags B handle a ∧
        (rw &&& eRead ≠ 0 ↔ a &&& LE_ALL_READ_ACCESS_FLAGS B ≠ 0) ∧
        (rw &&& eWrite ≠ 0 ↔ (a &&& LE_ALL_WRITE_ACCESS_FLAGS B ≠ 0 ∨
          (handle.type = LeResourceType.eImage ∧
            a &&& LE_ALL_IMAGE_IMPLIED_WRITE_ACCESS_FLAGS B ≠ 0))) := by
  have hc := renderpass_create_well_formed hash_64_fnv1a renderpass_name type_
  have hs0 : SummaryDerived B (renderpass_create hash_64_fnv1a renderpass_name type_) := by
    intro i hd a hi
    simp [renderpass_create] at hi
  have hwf := (apply_pass_calls_well_formed B eIsRoot ndebug calls _ hc).1 p h
  have hs := apply_pass_calls_summary B eIsRoot ndebug calls _ hc hs0 p h
  intro i handle hi
  have hlt : i < p.resources.length := by
    by_contra hge
    rw [List.getElem?_eq_none (by omega)] at hi
    cases hi
  have hlta : i < p.resources_access_flags.length := by rw [hwf.2.1]; exact hlt
  have ha := List.getElem?_eq_getElem hlta
  have hrw := hs i handle _ hi ha
  refine ⟨_, _, ha, hrw, rfl, ?_, ?_⟩
  · unfold derived_rw_flags
    rw [(derived_rw_bits _ _).1]
    unfold detect_read
    simp
  · unfold derived_rw_flags
    rw [(derived_rw_bits _ _).2]
    exact detect_write_iff B handle _

theorem pass_calls_keep_summaries_derived_witness :
    apply_pass_calls vkAccessFlagBits2 4 true
      (renderpass_create (fun _ => 3) [112, 97, 115, 115] 1) example_pass_calls =
      .ok example_pass_after_calls ∧
    (∀ (i : Nat) (handle : le_resource_handle),
      example_pass_after_calls.resources[i]? = some handle →
      ∃ a rw : Nat, example_pass_after_calls.resources_access_flags[i]? = some a ∧
        example_pass_after_calls.resources_read_write_flags[i]? = some rw ∧
        rw = derived_rw_flags vkAccessFlagBits2 handle a ∧
        (rw &&& eRead ≠ 0 ↔ a &&& LE_ALL_READ_ACCESS_FLAGS vkAccessFlagBits2 ≠ 0) ∧
        (rw &&& eWrite ≠ 0 ↔ (a &&& LE_ALL_WRITE_ACCESS_FLAGS vkAccessFlagBits2 ≠ 0 ∨
          (handle.type = LeResourceType.eImage ∧
            a &&& LE_ALL_IMAGE_IMPLIED_WRITE_ACCESS_FLAGS vkAccessFlagBits2 ≠ 0)))) ∧
    example_pass_after_calls.resources.length = 3 :=
  ⟨by rfl,
   pass_calls_keep_summaries_derived vkAccessFlagBits2 4 true (fun _ => 3) [112, 97, 115, 115] 1
    example_pass_calls example_pass_after_calls (by rfl),
   by rfl⟩

/-- C40: when the translation loop of build returns for passes without a
repeated handle (the invariant of well-formed passes), the table of unique
handles lists the handles of the passes in the order of their first
occurrence over the pass list, each once, so that equal handles have one
index and different handles different indices; and every node mirrors its
pass: it is a root iff the pass is, and bit `k` of its reads (writes) is set
iff the pass uses the handle numbered `k` with the read (write) flag. -/
theorem nodes_mirror_passes (ndebug : Bool) (passes : List le_renderpass_o)
    (U : List le_resource_handle) (nodes : List Node)
    (h : build_nodes ndebug passes [] = .ok (U, nodes))
    (hwf : ∀ p ∈ passes, PassWellFormed p) :
    U = first_occurrences (all_resources passes) ∧ U.Nodup ∧
    (∀ x, x ∈ U ↔ ∃ p ∈ passes, x ∈ p.resources) ∧
    (∀ (i j : Nat) (hi hj : le_resource_handle), U[i]? = some hi → U[j]? = some hj →
      (i < j ↔ find_resource_idx (all_resources passes) hi <
        find_resource_idx (all_resources passes) hj)) ∧
    (∀ x ∈ U, U[find_resource_idx U x]? = some x) ∧
    Forall₂ (NodeMirrorsPass U) passes nodes := by
  have hU := build_nodes_handles ndebug passes [] U nodes h
  have hU1 : U = first_occurrences (all_resources passes) := hU
  obtain ⟨hnd, hmem, hord⟩ := first_occurrences_spec (all_resources passes)
  obtain ⟨_, hmirror, _⟩ := build_nodes_mirror ndebug passes U nodes h
    (fun p hp => (hwf p hp).2.2.2.2)
  rw [← hU1] at hnd hmem hord
  refine ⟨hU1, hnd, ?_, hord, fun x hx => (find_resource_idx_of_mem U x hx).2, hmirror⟩
  intro x
  rw [hmem]
  unfold all_resources
  rw [List.mem_flatMap]

theorem nodes_mirror_passes_witness :
    build_nodes false pure_chain_graph.passes [] = .ok
      ([{ id := 1, type := LeResourceType.eBuffer, flags := 0 },
        { id := 2, type := LeResourceType.eBuffer, flags := 0 }, swapchain_image],
       [{ writes := 1 }, { reads := 1, writes := 2 },
        { reads := 2, writes := 4, is_root := true }]) ∧
    (∀ p ∈ pure_chain_graph.passes, PassWellFormed p) ∧
    first_occurrences (all_resources pure_chain_graph.passes) =
      [{ id := 1, type := LeResourceType.eBuffer, flags := 0 },
        { id := 2, type := LeResourceType.eBuffer, flags := 0 }, swapchain_image] ∧
    Forall₂ (NodeMirrorsPass
        [{ id := 1, type := LeResourceType.eBuffer, flags := 0 },
          { id := 2, type := LeResourceType.eBuffer, flags := 0 }, swapchain_image])
      pure_chain_graph.passes
      [{ writes := 1 }, { reads := 1, writes := 2 },
        { reads := 2, writes := 4, is_root := true }] :=
  ⟨by decide, by decide, by decide,
   (nodes_mirror_passes false pure_chain_graph.passes _ _ (by decide) (by decide)).2.2.2.2.2⟩

/-- C36: within the caps every access of build is in bounds, and the assertion
on the lanes fails all the same.  For passes that are well-formed and use
fewer than `LE_MAX_NUM_GRAPH_RESOURCES` unique handles the translation loop
returns; when it returns and at most 64 nodes are roots after the sweep, build
returns or stops at the assertion `queue lanes must be independent`, and at
nothing else.  The graph with three roots, of which roots 0 and 2 overlap, is
within the caps: two unique handles, three roots; with assertions enabled
build stops at that assertion, with assertions compiled out it returns. -/
theorem build_in_bounds_but_lane_assertion_fails :
    (∀ (ndebug : Bool) (passes : List le_renderpass_o),
      (∀ p ∈ passes, PassWellFormed p) →
      (first_occurrences (all_resources passes)).length < LE_MAX_NUM_GRAPH_RESOURCES →
      ∃ nodes, build_nodes ndebug passes [] =
        .ok (first_occurrences (all_resources passes), nodes)) ∧
    (∀ (ndebug : Bool) (g : le_rendergraph_o) (U : List le_resource_handle)
      (nodes0 : List Node), build_nodes ndebug g.passes [] = .ok (U, nodes0) →
      (node_tag_contributing nodes0).1.countP (fun n => n.is_root) ≤ LE_MAX_NUM_GRAPH_ROOTS →
      (∃ g1, rendergraph_build ndebug g = .ok g1) ∨
      (ndebug = false ∧ rendergraph_build ndebug g = .error Fault.assert_queue_lanes)) ∧
    (∀ p ∈ three_roots_graph.passes, PassWellFormed p) ∧
    (first_occurrences (all_resources three_roots_graph.passes)).length = 2 ∧
    ((build_nodes false three_roots_graph.passes []).map
      (fun r => (node_tag_contributing r.2).1.countP (fun n => n.is_root))) = .ok 3 ∧
    rendergraph_build false three_roots_graph = .error Fault.assert_queue_lanes ∧
    (rendergraph_build true three_roots_graph).map (fun g => g.root_passes_affinity_masks) =
      .ok [5, 2, 5] := by
  refine ⟨?_, ?_, by decide, by decide, by decide, by decide, by decide⟩
  · intro ndebug passes hwf hlt
    unfold LE_MAX_NUM_GRAPH_RESOURCES at hlt
    exact build_nodes_total ndebug passes []
      (fun p hp => by rw [(hwf p hp).1]) (by unfold first_occurrences at hlt; omega)
      (Or.inr hlt)
  · intro ndebug g U nodes0 hbn hroots
    exact build_total ndebug g U nodes0 hbn hroots

/-- C34: pruning and root tagging are stable under a second build.  For a
graph of well-formed passes (the invariant that creating a pass and recording
in it keeps) that build has returned for, a second build that returns leaves
the same passes in the same order, each with the same `is_root` and every
other field but its root affinity unchanged; with assertions compiled out the
second build does return. -/
theorem second_build_keeps_passes_and_roots (ndebug : Bool) (g g1 : le_rendergraph_o)
    (h1 : rendergraph_build ndebug g = .ok g1)
    (hwf : ∀ p ∈ g.passes, PassWellFormed p) :
    (∀ g2, rendergraph_build ndebug g1 = .ok g2 →
      Forall₂ (fun p q => q = { p with root_passes_affinity := q.root_passes_affinity })
        g1.passes g2.passes ∧
      g2.passes.map (fun q => q.is_root) = g1.passes.map (fun p => p.is_root)) ∧
    (ndebug = true → ∃ g2, rendergraph_build ndebug g1 = .ok g2) := by
  refine ⟨?_, ?_⟩
  · intro g2 h2
    have h := second_build_alike ndebug g g1 g2 h1 h2 (fun p hp => (hwf p hp).2.2.2.2)
    exact ⟨h, map_is_root_alike h⟩
  · intro hnd
    subst hnd
    exact second_build_returns g g1 h1 hwf

theorem second_build_keeps_passes_and_roots_witness :
    rendergraph_build false culled_link_graph = .ok culled_link_built ∧
    (∀ p ∈ culled_link_graph.passes, PassWellFormed p) ∧
    ((∀ g2, rendergraph_build false culled_link_built = .ok g2 →
        Forall₂ (fun p q => q = { p with root_passes_affinity := q.root_passes_affinity })
          culled_link_built.passes g2.passes ∧
        g2.passes.map (fun q => q.is_root) = culled_link_built.passes.map (fun p => p.is_root)) ∧
      (false = true → ∃ g2, rendergraph_build false culled_link_built = .ok g2)) ∧
    (rendergraph_build false culled_link_built).map build_outcome =
      .ok ([(1, false, 1), (3, false, 2), (4, true, 2), (5, true, 1)], [3, 1, 2]) ∧
    build_outcome culled_link_built =
      ([(1, false, 3), (3, false, 2), (4, true, 2), (5, true, 1)], [3]) :=
  ⟨by decide, by decide,
   second_build_keeps_passes_and_roots false culled_link_graph culled_link_built (by decide)
    (by decide),
   by decide, by decide⟩

namespace Earlier

/-- C37: in the earlier implementation `renderpass_has_setup_callback` tells
whether the execute callback of the pass is non-null, whatever its setup
callback is: it always agrees with `renderpass_has_execute_callback`; a fresh
pass on which only a setup callback is set reports no setup callback, and one
on which only an execute callback is set reports one. -/
theorem earlier_has_setup_callback_tests_execute_callback :
    (∀ self : le_renderpass_o,
      (renderpass_has_setup_callback self = true ↔ self.callbackExecute ≠ 0) ∧
      renderpass_has_setup_callback self = renderpass_has_execute_callback self) ∧
    (∀ (self : le_renderpass_o) (f : Nat),
      renderpass_has_setup_callback (renderpass_set_setup_fun self f) =
        renderpass_has_setup_callback self) ∧
    (∀ (const_char_hash64 : List Nat → Nat) (renderpass_name : List Nat) (type_ f : Nat),
      f ≠ 0 →
      (renderpass_set_setup_fun
        (renderpass_create const_char_hash64 renderpass_name type_) f).callbackSetup ≠ 0 ∧
      renderpass_has_setup_callback (renderpass_set_setup_fun
        (renderpass_create const_char_hash64 renderpass_name type_) f) = false) ∧
    (∀ (const_char_hash64 : List Nat → Nat) (renderpass_name : List Nat)
      (type_ callback_ user_data_ : Nat), callback_ ≠ 0 →
      (renderpass_set_execute_callback
        (renderpass_create const_char_hash64 renderpass_name type_)
        callback_ user_data_).callbackSetup = 0 ∧
      renderpass_has_setup_callback (renderpass_set_execute_callback
        (renderpass_create const_char_hash64 renderpass_name type_)
        callback_ user_data_) = true) := by
  refine ⟨?_, ?_, ?_, ?_⟩
  · intro self
    exact ⟨by simp [renderpass_has_setup_callback], rfl⟩
  · intro self f
    rfl
  · intro hash name type_ f hf
    exact ⟨hf, rfl⟩
  · intro hash name type_ cb ud hcb
    refine ⟨rfl, ?_⟩
    simp [renderpass_has_setup_callback, renderpass_set_execute_callback, hcb]

end Earlier

/-- C39: when `acquire_physical_resources` fails for a frame in the state
`eRecorded`, `renderer_acquire_backend_resources` puts the frame in the state
`eFailedAcquire` and marks the swapchain dirty, and so does `render_tasks`,
which goes on to process and dispatch.  For a frame in the state
`eFailedAcquire`, `renderer_process_frame` and `renderer_dispatch_frame`
change nothing, and `renderer_clear_frame` resets the rendergraph of the
frame and puts it in the state `eCleared`, whatever the backend answers.  No
other frame changes. -/
theorem failed_acquire_skips_frame_until_clear (self : le_renderer_o) (frameIndex : Nat)
    (frame : FrameData) (hframe : self.frames[frameIndex]? = some frame) :
    (frame.state = FrameData.State.eRecorded →
      renderer_acquire_backend_resources self frameIndex false = .ok
        { self with
          frames := self.frames.set frameIndex
            { frame with state := FrameData.State.eFailedAcquire }
          swapchainDirty := true } ∧
      ∀ dispatchSuccessful : Bool,
        render_tasks self frameIndex false dispatchSuccessful = .ok
          { self with
            frames := self.frames.set frameIndex
              { frame with state := FrameData.State.eFailedAcquire }
            swapchainDirty := true }) ∧
    (frame.state = FrameData.State.eFailedAcquire →
      renderer_process_frame self frameIndex = .ok self ∧
      (∀ dispatchSuccessful : Bool,
        renderer_dispatch_frame self frameIndex dispatchSuccessful = .ok self) ∧
      (∀ acquireSuccess : Bool,
        renderer_acquire_backend_resources self frameIndex acquireSuccess = .ok self) ∧
      ∀ clear_result : Bool,
        renderer_clear_frame self frameIndex clear_result = .ok
          { self with
            frames := self.frames.set frameIndex
              { frame with
                rendergraph := rendergraph_create
                state := FrameData.State.eCleared } }) := by
  have hv : vec_at self.frames frameIndex = .ok frame := (vec_at_ok _ _ _).mpr hframe
  have hproc : ∀ (r : le_renderer_o) (f : FrameData), r.frames[frameIndex]? = some f →
      f.state = FrameData.State.eFailedAcquire → renderer_process_frame r frameIndex = .ok r := by
    intro r f hf hs
    unfold renderer_process_frame
    simp only [(vec_at_ok _ _ _).mpr hf, bind, Except.bind, hs]
    rfl
  have hdisp : ∀ (r : le_renderer_o) (f : FrameData) (d : Bool),
      r.frames[frameIndex]? = some f → f.state = FrameData.State.eFailedAcquire →
      renderer_dispatch_frame r frameIndex d = .ok r := by
    intro r f d hf hs
    unfold renderer_dispatch_frame
    simp only [(vec_at_ok _ _ _).mpr hf, bind, Except.bind, hs]
    rfl
  refine ⟨?_, ?_⟩
  · intro hs
    have hacq : renderer_acquire_backend_resources self frameIndex false = .ok
        { self with
          frames := self.frames.set frameIndex
            { frame with state := FrameData.State.eFailedAcquire }
          swapchainDirty := true } := by
      unfold renderer_acquire_backend_resources
      simp only [hv, bind, Except.bind, hs]
      rfl
    refine ⟨hacq, ?_⟩
    intro d
    have hget : (self.frames.set frameIndex
        { frame with state := FrameData.State.eFailedAcquire })[frameIndex]? =
        some { frame with state := FrameData.State.eFailedAcquire } :=
      getElem?_set_self_of_some _ _ _ _ hframe
    unfold render_tasks
    rw [bind_ok]
    refine ⟨_, hacq, ?_⟩
    rw [bind_ok]
    exact ⟨_, hproc _ _ hget rfl, hdisp _ _ d hget rfl⟩
  · intro hs
    refine ⟨hproc self frame hframe hs, fun d => hdisp self frame d hframe hs, ?_, ?_⟩
    · intro a
      unfold renderer_acquire_backend_resources
      simp only [hv, bind, Except.bind, hs]
      rfl
    · intro c
      unfold renderer_clear_frame
      simp only [hv, bind, Except.bind, hs]
      cases c <;> rfl

theorem failed_acquire_skips_frame_until_clear_witness :
    example_renderer.frames[1]? = some
      { state := FrameData.State.eRecorded, rendergraph := pure_chain_built, frameNumber := 7 } ∧
    (render_tasks example_renderer 1 false true >>= fun r =>
      render_tasks r 1 true true >>= fun r1 => clear_task r1 1 false) = .ok
      { frames := [{ state := FrameData.State.eCleared },
          { state := FrameData.State.eCleared, rendergraph := {}, frameNumber := 7 },
          { state := FrameData.State.eDispatched }],
        swapchainDirty := true, currentFrameNumber := 8 } ∧
    ((FrameData.State.eRecorded = FrameData.State.eRecorded →
      renderer_acquire_backend_resources example_renderer 1 false = .ok
        { example_renderer with
          frames := example_renderer.frames.set 1
            { state := FrameData.State.eFailedAcquire, rendergraph := pure_chain_built,
              frameNumber := 7 }
          swapchainDirty := true } ∧
      ∀ dispatchSuccessful : Bool,
        render_tasks example_renderer 1 false dispatchSuccessful = .ok
          { example_renderer with
            frames := example_renderer.frames.set 1
              { state := FrameData.State.eFailedAcquire, rendergraph := pure_chain_built,
                frameNumber := 7 }
            swapchainDirty := true })) :=
  ⟨by decide, by decide,
   (failed_acquire_skips_frame_until_clear example_renderer 1
    { state := FrameData.State.eRecorded, rendergraph := pure_chain_built, frameNumber := 7 }
    (by decide)).1⟩

namespace Earlier

/-- C38, as the code has it: `graph_builder_build_graph` returns; the passes it
keeps are the passes whose sort key is not 0, in descending order of the sort
key; for every pass P kept with a sort key below 20
(`LE_GRAPH_BUILDER_RECURSION_DEPTH`) and every pass Q that P depends on (Q is
the most recent pass before P that writes a resource P reads), Q is kept too,
with a higher sort key, and stands before P in the resulting list; and a pass
that no chain of dependencies from a root reaches gets the sort key 0, which
removes it. -/
theorem earlier_build_orders_passes_within_recursion_depth (self : le_graph_builder_o) :
    ∃ (self1 : le_graph_builder_o) (sort_keys : List Nat),
      graph_builder_build_graph self = .ok self1 ∧
      sort_keys.length = self.passes.length ∧
      List.Perm self1.passes
        ((List.zipWith (fun (p : le_renderpass_o) (v : Nat) => { p with sort_key := v })
          self.passes sort_keys).filter (fun lhs => lhs.sort_key != 0)) ∧
      List.Pairwise (fun a b => b.sort_key ≤ a.sort_key) self1.passes ∧
      (∀ (P Q : Nat) (pP pQ : le_renderpass_o) (d : Nat),
        self.passes[P]? = some pP → self.passes[Q]? = some pQ → DependsOn self.passes P Q →
        sort_keys[P]? = some d → 0 < d → d < LE_GRAPH_BUILDER_RECURSION_DEPTH →
        ∃ e : Nat, sort_keys[Q]? = some e ∧ d < e ∧
          { pP with sort_key := d } ∈ self1.passes ∧
          { pQ with sort_key := e } ∈ self1.passes ∧
          ∀ (i j : Nat), self1.passes[i]? = some { pQ with sort_key := e } →
            self1.passes[j]? = some { pP with sort_key := d } → i < j) ∧
      (∀ x : Nat, x < self.passes.length →
        (¬ ∃ (r : Nat) (pr : le_renderpass_o) (k : Nat), self.passes[r]? = some pr ∧
          pr.isRoot ≠ 0 ∧ DependsPath self.passes k r x) →
        sort_keys[x]? = some 0) := by
  obtain ⟨so, hfold, hl, hreach, hzero⟩ := build_sort_orders self.passes
  have hsorted := std_stable_sort_sorted
    ((List.zipWith (fun (p : le_renderpass_o) (v : Nat) => { p with sort_key := v })
      self.passes so).filter (fun lhs => lhs.sort_key != 0))
  have hperm := std_stable_sort_perm
    ((List.zipWith (fun (p : le_renderpass_o) (v : Nat) => { p with sort_key := v })
      self.passes so).filter (fun lhs => lhs.sort_key != 0))
  have hmem : ∀ (i : Nat) (p : le_renderpass_o) (v : Nat), self.passes[i]? = some p →
      so[i]? = some v → 0 < v →
      { p with sort_key := v } ∈ std_stable_sort
        ((List.zipWith (fun (p : le_renderpass_o) (v : Nat) => { p with sort_key := v })
          self.passes so).filter (fun lhs => lhs.sort_key != 0)) := by
    intro i p v hp hv hpos
    rw [hperm.mem_iff, List.mem_filter]
    refine ⟨List.mem_iff_getElem?.mpr ⟨i, zipWith_sort_key_getElem? _ _ i p v hp hv⟩, ?_⟩
    simp only [bne_iff_ne, ne_eq]
    omega
  refine ⟨{ self with
      passes := std_stable_sort
        ((List.zipWith (fun (p : le_renderpass_o) (v : Nat) => { p with sort_key := v })
          self.passes so).filter (fun lhs => lhs.sort_key != 0)) },
    so, ?_, hl, hperm, hsorted, ?_, ?_⟩
  · unfold graph_builder_build_graph
    simp only []
    rw [bind_ok]
    refine ⟨so, hfold, ?_⟩
    rw [bind_ok]
    refine ⟨_, store_sort_keys_eq so self.passes 0 (by omega), ?_⟩
    rw [List.drop_zero]
    rfl
  · intro P Q pP pQ d hP hQ hdep hd hpos hlt
    unfold LE_GRAPH_BUILDER_RECURSION_DEPTH at hlt
    rcases hzero P d hd with h0 | ⟨r, pr, k, hr, hroot, hpath, hk, hv⟩
    · omega
    · obtain ⟨e, he, hle⟩ := hreach r pr (k + 1) Q hr hroot
        (dependsPath_snoc self.passes k r P Q hpath hdep) (by omega)
      refine ⟨e, he, by omega, hmem P pP d hP hd hpos, hmem Q pQ e hQ he (by omega), ?_⟩
      intro i j hi hj
      exact sorted_position_lt _ hsorted i j _ _ hi hj (by show d < e; omega)
  · intro x hx hno
    have hxs : x < so.length := by omega
    rcases hzero x _ (List.getElem?_eq_getElem hxs) with h0 | ⟨r, pr, k, hr, hroot, hpath, _, _⟩
    · rw [List.getElem?_eq_getElem hxs, h0]
    · exact absurd ⟨r, pr, k, hr, hroot, hpath⟩ hno

/-- C38 fails on a chain of 21 passes, each reading what the pass before it
writes, the last one the root: the pass at index 1 is kept, with the sort key
20, the pass at index 0 that it depends on is removed. -/
theorem earlier_build_drops_producer_past_recursion_depth :
    DependsOn (chain_passes 21) 1 0 ∧
    (graph_builder_build_graph { passes := chain_passes 21 }).map
        (fun s => s.passes.map (fun p => (p.id, p.sort_key))) =
      .ok [(1, 20), (2, 19), (3, 18), (4, 17), (5, 16), (6, 15), (7, 14), (8, 13), (9, 12),
        (10, 11), (11, 10), (12, 9), (13, 8), (14, 7), (15, 6), (16, 5), (17, 4), (18, 3),
        (19, 2), (20, 1)] := by
  refine ⟨⟨(chain_passes 21).get ⟨1, by decide⟩, 0, by decide, by decide, by decide,
    ⟨(chain_passes 21).get ⟨0, by decide⟩, by decide, by decide⟩, ?_⟩, ?_⟩
  · intro j pj h1 h2 _
    omega
  · set_option maxRecDepth 100000 in decide

end Earlier

end Island
